import Mathlib

/-!
# Fortune's sweepline (voronoi.js): embedding and verification

The JavaScript source is embedded as Lean functions over the numbers `N` of an arithmetic
`Arith N`. Two arithmetics are used.

* JavaScript numbers, `Num K`: the finite numbers of a linearly ordered field `K` (exact,
  no rounding) together with `-0`, `Infinity`, `-Infinity` and `NaN`, with the IEEE rules
  for them. No operation stops a run: `1 / 0` is `Infinity`, `0 / 0` is `NaN`, every
  comparison with `NaN` is false.
* Exact arithmetic in a linearly ordered field `K` (`ℚ` for evaluation, `ℝ` for the
  geometric reading), for the statements of geometry. It has no value for a division by
  zero or for the square root of a negative number: there the run stops with a fault that
  names the function.

What is proved for every arithmetic holds in particular for JavaScript numbers.

* JavaScript objects that are mutated through references (`Parabola`, `Edge`, `Polygon`)
  live in stores (lists); a reference is an index and `none` is `null`/`undefined`.
* A property access on `null`/`undefined` raises `Fault.typeError`.
* `Math.sqrt` is a parameter `sqrt : N → N`.
* Loops over the tree carry a fuel bounded by the number of allocated nodes; on a
  well-formed beachline tree it is never exhausted (`Fuelled`).
-/

namespace Voronoi

/-- The source functions that divide. -/
inductive Fn where
  | getXOfEdge
  | getY
  | Edge
  | computeCircleEvents
  deriving DecidableEq, Repr

/-- Abnormal outcomes of a run: a `TypeError`; in exact arithmetic, an operation without a
value; a loop of the embedding out of fuel. -/
inductive Fault where
  | typeError
  | zeroDenominator (fn : Fn)
  | negativeRadicand (fn : Fn)
  | outOfFuel
  deriving DecidableEq, Repr

/-- A two-element array `[x, y]`: `p[0]` is `p.1`, `p[1]` is `p.2`. -/
abbrev Pt (K : Type) := K × K

/-- An input point as an object: `id` is its index in `points` (its identity for `===`
and the index of its `cell`), `pt` its coordinates. -/
structure Site (K : Type) where
  id : Nat
  pt : Pt K
  deriving DecidableEq, Repr

/-- Edge object (lines 456-469). `endp` is the field `end`; `neighbour` refers to the
edge store. -/
structure Edge (K : Type) where
  left : Site K
  right : Site K
  start : Option (Pt K)
  endp : Option (Pt K)
  f : K
  g : K
  direction : Pt K
  B : Pt K
  neighbour : Option Nat
  deriving DecidableEq, Repr

/-- A vertex array created by `removeParabola`; `id` is its identity for `==`. -/
structure Vertex (K : Type) where
  id : Nat
  pt : Pt K
  deriving DecidableEq, Repr

/-- Polygon object (lines 398-403). -/
structure Polygon (K : Type) where
  size : Nat
  vertices : List (Vertex K)
  first : Option (Vertex K)
  last : Option (Vertex K)
  deriving DecidableEq, Repr

/-- Parabola object (lines 427-434); `left`/`right` are `_left`/`_right`, `edge` refers to
the edge store, `circleEventHeapNode` is a heap handle. -/
structure Parabola (K : Type) where
  circleEventHeapNode : Option Nat
  parent : Option Nat
  left : Option Nat
  right : Option Nat
  site : Option (Site K)
  isLeaf : Bool
  edge : Option Nat
  deriving DecidableEq, Repr

/-- A value stored in the queue: an input point (site event) or a `CircleEvent`
(lines 450-453). -/
inductive Event (K : Type) where
  | site (p : Site K)
  | circle (point : Pt K) (arch : Nat)
  deriving DecidableEq, Repr

/-- A queue entry; `id` is the handle returned by `insert`. -/
structure HeapNode (K : Type) where
  key : K
  id : Nat
  value : Event K
  deriving DecidableEq, Repr

/-- Modelled from the spec: the `FibonacciHeap` class is not part of the source file. The
queue is the list of its entries in insertion order together with the number of
insertions made so far (the next fresh handle). -/
structure FibonacciHeap (K : Type) where
  nodes : List (HeapNode K)
  count : Nat
  deriving DecidableEq, Repr

/-- The `options` record of `compute` (lines 15-22) together with the objects it reaches:
`parabolas` and `edgeObjs` are the stores of `Parabola` and `Edge` objects, `cells[i]` is
`points[i].cell`, `vertexCount` counts the vertex arrays allocated so far. `edges` lists
references into `edgeObjs`. -/
structure Options (K : Type) where
  edges : List Nat
  firstPoint : Option (Site K)
  heap : FibonacciHeap K
  height : K
  root : Option Nat
  sweeplineY : K
  parabolas : List (Parabola K)
  edgeObjs : List (Edge K)
  cells : List (Polygon K)
  vertexCount : Nat
  deriving DecidableEq, Repr

/-- The value returned by `compute`: `[]` (line 12) or `{edges, cells}` (lines 48-51). -/
inductive Output (K : Type) where
  | emptyList
  | diagram (edges : List (Edge K)) (cells : List (Polygon K))
  deriving DecidableEq, Repr

/-! ## Numbers -/

/-- The numbers of a run and their arithmetic: the operators `+ - * /`, unary `-`, the
comparisons `<`, `<=` (`a > b` is `b < a`, `a >= b` is `b <= a`), `==` (`eq`), `Math.max`,
`Math.min` and the literals. `divisor b` tells whether a division by `b` has a value in
this arithmetic, `radicand a` whether `Math.sqrt(a)` has one; a run stops where it has
none. -/
class Arith (N : Type) extends Zero N, One N, NatCast N, OfScientific N, Add N, Sub N, Mul N,
    Div N, Neg N, LT N, LE N, Max N, Min N where
  decEq : DecidableEq N
  decLt : @DecidableRel N (· < ·)
  decLe : @DecidableRel N (· ≤ ·)
  eq : N → N → Bool
  divisor : N → Bool
  radicand : N → Bool

attribute [instance (10)] Arith.toZero Arith.toOne Arith.toNatCast Arith.toOfScientific
  Arith.toAdd Arith.toSub Arith.toMul Arith.toDiv Arith.toNeg Arith.toLT Arith.toLE Arith.toMax
  Arith.toMin Arith.decEq Arith.decLt Arith.decLe

/-- Exact arithmetic in a linearly ordered field: a division by zero and the square root
of a negative number have no value. -/
instance (priority := low) exactArith {K : Type} [LinearOrderedField K] : Arith K where
  decEq := inferInstance
  decLt := inferInstance
  decLe := inferInstance
  eq := fun a b => decide (a = b)
  divisor := fun b => decide (b ≠ 0)
  radicand := fun a => decide (¬ a < 0)

/-- A JavaScript number whose finite values are taken in `K`: `fin x` is the finite number
`x` (`fin 0` is `+0`), `negZero` is `-0`, `posInf` and `negInf` are `Infinity` and
`-Infinity`, `nan` is `NaN`. -/
inductive Num (K : Type) where
  | fin (x : K)
  | negZero
  | posInf
  | negInf
  | nan
  deriving DecidableEq, Repr

section JsNumbers

variable {K : Type} [LinearOrderedField K]

/-- The sign bit. -/
def Num.sign : Num K → Bool
  | .fin x => decide (x < 0)
  | .negZero => true
  | .posInf => false
  | .negInf => true
  | .nan => false

/-- The value of a finite number (`0` for the others). -/
def Num.val : Num K → K
  | .fin x => x
  | _ => 0

/-- Whether the number is `Infinity` or `-Infinity`. -/
def Num.isInf : Num K → Bool
  | .posInf => true
  | .negInf => true
  | _ => false

/-- Whether the number is `NaN`. -/
def Num.isNaN : Num K → Bool
  | .nan => true
  | _ => false

/-- Whether the number is `+0` or `-0`. -/
def Num.isZero : Num K → Bool
  | .fin x => decide (x = 0)
  | .negZero => true
  | _ => false

/-- The zero of sign bit `s`. -/
def Num.zeroOf (s : Bool) : Num K := if s then .negZero else .fin 0

/-- The infinity of sign bit `s`. -/
def Num.infOf (s : Bool) : Num K := if s then .negInf else .posInf

/-- The finite number `v` when `v ≠ 0`, the zero of sign bit `s` otherwise. -/
def Num.finOf (s : Bool) (v : K) : Num K := if v = 0 then Num.zeroOf s else .fin v

/-- Unary minus: the sign bit is flipped. -/
def Num.neg : Num K → Num K
  | .fin x => if x = 0 then .negZero else .fin (-x)
  | .negZero => .fin 0
  | .posInf => .negInf
  | .negInf => .posInf
  | .nan => .nan

/-- Addition: `Infinity + -Infinity` is `NaN`; a zero sum is `+0` unless both terms are
`-0`. -/
def Num.add : Num K → Num K → Num K
  | .nan, _ => .nan
  | _, .nan => .nan
  | .posInf, .negInf => .nan
  | .negInf, .posInf => .nan
  | .posInf, _ => .posInf
  | _, .posInf => .posInf
  | .negInf, _ => .negInf
  | _, .negInf => .negInf
  | .negZero, .negZero => .negZero
  | .negZero, .fin y => .fin y
  | .fin x, .negZero => .fin x
  | .fin x, .fin y => .fin (x + y)

/-- Subtraction: `a - b` is `a + (-b)`. -/
def Num.sub (a b : Num K) : Num K := Num.add a (Num.neg b)

/-- Multiplication: the sign bit is the exclusive or of the sign bits; `Infinity * 0` is
`NaN`. -/
def Num.mul (a b : Num K) : Num K :=
  if a.isNaN || b.isNaN then .nan
  else if (a.isInf && b.isZero) || (a.isZero && b.isInf) then .nan
  else if a.isInf || b.isInf then Num.infOf (xor a.sign b.sign)
  else Num.finOf (xor a.sign b.sign) (a.val * b.val)

/-- Division: `0 / 0` and `Infinity / Infinity` are `NaN`; a non-zero number over a zero is
an infinity; a finite number over an infinity is a zero. -/
def Num.div (a b : Num K) : Num K :=
  if a.isNaN || b.isNaN then .nan
  else if (a.isInf && b.isInf) || (a.isZero && b.isZero) then .nan
  else if a.isInf || b.isZero then Num.infOf (xor a.sign b.sign)
  else if b.isInf then Num.zeroOf (xor a.sign b.sign)
  else Num.finOf (xor a.sign b.sign) (a.val / b.val)

/-- The comparison `a < b`: false when an operand is `NaN`; the two zeros are equal. -/
def Num.lt : Num K → Num K → Bool
  | .nan, _ => false
  | _, .nan => false
  | _, .negInf => false
  | .negInf, _ => true
  | .posInf, _ => false
  | _, .posInf => true
  | a, b => decide (a.val < b.val)

/-- The comparison `a == b`: false when an operand is `NaN`; the two zeros are equal. -/
def Num.eq : Num K → Num K → Bool
  | .nan, _ => false
  | _, .nan => false
  | .posInf, .posInf => true
  | .negInf, .negInf => true
  | .posInf, _ => false
  | _, .posInf => false
  | .negInf, _ => false
  | _, .negInf => false
  | a, b => decide (a.val = b.val)

/-- The comparison `a <= b`. -/
def Num.le (a b : Num K) : Bool := Num.lt a b || Num.eq a b

/-- `Math.max(a, b)`: `NaN` when an operand is `NaN`; `+0` is larger than `-0`. -/
def Num.max (a b : Num K) : Num K :=
  if a.isNaN || b.isNaN then .nan
  else if Num.lt a b then b
  else if Num.lt b a then a
  else if a.sign then b else a

/-- `Math.min(a, b)`: `NaN` when an operand is `NaN`; `-0` is smaller than `+0`. -/
def Num.min (a b : Num K) : Num K :=
  if a.isNaN || b.isNaN then .nan
  else if Num.lt a b then a
  else if Num.lt b a then b
  else if a.sign then a else b

/-- `Math.sqrt(a)` from a square root `sqrt` of the finite numbers: `NaN` on the negative
numbers, `-0` on `-0`. -/
def Num.sqrt (sqrt : K → K) : Num K → Num K
  | .fin x => if x < 0 then .nan else .fin (sqrt x)
  | .negZero => .negZero
  | .posInf => .posInf
  | .negInf => .nan
  | .nan => .nan

/-- JavaScript arithmetic: every division and every square root has a value. -/
instance jsArith : Arith (Num K) where
  zero := .fin 0
  one := .fin 1
  natCast := fun n => .fin n
  ofScientific := fun m s e => .fin (OfScientific.ofScientific m s e)
  add := Num.add
  sub := Num.sub
  mul := Num.mul
  div := Num.div
  neg := Num.neg
  lt := fun a b => Num.lt a b = true
  le := fun a b => Num.le a b = true
  max := Num.max
  min := Num.min
  decEq := inferInstance
  decLt := fun a b => inferInstanceAs (Decidable (Num.lt a b = true))
  decLe := fun a b => inferInstanceAs (Decidable (Num.le a b = true))
  eq := Num.eq
  divisor := fun _ => true
  radicand := fun _ => true

end JsNumbers

section Kernel

variable {K : Type} [Arith K]

/-- Division `a / b` inside function `fn`. -/
def divide (fn : Fn) (a b : K) : Except Fault K :=
  if Arith.divisor b then .ok (a / b) else .error (.zeroDenominator fn)

/-- `Math.sqrt(a)` inside function `fn`. -/
def squareRoot (sqrt : K → K) (fn : Fn) (a : K) : Except Fault K :=
  if Arith.radicand a then .ok (sqrt a) else .error (.negativeRadicand fn)

/-- Dereference: `none` is `null`. -/
def deref {α : Type} (r : Option α) : Except Fault α :=
  match r with
  | some a => .ok a
  | none => .error .typeError

/-- The object behind a reference into a store. -/
def load {α : Type} (store : List α) (r : Option Nat) : Except Fault α := do
  let i ← deref r
  deref store[i]?

/-- Field update of the object `i` of a store. -/
def store {α : Type} (objs : List α) (i : Nat) (f : α → α) : Except Fault (List α) := do
  let a ← deref objs[i]?
  pure (objs.set i (f a))

/-- Edge constructor (lines 456-469). -/
def Edge.new (s : Pt K) (a b : Site K) : Except Fault (Edge K) := do
  let f ← divide .Edge (b.pt.1 - a.pt.1) (a.pt.2 - b.pt.2)
  let g := s.2 - f * s.1
  let direction : Pt K := (b.pt.2 - a.pt.2, -(b.pt.1 - a.pt.1))
  pure { left := a, right := b, start := some s, endp := none, f := f, g := g,
         direction := direction, B := (s.1 + direction.1, s.2 + direction.2),
         neighbour := none }

/-- Function getY (lines 259-264). -/
def getY (p : Pt K) (x sweeplineY : K) : Except Fault K := do
  let dp := 2 * (p.2 - sweeplineY)
  let b1 ← divide .getY (-2 * p.1) dp
  let t ← divide .getY (p.1 * p.1) dp
  let c1 := sweeplineY + dp / 4 + t
  let u ← divide .getY (x * x) dp
  pure (u + b1 * x + c1)

/-- Function getLineIntersection (lines 379-396); `none` is `null`. -/
def getLineIntersection (a1 a2 b1 b2 : Pt K) : Option (Pt K) :=
  let dax := a1.1 - a2.1
  let dbx := b1.1 - b2.1
  let day := a1.2 - a2.2
  let dby := b1.2 - b2.2
  let det := dax * dby - day * dbx
  if Arith.eq det 0 then none
  else
    let a := a1.1 * a2.2 - a1.2 * a2.1
    let b := b1.1 * b2.2 - b1.2 * b2.1
    some ((a * dbx - dax * b) / det, (a * dby - day * b) / det)

/-- The arithmetic of getXOfEdge (lines 207-228) on the sites `p` (left) and `r` (right). -/
def getXOfEdgeSites (sqrt : K → K) (p r : Pt K) (y : K) : Except Fault K := do
  let dp := 2 * (p.2 - y)
  let a1 ← divide .getXOfEdge 1 dp
  let b1 ← divide .getXOfEdge (-2 * p.1) dp
  let t1 ← divide .getXOfEdge (p.1 * p.1) dp
  let c1 := y + dp * 0.25 + t1
  let dp := 2 * (r.2 - y)
  let a2 ← divide .getXOfEdge 1 dp
  let b2 ← divide .getXOfEdge (-2 * r.1) dp
  let t2 ← divide .getXOfEdge (r.1 * r.1) dp
  let c2 := y + dp * 0.25 + t2
  let a := a1 - a2
  let b := b1 - b2
  let c := c1 - c2
  let disc := b * b - 4 * a * c
  let sd ← squareRoot sqrt .getXOfEdge disc
  let x1 ← divide .getXOfEdge (-b + sd) (2 * a)
  let x2 ← divide .getXOfEdge (-b - sd) (2 * a)
  if p.2 < r.2 then pure (max x1 x2) else pure (min x1 x2)

end Kernel

section Beachline

variable {K : Type}

/-- Constructor `new Parabola(s)` (lines 427-434): `isLeaf` is `site != null`. -/
def Parabola.new (s : Option (Site K)) : Parabola K :=
  { circleEventHeapNode := none, parent := none, left := none, right := none,
    site := s, isLeaf := s.isSome, edge := none }

/-- Setter `this.left = p` (lines 439-442): `_left` is set, then `p.parent`. -/
def setLeft (nodes : List (Parabola K)) (this : Nat) (p : Option Nat) :
    Except Fault (List (Parabola K)) := do
  let nodes ← store nodes this (fun n => { n with left := p })
  let c ← deref p
  store nodes c (fun n => { n with parent := some this })

/-- Setter `this.right = p` (lines 443-446). -/
def setRight (nodes : List (Parabola K)) (this : Nat) (p : Option Nat) :
    Except Fault (List (Parabola K)) := do
  let nodes ← store nodes this (fun n => { n with right := p })
  let c ← deref p
  store nodes c (fun n => { n with parent := some this })

/-- The loop of getLeftParent (lines 317-323). -/
def getLeftParentLoop (nodes : List (Parabola K)) :
    Nat → Option Nat → Nat → Except Fault (Option Nat)
  | 0, _, _ => .error .outOfFuel
  | fuel + 1, par, pLast => do
    let i ← deref par
    let n ← load nodes par
    if n.left = some pLast then
      match n.parent with
      | none => pure none
      | some g => getLeftParentLoop nodes fuel (some g) i
    else pure par

/-- Function getLeftParent (lines 314-324). -/
def getLeftParent (nodes : List (Parabola K)) (n : Nat) : Except Fault (Option Nat) := do
  let node ← load nodes (some n)
  getLeftParentLoop nodes (nodes.length + 1) node.parent n

/-- The loop of getRightParent (lines 334-340). -/
def getRightParentLoop (nodes : List (Parabola K)) :
    Nat → Option Nat → Nat → Except Fault (Option Nat)
  | 0, _, _ => .error .outOfFuel
  | fuel + 1, par, pLast => do
    let i ← deref par
    let n ← load nodes par
    if n.right = some pLast then
      match n.parent with
      | none => pure none
      | some g => getRightParentLoop nodes fuel (some g) i
    else pure par

/-- Function getRightParent (lines 331-341). -/
def getRightParent (nodes : List (Parabola K)) (n : Nat) : Except Fault (Option Nat) := do
  let node ← load nodes (some n)
  getRightParentLoop nodes (nodes.length + 1) node.parent n

/-- The loop `while (!par.isLeaf) par = par.right` (lines 352-354). -/
def descendRight (nodes : List (Parabola K)) : Nat → Option Nat → Except Fault Nat
  | 0, _ => .error .outOfFuel
  | fuel + 1, par => do
    let i ← deref par
    let n ← load nodes par
    if n.isLeaf then pure i else descendRight nodes fuel n.right

/-- The loop `while (!par.isLeaf) par = par.left` (lines 366-368). -/
def descendLeft (nodes : List (Parabola K)) : Nat → Option Nat → Except Fault Nat
  | 0, _ => .error .outOfFuel
  | fuel + 1, par => do
    let i ← deref par
    let n ← load nodes par
    if n.isLeaf then pure i else descendLeft nodes fuel n.left

/-- Function getLeftChild (lines 348-355). -/
def getLeftChild (nodes : List (Parabola K)) (n : Option Nat) : Except Fault (Option Nat) :=
  match n with
  | none => pure none
  | some _ => do
    let node ← load nodes n
    let leaf ← descendRight nodes (nodes.length + 1) node.left
    pure (some leaf)

/-- Function getRightChild (lines 362-369). -/
def getRightChild (nodes : List (Parabola K)) (n : Option Nat) : Except Fault (Option Nat) :=
  match n with
  | none => pure none
  | some _ => do
    let node ← load nodes n
    let leaf ← descendLeft nodes (nodes.length + 1) node.right
    pure (some leaf)

end Beachline

section Queue

variable {K : Type} [Arith K]

/-- Modelled from the spec: `new FibonacciHeap()`. -/
def FibonacciHeap.new : FibonacciHeap K := { nodes := [], count := 0 }

/-- Modelled from the spec: `insert(priority, value)` returns the new heap and the handle. -/
def FibonacciHeap.insert (h : FibonacciHeap K) (key : K) (value : Event K) :
    FibonacciHeap K × Nat :=
  ({ nodes := h.nodes ++ [{ key := key, id := h.count, value := value }],
     count := h.count + 1 }, h.count)

/-- Modelled from the spec: `isEmpty()`. -/
def FibonacciHeap.isEmpty (h : FibonacciHeap K) : Bool := h.nodes.isEmpty

/-- Modelled from the spec: `delete(handle)` removes the entry with that handle. -/
def FibonacciHeap.delete (h : FibonacciHeap K) (handle : Nat) : FibonacciHeap K :=
  { h with nodes := h.nodes.filter (fun n => n.id ≠ handle) }

/-- The lowest priority among the entries. -/
def minKey : List (HeapNode K) → Option K
  | [] => none
  | n :: rest =>
    match minKey rest with
    | none => some n.key
    | some m => some (min n.key m)

/-- Modelled from the spec: `extractMinimum()` removes and returns an entry of lowest
priority. The spec fixes no order among equal priorities: `tie` chooses among them. Among
JavaScript numbers a key `NaN` counts as the lowest; what is proved of the states of the
loop (`Reachable`) holds whichever entry the queue returns. -/
def FibonacciHeap.extractMinimum (tie : List (HeapNode K) → Nat) (h : FibonacciHeap K) :
    Option (HeapNode K × FibonacciHeap K) :=
  match minKey h.nodes with
  | none => none
  | some m =>
    let lowest := h.nodes.filter (fun n => n.key = m)
    match lowest[tie h.nodes % lowest.length]? with
    | none => none
    | some n => some (n, h.delete n.id)

end Queue

section Events

variable {K : Type} [Arith K]

/-- Allocation of a new object in a store: the new store and the reference. -/
def alloc {α : Type} (objs : List α) (a : α) : List α × Nat := (objs ++ [a], objs.length)

/-- Function addRight of Polygon (lines 406-412). -/
def Polygon.addRight (c : Polygon K) (p : Vertex K) : Polygon K :=
  let size := c.size + 1
  { size := size, vertices := c.vertices ++ [p], last := some p,
    first := if size = 1 then some p else c.first }

/-- Function addLeft of Polygon (lines 414-424). -/
def Polygon.addLeft (c : Polygon K) (p : Vertex K) : Polygon K :=
  let size := c.size + 1
  { size := size, vertices := [p] ++ c.vertices, first := some p,
    last := if size = 1 then some p else c.last }

/-- Constructor `new Polygon()` (lines 398-403). -/
def Polygon.new : Polygon K := { size := 0, vertices := [], first := none, last := none }

/-- The body of getXOfEdge (lines 200-229): the flanking arcs of the node `par`, then the
arithmetic on their sites. -/
def getXOfEdge (sqrt : K → K) (nodes : List (Parabola K)) (par : Option Nat) (y : K) :
    Except Fault K := do
  let left ← getLeftChild nodes par
  let right ← getRightChild nodes par
  let l ← load nodes left
  let r ← load nodes right
  let p ← deref l.site
  let r ← deref r.site
  getXOfEdgeSites sqrt p.pt r.pt y

/-- Function getParabolaByX (lines 238-250). -/
def getParabolaByX (sqrt : K → K) (nodes : List (Parabola K)) (xx : K) (sweeplineY : K) :
    Nat → Option Nat → Except Fault Nat
  | 0, _ => .error .outOfFuel
  | fuel + 1, par => do
    let i ← deref par
    let n ← load nodes par
    if n.isLeaf then pure i
    else do
      let x ← getXOfEdge sqrt nodes par sweeplineY
      if x > xx then getParabolaByX sqrt nodes xx sweeplineY fuel n.left
      else getParabolaByX sqrt nodes xx sweeplineY fuel n.right

/-- Function getEdgeIntersection (lines 297-307). The result of getLineIntersection is
indexed without a test for `null` (line 301). -/
def getEdgeIntersection (a b : Edge K) : Except Fault (Option (Pt K)) := do
  let sa ← deref a.start
  let sb ← deref b.start
  let i ← deref (getLineIntersection sa a.B sb b.B)
  let wd : Bool := (i.1 - sa.1) * a.direction.1 < 0 || (i.2 - sa.2) * a.direction.2 < 0
    || (i.1 - sb.1) * b.direction.1 < 0 || (i.2 - sb.2) * b.direction.2 < 0
  if wd then pure none else pure (some i)

/-- Function computeCircleEvents (lines 272-295): the parabola store and the queue after
the call. -/
def computeCircleEvents (sqrt : K → K) (nodes : List (Parabola K)) (edgeObjs : List (Edge K))
    (b : Nat) (sweeplineY : K) (heap : FibonacciHeap K) :
    Except Fault (List (Parabola K) × FibonacciHeap K) := do
  let leftParabola ← getLeftParent nodes b
  let rightParabola ← getRightParent nodes b
  let a ← getLeftChild nodes leftParabola
  let c ← getRightChild nodes rightParabola
  match a, c with
  | some a, some c =>
    let an ← load nodes (some a)
    let cn ← load nodes (some c)
    if an.site.map (·.id) = cn.site.map (·.id) then pure (nodes, heap)
    else do
      let ln ← load nodes leftParabola
      let rn ← load nodes rightParabola
      let le ← load edgeObjs ln.edge
      let re ← load edgeObjs rn.edge
      let s ← getEdgeIntersection le re
      match s with
      | none => pure (nodes, heap)
      | some s =>
        let asite ← deref an.site
        let sax := s.1 - asite.pt.1
        let say := s.2 - asite.pt.2
        let d ← squareRoot sqrt .computeCircleEvents (sax * sax + say * say)
        if s.2 - d ≥ sweeplineY then pure (nodes, heap)
        else do
          let e : Event K := .circle (s.1, s.2 - d) b
          let (heap, handle) := heap.insert (-s.2 + d) e
          let nodes ← store nodes b (fun n => { n with circleEventHeapNode := some handle })
          pure (nodes, heap)
  | _, _ => pure (nodes, heap)

/-- The statement `if (q.circleEventHeapNode) { heap.delete(...); q.circleEventHeapNode =
null; }` (lines 81-84, 126-133). -/
def dropCircleEvent (nodes : List (Parabola K)) (heap : FibonacciHeap K) (q : Nat) :
    Except Fault (List (Parabola K) × FibonacciHeap K) := do
  let n ← load nodes (some q)
  match n.circleEventHeapNode with
  | none => pure (nodes, heap)
  | some h => do
    let nodes ← store nodes q (fun n => { n with circleEventHeapNode := none })
    pure (nodes, heap.delete h)

/-- The test of line 63, `options.root.isLeaf && options.root.site[1] - p[1] < 0.01`. -/
def degenerateTest (rootN : Parabola K) (p : Site K) : Except Fault Bool :=
  if rootN.isLeaf then do
    let rs ← deref rootN.site
    pure (decide (rs.pt.2 - p.pt.2 < 0.01))
  else pure false

/-- Lines 57-58 of insertParabola: the first site becomes the root arc. -/
def insertFirst (p : Site K) (o : Options K) : Options K :=
  let (nodes, root) := alloc o.parabolas (Parabola.new (some p))
  { o with parabolas := nodes, root := some root, firstPoint := some p }

/-- Lines 64-72 of insertParabola: the degenerate case of the first two points. -/
def insertDegenerate (p : Site K) (root : Nat) (o : Options K) : Except Fault (Options K) := do
  let nodes ← store o.parabolas root (fun n => { n with isLeaf := false })
  let (nodes, l) := alloc nodes (Parabola.new o.firstPoint)
  let nodes ← setLeft nodes root (some l)
  let (nodes, r) := alloc nodes (Parabola.new (some p))
  let nodes ← setRight nodes root (some r)
  let first ← deref o.firstPoint
  let s : Pt K := ((p.pt.1 + first.pt.1) / 2, o.height)
  let e ← (if p.pt.1 > first.pt.1 then Edge.new s first p else Edge.new s p first)
  let (edgeObjs, eid) := alloc o.edgeObjs e
  let nodes ← store nodes root (fun n => { n with edge := some eid })
  pure { o with parabolas := nodes, edgeObjs := edgeObjs, edges := o.edges ++ [eid] }

/-- Lines 95-108 of insertParabola: the arc `par` becomes a breakpoint owning `er` whose
left child is a new breakpoint owning `el` over the arcs `p0`, `p1`, and whose right child
is the arc `p2`. Returns the store and the references `p0`, `p2`. -/
def splitArc (nodes : List (Parabola K)) (par : Nat) (parSite p : Site K) (el er : Nat) :
    Except Fault (List (Parabola K) × Nat × Nat) := do
  let nodes ← store nodes par (fun n => { n with edge := some er, isLeaf := false })
  let (nodes, p0) := alloc nodes (Parabola.new (some parSite))
  let (nodes, p1) := alloc nodes (Parabola.new (some p))
  let (nodes, p2) := alloc nodes (Parabola.new (some parSite))
  let nodes ← setRight nodes par (some p2)
  let (nodes, q) := alloc nodes (Parabola.new none)
  let nodes ← setLeft nodes par (some q)
  let nodes ← store nodes q (fun n => { n with edge := some el })
  let nodes ← setLeft nodes q (some p0)
  let nodes ← setRight nodes q (some p1)
  pure (nodes, p0, p2)

/-- Lines 76-112 of insertParabola: the general case. -/
def insertGeneral (sqrt : K → K) (p : Site K) (o : Options K) : Except Fault (Options K) := do
  let par ← getParabolaByX sqrt o.parabolas p.pt.1 o.sweeplineY
    (o.parabolas.length + 1) o.root
  let (nodes, heap) ← dropCircleEvent o.parabolas o.heap par
  let parN ← load nodes (some par)
  let parSite ← deref parN.site
  let y ← getY parSite.pt p.pt.1 o.sweeplineY
  let start : Pt K := (p.pt.1, y)
  let el ← Edge.new start parSite p
  let er ← Edge.new start p parSite
  let (edgeObjs, elId) := alloc o.edgeObjs el
  let (edgeObjs, erId) := alloc edgeObjs er
  let edgeObjs ← store edgeObjs elId (fun e => { e with neighbour := some erId })
  let edges := o.edges ++ [elId]
  let (nodes, p0, p2) ← splitArc nodes par parSite p elId erId
  let (nodes, heap) ← computeCircleEvents sqrt nodes edgeObjs p0 o.sweeplineY heap
  let (nodes, heap) ← computeCircleEvents sqrt nodes edgeObjs p2 o.sweeplineY heap
  pure { o with parabolas := nodes, heap := heap, edgeObjs := edgeObjs, edges := edges }

/-- Function insertParabola (lines 55-113). -/
def insertParabola (sqrt : K → K) (p : Site K) (o : Options K) : Except Fault (Options K) :=
  match o.root with
  | none => pure (insertFirst p o)
  | some root => do
    let rootN ← load o.parabolas (some root)
    let degenerate ← degenerateTest rootN p
    if degenerate then insertDegenerate p root o
    else insertGeneral sqrt p o

/-- The loop of lines 150-156: `par` climbs to the root and `higher` records the last of
`xl`, `xr` met. -/
def higherLoop (nodes : List (Parabola K)) (root xl xr : Option Nat) :
    Nat → Option Nat → Option Nat → Except Fault (Option Nat)
  | 0, _, _ => .error .outOfFuel
  | fuel + 1, par, higher =>
    if par = root then pure higher
    else do
      let n ← load nodes par
      let par := n.parent
      let higher := if par = xl then xl else higher
      let higher := if par = xr then xr else higher
      higherLoop nodes root xl xr fuel par higher

/-- Lines 137-143 of removeParabola: the vertex `p` enters the cells of the three sites. -/
def recordVertex (cells : List (Polygon K)) (p0Site p1Site p2Site : Site K) (p : Vertex K) :
    Except Fault (List (Polygon K)) := do
  let p0Cell ← load cells (some p0Site.id)
  let p1Cell ← load cells (some p1Site.id)
  let cells ←
    (if p0Cell.last.map (·.id) = p1Cell.first.map (·.id) then
      store cells p1Site.id (fun c => c.addLeft p)
    else store cells p1Site.id (fun c => c.addRight p))
  let cells ← store cells p0Site.id (fun c => c.addRight p)
  store cells p2Site.id (fun c => c.addLeft p)

/-- Lines 162-174 of removeParabola: the parent of `p1` is replaced, under its own
parent, by the sibling of `p1`. -/
def excise (nodes : List (Parabola K)) (p1 : Nat) : Except Fault (List (Parabola K)) := do
  let p1N ← load nodes (some p1)
  let parent ← deref p1N.parent
  let parentN ← load nodes (some parent)
  let gparent := parentN.parent
  if parentN.left = some p1 then do
    let g ← deref gparent
    let gN ← load nodes gparent
    if gN.left = some parent then setLeft nodes g parentN.right
    else setRight nodes g parentN.right
  else do
    let g ← deref gparent
    let gN ← load nodes gparent
    if gN.left = some parent then setLeft nodes g parentN.left
    else setRight nodes g parentN.left

/-- Function removeParabola (lines 115-179) for the event `new CircleEvent(point, arch)`. -/
def removeParabola (sqrt : K → K) (point : Pt K) (arch : Nat) (o : Options K) :
    Except Fault (Options K) := do
  let p1 := arch
  let xl ← getLeftParent o.parabolas p1
  let xr ← getRightParent o.parabolas p1
  let p0 ← getLeftChild o.parabolas xl
  let p2 ← getRightChild o.parabolas xr
  let p0 ← deref p0
  let (nodes, heap) ← dropCircleEvent o.parabolas o.heap p0
  let p2 ← deref p2
  let (nodes, heap) ← dropCircleEvent nodes heap p2
  let p1N ← load nodes (some p1)
  let p1Site ← deref p1N.site
  let y ← getY p1Site.pt point.1 o.sweeplineY
  let p : Vertex K := { id := o.vertexCount, pt := (point.1, y) }
  let p0N ← load nodes (some p0)
  let p0Site ← deref p0N.site
  let p2N ← load nodes (some p2)
  let p2Site ← deref p2N.site
  let cells ← recordVertex o.cells p0Site p1Site p2Site p
  let xlN ← load nodes xl
  let xlEdge ← deref xlN.edge
  let edgeObjs ← store o.edgeObjs xlEdge (fun e => { e with endp := some p.pt })
  let xrN ← load nodes xr
  let xrEdge ← deref xrN.edge
  let edgeObjs ← store edgeObjs xrEdge (fun e => { e with endp := some p.pt })
  let higher ← higherLoop nodes o.root xl xr (nodes.length + 1) (some p1) none
  let e ← Edge.new p.pt p0Site p2Site
  let (edgeObjs, eid) := alloc edgeObjs e
  let higher ← deref higher
  let nodes ← store nodes higher (fun n => { n with edge := some eid })
  let edges := o.edges ++ [eid]
  let nodes ← excise nodes p1
  let (nodes, heap) ← computeCircleEvents sqrt nodes edgeObjs p0 o.sweeplineY heap
  let (nodes, heap) ← computeCircleEvents sqrt nodes edgeObjs p2 o.sweeplineY heap
  pure { o with parabolas := nodes, heap := heap, edgeObjs := edgeObjs, edges := edges,
                cells := cells, vertexCount := o.vertexCount + 1 }

/-- Function finishEdge (lines 186-198): the edge store after the call. -/
def finishEdge (nodes : List (Parabola K)) (width : K) :
    Nat → List (Edge K) → Option Nat → Except Fault (List (Edge K))
  | 0, _, _ => .error .outOfFuel
  | fuel + 1, edgeObjs, n => do
    let node ← load nodes n
    let eid ← deref node.edge
    let e ← load edgeObjs node.edge
    let s ← deref e.start
    let mx := if e.direction.1 > 0 then max width (s.1 + 10) else min 0 (s.1 - 10)
    let edgeObjs ← store edgeObjs eid (fun e => { e with endp := some (mx, e.f * mx + e.g) })
    let l ← load nodes node.left
    let edgeObjs ←
      (if l.isLeaf then pure edgeObjs else finishEdge nodes width fuel edgeObjs node.left)
    let r ← load nodes node.right
    if r.isLeaf then pure edgeObjs else finishEdge nodes width fuel edgeObjs node.right

/-- The loop of lines 44-46: an edge with a neighbour takes the neighbour's end as start. -/
def linkNeighbours : List Nat → List (Edge K) → Except Fault (List (Edge K))
  | [], edgeObjs => pure edgeObjs
  | i :: rest, edgeObjs => do
    let e ← load edgeObjs (some i)
    match e.neighbour with
    | none => linkNeighbours rest edgeObjs
    | some nb => do
      let ne ← load edgeObjs (some nb)
      let edgeObjs ← store edgeObjs i (fun e => { e with start := ne.endp })
      linkNeighbours rest edgeObjs

/-- The array `options.edges` returned at line 49: the objects behind the references. -/
def collectEdges (edgeObjs : List (Edge K)) : List Nat → Except Fault (List (Edge K))
  | [] => pure []
  | i :: rest => do
    let e ← load edgeObjs (some i)
    let es ← collectEdges edgeObjs rest
    pure (e :: es)

/-- The loop of lines 32-41. -/
def sweep (sqrt : K → K) (tie : List (HeapNode K) → Nat) :
    Nat → Options K → Except Fault (Options K)
  | 0, _ => .error .outOfFuel
  | fuel + 1, o =>
    if o.heap.isEmpty then pure o
    else
      match o.heap.extractMinimum tie with
      | none => .error .typeError
      | some (n, heap) =>
        match n.value with
        | .circle point arch => do
          let o ← removeParabola sqrt point arch { o with heap := heap, sweeplineY := point.2 }
          sweep sqrt tie fuel o
        | .site p => do
          let o ← insertParabola sqrt p { o with heap := heap, sweeplineY := p.pt.2 }
          sweep sqrt tie fuel o

/-- The loop of lines 25-30: every point is queued under the key `-y`. -/
def insertSites : List (Pt K) → Nat → FibonacciHeap K → FibonacciHeap K
  | [], _, heap => heap
  | pt :: rest, i, heap =>
    insertSites rest (i + 1) (heap.insert (-pt.2) (.site { id := i, pt := pt })).1

/-- The record `options` (lines 15-22) after the loop of lines 25-30: the queue holds the
sites and every point has an empty cell. -/
def initialOptions (points : List (Pt K)) (height : K) : Options K :=
  { edges := [], firstPoint := none, heap := insertSites points 0 FibonacciHeap.new,
    height := height, root := none, sweeplineY := 0, parabolas := [], edgeObjs := [],
    cells := points.map (fun _ => Polygon.new), vertexCount := 0 }

/-- Function Voronoi.compute (lines 10-52). -/
def compute (sqrt : K → K) (tie : List (HeapNode K) → Nat) (points : List (Pt K))
    (width height : K) : Except Fault (Output K) :=
  if points.length < 2 then pure .emptyList
  else do
    let o ← sweep sqrt tie (3 * points.length + 1) (initialOptions points height)
    let edgeObjs ← finishEdge o.parabolas width (o.parabolas.length + 1) o.edgeObjs o.root
    let edgeObjs ← linkNeighbours o.edges edgeObjs
    let edges ← collectEdges edgeObjs o.edges
    pure (.diagram edges o.cells)

end Events

/-! ## Specification vocabulary -/

section Vocabulary

variable {K : Type} [LinearOrderedField K]

/-- Squared Euclidean distance between two points. -/
def dist2 (a b : Pt K) : K := (a.1 - b.1) ^ 2 + (a.2 - b.2) ^ 2

/-- The point `q` lies on the line through `a` and `b`. -/
def collinear (a b q : Pt K) : Prop :=
  (q.1 - a.1) * (b.2 - a.2) - (q.2 - a.2) * (b.1 - a.1) = 0

/-- The determinant tested at line 386. -/
def lineDet (a1 a2 b1 b2 : Pt K) : K :=
  (a1.1 - a2.1) * (b1.2 - b2.2) - (a1.2 - a2.2) * (b1.1 - b2.1)

/-- The coefficient `a = a1 - a2` of line 217. -/
def coefA (p r : Pt K) (y : K) : K := 1 / (2 * (p.2 - y)) - 1 / (2 * (r.2 - y))

/-- The coefficient `b = b1 - b2` of line 218. -/
def coefB (p r : Pt K) (y : K) : K := -2 * p.1 / (2 * (p.2 - y)) - -2 * r.1 / (2 * (r.2 - y))

/-- The coefficient `c = c1 - c2` of line 219. -/
def coefC (p r : Pt K) (y : K) : K :=
  (y + 2 * (p.2 - y) * 0.25 + p.1 * p.1 / (2 * (p.2 - y))) -
    (y + 2 * (r.2 - y) * 0.25 + r.1 * r.1 / (2 * (r.2 - y)))

/-- The value `disc` of line 221. -/
def discriminant (p r : Pt K) (y : K) : K :=
  coefB p r y * coefB p r y - 4 * coefA p r y * coefC p r y

/-- The value of getY at a non-degenerate site. -/
def arcY (p : Pt K) (x y : K) : K :=
  x * x / (2 * (p.2 - y)) + -2 * p.1 / (2 * (p.2 - y)) * x
      + (y + 2 * (p.2 - y) / 4 + p.1 * p.1 / (2 * (p.2 - y)))

end Vocabulary

/-! ## Shape of the beachline -/

/-- The shape of a beachline: a binary tree of references to Parabola objects. -/
inductive Tree where
  | leaf (id : Nat)
  | node (id : Nat) (l r : Tree)
  deriving DecidableEq, Repr

/-- The reference at the root of a shape. -/
def Tree.id : Tree → Nat
  | .leaf i => i
  | .node i _ _ => i

/-- All references of a shape. -/
def Tree.ids : Tree → List Nat
  | .leaf i => [i]
  | .node i l r => i :: (l.ids ++ r.ids)

/-- The arcs of a shape, left to right. -/
def Tree.leaves : Tree → List Nat
  | .leaf i => [i]
  | .node _ l r => l.leaves ++ r.leaves

/-- The breakpoints of a shape. -/
def Tree.inner : Tree → List Nat
  | .leaf _ => []
  | .node i l r => i :: (l.inner ++ r.inner)

/-- The rightmost arc of a shape. -/
def Tree.last : Tree → Nat
  | .leaf i => i
  | .node _ _ r => r.last

/-- The leftmost arc of a shape. -/
def Tree.first : Tree → Nat
  | .leaf i => i
  | .node _ l _ => l.first

/-- One step of the path from a subtree up to the root: the breakpoint `id` above it and
the sibling subtree; `onLeft` when the subtree is the left child. -/
inductive Frame where
  | onLeft (id : Nat) (sibling : Tree)
  | onRight (id : Nat) (sibling : Tree)
  deriving DecidableEq, Repr

/-- The breakpoint of a frame. -/
def Frame.id : Frame → Nat
  | .onLeft i _ => i
  | .onRight i _ => i

/-- The sibling subtree of a frame. -/
def Frame.sibling : Frame → Tree
  | .onLeft _ s => s
  | .onRight _ s => s

/-- The subtree rooted at the breakpoint of a frame, given the subtree below it. -/
def Frame.fill : Frame → Tree → Tree
  | .onLeft i s, t => .node i t s
  | .onRight i s, t => .node i s t

/-- The whole shape, given the path (innermost frame first) and the subtree at its foot. -/
def plug : List Frame → Tree → Tree
  | [], t => t
  | f :: fs, t => plug fs (f.fill t)

/-- The references in the frames of a path. -/
def ctxIds : List Frame → List Nat
  | [] => []
  | f :: fs => f.id :: (f.sibling.ids ++ ctxIds fs)

/-- The parent of the subtree at the foot of a path. -/
def ctxParent (top : Option Nat) : List Frame → Option Nat
  | [] => top
  | f :: _ => some f.id

/-- The nearest breakpoint on the path that has the foot in its right subtree. -/
def leftParentOf : List Frame → Option Nat
  | [] => none
  | .onLeft _ _ :: fs => leftParentOf fs
  | .onRight i _ :: _ => some i

/-- The nearest breakpoint on the path that has the foot in its left subtree. -/
def rightParentOf : List Frame → Option Nat
  | [] => none
  | .onRight _ _ :: fs => rightParentOf fs
  | .onLeft i _ :: _ => some i

/-- The arc just left of the foot of a path. -/
def prevLeafOf : List Frame → Option Nat
  | [] => none
  | .onLeft _ _ :: fs => prevLeafOf fs
  | .onRight _ s :: _ => some s.last

/-- The arc just right of the foot of a path. -/
def nextLeafOf : List Frame → Option Nat
  | [] => none
  | .onRight _ _ :: fs => nextLeafOf fs
  | .onLeft _ s :: _ => some s.first

/-- The child links `left`, `right` of the breakpoint of a frame above a subtree rooted
at `h`. -/
def Frame.childLinks (f : Frame) (left right : Option Nat) (h : Nat) : Prop :=
  match f with
  | .onLeft _ s => left = some h ∧ right = some s.id
  | .onRight _ s => left = some s.id ∧ right = some h

/-- The root of the shape, given the path and the reference at its foot. -/
def rootOf : List Frame → Nat → Nat
  | [], h => h
  | f :: fs, _ => rootOf fs f.id

/-- The value of `higher` after the loop of lines 150-156 has climbed the path `fs`. -/
def higherOf (xl xr : Option Nat) : List Frame → Option Nat → Option Nat
  | [], higher => higher
  | f :: fs, higher =>
    higherOf xl xr fs
      (if some f.id = xr then xr else if some f.id = xl then xl else higher)

section Representation

variable {K : Type}

/-- The store `nodes` holds the shape `t` under the parent `par`: arcs are leaves,
breakpoints are not, and child and parent links agree with the shape. -/
def Repr (nodes : List (Parabola K)) : Option Nat → Tree → Prop
  | par, .leaf i => ∃ n, nodes[i]? = some n ∧ n.isLeaf = true ∧ n.parent = par
  | par, .node i l r => ∃ n, nodes[i]? = some n ∧ n.isLeaf = false ∧ n.parent = par ∧
      n.left = some l.id ∧ n.right = some r.id ∧
      Repr nodes (some i) l ∧ Repr nodes (some i) r

/-- The store holds the frame `f` above a subtree rooted at `h`, under the parent `par`. -/
def FrameOK (nodes : List (Parabola K)) (par : Option Nat) (f : Frame) (h : Nat) : Prop :=
  ∃ n, nodes[f.id]? = some n ∧ n.isLeaf = false ∧ n.parent = par ∧
    f.childLinks n.left n.right h ∧ Repr nodes (some f.id) f.sibling

/-- The store holds the path `fs` above a subtree rooted at `h`. -/
def ReprCtx (nodes : List (Parabola K)) (top : Option Nat) : List Frame → Nat → Prop
  | [], _ => True
  | f :: fs, h => FrameOK nodes (ctxParent top fs) f h ∧ ReprCtx nodes top fs f.id

/-- The fields of a Parabola that carry the tree. -/
def Parabola.links (n : Parabola K) : Bool × Option Nat × Option Nat × Option Nat :=
  (n.isLeaf, n.parent, n.left, n.right)

/-- Two stores agree at `i` on the field(s) `f`. -/
def sameAt {α β : Type} (f : α → β) (objs objs' : List α) (i : Nat) : Prop :=
  objs'[i]?.map f = objs[i]?.map f

/-- The edge store `eo'` extends the information of `eo`: no edge is lost, starts and
neighbours are kept, and no end that was set is unset. -/
def EndsGrow (eo eo' : List (Edge K)) : Prop :=
  eo.length ≤ eo'.length ∧
  ∀ (j : Nat) (E : Edge K), eo[j]? = some E → ∃ E' : Edge K, eo'[j]? = some E' ∧
    E'.start = E.start ∧ E'.neighbour = E.neighbour ∧ (E.endp ≠ none → E'.endp ≠ none)

/-- The edge `e` is resolved or is owned by a breakpoint of the shape: its end is set, or
it is the current edge of a breakpoint of `inner`. -/
def Covered (nodes : List (Parabola K)) (edgeObjs : List (Edge K)) (inner : List Nat)
    (e : Nat) : Prop :=
  (∃ E, edgeObjs[e]? = some E ∧ E.endp ≠ none) ∨
  (∃ i n, i ∈ inner ∧ nodes[i]? = some n ∧ n.edge = some e)

/-- Every circle event of the queue refers to an arc of `leaves` other than `root`, and
that arc records the handle of the event; handles are distinct and below the counter. -/
def HeapOK (nodes : List (Parabola K)) (heap : FibonacciHeap K) (leaves : List Nat)
    (root : Nat) : Prop :=
  (heap.nodes.map (·.id)).Nodup ∧ (∀ n ∈ heap.nodes, n.id < heap.count) ∧
  ∀ n ∈ heap.nodes, ∀ pt arch, n.value = .circle pt arch →
    arch ∈ leaves ∧ arch ≠ root ∧
      ∃ nd, nodes[arch]? = some nd ∧ nd.circleEventHeapNode = some n.id

end Representation

/-! ## Evaluation instance -/

/-- Largest `j ≤ k` with `j * j ≤ n` (`0` if there is none). -/
def isqrt (n : Nat) : Nat → Nat
  | 0 => 0
  | k + 1 => if (k + 1) * (k + 1) ≤ n then k + 1 else isqrt n k

/-- A square root on `ℚ` for evaluation: exact on squares of rationals. -/
def sqrtQ (q : ℚ) : ℚ := (isqrt q.num.toNat q.num.toNat : ℚ) / (isqrt q.den q.den : ℚ)

/-- The queue that returns, among equal priorities, the entry inserted first. -/
def fifo : List (HeapNode ℚ) → Nat := fun _ => 0

/-- The queue that returns, among equal priorities, the entry inserted last. -/
def lifo : List (HeapNode ℚ) → Nat := fun l => l.length - 1

deriving instance DecidableEq for Except

/-- The state of the sweep of `[(0, 5), (10, 0)]` when the second site is reached. -/
def secondSiteState : Options ℚ :=
  { insertFirst ⟨0, (0, 5)⟩ (initialOptions [(0, 5), (10, 0)] 20) with
    heap := { nodes := [], count := 2 }, sweeplineY := 0 }

end Voronoi

namespace Voronoi

section Steps

variable {K : Type} [LinearOrderedField K]

/-- Modelled from the spec: one call made on a Polygon, `addLeft(p)` or `addRight(p)`. -/
inductive PolygonCall (K : Type) where
  | addLeft (p : Vertex K)
  | addRight (p : Vertex K)
  deriving DecidableEq

/-- Modelled from the spec: the Polygon after a sequence of calls, made in order. -/
def Polygon.calls (c : Polygon K) : List (PolygonCall K) → Polygon K
  | [] => c
  | .addLeft p :: rest => (c.addLeft p).calls rest
  | .addRight p :: rest => (c.addRight p).calls rest

/-- The height of an event: the `y` of a site, the `y` of the point of a `CircleEvent`
(lines 36-38, `options.sweeplineY = e[1]` and `e.point[1]`). -/
def Event.y (e : Event K) : K :=
  match e with
  | .site p => p.pt.2
  | .circle point _ => point.2

/-- The point `i` lies on the ray from `s` in the direction `d`: `i = s + t * d` with
`t ≥ 0`. -/
def onRay (s d i : Pt K) : Prop := ∃ t : K, 0 ≤ t ∧ i = (s.1 + t * d.1, s.2 + t * d.2)

end Steps

section Loop

variable {K : Type} [Arith K]

/-- The body of the loop of lines 32-41: the next event leaves the queue and is handled. -/
def sweepStep (sqrt : K → K) (tie : List (HeapNode K) → Nat) (o : Options K) :
    Except Fault (Options K) :=
  match o.heap.extractMinimum tie with
  | none => .error .typeError
  | some (n, heap) =>
    match n.value with
    | .circle point arch =>
      removeParabola sqrt point arch { o with heap := heap, sweeplineY := point.2 }
    | .site p => insertParabola sqrt p { o with heap := heap, sweeplineY := p.pt.2 }

/-- The state after `k` iterations of the loop of lines 32-41. -/
def sweepSteps (sqrt : K → K) (tie : List (HeapNode K) → Nat) :
    Nat → Options K → Except Fault (Options K)
  | 0, o => pure o
  | k + 1, o => do
    let o ← sweepSteps sqrt tie k o
    sweepStep sqrt tie o

/-- The body of the loop of lines 32-41 when `extractMinimum()` returns the entry `n`:
the entry leaves the queue and its event is handled. -/
def processEvent (sqrt : K → K) (n : HeapNode K) (o : Options K) : Except Fault (Options K) :=
  match n.value with
  | .circle point arch =>
    removeParabola sqrt point arch
      { o with heap := o.heap.delete n.id, sweeplineY := point.2 }
  | .site p =>
    insertParabola sqrt p { o with heap := o.heap.delete n.id, sweeplineY := p.pt.2 }

/-- The states of the loop of lines 32-41 for the input `points`, whatever entry of the
queue each `extractMinimum()` returns: the state built by lines 15-30, and every state
that an iteration which returns produces from such a state. -/
inductive Reachable (sqrt : K → K) (points : List (Pt K)) (height : K) : Options K → Prop where
  | init : Reachable sqrt points height (initialOptions points height)
  | step {o o' : Options K} (n : HeapNode K) : Reachable sqrt points height o →
      n ∈ o.heap.nodes → processEvent sqrt n o = .ok o' → Reachable sqrt points height o'

/-- Lines 42-51 of compute: the edges of the breakpoints are cut, the starts are copied
from the neighbours and the record `{edges, cells}` is returned. -/
def finalise (width : K) (o : Options K) : Except Fault (Output K) := do
  let edgeObjs ← finishEdge o.parabolas width (o.parabolas.length + 1) o.edgeObjs o.root
  let edgeObjs ← linkNeighbours o.edges edgeObjs
  let edges ← collectEdges edgeObjs o.edges
  pure (.diagram edges o.cells)

/-- The outcome `x` of a function of the embedding is an outcome of the JavaScript call: a
result or a fault of the run, not an exhaustion of the fuel of a loop. -/
def Fuelled {α : Type} (x : Except Fault α) : Prop := x ≠ .error .outOfFuel

end Loop

section Keys

variable {K : Type} [LinearOrderedField K]

/-- Every entry of the queue is keyed by minus the height of its event (lines 27, 292). -/
def Keyed (heap : FibonacciHeap K) : Prop := ∀ n ∈ heap.nodes, n.key = -n.value.y

/-- No event of the queue lies above the sweep height. -/
def QueueBelow (o : Options K) : Prop := ∀ n ∈ o.heap.nodes, n.value.y ≤ o.sweeplineY

/-- Every entry of the queue `heap'` is an entry of `heap` or is keyed by minus the height
of its event, which is strictly below `y`. -/
def QueueGrows (y : K) (heap heap' : FibonacciHeap K) : Prop :=
  ∀ n ∈ heap'.nodes, n ∈ heap.nodes ∨ (n.key = -n.value.y ∧ n.value.y < y)

end Keys

/-- The arcs left of the foot of a path, left to right. -/
def leavesBefore : List Frame → List Nat
  | [] => []
  | .onLeft _ _ :: fs => leavesBefore fs
  | .onRight _ s :: fs => leavesBefore fs ++ s.leaves

/-- The arcs right of the foot of a path, left to right. -/
def leavesAfter : List Frame → List Nat
  | [] => []
  | .onLeft _ s :: fs => s.leaves ++ leavesAfter fs
  | .onRight _ _ :: fs => leavesAfter fs

/-- The shape after lines 95-108 of insertParabola have split the arc `par` at the foot of
the path `fs`, in a store that held `len` objects: `par` is a breakpoint over a new
breakpoint `len + 3` with the new arcs `len`, `len + 1`, and the new arc `len + 2`. -/
def splitTree (fs : List Frame) (par len : Nat) : Tree :=
  plug fs (.node par (.node (len + 3) (.leaf len) (.leaf (len + 1))) (.leaf (len + 2)))

/-- The test of `Repr` on a given store, for evaluation. -/
def reprCheck {K : Type} (nodes : List (Parabola K)) : Option Nat → Tree → Bool
  | par, .leaf i =>
    match nodes[i]? with
    | some n => n.isLeaf && decide (n.parent = par)
    | none => false
  | par, .node i l r =>
    match nodes[i]? with
    | some n => !n.isLeaf && decide (n.parent = par) && decide (n.left = some l.id) &&
        decide (n.right = some r.id) && reprCheck nodes (some i) l && reprCheck nodes (some i) r
    | none => false

/-- The arcs of a shape that have an arc on their left and an arc on their right. -/
def Tree.interior (t : Tree) : List Nat :=
  t.leaves.filter (fun i => decide (i ≠ t.first) && decide (i ≠ t.last))

/-- Every arc of `arcs` that records a handle has a circle event of its own under that
handle in the queue. -/
def Live {K : Type} (nodes : List (Parabola K)) (heap : FibonacciHeap K) (arcs : List Nat) :
    Prop :=
  ∀ l ∈ arcs, ∀ (nd : Parabola K) (hd : Nat), nodes[l]? = some nd →
    nd.circleEventHeapNode = some hd →
    ∃ n ∈ heap.nodes, n.id = hd ∧ ∃ pt, n.value = .circle pt l

/-- The invariant of the loop of lines 32-41, for the shape `ot` of the beachline (`none`
before the first site): the store holds the shape and references are distinct; the circle
events of the queue and the arcs that record a handle correspond, and such an arc has an
arc on each side; every edge has a start; every listed edge and its neighbour have an end
or are the current edge of a breakpoint of the shape. -/
structure SweepInv {K : Type} (o : Options K) (ot : Option Tree) : Prop where
  root : o.root = ot.map Tree.id
  repr : ∀ t, ot = some t → Repr o.parabolas none t ∧ t.ids.Nodup
  heap : HeapOK o.parabolas o.heap ((ot.map Tree.interior).getD []) o.parabolas.length
  live : Live o.parabolas o.heap ((ot.map Tree.leaves).getD [])
  starts : ∀ E ∈ o.edgeObjs, E.start ≠ none
  listed : ∀ e ∈ o.edges, e < o.edgeObjs.length
  covered : ∀ e ∈ o.edges,
    Covered o.parabolas o.edgeObjs ((ot.map Tree.inner).getD []) e ∧
    ∀ (E : Edge K) (nb : Nat), o.edgeObjs[e]? = some E → E.neighbour = some nb →
      Covered o.parabolas o.edgeObjs ((ot.map Tree.inner).getD []) nb

/-- The sites of a list of arcs, in order. -/
def sitesOf {K : Type} (nodes : List (Parabola K)) (arcs : List Nat) : List (Option (Site K)) :=
  arcs.map (fun i => nodes[i]?.bind (·.site))

/-- The state after the three site events of the sweep of `[(0, 5), (-3, 4), (4, 3)]`. -/
def threeSitesState : Options ℚ :=
  match sweepSteps sqrtQ fifo 3 (initialOptions [(0, 5), (-3, 4), (4, 3)] 20) with
  | .ok o => o
  | .error _ => initialOptions [] 20

/-- The store and the queue after `computeCircleEvents` has examined the arc `5` of
`threeSitesState`. -/
def threeSitesScheduled : List (Parabola ℚ) × FibonacciHeap ℚ :=
  match computeCircleEvents sqrtQ threeSitesState.parabolas threeSitesState.edgeObjs 5
      threeSitesState.sweeplineY threeSitesState.heap with
  | .ok r => r
  | .error _ => ([], FibonacciHeap.new)

/-- The shape of a beachline after two sites, the second of which has split the arc of
the first: the arcs `1, 2, 3`. -/
def thirdSiteTree : Tree := .node 0 (.node 4 (.leaf 1) (.leaf 2)) (.leaf 3)

/-- The shape of the beachline of `threeSitesState` and of `triangleSites`, in which the
third site has split the arc `3`: the arcs `1, 2, 5, 6, 7`. -/
def threeSitesTree : Tree :=
  .node 0 (.node 4 (.leaf 1) (.leaf 2)) (.node 3 (.node 8 (.leaf 5) (.leaf 6)) (.leaf 7))

/-- The state of the sweep of `[(0, 5), (-3, 4), (4, 3)]` when the circle event of the arc
`5` is reached: the event `CircleEvent((0, -5), 5)` has left the queue and the sweep
height is `-5`. -/
def circleEventState : Options ℚ :=
  { threeSitesState with heap := threeSitesState.heap.delete 3, sweeplineY := -5 }

/-- The path from the arc `5` of `threeSitesTree` to the root. -/
def arcPath : List Frame :=
  [.onLeft 8 (.leaf 6), .onLeft 3 (.leaf 7), .onRight 0 (.node 4 (.leaf 1) (.leaf 2))]

/-- The state after the circle event that follows `threeSitesState`. -/
def afterCircleState : Options ℚ :=
  match sweepStep sqrtQ fifo threeSitesState with
  | .ok o => o
  | .error _ => initialOptions [] 20

/-- `Math.sqrt` on the JavaScript numbers over `ℚ`, exact on squares of rationals. -/
def jsSqrt : Num ℚ → Num ℚ := Num.sqrt sqrtQ

/-- The queue of JavaScript numbers that returns, among equal priorities, the entry
inserted first. -/
def jsFifo : List (HeapNode (Num ℚ)) → Nat := fun _ => 0

/-- The triangle `[[0, 0], [10, 0], [5, 10]]`: two of its sites have the same height. -/
def triangle : List (Pt (Num ℚ)) := [(0, 0), (10, 0), (5, 10)]

/-- The state of the sweep of `triangle` when its third event, the site `(10, 0)`, is
reached: the sites `(5, 10)` and `(0, 0)` have been handled, the entry of `(10, 0)` has
left the queue and the sweep height is `0`, the height of the site `(0, 0)` of the
beachline. -/
def triangleThirdSite : Options (Num ℚ) :=
  match sweepSteps jsSqrt jsFifo 2 (initialOptions triangle 20) with
  | .ok o => { o with heap := o.heap.delete 1, sweeplineY := 0 }
  | .error _ => initialOptions [] 20

/-- The state after the three site events of the sweep of `triangle`. -/
def triangleSites : Options (Num ℚ) :=
  match sweepSteps jsSqrt jsFifo 3 (initialOptions triangle 20) with
  | .ok o => o
  | .error _ => initialOptions [] 20

/-- The state of the sweep of `triangle` when the circle event of the arc `5` is reached:
the event `CircleEvent((5, -5/2), 5)` has left the queue and the sweep height is `-5/2`.
The neighbours of the arc `5` are the arcs of `(0, 0)` and `(10, 0)`. -/
def triangleCircle : Options (Num ℚ) :=
  { triangleSites with heap := triangleSites.heap.delete 3, sweeplineY := .fin (-5 / 2) }

/-- The state of the sweep of `triangle` when the queue has drained. -/
def triangleDrained : Options (Num ℚ) :=
  match sweepSteps jsSqrt jsFifo 4 (initialOptions triangle 20) with
  | .ok o => o
  | .error _ => initialOptions [] 20

/-- The edges returned by `compute` for `triangle` in a box of side `20`. -/
def triangleEdges : List (Edge (Num ℚ)) :=
  match compute jsSqrt jsFifo triangle 20 20 with
  | .ok (.diagram edges _) => edges
  | _ => []

/-- The cells returned by `compute` for `triangle` in a box of side `20`. -/
def triangleCells : List (Polygon (Num ℚ)) :=
  match compute jsSqrt jsFifo triangle 20 20 with
  | .ok (.diagram _ cells) => cells
  | _ => []

/-- Three sites of the same height, `[[0, 10], [10, 10], [20, 10]]`. -/
def levelSites : List (Pt (Num ℚ)) := [(0, 10), (10, 10), (20, 10)]

/-- The state after the three site events of the sweep of `levelSites`. -/
def levelScheduled : Options (Num ℚ) :=
  match sweepSteps jsSqrt jsFifo 3 (initialOptions levelSites 20) with
  | .ok o => o
  | .error _ => initialOptions [] 20

/-- The state after the fourth event of the sweep of `levelSites`. -/
def levelFired : Options (Num ℚ) :=
  match sweepStep jsSqrt jsFifo levelScheduled with
  | .ok o => o
  | .error _ => initialOptions [] 20

/-- The edge `new Edge([0, 0], [0, 0], [2, 1])`. -/
def rayEdgeA : Edge ℚ :=
  { left := ⟨0, (0, 0)⟩, right := ⟨1, (2, 1)⟩, start := some (0, 0), endp := none,
    f := -2, g := 0, direction := (1, -2), B := (1, -2), neighbour := none }

/-- The edge `new Edge([4, 0], [4, 1], [6, 0])`. -/
def rayEdgeB : Edge ℚ :=
  { left := ⟨2, (4, 1)⟩, right := ⟨3, (6, 0)⟩, start := some (4, 0), endp := none,
    f := 2, g := -8, direction := (-1, -2), B := (3, -2), neighbour := none }

end Voronoi

namespace Voronoi

/-! ## Geometry kernel -/

section KernelShape

variable {K : Type} [Arith K]

theorem Edge_new_fields (s : Pt K) (a b : Site K) (e : Edge K) (h : Edge.new s a b = .ok e) :
    e.left = a ∧ e.right = b ∧ e.start = some s ∧ e.endp = none ∧ e.neighbour = none := by
  unfold Edge.new divide at h
  split_ifs at h
  · simp only [bind, Except.bind, pure, Except.pure, Except.ok.injEq] at h
    subst h
    exact ⟨rfl, rfl, rfl, rfl, rfl⟩
  · simp [bind, Except.bind] at h

end KernelShape

section KernelFacts

variable {K : Type} [LinearOrderedField K]

theorem bind_eq_ok {α β : Type} (x : Except Fault α) (f : α → Except Fault β) (b : β) :
    (x >>= f) = .ok b ↔ ∃ a, x = .ok a ∧ f a = .ok b := by
  cases x with
  | error e => simp [bind, Except.bind]
  | ok a => simp [bind, Except.bind]

theorem divide_exact (fn : Fn) (a b : K) :
    divide fn a b = if b = 0 then .error (.zeroDenominator fn) else .ok (a / b) := by
  unfold divide
  by_cases h : b = 0 <;> simp [Arith.divisor, h]

theorem squareRoot_exact (sqrt : K → K) (fn : Fn) (a : K) :
    squareRoot sqrt fn a = if a < 0 then .error (.negativeRadicand fn) else .ok (sqrt a) := by
  unfold squareRoot
  by_cases h : a < 0 <;> simp [Arith.radicand, h]

theorem eq_exact (a b : K) : (Arith.eq a b = true) = (a = b) := by
  simp [Arith.eq]

theorem divide_ok (fn : Fn) (a b : K) (h : b ≠ 0) : divide fn a b = .ok (a / b) := by
  simp [divide_exact, h]

theorem getY_ok (p : Pt K) (x y : K) (h : p.2 ≠ y) :
    getY p x y = .ok (x * x / (2 * (p.2 - y)) + -2 * p.1 / (2 * (p.2 - y)) * x
      + (y + 2 * (p.2 - y) / 4 + p.1 * p.1 / (2 * (p.2 - y)))) := by
  have hd : 2 * (p.2 - y) ≠ 0 := mul_ne_zero two_ne_zero (sub_ne_zero.mpr h)
  simp only [getY, divide_ok _ _ _ hd]
  rfl

theorem getY_eq_ok (p : Pt K) (x y Y : K) (h : getY p x y = .ok Y) :
    p.2 ≠ y ∧ (x - p.1) ^ 2 + (Y - p.2) ^ 2 = (Y - y) ^ 2 := by
  by_cases hd : p.2 = y
  · simp [getY, divide_exact, hd, bind, Except.bind] at h
  · refine ⟨hd, ?_⟩
    rw [getY_ok p x y hd] at h
    have hd2 : p.2 - y ≠ 0 := sub_ne_zero.mpr hd
    cases h
    field_simp
    ring

theorem Edge_new_eq_ok (s : Pt K) (a b : Site K) (e : Edge K) (h : Edge.new s a b = .ok e) :
    a.pt.2 ≠ b.pt.2 ∧
    e = { left := a, right := b, start := some s, endp := none,
          f := (b.pt.1 - a.pt.1) / (a.pt.2 - b.pt.2),
          g := s.2 - (b.pt.1 - a.pt.1) / (a.pt.2 - b.pt.2) * s.1,
          direction := (b.pt.2 - a.pt.2, -(b.pt.1 - a.pt.1)),
          B := (s.1 + (b.pt.2 - a.pt.2), s.2 + -(b.pt.1 - a.pt.1)), neighbour := none } := by
  by_cases hd : a.pt.2 - b.pt.2 = 0
  · simp [Edge.new, divide_exact, hd, bind, Except.bind] at h
  · simp only [Edge.new, divide_exact, hd, if_false, bind, Except.bind, pure, Except.pure] at h
    cases h
    exact ⟨fun h => hd (sub_eq_zero.mpr h), rfl⟩

theorem Edge_new_ok (s : Pt K) (a b : Site K) (h : a.pt.2 ≠ b.pt.2) :
    Edge.new s a b = .ok
        { left := a, right := b, start := some s, endp := none,
          f := (b.pt.1 - a.pt.1) / (a.pt.2 - b.pt.2),
          g := s.2 - (b.pt.1 - a.pt.1) / (a.pt.2 - b.pt.2) * s.1,
          direction := (b.pt.2 - a.pt.2, -(b.pt.1 - a.pt.1)),
          B := (s.1 + (b.pt.2 - a.pt.2), s.2 + -(b.pt.1 - a.pt.1)), neighbour := none } := by
  have hd : a.pt.2 - b.pt.2 ≠ 0 := sub_ne_zero.mpr h
  simp only [Edge.new, divide_exact, hd, if_false, bind, Except.bind, pure, Except.pure]

theorem getElem?_alloc {α : Type} (objs : List α) (a : α) (j : Nat) :
    (alloc objs a).1[j]? = if j = objs.length then some a else objs[j]? := by
  simp only [alloc]
  split_ifs with h
  · subst h; exact List.getElem?_concat_length objs a
  · rcases Nat.lt_or_gt_of_ne h with h1 | h1
    · exact List.getElem?_append_left h1
    · rw [List.getElem?_eq_none (by simp; omega), List.getElem?_eq_none (by omega)]

theorem alloc_snd {α : Type} (objs : List α) (a : α) : (alloc objs a).2 = objs.length := rfl

theorem length_alloc {α : Type} (objs : List α) (a : α) :
    (alloc objs a).1.length = objs.length + 1 := by simp [alloc]

theorem store_eq_ok {α : Type} (objs objs' : List α) (i : Nat) (f : α → α)
    (h : store objs i f = .ok objs') :
    ∃ a, objs[i]? = some a ∧ objs'.length = objs.length ∧
      ∀ j, objs'[j]? = if j = i then some (f a) else objs[j]? := by
  simp only [store, bind_eq_ok] at h
  obtain ⟨a, ha, h⟩ := h
  cases hi : objs[i]? with
  | none => simp [hi, deref] at ha
  | some b =>
    simp only [hi, deref] at ha
    cases ha
    cases h
    refine ⟨a, rfl, by simp, fun j => ?_⟩
    have hlt : i < objs.length := by
      by_contra hc
      rw [List.getElem?_eq_none (by omega)] at hi
      cases hi
    rw [List.getElem?_set]
    by_cases hj : j = i
    · subst hj; simp [hlt]
    · simp [hj, Ne.symm hj]

theorem discriminant_pos (p r : Pt K) (y : K) (hp : y < p.2) (hr : y < r.2) (hne : p.2 ≠ r.2) :
    0 < discriminant p r y := by
  have hP : 0 < p.2 - y := sub_pos.mpr hp
  have hR : 0 < r.2 - y := sub_pos.mpr hr
  have key : discriminant p r y =
      ((p.1 - r.1) ^ 2 + (r.2 - p.2) ^ 2) / ((p.2 - y) * (r.2 - y)) := by
    simp only [discriminant, coefA, coefB, coefC]
    field_simp
    ring
  rw [key]
  apply div_pos _ (mul_pos hP hR)
  have : 0 < (r.2 - p.2) ^ 2 := by
    have : r.2 - p.2 ≠ 0 := sub_ne_zero.mpr (Ne.symm hne)
    positivity
  nlinarith [sq_nonneg (p.1 - r.1)]

theorem coefA_pos (p r : Pt K) (y : K) (hp : y < p.2) (hr : y < r.2) (h : p.2 < r.2) :
    0 < coefA p r y := by
  have hP : 0 < p.2 - y := sub_pos.mpr hp
  have hR : 0 < r.2 - y := sub_pos.mpr hr
  have key : coefA p r y = (r.2 - p.2) / (2 * (p.2 - y) * (r.2 - y)) := by
    simp only [coefA]; field_simp; ring
  rw [key]
  exact div_pos (sub_pos.mpr h) (by positivity)

theorem coefA_neg (p r : Pt K) (y : K) (hp : y < p.2) (hr : y < r.2) (h : r.2 < p.2) :
    coefA p r y < 0 := by
  have hP : 0 < p.2 - y := sub_pos.mpr hp
  have hR : 0 < r.2 - y := sub_pos.mpr hr
  have key : coefA p r y = (r.2 - p.2) / (2 * (p.2 - y) * (r.2 - y)) := by
    simp only [coefA]; field_simp; ring
  rw [key]
  exact div_neg_of_neg_of_pos (sub_neg.mpr h) (by positivity)

theorem getXOfEdgeSites_ok (sqrt : K → K) (p r : Pt K) (y : K) (hp : y < p.2) (hr : y < r.2)
    (hne : p.2 ≠ r.2) (hs0 : 0 ≤ sqrt (discriminant p r y)) :
    getXOfEdgeSites sqrt p r y =
      .ok ((-coefB p r y + sqrt (discriminant p r y)) / (2 * coefA p r y)) := by
  have hP : 2 * (p.2 - y) ≠ 0 := by have := sub_pos.mpr hp; positivity
  have hR : 2 * (r.2 - y) ≠ 0 := by have := sub_pos.mpr hr; positivity
  have hD := discriminant_pos p r y hp hr hne
  have hA : 2 * coefA p r y ≠ 0 := by
    rcases lt_or_gt_of_ne hne with h | h
    · have := coefA_pos p r y hp hr h; positivity
    · have := coefA_neg p r y hp hr h
      exact mul_ne_zero two_ne_zero this.ne
  have hA' : 2 * (1 / (2 * (p.2 - y)) - 1 / (2 * (r.2 - y))) ≠ 0 := hA
  have hD' : ¬ ((-2 * p.1 / (2 * (p.2 - y)) - -2 * r.1 / (2 * (r.2 - y))) *
        (-2 * p.1 / (2 * (p.2 - y)) - -2 * r.1 / (2 * (r.2 - y))) -
      4 * (1 / (2 * (p.2 - y)) - 1 / (2 * (r.2 - y))) *
        (y + 2 * (p.2 - y) * 0.25 + p.1 * p.1 / (2 * (p.2 - y)) -
          (y + 2 * (r.2 - y) * 0.25 + r.1 * r.1 / (2 * (r.2 - y)))) < 0) := not_lt.mpr hD.le
  simp only [getXOfEdgeSites, divide_ok _ _ _ hP, divide_ok _ _ _ hR, divide_ok _ _ _ hA',
    squareRoot_exact, if_neg hD', bind, Except.bind, pure, Except.pure]
  change (if p.2 < r.2 then Except.ok (max ((-coefB p r y + sqrt (discriminant p r y)) / (2 * coefA p r y))
      ((-coefB p r y - sqrt (discriminant p r y)) / (2 * coefA p r y)))
    else Except.ok (min ((-coefB p r y + sqrt (discriminant p r y)) / (2 * coefA p r y))
      ((-coefB p r y - sqrt (discriminant p r y)) / (2 * coefA p r y)))) = _
  split_ifs with h
  · have hApos := coefA_pos p r y hp hr h
    congr 1
    apply max_eq_left
    apply div_le_div_of_nonneg_right _ (by positivity)
    linarith
  · have hlt : r.2 < p.2 := lt_of_le_of_ne (not_lt.mp h) (Ne.symm hne)
    have hAneg := coefA_neg p r y hp hr hlt
    congr 1
    apply min_eq_left
    rw [div_le_div_right_of_neg (by linarith)]
    linarith

theorem arcY_sub (p r : Pt K) (y t : K) :
    arcY p t y - arcY r t y = coefA p r y * t * t + coefB p r y * t + coefC p r y := by
  simp only [arcY, coefA, coefB, coefC]
  have h : (0.25 : K) = 1 / 4 := by norm_num
  rw [h]
  ring

theorem quad_factor (A B C s t : K) (hA : A ≠ 0) (hs : s * s = B * B - 4 * A * C) :
    A * t * t + B * t + C = A * (t - (-B + s) / (2 * A)) * (t - (-B - s) / (2 * A)) := by
  field_simp
  linear_combination A * hs

theorem quad_sign (A B s t : K) (hA : A ≠ 0) (hs : 0 < s) :
    ((-B + s) / (2 * A) - |s / A| < t → t < (-B + s) / (2 * A) →
      A * (t - (-B + s) / (2 * A)) * (t - (-B - s) / (2 * A)) < 0) ∧
    ((-B + s) / (2 * A) < t → t < (-B + s) / (2 * A) + |s / A| →
      0 < A * (t - (-B + s) / (2 * A)) * (t - (-B - s) / (2 * A))) := by
  have hd : (-B - s) / (2 * A) = (-B + s) / (2 * A) - s / A := by field_simp; ring
  rw [hd]
  generalize (-B + s) / (2 * A) = x
  rcases lt_or_gt_of_ne hA with hAneg | hApos
  · have hq : s / A < 0 := div_neg_of_pos_of_neg hs hAneg
    rw [abs_of_neg hq]
    constructor
    · intro h1 h2
      have h3 : t - (x - s / A) < 0 := by linarith
      have h4 : t - x < 0 := by linarith
      have := mul_pos_of_neg_of_neg h4 h3
      rw [mul_assoc]
      exact mul_neg_of_neg_of_pos hAneg this
    · intro h1 h2
      have h3 : t - (x - s / A) < 0 := by linarith
      have h4 : 0 < t - x := by linarith
      have := mul_neg_of_pos_of_neg h4 h3
      rw [mul_assoc]
      exact mul_pos_of_neg_of_neg hAneg this
  · have hq : 0 < s / A := div_pos hs hApos
    rw [abs_of_pos hq]
    constructor
    · intro h1 h2
      have h3 : 0 < t - (x - s / A) := by linarith
      have h4 : t - x < 0 := by linarith
      have := mul_neg_of_neg_of_pos h4 h3
      rw [mul_assoc]
      exact mul_neg_of_pos_of_neg hApos this
    · intro h1 h2
      have h3 : 0 < t - (x - s / A) := by linarith
      have h4 : 0 < t - x := by linarith
      have := mul_pos h4 h3
      rw [mul_assoc]
      exact mul_pos hApos this

theorem quad_root (A B s x' : K) (hA : A ≠ 0) (hs : 0 < s)
    (h0 : A * (x' - (-B + s) / (2 * A)) * (x' - (-B - s) / (2 * A)) = 0) :
    (0 < A → x' ≤ (-B + s) / (2 * A)) ∧ (A < 0 → (-B + s) / (2 * A) ≤ x') := by
  have hd : (-B + s) / (2 * A) - (-B - s) / (2 * A) = s / A := by field_simp; ring
  rcases mul_eq_zero.mp h0 with h0 | h0
  · rcases mul_eq_zero.mp h0 with h0 | h0
    · exact absurd h0 hA
    · have : x' = (-B + s) / (2 * A) := sub_eq_zero.mp h0
      exact ⟨fun _ => this.le, fun _ => this.ge⟩
  · have hx' : x' = (-B - s) / (2 * A) := sub_eq_zero.mp h0
    constructor
    · intro hApos
      have : 0 < s / A := div_pos hs hApos
      linarith
    · intro hAneg
      have : s / A < 0 := div_neg_of_pos_of_neg hs hAneg
      linarith

theorem getXOfEdgeSites_breakpoint (sqrt : K → K) (p r : Pt K) (y : K) (hp : y < p.2) (hr : y < r.2)
    (hne : p.2 ≠ r.2) (hs0 : 0 ≤ sqrt (discriminant p r y))
    (hs : sqrt (discriminant p r y) * sqrt (discriminant p r y) = discriminant p r y) :
    ∃ x, getXOfEdgeSites sqrt p r y = .ok x ∧
      (∃ Y, getY p x y = .ok Y ∧ getY r x y = .ok Y) ∧
      (∀ x' Y', getY p x' y = .ok Y' → getY r x' y = .ok Y' →
        (p.2 < r.2 → x' ≤ x) ∧ (r.2 < p.2 → x ≤ x')) ∧
      (∃ ε, 0 < ε ∧ ∀ t, ∃ Yp Yr, getY p t y = .ok Yp ∧ getY r t y = .ok Yr ∧
        (x - ε < t → t < x → Yp < Yr) ∧ (x < t → t < x + ε → Yr < Yp)) := by
  have hD := discriminant_pos p r y hp hr hne
  have hgp : ∀ t, getY p t y = .ok (arcY p t y) := fun t => getY_ok p t y hp.ne'
  have hgr : ∀ t, getY r t y = .ok (arcY r t y) := fun t => getY_ok r t y hr.ne'
  have hA : coefA p r y ≠ 0 := by
    rcases lt_or_gt_of_ne hne with h | h
    · exact (coefA_pos p r y hp hr h).ne'
    · exact (coefA_neg p r y hp hr h).ne
  have hfac : ∀ t, arcY p t y - arcY r t y =
      coefA p r y * (t - (-coefB p r y + sqrt (discriminant p r y)) / (2 * coefA p r y)) *
        (t - (-coefB p r y - sqrt (discriminant p r y)) / (2 * coefA p r y)) := by
    intro t
    rw [arcY_sub]
    exact quad_factor _ _ _ _ t hA (by rw [hs]; rfl)
  have hspos : 0 < sqrt (discriminant p r y) := by
    rcases hs0.lt_or_eq with h | h
    · exact h
    · rw [← h] at hs; simp at hs; rw [← hs] at hD; exact absurd hD (lt_irrefl _)
  refine ⟨_, getXOfEdgeSites_ok sqrt p r y hp hr hne hs0, ?_, ?_, ?_⟩
  · refine ⟨_, hgp _, ?_⟩
    rw [hgr]
    congr 1
    have := hfac ((-coefB p r y + sqrt (discriminant p r y)) / (2 * coefA p r y))
    rw [sub_self, mul_zero, zero_mul] at this
    exact (sub_eq_zero.mp this).symm
  · intro x' Y' h1 h2
    rw [hgp] at h1; rw [hgr] at h2
    have h0 : arcY p x' y - arcY r x' y = 0 := by
      have e1 : arcY p x' y = Y' := by injection h1
      have e2 : arcY r x' y = Y' := by injection h2
      rw [e1, e2, sub_self]
    rw [hfac x'] at h0
    have := quad_root _ _ _ x' hA hspos h0
    exact ⟨fun h => this.1 (coefA_pos p r y hp hr h), fun h => this.2 (coefA_neg p r y hp hr h)⟩
  · refine ⟨|sqrt (discriminant p r y) / coefA p r y|, abs_pos.mpr (div_ne_zero hspos.ne' hA), ?_⟩
    intro t
    have := quad_sign (coefA p r y) (coefB p r y) _ t hA hspos
    rw [← hfac t] at this
    exact ⟨_, _, hgp t, hgr t, fun h1 h2 => by linarith [this.1 h1 h2],
      fun h1 h2 => by linarith [this.2 h1 h2]⟩

theorem insertGeneral_start (sqrt : K → K) (p : Site K) (o o' : Options K)
    (hsweep : o.sweeplineY = p.pt.2) (h : insertGeneral sqrt p o = .ok o') :
    ∃ el er start, o'.edgeObjs[o.edgeObjs.length]? = some el ∧
      o'.edgeObjs[o.edgeObjs.length + 1]? = some er ∧
      el.start = some start ∧ er.start = some start ∧ el.right = p ∧ er.left = p ∧
      el.left = er.right ∧ start.1 = p.pt.1 ∧ getY el.left.pt p.pt.1 o.sweeplineY = .ok start.2 ∧
      dist2 start el.left.pt = dist2 start p.pt := by
  simp only [insertGeneral, bind_eq_ok] at h
  obtain ⟨par, -, d, -, parN, -, parSite, -, y, hy0, el, hel, er, her, eo, heo, sp, -, c1, -,
    c2, -, h⟩ := h
  cases h
  obtain ⟨-, hel⟩ := Edge_new_eq_ok _ _ _ _ hel
  obtain ⟨-, her⟩ := Edge_new_eq_ok _ _ _ _ her
  obtain ⟨a, ha, -, heo⟩ := store_eq_ok _ _ _ _ heo
  obtain ⟨-, hy⟩ := getY_eq_ok _ _ _ _ hy0
  simp only [getElem?_alloc, alloc_snd, length_alloc] at ha heo
  simp at ha
  subst ha
  refine ⟨{ el with neighbour := some (o.edgeObjs.length + 1) }, er, (p.pt.1, y), ?_, ?_, ?_⟩
  · simp only [heo]; simp
  · simp [heo]
  · subst hel her
    refine ⟨rfl, rfl, rfl, rfl, rfl, rfl, hy0, ?_⟩
    simp only [dist2]
    rw [hsweep] at hy
    rw [hy]; ring

end KernelFacts

/-! ## Claims on the geometry kernel and on the entry point -/

section KernelClaims

variable {K : Type} [LinearOrderedField K]

/-- C5: called with fewer than 2 points, `compute` returns the empty list (not the
`{edges, cells}` record), whatever the square root and the queue are: no queue is built
and no event is processed. -/
theorem compute_insufficient_input (sqrt : K → K) (tie : List (HeapNode K) → Nat)
    (points : List (Pt K)) (width height : K) (h : points.length < 2) :
    compute sqrt tie points width height = .ok .emptyList := by
  simp [compute, h]
  rfl

theorem compute_insufficient_input_witness :
    ([((3 : ℚ), (4 : ℚ))] : List (Pt ℚ)).length < 2 ∧
      compute sqrtQ fifo [((3 : ℚ), (4 : ℚ))] 10 10 = .ok .emptyList :=
  ⟨by decide, compute_insufficient_input sqrtQ fifo [((3 : ℚ), (4 : ℚ))] 10 10 (by decide)⟩

/-- C9: `getLineIntersection` returns `null` exactly when the determinant is zero;
otherwise it returns a point collinear with `a1, a2` and with `b1, b2`, and every point
collinear with both pairs is that point. -/
theorem getLineIntersection_spec (a1 a2 b1 b2 : Pt K) :
    (getLineIntersection a1 a2 b1 b2 = none ↔ lineDet a1 a2 b1 b2 = 0) ∧
    (lineDet a1 a2 b1 b2 ≠ 0 →
      ∃ i, getLineIntersection a1 a2 b1 b2 = some i ∧ collinear a1 a2 i ∧ collinear b1 b2 i ∧
        ∀ q, collinear a1 a2 q → collinear b1 b2 q → q = i) := by
  obtain ⟨x1, y1⟩ := a1
  obtain ⟨x2, y2⟩ := a2
  obtain ⟨x3, y3⟩ := b1
  obtain ⟨x4, y4⟩ := b2
  constructor
  · simp only [getLineIntersection, lineDet, eq_exact]
    split_ifs with h
    · simp [h]
    · simp [h]
  · intro hdet
    simp only [lineDet] at hdet
    have hi : getLineIntersection (x1, y1) (x2, y2) (x3, y3) (x4, y4) = some
        (((x1 * y2 - y1 * x2) * (x3 - x4) - (x1 - x2) * (x3 * y4 - y3 * x4)) /
          ((x1 - x2) * (y3 - y4) - (y1 - y2) * (x3 - x4)),
        ((x1 * y2 - y1 * x2) * (y3 - y4) - (y1 - y2) * (x3 * y4 - y3 * x4)) /
          ((x1 - x2) * (y3 - y4) - (y1 - y2) * (x3 - x4))) := by
      simp only [getLineIntersection, eq_exact, if_neg hdet]
    refine ⟨_, hi, ?_, ?_, ?_⟩
    · simp only [collinear]
      field_simp
      ring
    · simp only [collinear]
      field_simp
      ring
    · rintro ⟨qx, qy⟩ h1 h2
      simp only [collinear] at h1 h2
      have hx : qx * ((x1 - x2) * (y3 - y4) - (y1 - y2) * (x3 - x4)) =
          (x1 * y2 - y1 * x2) * (x3 - x4) - (x1 - x2) * (x3 * y4 - y3 * x4) := by
        linear_combination (x3 - x4) * h1 - (x1 - x2) * h2
      have hy : qy * ((x1 - x2) * (y3 - y4) - (y1 - y2) * (x3 - x4)) =
          (x1 * y2 - y1 * x2) * (y3 - y4) - (y1 - y2) * (x3 * y4 - y3 * x4) := by
        linear_combination (y3 - y4) * h1 - (y1 - y2) * h2
      ext
      · exact (eq_div_iff hdet).mpr hx
      · exact (eq_div_iff hdet).mpr hy

theorem getLineIntersection_spec_witness :
    lineDet ((0 : ℚ), (0 : ℚ)) (2, 2) (0, 2) (2, 0) ≠ 0 ∧
    ∃ i, getLineIntersection ((0 : ℚ), (0 : ℚ)) (2, 2) (0, 2) (2, 0) = some i ∧
      collinear ((0 : ℚ), (0 : ℚ)) (2, 2) i ∧ collinear ((0 : ℚ), (2 : ℚ)) (2, 0) i ∧
      ∀ q, collinear ((0 : ℚ), (0 : ℚ)) (2, 2) q → collinear ((0 : ℚ), (2 : ℚ)) (2, 0) q →
        q = i :=
  have h : lineDet ((0 : ℚ), (0 : ℚ)) (2, 2) (0, 2) (2, 0) ≠ 0 := by
    simp only [lineDet]; norm_num
  ⟨h, (getLineIntersection_spec ((0 : ℚ), (0 : ℚ)) (2, 2) (0, 2) (2, 0)).2 h⟩

/-- C10: for `Edge(s, a, b)` with `a.y ≠ b.y` the constructor succeeds, `s.y = f * s.x + g`,
the line direction `(1, f)` is perpendicular to `b - a`, the stored direction is
`(b.y - a.y, -(b.x - a.x))`, it is perpendicular to `b - a` and has slope `f` (its first
component is non-zero), and `B = s + direction` lies on `y = f * x + g`. -/
theorem Edge_new_line (s : Pt K) (a b : Site K) (h : a.pt.2 ≠ b.pt.2) :
    ∃ e, Edge.new s a b = .ok e ∧
      s.2 = e.f * s.1 + e.g ∧
      1 * (b.pt.1 - a.pt.1) + e.f * (b.pt.2 - a.pt.2) = 0 ∧
      e.direction = (b.pt.2 - a.pt.2, -(b.pt.1 - a.pt.1)) ∧
      e.direction.1 * (b.pt.1 - a.pt.1) + e.direction.2 * (b.pt.2 - a.pt.2) = 0 ∧
      e.direction.1 ≠ 0 ∧ e.direction.2 / e.direction.1 = e.f ∧
      e.B = (s.1 + e.direction.1, s.2 + e.direction.2) ∧
      e.B.2 = e.f * e.B.1 + e.g := by
  have hd : a.pt.2 - b.pt.2 ≠ 0 := sub_ne_zero.mpr h
  have hd' : b.pt.2 - a.pt.2 ≠ 0 := sub_ne_zero.mpr (Ne.symm h)
  refine ⟨_, Edge_new_ok s a b h, ?_, ?_, rfl, ?_, hd', ?_, rfl, ?_⟩
  · simp only; ring
  · simp only; field_simp; ring
  · simp only; ring
  · simp only; field_simp; ring
  · simp only; field_simp; ring

theorem Edge_new_line_witness :
    ∃ e, Edge.new ((1 : ℚ), (2 : ℚ)) ⟨0, (0, 5)⟩ ⟨1, (10, 0)⟩ = .ok e ∧
      (2 : ℚ) = e.f * 1 + e.g ∧
      1 * ((10 : ℚ) - 0) + e.f * (0 - 5) = 0 ∧
      e.direction = ((0 : ℚ) - 5, -((10 : ℚ) - 0)) ∧
      e.direction.1 * ((10 : ℚ) - 0) + e.direction.2 * (0 - 5) = 0 ∧
      e.direction.1 ≠ 0 ∧ e.direction.2 / e.direction.1 = e.f ∧
      e.B = (1 + e.direction.1, 2 + e.direction.2) ∧
      e.B.2 = e.f * e.B.1 + e.g :=
  Edge_new_line ((1 : ℚ), (2 : ℚ)) ⟨0, (0, 5)⟩ ⟨1, (10, 0)⟩ (by norm_num)

/-- C7: when the arcs flanking the breakpoint `par` hold sites `p` (left) and `r` (right)
strictly above the sweep height with `p.y ≠ r.y`, and `sqrt` is exact on the discriminant,
`getXOfEdge` returns an `x` where the two parabolas meet; it is the larger meeting point
when `p.y < r.y` and the smaller one otherwise; just left of `x` the parabola of `p` is the
lower one and just right of `x` the parabola of `r` is. -/
theorem getXOfEdge_breakpoint (sqrt : K → K) (nodes : List (Parabola K))
    (par left right : Option Nat) (ln rn : Parabola K) (p r : Site K) (y : K)
    (hl : getLeftChild nodes par = .ok left) (hr : getRightChild nodes par = .ok right)
    (hln : load nodes left = .ok ln) (hrn : load nodes right = .ok rn)
    (hps : ln.site = some p) (hrs : rn.site = some r)
    (hpy : y < p.pt.2) (hry : y < r.pt.2) (hne : p.pt.2 ≠ r.pt.2)
    (hs0 : 0 ≤ sqrt (discriminant p.pt r.pt y))
    (hs : sqrt (discriminant p.pt r.pt y) * sqrt (discriminant p.pt r.pt y) =
      discriminant p.pt r.pt y) :
    ∃ x, getXOfEdge sqrt nodes par y = .ok x ∧
      (∃ Y, getY p.pt x y = .ok Y ∧ getY r.pt x y = .ok Y) ∧
      (∀ x' Y', getY p.pt x' y = .ok Y' → getY r.pt x' y = .ok Y' →
        (p.pt.2 < r.pt.2 → x' ≤ x) ∧ (r.pt.2 < p.pt.2 → x ≤ x')) ∧
      (∃ ε, 0 < ε ∧ ∀ t, ∃ Yp Yr, getY p.pt t y = .ok Yp ∧ getY r.pt t y = .ok Yr ∧
        (x - ε < t → t < x → Yp < Yr) ∧ (x < t → t < x + ε → Yr < Yp)) := by
  have h : getXOfEdge sqrt nodes par y = getXOfEdgeSites sqrt p.pt r.pt y := by
    simp [getXOfEdge, hl, hr, hln, hrn, hps, hrs, deref, bind, Except.bind]
  rw [h]
  exact getXOfEdgeSites_breakpoint sqrt p.pt r.pt y hpy hry hne hs0 hs

theorem getXOfEdge_breakpoint_witness :
    ∃ x, getXOfEdge sqrtQ
        [{ (Parabola.new none : Parabola ℚ) with left := some 1, right := some 2 },
         { Parabola.new (some ⟨0, (0, 1)⟩) with parent := some 0 },
         { Parabola.new (some ⟨1, (0, 4)⟩) with parent := some 0 }] (some 0) 0 = .ok x ∧
      (∃ Y, getY ((0 : ℚ), (1 : ℚ)) x 0 = .ok Y ∧ getY ((0 : ℚ), (4 : ℚ)) x 0 = .ok Y) ∧
      (∀ x' Y', getY ((0 : ℚ), (1 : ℚ)) x' 0 = .ok Y' → getY ((0 : ℚ), (4 : ℚ)) x' 0 = .ok Y' →
        ((1 : ℚ) < 4 → x' ≤ x) ∧ ((4 : ℚ) < 1 → x ≤ x')) ∧
      (∃ ε, 0 < ε ∧ ∀ t, ∃ Yp Yr, getY ((0 : ℚ), (1 : ℚ)) t 0 = .ok Yp ∧
        getY ((0 : ℚ), (4 : ℚ)) t 0 = .ok Yr ∧
        (x - ε < t → t < x → Yp < Yr) ∧ (x < t → t < x + ε → Yr < Yp)) :=
  getXOfEdge_breakpoint sqrtQ
    [{ (Parabola.new none : Parabola ℚ) with left := some 1, right := some 2 },
     { Parabola.new (some ⟨0, (0, 1)⟩) with parent := some 0 },
     { Parabola.new (some ⟨1, (0, 4)⟩) with parent := some 0 }] (some 0) (some 1) (some 2)
    { Parabola.new (some ⟨0, (0, 1)⟩) with parent := some 0 }
    { Parabola.new (some ⟨1, (0, 4)⟩) with parent := some 0 } ⟨0, (0, 1)⟩ ⟨1, (0, 4)⟩ 0
    (by decide!) (by decide!) (by decide!) (by decide!) rfl rfl (by norm_num) (by norm_num)
    (by norm_num) (by decide!) (by decide!)

/-- C8: for a site `p` with `p.y ≠ sweeplineY`, `getY` returns the ordinate `Y` of the
parabola with focus `p` and directrix `y = sweeplineY`:
`(x - p.x)^2 + (Y - p.y)^2 = (Y - sweeplineY)^2`. Hence in a general site event for the
site `p` (the sweep height being `p.y`), the two edges created start at the same point
`(p.x, getY(par.site, p.x, sweeplineY))`, bisect `(par.site, p)` and `(p, par.site)`, and
that point is equidistant from `par.site` and `p`. -/
theorem getY_parabola :
    (∀ (p : Pt K) (x sweeplineY : K), p.2 ≠ sweeplineY →
      ∃ Y, getY p x sweeplineY = .ok Y ∧
        (x - p.1) ^ 2 + (Y - p.2) ^ 2 = (Y - sweeplineY) ^ 2) ∧
    (∀ (sqrt : K → K) (p : Site K) (o o' : Options K), o.sweeplineY = p.pt.2 →
      insertGeneral sqrt p o = .ok o' →
      ∃ el er start, o'.edgeObjs[o.edgeObjs.length]? = some el ∧
        o'.edgeObjs[o.edgeObjs.length + 1]? = some er ∧
        el.start = some start ∧ er.start = some start ∧ el.right = p ∧ er.left = p ∧
        el.left = er.right ∧ start.1 = p.pt.1 ∧
        getY el.left.pt p.pt.1 o.sweeplineY = .ok start.2 ∧
        dist2 start el.left.pt = dist2 start p.pt) := by
  constructor
  · intro p x y h
    exact ⟨_, getY_ok p x y h, (getY_eq_ok p x y _ (getY_ok p x y h)).2⟩
  · intro sqrt p o o' hsweep h
    exact insertGeneral_start sqrt p o o' hsweep h

theorem getY_parabola_witness :
    (∃ Y, getY ((0 : ℚ), (5 : ℚ)) 10 0 = .ok Y ∧
      ((10 : ℚ) - 0) ^ 2 + (Y - 5) ^ 2 = (Y - 0) ^ 2) ∧
    ∃ o', insertGeneral sqrtQ ⟨1, (10, 0)⟩ secondSiteState = .ok o' ∧
      ∃ el er start, o'.edgeObjs[secondSiteState.edgeObjs.length]? = some el ∧
        o'.edgeObjs[secondSiteState.edgeObjs.length + 1]? = some er ∧
        el.start = some start ∧ er.start = some start ∧ el.right = ⟨1, (10, 0)⟩ ∧
        er.left = ⟨1, (10, 0)⟩ ∧ el.left = er.right ∧ start.1 = 10 ∧
        getY el.left.pt 10 secondSiteState.sweeplineY = .ok start.2 ∧
        dist2 start el.left.pt = dist2 start ((10 : ℚ), (0 : ℚ)) := by
  have hok : (insertGeneral sqrtQ ⟨1, (10, 0)⟩ secondSiteState).toOption.isSome = true := by
    decide!
  cases h : insertGeneral sqrtQ ⟨1, (10, 0)⟩ secondSiteState with
  | error e => rw [h] at hok; cases hok
  | ok o' =>
    exact ⟨getY_parabola.1 ((0 : ℚ), (5 : ℚ)) 10 0 (by norm_num), o', rfl,
      getY_parabola.2 sqrtQ ⟨1, (10, 0)⟩ secondSiteState o' rfl h⟩

end KernelClaims

/-! ## Runs of `compute` on concrete inputs -/

section Runs

/-- C4 (fails): on the three sites `(0,4), (0,1), (0,0)` of one vertical line the two
edges bounding the middle arc are parallel, `getLineIntersection` returns `null`,
`getEdgeIntersection` indexes it (line 301) and `compute` ends with a TypeError, whatever
the order of the queue among equal priorities. -/
theorem compute_vertical_line_typeError :
    getLineIntersection ((0 : ℚ), (5 / 2 : ℚ)) (-3, 5 / 2) (0, 1 / 2) (-1, 1 / 2) = none ∧
    compute sqrtQ fifo [(0, 4), (0, 1), (0, 0)] 10 10 = .error .typeError ∧
    compute sqrtQ lifo [(0, 4), (0, 1), (0, 0)] 10 10 = .error .typeError := by
  refine ⟨by decide!, by decide!, by decide!⟩

/-- C2 (fails): for the three distinct sites `(0,4), (0,1), (0,0)` no record
`{edges, cells}` is returned. -/
theorem compute_three_sites_no_diagram :
    ([(0, 4), (0, 1), (0, 0)] : List (Pt ℚ)).Nodup ∧
    ∀ edges cells, compute sqrtQ fifo [(0, 4), (0, 1), (0, 0)] 10 10 ≠
      .ok (.diagram edges cells) := by
  refine ⟨by decide!, fun edges cells h => ?_⟩
  have h' : compute sqrtQ fifo [(0, 4), (0, 1), (0, 0)] 10 10 = .error .typeError := by
    decide!
  rw [h'] at h
  cases h

/-- C6 (fails): on the triangle `(0,0), (10,0), (5,10)` the third site processed has the
height of an arc already on the beachline, so `getXOfEdge` divides by `dp = 0`, whatever
the order of the queue among equal priorities; and for two flanking sites of equal height
the difference `a = a1 - a2` is zero. -/
theorem getXOfEdge_zero_denominator :
    compute sqrtQ fifo [(0, 0), (10, 0), (5, 10)] 20 20 =
      .error (.zeroDenominator .getXOfEdge) ∧
    compute sqrtQ lifo [(0, 0), (10, 0), (5, 10)] 20 20 =
      .error (.zeroDenominator .getXOfEdge) ∧
    getXOfEdgeSites sqrtQ (0, 0) (5, 10) 0 = .error (.zeroDenominator .getXOfEdge) ∧
    coefA ((0 : ℚ), (10 : ℚ)) (10, 10) 0 = 0 ∧
    getXOfEdgeSites sqrtQ (0, 10) (10, 10) 0 = .error (.zeroDenominator .getXOfEdge) := by
  refine ⟨by decide!, by decide!, by decide!, by decide!, by decide!⟩

end Runs

end Voronoi

namespace Voronoi
section
variable {K : Type} [LinearOrderedField K]

theorem extractMinimum_two_first (tie : List (HeapNode K) → Nat) (k0 k1 : K) (v0 v1 : Event K)
    (h : k0 < k1) :
    FibonacciHeap.extractMinimum tie { nodes := [⟨k0, 0, v0⟩, ⟨k1, 1, v1⟩], count := 2 } =
      some (⟨k0, 0, v0⟩, { nodes := [⟨k1, 1, v1⟩], count := 2 }) := by
  have h1 : min k0 k1 = k0 := min_eq_left h.le
  have h2 : ¬ k1 = k0 := h.ne'
  simp [FibonacciHeap.extractMinimum, minKey, h1, h2, FibonacciHeap.delete, Nat.mod_one]

theorem extractMinimum_two_second (tie : List (HeapNode K) → Nat) (k0 k1 : K) (v0 v1 : Event K)
    (h : k1 < k0) :
    FibonacciHeap.extractMinimum tie { nodes := [⟨k0, 0, v0⟩, ⟨k1, 1, v1⟩], count := 2 } =
      some (⟨k1, 1, v1⟩, { nodes := [⟨k0, 0, v0⟩], count := 2 }) := by
  have h1 : min k0 k1 = k1 := min_eq_right h.le
  have h2 : ¬ k0 = k1 := h.ne'
  simp [FibonacciHeap.extractMinimum, minKey, h1, h2, FibonacciHeap.delete, Nat.mod_one]

theorem extractMinimum_one (tie : List (HeapNode K) → Nat) (n : HeapNode K) (c : Nat) :
    FibonacciHeap.extractMinimum tie { nodes := [n], count := c } =
      some (n, { nodes := [], count := c }) := by
  simp [FibonacciHeap.extractMinimum, minKey, FibonacciHeap.delete, Nat.mod_one]

/-- The bisector line through a point equidistant from `a` and `b`. -/
theorem bisector_point (a b : Pt K) (x0 y0 X : K) (hne : a.2 ≠ b.2)
    (h0 : dist2 (x0, y0) a = dist2 (x0, y0) b) :
    dist2 (X, (b.1 - a.1) / (a.2 - b.2) * X + (y0 - (b.1 - a.1) / (a.2 - b.2) * x0)) a =
      dist2 (X, (b.1 - a.1) / (a.2 - b.2) * X + (y0 - (b.1 - a.1) / (a.2 - b.2) * x0)) b := by
  have hd : a.2 - b.2 ≠ 0 := sub_ne_zero.mpr hne
  simp only [dist2] at h0 ⊢
  field_simp
  linear_combination (a.2 - b.2) ^ 2 * h0

theorem compute_two_sites_first_higher (sqrt : K → K) (tie : List (HeapNode K) → Nat)
    (a b : Pt K) (width height : K) (hgap : 0.01 ≤ a.2 - b.2) :
    ∃ e cells s t, compute sqrt tie [a, b] width height = .ok (.diagram [e] cells) ∧
      e.start = some s ∧ e.endp = some t ∧ dist2 s a = dist2 s b ∧ dist2 t a = dist2 t b := by
  have h001 : (0 : K) < 0.01 := by norm_num
  have hlt : b.2 < a.2 := by linarith
  have hne : ¬ a.2 = b.2 := hlt.ne'
  have hd : ¬ 2 * (a.2 - b.2) = 0 := by
    intro h; apply hne; linarith
  have hd1 : ¬ a.2 - b.2 = 0 := fun h => hne (sub_eq_zero.mp h)
  have hd2 : ¬ b.2 - a.2 = 0 := fun h => hne (sub_eq_zero.mp h).symm
  have hk : -a.2 < -b.2 := neg_lt_neg hlt
  have hdeg : ¬ (a.2 - b.2 < 0.01) := not_lt.mpr hgap
  have hdir1 : 0 < a.2 - b.2 := sub_pos.mpr hlt
  have hdir2 : ¬ (0 < b.2 - a.2) := by linarith
  have hstart := (getY_eq_ok a b.1 b.2 _ (getY_ok a b.1 b.2 hne)).2
  have h0 : dist2 (b.1, arcY a b.1 b.2) a = dist2 (b.1, arcY a b.1 b.2) b := by
    simp only [dist2, arcY]
    rw [hstart]; ring
  cases hc : compute sqrt tie [a, b] width height with
  | error e =>
    simp [compute, initialOptions, insertSites, FibonacciHeap.insert, FibonacciHeap.new, sweep,
      FibonacciHeap.isEmpty, extractMinimum_two_first tie _ _ _ _ hk, extractMinimum_one,
      insertParabola, insertFirst, degenerateTest, hdeg,
      insertGeneral, getParabolaByX, load, deref, Parabola.new, dropCircleEvent, getY, divide_exact,
      hd, Edge.new, hd1, hd2, alloc, store, splitArc, setLeft, setRight, computeCircleEvents,
      getLeftParent, getRightParent, getLeftParentLoop, getRightParentLoop, getLeftChild,
      getRightChild, descendLeft, descendRight, finishEdge, linkNeighbours, hdir1, hdir2,
      collectEdges, bind, Except.bind, pure, Except.pure] at hc
  | ok out =>
    simp [compute, initialOptions, insertSites, FibonacciHeap.insert, FibonacciHeap.new, sweep,
      FibonacciHeap.isEmpty, extractMinimum_two_first tie _ _ _ _ hk, extractMinimum_one,
      insertParabola, insertFirst, degenerateTest, hdeg,
      insertGeneral, getParabolaByX, load, deref, Parabola.new, dropCircleEvent, getY, divide_exact,
      hd, Edge.new, hd1, hd2, alloc, store, splitArc, setLeft, setRight, computeCircleEvents,
      getLeftParent, getRightParent, getLeftParentLoop, getRightParentLoop, getLeftChild,
      getRightChild, descendLeft, descendRight, finishEdge, linkNeighbours, hdir1, hdir2,
      collectEdges, bind, Except.bind, pure, Except.pure] at hc
    subst hc
    refine ⟨_, _, _, _, rfl, rfl, rfl, ?_, ?_⟩
    · have := bisector_point b a b.1 (arcY a b.1 b.2) (width ⊔ (b.1 + 10)) (Ne.symm hne) h0.symm
      have e : b.1 * b.1 / (2 * (a.2 - b.2)) + -(2 * a.1) / (2 * (a.2 - b.2)) * b.1 +
          (b.2 + 2 * (a.2 - b.2) / 4 + a.1 * a.1 / (2 * (a.2 - b.2))) = arcY a b.1 b.2 := by
        simp only [arcY]; ring
      rw [e]
      exact this.symm
    · have e : b.1 * b.1 / (2 * (a.2 - b.2)) + -(2 * a.1) / (2 * (a.2 - b.2)) * b.1 +
          (b.2 + 2 * (a.2 - b.2) / 4 + a.1 * a.1 / (2 * (a.2 - b.2))) = arcY a b.1 b.2 := by
        simp only [arcY]; ring
      rw [e]
      exact bisector_point a b b.1 (arcY a b.1 b.2) (0 ⊓ (b.1 - 10)) hne h0
theorem compute_two_sites_second_higher (sqrt : K → K) (tie : List (HeapNode K) → Nat)
    (a b : Pt K) (width height : K) (hgap : 0.01 ≤ b.2 - a.2) :
    ∃ e cells s t, compute sqrt tie [a, b] width height = .ok (.diagram [e] cells) ∧
      e.start = some s ∧ e.endp = some t ∧ dist2 s a = dist2 s b ∧ dist2 t a = dist2 t b := by
  have h001 : (0 : K) < 0.01 := by norm_num
  have hlt : a.2 < b.2 := by linarith
  have hne : ¬ b.2 = a.2 := hlt.ne'
  have hd : ¬ 2 * (b.2 - a.2) = 0 := by
    intro h; apply hne; linarith
  have hd1 : ¬ b.2 - a.2 = 0 := fun h => hne (sub_eq_zero.mp h)
  have hd2 : ¬ a.2 - b.2 = 0 := fun h => hne (sub_eq_zero.mp h).symm
  have hk : -b.2 < -a.2 := neg_lt_neg hlt
  have hdeg : ¬ (b.2 - a.2 < 0.01) := not_lt.mpr hgap
  have hdir1 : 0 < b.2 - a.2 := sub_pos.mpr hlt
  have hdir2 : ¬ (0 < a.2 - b.2) := by linarith
  have hstart := (getY_eq_ok b a.1 a.2 _ (getY_ok b a.1 a.2 hne)).2
  have h0 : dist2 (a.1, arcY b a.1 a.2) b = dist2 (a.1, arcY b a.1 a.2) a := by
    simp only [dist2, arcY]
    rw [hstart]; ring
  cases hc : compute sqrt tie [a, b] width height with
  | error e =>
    simp [compute, initialOptions, insertSites, FibonacciHeap.insert, FibonacciHeap.new, sweep,
      FibonacciHeap.isEmpty, extractMinimum_two_second tie _ _ _ _ hk, extractMinimum_one,
      insertParabola, insertFirst, degenerateTest, hdeg,
      insertGeneral, getParabolaByX, load, deref, Parabola.new, dropCircleEvent, getY, divide_exact,
      hd, Edge.new, hd1, hd2, alloc, store, splitArc, setLeft, setRight, computeCircleEvents,
      getLeftParent, getRightParent, getLeftParentLoop, getRightParentLoop, getLeftChild,
      getRightChild, descendLeft, descendRight, finishEdge, linkNeighbours, hdir1, hdir2,
      collectEdges, bind, Except.bind, pure, Except.pure] at hc
  | ok out =>
    simp [compute, initialOptions, insertSites, FibonacciHeap.insert, FibonacciHeap.new, sweep,
      FibonacciHeap.isEmpty, extractMinimum_two_second tie _ _ _ _ hk, extractMinimum_one,
      insertParabola, insertFirst, degenerateTest, hdeg,
      insertGeneral, getParabolaByX, load, deref, Parabola.new, dropCircleEvent, getY, divide_exact,
      hd, Edge.new, hd1, hd2, alloc, store, splitArc, setLeft, setRight, computeCircleEvents,
      getLeftParent, getRightParent, getLeftParentLoop, getRightParentLoop, getLeftChild,
      getRightChild, descendLeft, descendRight, finishEdge, linkNeighbours, hdir1, hdir2,
      collectEdges, bind, Except.bind, pure, Except.pure] at hc
    subst hc
    have e : a.1 * a.1 / (2 * (b.2 - a.2)) + -(2 * b.1) / (2 * (b.2 - a.2)) * a.1 +
        (a.2 + 2 * (b.2 - a.2) / 4 + b.1 * b.1 / (2 * (b.2 - a.2))) = arcY b a.1 a.2 := by
      simp only [arcY]; ring
    refine ⟨_, _, _, _, rfl, rfl, rfl, ?_, ?_⟩
    · rw [e]
      exact bisector_point a b a.1 (arcY b a.1 a.2) (width ⊔ (a.1 + 10)) (Ne.symm hne) h0.symm
    · rw [e]
      exact (bisector_point b a a.1 (arcY b a.1 a.2) (0 ⊓ (a.1 - 10)) hne h0).symm

/-- C3 (as amended): for every two input points whose heights differ by at least the tie
threshold `0.01`, `compute` returns exactly one edge, and the final start and the final
end of that edge are both equidistant from the two sites. -/
theorem compute_two_sites (sqrt : K → K) (tie : List (HeapNode K) → Nat)
    (a b : Pt K) (width height : K) (hgap : 0.01 ≤ |a.2 - b.2|) :
    ∃ e cells s t, compute sqrt tie [a, b] width height = .ok (.diagram [e] cells) ∧
      e.start = some s ∧ e.endp = some t ∧ dist2 s a = dist2 s b ∧ dist2 t a = dist2 t b := by
  rcases le_abs'.mp hgap with h | h
  · exact compute_two_sites_second_higher sqrt tie a b width height (by linarith)
  · exact compute_two_sites_first_higher sqrt tie a b width height h

theorem compute_two_sites_witness :
    (0.01 : ℚ) ≤ |(5 : ℚ) - 0| ∧
    ∃ e cells s t, compute sqrtQ fifo [(0, 5), (10, 0)] 20 20 = .ok (.diagram [e] cells) ∧
      e.start = some s ∧ e.endp = some t ∧
      dist2 s ((0 : ℚ), (5 : ℚ)) = dist2 s ((10 : ℚ), (0 : ℚ)) ∧
      dist2 t ((0 : ℚ), (5 : ℚ)) = dist2 t ((10 : ℚ), (0 : ℚ)) :=
  have h : (0.01 : ℚ) ≤ |(5 : ℚ) - 0| := by norm_num
  ⟨h, compute_two_sites sqrtQ fifo ((0 : ℚ), (5 : ℚ)) ((10 : ℚ), (0 : ℚ)) 20 20 h⟩

/-- C3 (as stated, fails): the two distinct points `(0, 1/200)` and `(10, 0)` take the
degenerate branch of line 63; the single edge returned starts at `(5, height)`, which is
not equidistant from the two sites. -/
theorem compute_two_sites_degenerate :
    ∃ e cells s, compute sqrtQ fifo [(0, 1 / 200), (10, 0)] 20 20 = .ok (.diagram [e] cells) ∧
      e.start = some s ∧
      dist2 s ((0 : ℚ), (1 / 200 : ℚ)) ≠ dist2 s ((10 : ℚ), (0 : ℚ)) := by
  refine ⟨{ left := ⟨0, (0, 1 / 200)⟩, right := ⟨1, (10, 0)⟩, start := some (5, 20),
            endp := some (-5, -19980), f := 2000, g := -9980, direction := (-1 / 200, -10),
            B := (999 / 200, 10), neighbour := none },
    [Polygon.new, Polygon.new], (5, 20), by decide!, rfl, by decide!⟩

end
end Voronoi

namespace Voronoi

/-! ## Stores -/

section StoreFacts

variable {K : Type}

theorem deref_eq_ok {α : Type} (r : Option α) (a : α) : deref r = .ok a ↔ r = some a := by
  cases r <;> simp [deref]

theorem load_eq_ok {α : Type} (objs : List α) (r : Option Nat) (a : α) :
    load objs r = .ok a ↔ ∃ i, r = some i ∧ objs[i]? = some a := by
  simp only [load, bind_eq_ok, deref_eq_ok]

theorem load_some {α : Type} (objs : List α) (i : Nat) (a : α) :
    load objs (some i) = .ok a ↔ objs[i]? = some a := by
  simp [load_eq_ok]

theorem lt_of_getElem? {α : Type} {objs : List α} {i : Nat} {a : α} (h : objs[i]? = some a) :
    i < objs.length := by
  by_contra hc
  rw [List.getElem?_eq_none (by omega)] at h
  cases h

theorem sameAt_refl {α β : Type} (f : α → β) (objs : List α) (i : Nat) :
    sameAt f objs objs i := rfl

theorem sameAt_trans {α β : Type} {f : α → β} {o1 o2 o3 : List α} {i : Nat}
    (h1 : sameAt f o1 o2 i) (h2 : sameAt f o2 o3 i) : sameAt f o1 o3 i := by
  unfold sameAt at *
  rw [h2, h1]

theorem sameAt_of_eq {α β : Type} (f : α → β) {objs objs' : List α} {i : Nat}
    (h : objs'[i]? = objs[i]?) : sameAt f objs objs' i := by
  unfold sameAt; rw [h]

theorem sameAt_get {α β : Type} {f : α → β} {objs objs' : List α} {i : Nat} {a : α}
    (h : sameAt f objs objs' i) (ha : objs[i]? = some a) :
    ∃ a', objs'[i]? = some a' ∧ f a' = f a := by
  unfold sameAt at h
  rw [ha] at h
  cases h' : objs'[i]? with
  | none => rw [h'] at h; cases h
  | some a' =>
    rw [h'] at h
    simp only [Option.map_some', Option.some.injEq] at h
    exact ⟨a', rfl, h⟩

theorem sameAt_get' {α β : Type} {f : α → β} {objs objs' : List α} {i : Nat} {a' : α}
    (h : sameAt f objs objs' i) (ha : objs'[i]? = some a') :
    ∃ a, objs[i]? = some a ∧ f a' = f a := by
  unfold sameAt at h
  rw [ha] at h
  cases h' : objs[i]? with
  | none => rw [h'] at h; cases h
  | some a =>
    rw [h'] at h
    simp only [Option.map_some', Option.some.injEq] at h
    exact ⟨a, rfl, h⟩

theorem store_other {α : Type} {objs objs' : List α} {i : Nat} {g : α → α}
    (h : store objs i g = .ok objs') {j : Nat} (hj : j ≠ i) : objs'[j]? = objs[j]? := by
  obtain ⟨a, -, -, hall⟩ := store_eq_ok _ _ _ _ h
  rw [hall j, if_neg hj]

theorem store_length {α : Type} {objs objs' : List α} {i : Nat} {g : α → α}
    (h : store objs i g = .ok objs') : objs'.length = objs.length := by
  obtain ⟨a, -, hl, -⟩ := store_eq_ok _ _ _ _ h
  exact hl

theorem store_sameAt {α β : Type} (f : α → β) {objs objs' : List α} {i : Nat} {g : α → α}
    (h : store objs i g = .ok objs') (hf : ∀ a, f (g a) = f a) (j : Nat) :
    sameAt f objs objs' j := by
  obtain ⟨a, ha, -, hall⟩ := store_eq_ok _ _ _ _ h
  unfold sameAt
  rw [hall j]
  by_cases hj : j = i
  · subst hj; simp [ha, hf]
  · simp [hj]

theorem alloc_old {α : Type} (objs : List α) (a : α) {j : Nat} (hj : j < objs.length) :
    (alloc objs a).1[j]? = objs[j]? := by
  rw [getElem?_alloc, if_neg (by omega)]

theorem alloc_new {α : Type} (objs : List α) (a : α) :
    (alloc objs a).1[objs.length]? = some a := by
  rw [getElem?_alloc, if_pos rfl]

theorem alloc_sameAt {α β : Type} (f : α → β) (objs : List α) (a : α) {j : Nat}
    (hj : j < objs.length) : sameAt f objs (alloc objs a).1 j :=
  sameAt_of_eq f (alloc_old objs a hj)

theorem setLeft_eq_ok {nodes nodes' : List (Parabola K)} {this : Nat} {p : Option Nat}
    (h : setLeft nodes this p = .ok nodes') :
    ∃ c n cn, p = some c ∧ nodes[this]? = some n ∧
      (if c = this then some { n with left := p } else nodes[c]?) = some cn ∧
      nodes'.length = nodes.length ∧
      ∀ j, nodes'[j]? = if j = c then some { cn with parent := some this }
        else if j = this then some { n with left := p } else nodes[j]? := by
  simp only [setLeft, bind_eq_ok, deref_eq_ok] at h
  obtain ⟨m, hm, c, hc, h⟩ := h
  obtain ⟨n, hn, hl1, hall1⟩ := store_eq_ok _ _ _ _ hm
  obtain ⟨cn, hcn, hl2, hall2⟩ := store_eq_ok _ _ _ _ h
  refine ⟨c, n, cn, hc, hn, ?_, by rw [hl2, hl1], fun j => ?_⟩
  · rw [← hall1 c]; exact hcn
  · rw [hall2 j]
    by_cases hj : j = c
    · simp [hj]
    · simp only [hj, if_false]
      exact hall1 j

theorem setRight_eq_ok {nodes nodes' : List (Parabola K)} {this : Nat} {p : Option Nat}
    (h : setRight nodes this p = .ok nodes') :
    ∃ c n cn, p = some c ∧ nodes[this]? = some n ∧
      (if c = this then some { n with right := p } else nodes[c]?) = some cn ∧
      nodes'.length = nodes.length ∧
      ∀ j, nodes'[j]? = if j = c then some { cn with parent := some this }
        else if j = this then some { n with right := p } else nodes[j]? := by
  simp only [setRight, bind_eq_ok, deref_eq_ok] at h
  obtain ⟨m, hm, c, hc, h⟩ := h
  obtain ⟨n, hn, hl1, hall1⟩ := store_eq_ok _ _ _ _ hm
  obtain ⟨cn, hcn, hl2, hall2⟩ := store_eq_ok _ _ _ _ h
  refine ⟨c, n, cn, hc, hn, ?_, by rw [hl2, hl1], fun j => ?_⟩
  · rw [← hall1 c]; exact hcn
  · rw [hall2 j]
    by_cases hj : j = c
    · simp [hj]
    · simp only [hj, if_false]
      exact hall1 j

end StoreFacts

end Voronoi

namespace Voronoi

/-! ## Shapes and paths -/

section TreeFacts

variable {K : Type}

theorem Tree.id_mem_ids (t : Tree) : t.id ∈ t.ids := by
  cases t <;> simp [Tree.id, Tree.ids]

theorem Tree.ids_perm (t : Tree) : t.ids.Perm (t.inner ++ t.leaves) := by
  induction t with
  | leaf i => simp [Tree.ids, Tree.inner, Tree.leaves]
  | node i l r ihl ihr =>
    simp only [Tree.ids, Tree.inner, Tree.leaves, List.cons_append]
    refine List.Perm.cons _ ?_
    have h := List.Perm.append ihl ihr
    refine h.trans ?_
    simp only [List.append_assoc]
    refine List.Perm.append_left _ ?_
    rw [← List.append_assoc, ← List.append_assoc]
    exact List.Perm.append_right _ List.perm_append_comm

theorem Tree.leaves_subset_ids (t : Tree) {i : Nat} (h : i ∈ t.leaves) : i ∈ t.ids :=
  (Tree.ids_perm t).mem_iff.mpr (List.mem_append_right _ h)

theorem Tree.inner_subset_ids (t : Tree) {i : Nat} (h : i ∈ t.inner) : i ∈ t.ids :=
  (Tree.ids_perm t).mem_iff.mpr (List.mem_append_left _ h)

theorem Tree.not_leaf_of_inner (t : Tree) (hn : t.ids.Nodup) {i : Nat} (h : i ∈ t.inner) :
    i ∉ t.leaves := by
  have := (Tree.ids_perm t).nodup_iff.mp hn
  exact fun h' => (List.nodup_append.mp this).2.2 h h'

theorem Tree.last_mem_leaves (t : Tree) : t.last ∈ t.leaves := by
  induction t with
  | leaf i => simp [Tree.last, Tree.leaves]
  | node i l r _ ihr => simp [Tree.last, Tree.leaves, ihr]

theorem Tree.first_mem_leaves (t : Tree) : t.first ∈ t.leaves := by
  induction t with
  | leaf i => simp [Tree.first, Tree.leaves]
  | node i l r ihl _ => simp [Tree.first, Tree.leaves, ihl]

theorem Frame.fill_id (f : Frame) (t : Tree) : (f.fill t).id = f.id := by
  cases f <;> rfl

theorem Frame.fill_ids_perm (f : Frame) (t : Tree) :
    (f.fill t).ids.Perm (t.ids ++ (f.id :: f.sibling.ids)) := by
  cases f with
  | onLeft i s =>
    simp only [Frame.fill, Tree.ids, Frame.id, Frame.sibling]
    exact (@List.perm_middle _ i t.ids s.ids).symm
  | onRight i s =>
    simp only [Frame.fill, Tree.ids, Frame.id, Frame.sibling]
    refine List.Perm.trans ?_ (@List.perm_middle _ i t.ids s.ids).symm
    exact List.Perm.cons _ List.perm_append_comm

theorem plug_append (fs gs : List Frame) (t : Tree) :
    plug (fs ++ gs) t = plug gs (plug fs t) := by
  induction fs generalizing t with
  | nil => rfl
  | cons f fs ih => simp [plug, ih]

theorem plug_ids_perm (fs : List Frame) (t : Tree) :
    (plug fs t).ids.Perm (t.ids ++ ctxIds fs) := by
  induction fs generalizing t with
  | nil => simp [plug, ctxIds]
  | cons f fs ih =>
    simp only [plug, ctxIds]
    refine (ih (f.fill t)).trans ?_
    refine (List.Perm.append_right _ (Frame.fill_ids_perm f t)).trans ?_
    simp [List.append_assoc]

theorem mem_leaves_plug (fs : List Frame) (t : Tree) (i : Nat) :
    i ∈ (plug fs t).leaves ↔ i ∈ t.leaves ∨ ∃ f ∈ fs, i ∈ f.sibling.leaves := by
  induction fs generalizing t with
  | nil => simp [plug]
  | cons f fs ih =>
    simp only [plug, ih, List.mem_cons, exists_eq_or_imp]
    cases f <;> simp [Frame.fill, Tree.leaves, Frame.sibling, or_assoc, or_comm, or_left_comm]

theorem mem_inner_plug (fs : List Frame) (t : Tree) (i : Nat) :
    i ∈ (plug fs t).inner ↔ i ∈ t.inner ∨ ∃ f ∈ fs, i = f.id ∨ i ∈ f.sibling.inner := by
  induction fs generalizing t with
  | nil => simp [plug]
  | cons f fs ih =>
    simp only [plug, ih, List.mem_cons, exists_eq_or_imp]
    cases f <;> simp [Frame.fill, Tree.inner, Frame.sibling, Frame.id, or_assoc, or_comm,
      or_left_comm]

theorem plug_id_congr (fs : List Frame) {t u : Tree} (h : t.id = u.id) :
    (plug fs t).id = (plug fs u).id := by
  induction fs generalizing t u with
  | nil => exact h
  | cons f fs ih =>
    simp only [plug]
    apply ih
    rw [Frame.fill_id, Frame.fill_id]

theorem exists_plug_of_mem_leaves (t : Tree) {i : Nat} (h : i ∈ t.leaves) :
    ∃ fs, t = plug fs (.leaf i) := by
  induction t with
  | leaf j =>
    simp only [Tree.leaves, List.mem_singleton] at h
    subst h
    exact ⟨[], rfl⟩
  | node j l r ihl ihr =>
    simp only [Tree.leaves, List.mem_append] at h
    rcases h with h | h
    · obtain ⟨fs, hfs⟩ := ihl h
      refine ⟨fs ++ [.onLeft j r], ?_⟩
      rw [plug_append, ← hfs]
      rfl
    · obtain ⟨fs, hfs⟩ := ihr h
      refine ⟨fs ++ [.onRight j l], ?_⟩
      rw [plug_append, ← hfs]
      rfl

theorem Repr_root {nodes : List (Parabola K)} {par : Option Nat} {t : Tree}
    (h : Repr nodes par t) : ∃ n, nodes[t.id]? = some n ∧ n.parent = par := by
  cases t with
  | leaf i => obtain ⟨n, hn, -, hp⟩ := h; exact ⟨n, hn, hp⟩
  | node i l r => obtain ⟨n, hn, -, hp, -⟩ := h; exact ⟨n, hn, hp⟩

theorem Repr_lt {nodes : List (Parabola K)} {par : Option Nat} {t : Tree}
    (h : Repr nodes par t) : ∀ i ∈ t.ids, i < nodes.length := by
  induction t generalizing par with
  | leaf j =>
    obtain ⟨n, hn, -⟩ := h
    intro i hi
    simp only [Tree.ids, List.mem_singleton] at hi
    subst hi
    exact lt_of_getElem? hn
  | node j l r ihl ihr =>
    obtain ⟨n, hn, -, -, -, -, hl, hr⟩ := h
    intro i hi
    simp only [Tree.ids, List.mem_cons, List.mem_append] at hi
    rcases hi with hi | hi | hi
    · subst hi; exact lt_of_getElem? hn
    · exact ihl hl i hi
    · exact ihr hr i hi

theorem Repr_congr {nodes nodes' : List (Parabola K)} {par : Option Nat} {t : Tree}
    (hs : ∀ i ∈ t.ids, sameAt Parabola.links nodes nodes' i) (h : Repr nodes par t) :
    Repr nodes' par t := by
  induction t generalizing par with
  | leaf j =>
    obtain ⟨n, hn, hl, hp⟩ := h
    obtain ⟨n', hn', he⟩ := sameAt_get (hs j (by simp [Tree.ids])) hn
    simp only [Parabola.links, Prod.mk.injEq] at he
    exact ⟨n', hn', he.1 ▸ hl, he.2.1 ▸ hp⟩
  | node j l r ihl ihr =>
    obtain ⟨n, hn, hl, hp, hlf, hrt, h1, h2⟩ := h
    obtain ⟨n', hn', he⟩ := sameAt_get (hs j (by simp [Tree.ids])) hn
    simp only [Parabola.links, Prod.mk.injEq] at he
    refine ⟨n', hn', he.1 ▸ hl, he.2.1 ▸ hp, he.2.2.1 ▸ hlf, he.2.2.2 ▸ hrt, ?_, ?_⟩
    · exact ihl (fun i hi => hs i (by simp [Tree.ids, hi])) h1
    · exact ihr (fun i hi => hs i (by simp [Tree.ids, hi])) h2

theorem Repr_reparent {nodes nodes' : List (Parabola K)} {par par' : Option Nat} {t : Tree}
    (hn : t.ids.Nodup)
    (hroot : ∀ n, nodes[t.id]? = some n → nodes'[t.id]? = some { n with parent := par' })
    (hs : ∀ i ∈ t.ids, i ≠ t.id → sameAt Parabola.links nodes nodes' i)
    (h : Repr nodes par t) : Repr nodes' par' t := by
  cases t with
  | leaf j =>
    obtain ⟨n, hn, hl, hp⟩ := h
    exact ⟨_, hroot n hn, hl, rfl⟩
  | node j l r =>
    obtain ⟨n, hnj, hl, hp, hlf, hrt, h1, h2⟩ := h
    simp only [Tree.ids, List.nodup_cons, List.mem_append, not_or] at hn
    refine ⟨_, hroot n hnj, hl, rfl, hlf, hrt, ?_, ?_⟩
    · refine Repr_congr (fun i hi => hs i (by simp [Tree.ids, hi]) ?_) h1
      rintro rfl; exact hn.1.1 hi
    · refine Repr_congr (fun i hi => hs i (by simp [Tree.ids, hi]) ?_) h2
      rintro rfl; exact hn.1.2 hi

theorem FrameOK_congr {nodes nodes' : List (Parabola K)} {par : Option Nat} {f : Frame}
    {h : Nat} (hs : ∀ i ∈ f.id :: f.sibling.ids, sameAt Parabola.links nodes nodes' i)
    (hf : FrameOK nodes par f h) : FrameOK nodes' par f h := by
  obtain ⟨n, hn, hl, hp, hm, hr⟩ := hf
  obtain ⟨n', hn', he⟩ := sameAt_get (hs f.id (by simp)) hn
  simp only [Parabola.links, Prod.mk.injEq] at he
  refine ⟨n', hn', he.1 ▸ hl, he.2.1 ▸ hp, ?_, Repr_congr (fun i hi => hs i (by simp [hi])) hr⟩
  rw [he.2.2.1, he.2.2.2]; exact hm

theorem ReprCtx_congr {nodes nodes' : List (Parabola K)} {top : Option Nat} {fs : List Frame}
    {h : Nat} (hs : ∀ i ∈ ctxIds fs, sameAt Parabola.links nodes nodes' i)
    (hc : ReprCtx nodes top fs h) : ReprCtx nodes' top fs h := by
  induction fs generalizing h with
  | nil => trivial
  | cons f fs ih =>
    obtain ⟨hf, hrest⟩ := hc
    refine ⟨FrameOK_congr (fun i hi => hs i ?_) hf, ih (fun i hi => hs i ?_) hrest⟩
    · simp only [ctxIds, List.mem_cons, List.mem_append] at hi ⊢
      tauto
    · simp only [ctxIds, List.mem_cons, List.mem_append]
      tauto

theorem Repr_fill {nodes : List (Parabola K)} {par : Option Nat} {f : Frame} {t : Tree} :
    Repr nodes par (f.fill t) ↔ FrameOK nodes par f t.id ∧ Repr nodes (some f.id) t := by
  cases f with
  | onLeft i s =>
    simp only [Frame.fill, Repr, FrameOK, Frame.id, Frame.sibling, Frame.childLinks]
    constructor
    · rintro ⟨n, hn, hl, hp, hlf, hrt, h1, h2⟩
      exact ⟨⟨n, hn, hl, hp, ⟨hlf, hrt⟩, h2⟩, h1⟩
    · rintro ⟨⟨n, hn, hl, hp, ⟨hlf, hrt⟩, h2⟩, h1⟩
      exact ⟨n, hn, hl, hp, hlf, hrt, h1, h2⟩
  | onRight i s =>
    simp only [Frame.fill, Repr, FrameOK, Frame.id, Frame.sibling, Frame.childLinks]
    constructor
    · rintro ⟨n, hn, hl, hp, hlf, hrt, h1, h2⟩
      exact ⟨⟨n, hn, hl, hp, ⟨hlf, hrt⟩, h1⟩, h2⟩
    · rintro ⟨⟨n, hn, hl, hp, ⟨hlf, hrt⟩, h1⟩, h2⟩
      exact ⟨n, hn, hl, hp, hlf, hrt, h1, h2⟩

theorem Repr_plug {nodes : List (Parabola K)} {top : Option Nat} {fs : List Frame} {t : Tree} :
    Repr nodes top (plug fs t) ↔
      ReprCtx nodes top fs t.id ∧ Repr nodes (ctxParent top fs) t := by
  induction fs generalizing t with
  | nil => simp [plug, ReprCtx, ctxParent]
  | cons f fs ih =>
    simp only [plug, ih, ReprCtx, ctxParent, Repr_fill, Frame.fill_id]
    tauto

end TreeFacts

end Voronoi

namespace Voronoi

/-! ## Walking the beachline -/

section NavFacts

variable {K : Type}

theorem Repr_leaf_node {nodes : List (Parabola K)} {par : Option Nat} {t : Tree}
    (h : Repr nodes par t) {n : Parabola K} (hn : nodes[t.id]? = some n) :
    (n.isLeaf = true → t = .leaf t.id) ∧
    (n.isLeaf = false → ∃ l r, t = .node t.id l r ∧ n.left = some l.id ∧ n.right = some r.id ∧
      Repr nodes (some t.id) l ∧ Repr nodes (some t.id) r) := by
  cases t with
  | leaf i =>
    obtain ⟨m, hm, hl, -⟩ := h
    simp only [Tree.id] at hn
    rw [hn] at hm; cases hm
    exact ⟨fun _ => rfl, fun hf => (by rw [hl] at hf; cases hf)⟩
  | node i l r =>
    obtain ⟨m, hm, hl, -, hlf, hrt, h1, h2⟩ := h
    simp only [Tree.id] at hn
    rw [hn] at hm; cases hm
    exact ⟨fun ht => (by rw [hl] at ht; cases ht), fun _ => ⟨l, r, rfl, hlf, hrt, h1, h2⟩⟩

theorem descendRight_spec {nodes : List (Parabola K)} {par : Option Nat} {u : Tree}
    (h : Repr nodes par u) {fuel r : Nat}
    (hr : descendRight nodes fuel (some u.id) = .ok r) : r = u.last := by
  induction u generalizing par fuel with
  | leaf i =>
    cases fuel with
    | zero => simp [descendRight] at hr
    | succ fuel =>
      obtain ⟨n, hn, hl, -⟩ := h
      simp only [descendRight, Tree.id, bind_eq_ok, deref_eq_ok, load_some] at hr
      obtain ⟨j, hj, m, hm, hr⟩ := hr
      cases hj
      rw [hn] at hm; cases hm
      simp only [hl, if_true, pure, Except.pure] at hr
      cases hr; rfl
  | node i l rt _ ihr =>
    cases fuel with
    | zero => simp [descendRight] at hr
    | succ fuel =>
      obtain ⟨n, hn, hl, -, -, hrt, -, h2⟩ := h
      simp only [descendRight, Tree.id, bind_eq_ok, deref_eq_ok, load_some] at hr
      obtain ⟨j, hj, m, hm, hr⟩ := hr
      cases hj
      rw [hn] at hm; cases hm
      simp only [hl, hrt] at hr
      exact ihr h2 hr

theorem descendLeft_spec {nodes : List (Parabola K)} {par : Option Nat} {u : Tree}
    (h : Repr nodes par u) {fuel r : Nat}
    (hr : descendLeft nodes fuel (some u.id) = .ok r) : r = u.first := by
  induction u generalizing par fuel with
  | leaf i =>
    cases fuel with
    | zero => simp [descendLeft] at hr
    | succ fuel =>
      obtain ⟨n, hn, hl, -⟩ := h
      simp only [descendLeft, Tree.id, bind_eq_ok, deref_eq_ok, load_some] at hr
      obtain ⟨j, hj, m, hm, hr⟩ := hr
      cases hj
      rw [hn] at hm; cases hm
      simp only [hl, if_true, pure, Except.pure] at hr
      cases hr; rfl
  | node i l rt ihl _ =>
    cases fuel with
    | zero => simp [descendLeft] at hr
    | succ fuel =>
      obtain ⟨n, hn, hl, -, hlf, -, h1, -⟩ := h
      simp only [descendLeft, Tree.id, bind_eq_ok, deref_eq_ok, load_some] at hr
      obtain ⟨j, hj, m, hm, hr⟩ := hr
      cases hj
      rw [hn] at hm; cases hm
      simp only [hl, hlf] at hr
      exact ihl h1 hr

theorem getLeftChild_spec {nodes : List (Parabola K)} {x : Nat} {n : Parabola K} {s : Tree}
    (hn : nodes[x]? = some n) (hl : n.left = some s.id) (hs : Repr nodes (some x) s)
    {res : Option Nat} (h : getLeftChild nodes (some x) = .ok res) : res = some s.last := by
  simp only [getLeftChild, bind_eq_ok, load_some] at h
  obtain ⟨m, hm, leaf, hleaf, h⟩ := h
  rw [hn] at hm; cases hm
  rw [hl] at hleaf
  cases h
  rw [descendRight_spec hs hleaf]

theorem getRightChild_spec {nodes : List (Parabola K)} {x : Nat} {n : Parabola K} {s : Tree}
    (hn : nodes[x]? = some n) (hl : n.right = some s.id) (hs : Repr nodes (some x) s)
    {res : Option Nat} (h : getRightChild nodes (some x) = .ok res) : res = some s.first := by
  simp only [getRightChild, bind_eq_ok, load_some] at h
  obtain ⟨m, hm, leaf, hleaf, h⟩ := h
  rw [hn] at hm; cases hm
  rw [hl] at hleaf
  cases h
  rw [descendLeft_spec hs hleaf]

theorem ctxParent_eq_none {top : Option Nat} {fs : List Frame} (h : ctxParent top fs = none) :
    fs = [] := by
  cases fs with
  | nil => rfl
  | cons f fs => simp [ctxParent] at h

theorem getLeftParentLoop_spec {nodes : List (Parabola K)} {fs : List Frame} {h : Nat}
    (hc : ReprCtx nodes none fs h) (hnd : (ctxIds fs).Nodup) (hh : h ∉ ctxIds fs)
    {fuel : Nat} {r : Option Nat}
    (hr : getLeftParentLoop nodes fuel (ctxParent none fs) h = .ok r) :
    r = leftParentOf fs := by
  induction fs generalizing h fuel with
  | nil =>
    cases fuel <;> simp [getLeftParentLoop, ctxParent, deref, bind, Except.bind] at hr
  | cons f fs ih =>
    cases fuel with
    | zero => simp [getLeftParentLoop] at hr
    | succ fuel =>
      obtain ⟨⟨n, hn, -, hp, hm, hsib⟩, hrest⟩ := hc
      simp only [getLeftParentLoop, ctxParent, bind_eq_ok, deref_eq_ok, load_some] at hr
      obtain ⟨j, hj, m, hm', hr⟩ := hr
      cases hj
      rw [hn] at hm'; cases hm'
      simp only [ctxIds, List.nodup_cons, List.mem_append, not_or, List.nodup_append,
        List.mem_cons] at hnd hh
      cases f with
      | onLeft i s =>
        simp only [Frame.childLinks] at hm
        simp only [hm.1, if_true, Frame.id] at hr
        simp only [leftParentOf]
        cases hg : ctxParent none fs with
        | none =>
          rw [hp, hg] at hr
          simp only [pure, Except.pure] at hr
          cases hr
          rw [ctxParent_eq_none hg]; rfl
        | some g =>
          rw [hp, hg] at hr
          simp only at hr
          rw [← hg] at hr
          exact ih hrest hnd.2.2.1 hnd.1.2 hr
      | onRight i s =>
        simp only [Frame.childLinks] at hm
        have hne : s.id ≠ h := by
          rintro rfl
          exact hh.2.1 (Tree.id_mem_ids s)
        simp only [hm.1, Option.some.injEq, hne, if_false, pure, Except.pure, Frame.id] at hr
        cases hr
        rfl

theorem getRightParentLoop_spec {nodes : List (Parabola K)} {fs : List Frame} {h : Nat}
    (hc : ReprCtx nodes none fs h) (hnd : (ctxIds fs).Nodup) (hh : h ∉ ctxIds fs)
    {fuel : Nat} {r : Option Nat}
    (hr : getRightParentLoop nodes fuel (ctxParent none fs) h = .ok r) :
    r = rightParentOf fs := by
  induction fs generalizing h fuel with
  | nil =>
    cases fuel <;> simp [getRightParentLoop, ctxParent, deref, bind, Except.bind] at hr
  | cons f fs ih =>
    cases fuel with
    | zero => simp [getRightParentLoop] at hr
    | succ fuel =>
      obtain ⟨⟨n, hn, -, hp, hm, hsib⟩, hrest⟩ := hc
      simp only [getRightParentLoop, ctxParent, bind_eq_ok, deref_eq_ok, load_some] at hr
      obtain ⟨j, hj, m, hm', hr⟩ := hr
      cases hj
      rw [hn] at hm'; cases hm'
      simp only [ctxIds, List.nodup_cons, List.mem_append, not_or, List.nodup_append,
        List.mem_cons] at hnd hh
      cases f with
      | onRight i s =>
        simp only [Frame.childLinks] at hm
        simp only [hm.2, if_true, Frame.id] at hr
        simp only [rightParentOf]
        cases hg : ctxParent none fs with
        | none =>
          rw [hp, hg] at hr
          simp only [pure, Except.pure] at hr
          cases hr
          rw [ctxParent_eq_none hg]; rfl
        | some g =>
          rw [hp, hg] at hr
          simp only at hr
          rw [← hg] at hr
          exact ih hrest hnd.2.2.1 hnd.1.2 hr
      | onLeft i s =>
        simp only [Frame.childLinks] at hm
        have hne : s.id ≠ h := by
          rintro rfl
          exact hh.2.1 (Tree.id_mem_ids s)
        simp only [hm.2, Option.some.injEq, hne, if_false, pure, Except.pure, Frame.id] at hr
        cases hr
        rfl

end NavFacts

end Voronoi

namespace Voronoi

section NavFacts2

variable {K : Type} [Arith K]

theorem plug_id (fs : List Frame) (t : Tree) : (plug fs t).id = rootOf fs t.id := by
  induction fs generalizing t with
  | nil => rfl
  | cons f fs ih => simp only [plug, rootOf, ih, Frame.fill_id]

theorem rootOf_mem (fs : List Frame) (h : Nat) : rootOf fs h = h ∨ rootOf fs h ∈ ctxIds fs := by
  induction fs generalizing h with
  | nil => exact Or.inl rfl
  | cons f fs ih =>
    right
    simp only [rootOf, ctxIds, List.mem_cons, List.mem_append]
    rcases ih f.id with h1 | h1
    · exact Or.inl h1
    · exact Or.inr (Or.inr h1)

theorem rootOf_cons_ne {f : Frame} {fs : List Frame} {h : Nat}
    (hh : h ∉ ctxIds (f :: fs)) : rootOf (f :: fs) h ≠ h := by
  intro he
  rcases rootOf_mem (f :: fs) h with h1 | h1
  · rw [he] at h1
    have : rootOf (f :: fs) h ∈ ctxIds (f :: fs) := by
      simp only [rootOf, ctxIds, List.mem_cons, List.mem_append]
      rcases rootOf_mem fs f.id with h2 | h2
      · exact Or.inl h2
      · exact Or.inr (Or.inr h2)
    rw [he] at this
    exact hh this
  · rw [he] at h1; exact hh h1

omit [Arith K] in
theorem leftParentOf_frame {nodes : List (Parabola K)} {top : Option Nat} {fs : List Frame}
    {h x : Nat} (hc : ReprCtx nodes top fs h) (hx : leftParentOf fs = some x) :
    ∃ s n, Frame.onRight x s ∈ fs ∧ nodes[x]? = some n ∧ n.left = some s.id ∧
      Repr nodes (some x) s ∧ prevLeafOf fs = some s.last := by
  induction fs generalizing h with
  | nil => simp [leftParentOf] at hx
  | cons f fs ih =>
    obtain ⟨⟨n, hn, -, -, hm, hsib⟩, hrest⟩ := hc
    cases f with
    | onLeft i s =>
      simp only [leftParentOf] at hx
      obtain ⟨s', n', hmem, h1, h2, h3, h4⟩ := ih hrest hx
      exact ⟨s', n', List.mem_cons_of_mem _ hmem, h1, h2, h3, by simpa [prevLeafOf] using h4⟩
    | onRight i s =>
      simp only [leftParentOf, Option.some.injEq] at hx
      subst hx
      exact ⟨s, n, List.mem_cons_self _ _, hn, (by simpa [Frame.childLinks] using hm.1), hsib, rfl⟩

omit [Arith K] in
theorem rightParentOf_frame {nodes : List (Parabola K)} {top : Option Nat} {fs : List Frame}
    {h x : Nat} (hc : ReprCtx nodes top fs h) (hx : rightParentOf fs = some x) :
    ∃ s n, Frame.onLeft x s ∈ fs ∧ nodes[x]? = some n ∧ n.right = some s.id ∧
      Repr nodes (some x) s ∧ nextLeafOf fs = some s.first := by
  induction fs generalizing h with
  | nil => simp [rightParentOf] at hx
  | cons f fs ih =>
    obtain ⟨⟨n, hn, -, -, hm, hsib⟩, hrest⟩ := hc
    cases f with
    | onRight i s =>
      simp only [rightParentOf] at hx
      obtain ⟨s', n', hmem, h1, h2, h3, h4⟩ := ih hrest hx
      exact ⟨s', n', List.mem_cons_of_mem _ hmem, h1, h2, h3, by simpa [nextLeafOf] using h4⟩
    | onLeft i s =>
      simp only [rightParentOf, Option.some.injEq] at hx
      subst hx
      exact ⟨s, n, List.mem_cons_self _ _, hn, (by simpa [Frame.childLinks] using hm.2), hsib, rfl⟩

theorem getParabolaByX_mem (sqrt : K → K) {nodes : List (Parabola K)} {par : Option Nat}
    {u : Tree} (h : Repr nodes par u) (xx y : K) {fuel r : Nat}
    (hr : getParabolaByX sqrt nodes xx y fuel (some u.id) = .ok r) : r ∈ u.leaves := by
  induction u generalizing par fuel with
  | leaf i =>
    cases fuel with
    | zero => simp [getParabolaByX] at hr
    | succ fuel =>
      obtain ⟨n, hn, hl, -⟩ := h
      simp only [getParabolaByX, Tree.id, bind_eq_ok, deref_eq_ok, load_some] at hr
      obtain ⟨j, hj, m, hm, hr⟩ := hr
      cases hj
      rw [hn] at hm; cases hm
      simp only [hl, if_true, pure, Except.pure] at hr
      cases hr
      simp [Tree.leaves]
  | node i l rt ihl ihr =>
    cases fuel with
    | zero => simp [getParabolaByX] at hr
    | succ fuel =>
      obtain ⟨n, hn, hl, -, hlf, hrt, h1, h2⟩ := h
      simp only [getParabolaByX, Tree.id, bind_eq_ok, deref_eq_ok, load_some] at hr
      obtain ⟨j, hj, m, hm, hr⟩ := hr
      cases hj
      rw [hn] at hm; cases hm
      simp only [hl, Bool.false_eq_true, if_false, bind_eq_ok] at hr
      obtain ⟨x, -, hr⟩ := hr
      simp only [Tree.leaves, List.mem_append]
      split_ifs at hr
      · rw [hlf] at hr; exact Or.inl (ihl h1 hr)
      · rw [hrt] at hr; exact Or.inr (ihr h2 hr)

omit [Arith K] in
theorem higherLoop_spec {nodes : List (Parabola K)} {fs : List Frame} {h : Nat}
    (xl xr : Option Nat)
    (hc : ReprCtx nodes none fs h) (hn : ∃ n, nodes[h]? = some n ∧ n.parent = ctxParent none fs)
    (hnd : (ctxIds fs).Nodup) (hh : h ∉ ctxIds fs)
    {fuel : Nat} {hi r : Option Nat}
    (hr : higherLoop nodes (some (rootOf fs h)) xl xr fuel (some h) hi = .ok r) :
    r = higherOf xl xr fs hi := by
  induction fs generalizing h fuel hi with
  | nil =>
    cases fuel with
    | zero => simp [higherLoop] at hr
    | succ fuel =>
      simp only [higherLoop, rootOf, if_true, pure, Except.pure] at hr
      cases hr
      rfl
  | cons f fs ih =>
    cases fuel with
    | zero => simp [higherLoop] at hr
    | succ fuel =>
      have hne : ¬ (some h = some (rootOf (f :: fs) h)) := by
        intro he
        exact rootOf_cons_ne hh (Option.some.inj he).symm
      obtain ⟨n, hn, hp⟩ := hn
      simp only [higherLoop, if_neg hne, bind_eq_ok, load_some] at hr
      obtain ⟨m, hm, hr⟩ := hr
      rw [hn] at hm; cases hm
      rw [hp] at hr
      simp only [ctxParent] at hr
      obtain ⟨⟨nf, hnf, -, hpf, -, -⟩, hrest⟩ := hc
      simp only [ctxIds, List.nodup_cons, List.mem_append, not_or, List.nodup_append,
        List.mem_cons] at hnd hh
      simp only [rootOf] at hr
      have := ih hrest ⟨nf, hnf, hpf⟩ hnd.2.2.1 hnd.1.2 hr
      rw [this]
      simp only [higherOf]

theorem higherOf_stable (xl xr : Option Nat) (fs : List Frame) (hi : Option Nat)
    (h : ∀ f ∈ fs, some f.id ≠ xl ∧ some f.id ≠ xr) : higherOf xl xr fs hi = hi := by
  induction fs generalizing hi with
  | nil => rfl
  | cons f fs ih =>
    simp only [higherOf]
    have hf := h f (List.mem_cons_self _ _)
    rw [if_neg hf.2, if_neg hf.1]
    exact ih hi (fun g hg => h g (List.mem_cons_of_mem _ hg))

theorem frame_id_mem_ctxIds {fs : List Frame} {f : Frame} (h : f ∈ fs) : f.id ∈ ctxIds fs := by
  induction fs with
  | nil => cases h
  | cons g fs ih =>
    simp only [ctxIds, List.mem_cons, List.mem_append]
    rcases List.mem_cons.mp h with h | h
    · subst h; exact Or.inl rfl
    · exact Or.inr (Or.inr (ih h))

theorem sibling_ids_mem_ctxIds {fs : List Frame} {f : Frame} (h : f ∈ fs) {i : Nat}
    (hi : i ∈ f.sibling.ids) : i ∈ ctxIds fs := by
  induction fs with
  | nil => cases h
  | cons g fs ih =>
    simp only [ctxIds, List.mem_cons, List.mem_append]
    rcases List.mem_cons.mp h with h | h
    · subst h; exact Or.inr (Or.inl hi)
    · exact Or.inr (Or.inr (ih h))

/-- Climbing a path on which `x` occurs as a frame and `y` does not: the loop ends with
`higher = x`. -/
theorem higherOf_found (x y : Nat) (fs : List Frame) (hi : Option Nat)
    (hnd : (ctxIds fs).Nodup) (hx : ∃ f ∈ fs, f.id = x) (hy : ∀ f ∈ fs, f.id ≠ y) :
    higherOf (some x) (some y) fs hi = some x ∧ higherOf (some y) (some x) fs hi = some x := by
  induction fs generalizing hi with
  | nil => obtain ⟨f, hf, -⟩ := hx; cases hf
  | cons g fs ih =>
    simp only [ctxIds, List.nodup_cons, List.mem_append, not_or, List.nodup_append] at hnd
    have hgy : g.id ≠ y := hy g (List.mem_cons_self _ _)
    simp only [higherOf, Option.some.injEq, hgy, if_false]
    by_cases hgx : g.id = x
    · simp only [hgx, if_true]
      have hst : ∀ f ∈ fs, some f.id ≠ some x ∧ some f.id ≠ some y := by
        intro f hf
        refine ⟨?_, fun h => hy f (List.mem_cons_of_mem _ hf) (Option.some.inj h)⟩
        intro h
        have := frame_id_mem_ctxIds hf
        rw [Option.some.inj h, ← hgx] at this
        exact hnd.1.2 this
      exact ⟨higherOf_stable _ _ fs _ hst,
        higherOf_stable _ _ fs _ (fun f hf => ⟨(hst f hf).2, (hst f hf).1⟩)⟩
    · simp only [hgx, if_false]
      obtain ⟨f, hf, hfx⟩ := hx
      rcases List.mem_cons.mp hf with h | h
      · subst h; exact absurd hfx hgx
      · exact ih hi hnd.2.2.1 ⟨f, h, hfx⟩ (fun f' hf' => hy f' (List.mem_cons_of_mem _ hf'))

end NavFacts2

end Voronoi

namespace Voronoi

/-! ## Effects of the operations on the stores -/

section OpFacts

variable {K : Type} [Arith K]

omit [Arith K] in
theorem dropCircleEvent_spec {nodes nodes' : List (Parabola K)} {heap heap' : FibonacciHeap K}
    {q : Nat} (h : dropCircleEvent nodes heap q = .ok (nodes', heap')) :
    nodes'.length = nodes.length ∧
    (∀ j, sameAt Parabola.links nodes nodes' j) ∧
    (∀ j, sameAt Parabola.edge nodes nodes' j) ∧
    (∀ j, j ≠ q → nodes'[j]? = nodes[j]?) ∧
    ∃ n n', nodes[q]? = some n ∧ nodes'[q]? = some n' ∧ n'.circleEventHeapNode = none ∧
      heap' = (match n.circleEventHeapNode with
        | none => heap
        | some hd => heap.delete hd) := by
  simp only [dropCircleEvent, bind_eq_ok, load_some] at h
  obtain ⟨n, hn, h⟩ := h
  cases hh : n.circleEventHeapNode with
  | none =>
    rw [hh] at h
    simp only [pure, Except.pure, Except.ok.injEq, Prod.mk.injEq] at h
    obtain ⟨rfl, rfl⟩ := h
    exact ⟨rfl, fun j => rfl, fun j => rfl, fun j _ => rfl, n, n, hn, hn, hh, by rw [hh]⟩
  | some hd =>
    rw [hh] at h
    simp only [bind_eq_ok, pure, Except.pure, Except.ok.injEq, Prod.mk.injEq] at h
    obtain ⟨m, hm, rfl, rfl⟩ := h
    obtain ⟨a, ha, hl, hall⟩ := store_eq_ok _ _ _ _ hm
    rw [hn] at ha; cases ha
    refine ⟨hl, fun j => store_sameAt Parabola.links hm (fun _ => rfl) j,
      fun j => store_sameAt Parabola.edge hm (fun _ => rfl) j, fun j hj => store_other hm hj,
      n, { n with circleEventHeapNode := none }, hn, ?_, rfl, by rw [hh]⟩
    rw [hall q, if_pos rfl]

omit [Arith K] in
theorem HeapOK_drop {nodes nodes' : List (Parabola K)} {heap heap' : FibonacciHeap K}
    {q : Nat} {L : List Nat} {r : Nat} (hk : HeapOK nodes heap L r)
    (h : dropCircleEvent nodes heap q = .ok (nodes', heap')) :
    HeapOK nodes' heap' (L.filter (fun i => i ≠ q)) r := by
  obtain ⟨-, -, -, hother, n, n', hn, hn', hnone, hheap⟩ := dropCircleEvent_spec h
  obtain ⟨hnd, hlt, hcirc⟩ := hk
  have hsub : ∀ m ∈ heap'.nodes, m ∈ heap.nodes ∧
      (∀ hd, n.circleEventHeapNode = some hd → m.id ≠ hd) := by
    intro m hm
    cases hh : n.circleEventHeapNode with
    | none =>
      rw [hh] at hheap; subst hheap
      exact ⟨hm, fun hd h => by cases h⟩
    | some hd =>
      rw [hh] at hheap; subst hheap
      simp only [FibonacciHeap.delete, List.mem_filter, decide_eq_true_eq] at hm
      exact ⟨hm.1, fun hd' h => by cases h; exact hm.2⟩
  have hcount : heap'.count = heap.count := by
    cases hh : n.circleEventHeapNode with
    | none => rw [hh] at hheap; subst hheap; rfl
    | some hd => rw [hh] at hheap; subst hheap; rfl
  have hnd' : (heap'.nodes.map (·.id)).Nodup := by
    cases hh : n.circleEventHeapNode with
    | none => rw [hh] at hheap; subst hheap; exact hnd
    | some hd =>
      rw [hh] at hheap; subst hheap
      simp only [FibonacciHeap.delete]
      exact hnd.sublist (List.Sublist.map _ (List.filter_sublist _))
  refine ⟨hnd', fun m hm => hcount ▸ hlt m (hsub m hm).1, ?_⟩
  intro m hm pt arch hv
  obtain ⟨hL, hr, nd, hnd1, hnd2⟩ := hcirc m (hsub m hm).1 pt arch hv
  have hne : arch ≠ q := by
    rintro rfl
    rw [hn] at hnd1; cases hnd1
    exact (hsub m hm).2 _ hnd2 rfl
  refine ⟨?_, hr, nd, ?_, hnd2⟩
  · simp only [List.mem_filter, decide_eq_true_eq]
    exact ⟨hL, hne⟩
  · rw [hother arch hne]; exact hnd1

theorem computeCircleEvents_spec {sqrt : K → K} {nodes nodes' : List (Parabola K)}
    {edgeObjs : List (Edge K)} {b : Nat} {y : K} {heap heap' : FibonacciHeap K}
    (h : computeCircleEvents sqrt nodes edgeObjs b y heap = .ok (nodes', heap')) :
    (nodes' = nodes ∧ heap' = heap) ∨
    ∃ k pt, heap' = (heap.insert k (.circle pt b)).1 ∧
      store nodes b (fun n => { n with circleEventHeapNode := some heap.count }) = .ok nodes' := by
  simp only [computeCircleEvents, bind_eq_ok] at h
  obtain ⟨lp, -, rp, -, a, -, c, -, h⟩ := h
  cases a with
  | none =>
    simp only [pure, Except.pure, Except.ok.injEq, Prod.mk.injEq] at h
    exact Or.inl ⟨h.1.symm, h.2.symm⟩
  | some a =>
    cases c with
    | none =>
      simp only [pure, Except.pure, Except.ok.injEq, Prod.mk.injEq] at h
      exact Or.inl ⟨h.1.symm, h.2.symm⟩
    | some c =>
      simp only [bind_eq_ok] at h
      obtain ⟨an, -, cn, -, h⟩ := h
      split_ifs at h
      · simp only [pure, Except.pure, Except.ok.injEq, Prod.mk.injEq] at h
        exact Or.inl ⟨h.1.symm, h.2.symm⟩
      · simp only [bind_eq_ok] at h
        obtain ⟨ln, -, rn, -, le, -, re, -, s, -, h⟩ := h
        cases s with
        | none =>
          simp only [pure, Except.pure, Except.ok.injEq, Prod.mk.injEq] at h
          exact Or.inl ⟨h.1.symm, h.2.symm⟩
        | some s =>
          simp only [bind_eq_ok] at h
          obtain ⟨asite, -, d, -, h⟩ := h
          split_ifs at h
          · simp only [pure, Except.pure, Except.ok.injEq, Prod.mk.injEq] at h
            exact Or.inl ⟨h.1.symm, h.2.symm⟩
          · simp only [bind_eq_ok, pure, Except.pure, Except.ok.injEq, Prod.mk.injEq] at h
            obtain ⟨m, hm, rfl, rfl⟩ := h
            exact Or.inr ⟨_, _, rfl, hm⟩

theorem computeCircleEvents_same {sqrt : K → K} {nodes nodes' : List (Parabola K)}
    {edgeObjs : List (Edge K)} {b : Nat} {y : K} {heap heap' : FibonacciHeap K}
    (h : computeCircleEvents sqrt nodes edgeObjs b y heap = .ok (nodes', heap')) :
    nodes'.length = nodes.length ∧
    (∀ j, sameAt Parabola.links nodes nodes' j) ∧
    (∀ j, sameAt Parabola.edge nodes nodes' j) := by
  rcases computeCircleEvents_spec h with ⟨rfl, -⟩ | ⟨k, pt, -, hm⟩
  · exact ⟨rfl, fun j => rfl, fun j => rfl⟩
  · exact ⟨store_length hm, fun j => store_sameAt Parabola.links hm (fun _ => rfl) j,
      fun j => store_sameAt Parabola.edge hm (fun _ => rfl) j⟩

omit [Arith K] in
theorem HeapOK_mono {nodes : List (Parabola K)} {heap : FibonacciHeap K} {L L' : List Nat}
    {r : Nat} (hk : HeapOK nodes heap L r) (hs : ∀ i ∈ L, i ∈ L') : HeapOK nodes heap L' r := by
  obtain ⟨hnd, hlt, hcirc⟩ := hk
  refine ⟨hnd, hlt, fun m hm pt arch hv => ?_⟩
  obtain ⟨hL, hr, hx⟩ := hcirc m hm pt arch hv
  exact ⟨hs _ hL, hr, hx⟩

omit [Arith K] in
theorem HeapOK_nodes {nodes nodes' : List (Parabola K)} {heap : FibonacciHeap K} {L : List Nat}
    {r : Nat} (hk : HeapOK nodes heap L r)
    (hs : ∀ i ∈ L, sameAt Parabola.circleEventHeapNode nodes nodes' i) :
    HeapOK nodes' heap L r := by
  obtain ⟨hnd, hlt, hcirc⟩ := hk
  refine ⟨hnd, hlt, fun m hm pt arch hv => ?_⟩
  obtain ⟨hL, hr, nd, h1, h2⟩ := hcirc m hm pt arch hv
  obtain ⟨nd', h1', he⟩ := sameAt_get (hs arch hL) h1
  exact ⟨hL, hr, nd', h1', he ▸ h2⟩

theorem HeapOK_compute {sqrt : K → K} {nodes nodes' : List (Parabola K)}
    {edgeObjs : List (Edge K)} {b : Nat} {y : K} {heap heap' : FibonacciHeap K}
    {L : List Nat} {r : Nat} (hk : HeapOK nodes heap L r) (hb : b ∉ L) (hbr : b ≠ r)
    (h : computeCircleEvents sqrt nodes edgeObjs b y heap = .ok (nodes', heap')) :
    HeapOK nodes' heap' (b :: L) r := by
  rcases computeCircleEvents_spec h with ⟨rfl, rfl⟩ | ⟨k, pt, rfl, hm⟩
  · exact HeapOK_mono hk (fun i hi => List.mem_cons_of_mem _ hi)
  · obtain ⟨hnd, hlt, hcirc⟩ := hk
    obtain ⟨a, ha, -, hall⟩ := store_eq_ok _ _ _ _ hm
    refine ⟨?_, ?_, ?_⟩
    · simp only [FibonacciHeap.insert, List.map_append, List.map_cons, List.map_nil]
      rw [List.nodup_append]
      refine ⟨hnd, List.nodup_singleton _, ?_⟩
      intro i hi hi'
      simp only [List.mem_singleton] at hi'
      subst hi'
      obtain ⟨m, hm1, hm2⟩ := List.mem_map.mp hi
      have := hlt m hm1
      omega
    · intro m hm'
      simp only [FibonacciHeap.insert, List.mem_append, List.mem_singleton] at hm' ⊢
      rcases hm' with hm' | rfl
      · have := hlt m hm'; omega
      · simp
    · intro m hm' pt' arch hv
      simp only [FibonacciHeap.insert, List.mem_append, List.mem_singleton] at hm'
      rcases hm' with hm' | rfl
      · obtain ⟨hL, hr, nd, h1, h2⟩ := hcirc m hm' pt' arch hv
        refine ⟨List.mem_cons_of_mem _ hL, hr, nd, ?_, h2⟩
        rw [hall arch, if_neg (by rintro rfl; exact hb hL)]
        exact h1
      · simp only [Event.circle.injEq] at hv
        obtain ⟨-, rfl⟩ := hv
        refine ⟨List.mem_cons_self _ _, hbr,
          { a with circleEventHeapNode := some heap.count }, ?_, rfl⟩
        rw [hall b, if_pos rfl]

end OpFacts

end Voronoi

namespace Voronoi

/-! ## Splitting an arc and excising an arc -/

section SurgeryFacts

variable {K : Type}

theorem splitArc_spec {nodes nodes' : List (Parabola K)} {par p0 p2 : Nat} {n : Parabola K}
    {parSite p : Site K} {el er : Nat} (hn : nodes[par]? = some n)
    (h : splitArc nodes par parSite p el er = .ok (nodes', p0, p2)) :
    p0 = nodes.length ∧ p2 = nodes.length + 2 ∧ nodes'.length = nodes.length + 4 ∧
    ∀ j, nodes'[j]? =
      if j = par then some { n with left := some (nodes.length + 3),
                                    right := some (nodes.length + 2), edge := some er,
                                    isLeaf := false }
      else if j = nodes.length then
        some { Parabola.new (some parSite) with parent := some (nodes.length + 3) }
      else if j = nodes.length + 1 then
        some { Parabola.new (some p) with parent := some (nodes.length + 3) }
      else if j = nodes.length + 2 then
        some { Parabola.new (some parSite) with parent := some par }
      else if j = nodes.length + 3 then
        some { Parabola.new none with left := some nodes.length,
                                      right := some (nodes.length + 1), parent := some par,
                                      edge := some el }
      else nodes[j]? := by
  have hlt : par < nodes.length := lt_of_getElem? hn
  simp only [splitArc, bind_eq_ok, pure, Except.pure, Except.ok.injEq, Prod.mk.injEq] at h
  obtain ⟨n1, h1, n5, h5, n7, h7, n8, h8, n9, h9, n10, h10, rfl, rfl, rfl⟩ := h
  obtain ⟨a1, ha1, l1, H1⟩ := store_eq_ok _ _ _ _ h1
  rw [hn] at ha1; cases ha1
  simp only [alloc_snd, length_alloc, l1, Nat.add_assoc, Nat.reduceAdd] at h5 h7 h8 h9 h10 ⊢
  -- par.right = p2
  obtain ⟨c5, m5, cn5, hc5, hm5, hcn5, l5, H5⟩ := setRight_eq_ok h5
  cases hc5
  simp (disch := omega) only [getElem?_alloc, length_alloc, l1, H1, if_pos, if_neg, if_true, if_false,
    Nat.add_assoc, Nat.reduceAdd, Option.some.injEq] at hm5 hcn5 H5 l5
  subst hm5 hcn5
  -- par.left = new Parabola()
  simp only [l5] at h7 h8 h9 h10
  obtain ⟨c7, m7, cn7, hc7, hm7, hcn7, l7, H7⟩ := setLeft_eq_ok h7
  cases hc7
  simp (disch := omega) only [getElem?_alloc, length_alloc, l5, H5, if_pos, if_neg, if_true, if_false,
    Nat.add_assoc, Nat.reduceAdd, Option.some.injEq] at hm7 hcn7 H7 l7
  subst hm7 hcn7
  -- par.left.edge = el
  obtain ⟨a8, ha8, l8, H8⟩ := store_eq_ok _ _ _ _ h8
  simp (disch := omega) only [H7, if_pos, if_neg, if_true, if_false, Option.some.injEq] at ha8
  subst ha8
  -- par.left.left = p0
  obtain ⟨c9, m9, cn9, hc9, hm9, hcn9, l9, H9⟩ := setLeft_eq_ok h9
  cases hc9
  simp (disch := omega) only [H8, H7, if_pos, if_neg, if_true, if_false, Option.some.injEq] at hm9 hcn9
  subst hm9 hcn9
  -- par.left.right = p1
  obtain ⟨c10, m10, cn10, hc10, hm10, hcn10, l10, H10⟩ := setRight_eq_ok h10
  cases hc10
  simp (disch := omega) only [H9, H8, H7, if_pos, if_neg, if_true, if_false, Option.some.injEq] at hm10 hcn10
  subst hm10 hcn10
  refine ⟨trivial, trivial, by rw [l10, l9, l8, l7], fun j => ?_⟩
  rw [H10, H9, H8, H7]
  by_cases hj : j = par
  · subst hj
    simp (disch := omega) only [if_pos, if_neg, if_true, if_false]
  · by_cases h0 : j = nodes.length
    · subst h0
      simp (disch := omega) only [if_pos, if_neg, if_true, if_false]
    · by_cases h1 : j = nodes.length + 1
      · subst h1
        simp (disch := omega) only [if_pos, if_neg, if_true, if_false]
      · by_cases h2 : j = nodes.length + 2
        · subst h2
          simp (disch := omega) only [if_pos, if_neg, if_true, if_false]
        · by_cases h3 : j = nodes.length + 3
          · subst h3
            simp (disch := omega) only [if_pos, if_neg, if_true, if_false]
          · simp (disch := omega) only [if_pos, if_neg, if_true, if_false]

theorem nodup_plug2 {f1 f2 : Frame} {fs : List Frame} {p1 : Nat}
    (hnd : (plug (f1 :: f2 :: fs) (.leaf p1)).ids.Nodup) :
    (p1 :: f1.id :: (f1.sibling.ids ++ (f2.id :: (f2.sibling.ids ++ ctxIds fs)))).Nodup := by
  have := (plug_ids_perm (f1 :: f2 :: fs) (.leaf p1)).nodup_iff.mp hnd
  simpa [Tree.ids, ctxIds] using this

theorem relink_Repr {nodes nodes' : List (Parabola K)} {f1 f2 : Frame} {fs : List Frame}
    {p1 : Nat} {gN cn : Parabola K} (gN' : Parabola K)
    (hrep : Repr nodes none (plug (f1 :: f2 :: fs) (.leaf p1)))
    (hnd : (plug (f1 :: f2 :: fs) (.leaf p1)).ids.Nodup)
    (hg : nodes[f2.id]? = some gN) (hc : nodes[f1.sibling.id]? = some cn)
    (hleaf : gN'.isLeaf = gN.isLeaf) (hpar : gN'.parent = gN.parent)
    (hm : f2.childLinks gN'.left gN'.right f1.sibling.id)
    (H : ∀ j, nodes'[j]? = if j = f1.sibling.id then some { cn with parent := some f2.id }
      else if j = f2.id then some gN' else nodes[j]?) :
    Repr nodes' none (plug (f2 :: fs) f1.sibling) := by
  have hN := nodup_plug2 hnd
  simp only [List.nodup_cons, List.mem_cons, List.mem_append, not_or, List.nodup_append] at hN
  obtain ⟨-, -, hsN, ⟨⟨hf2sib, hf2fs⟩, -, -, -⟩, hdisj⟩ := hN
  rw [Repr_plug] at hrep ⊢
  obtain ⟨⟨hF1, hF2, hrest⟩, -⟩ := hrep
  obtain ⟨n1, hn1, -, -, -, hsrep⟩ := hF1
  obtain ⟨n2, hn2, hl2, hp2, hm2, hsib2⟩ := hF2
  rw [hg] at hn2; cases hn2
  have hsid : f1.sibling.id ≠ f2.id := fun he =>
    hdisj (Tree.id_mem_ids f1.sibling) (he ▸ List.mem_cons_self _ _)
  have hsame : ∀ j, j ≠ f1.sibling.id → j ≠ f2.id → sameAt Parabola.links nodes nodes' j := by
    intro j h1 h2
    apply sameAt_of_eq
    rw [H j, if_neg h1, if_neg h2]
  refine ⟨⟨⟨gN', ?_, hleaf ▸ hl2, hpar ▸ hp2, hm, ?_⟩, ?_⟩, ?_⟩
  · rw [H, if_neg (Ne.symm hsid), if_pos rfl]
  · refine Repr_congr (fun i hi => hsame i ?_ ?_) hsib2
    · rintro rfl
      exact hdisj (Tree.id_mem_ids f1.sibling)
        (List.mem_cons_of_mem _ (List.mem_append_left _ hi))
    · rintro rfl; exact hf2sib hi
  · refine ReprCtx_congr (fun i hi => hsame i ?_ ?_) hrest
    · rintro rfl
      exact hdisj (Tree.id_mem_ids f1.sibling)
        (List.mem_cons_of_mem _ (List.mem_append_right _ hi))
    · rintro rfl; exact hf2fs hi
  · refine Repr_reparent hsN (fun n hn => ?_) (fun i hi hne => hsame i hne ?_) hsrep
    · rw [hc] at hn; cases hn
      rw [H, if_pos rfl]
      rfl
    · rintro rfl
      exact hdisj hi (List.mem_cons_self _ _)

theorem setLeft_sameAt {β : Type} (f : Parabola K → β)
    (hf : ∀ (n : Parabola K) (l p : Option Nat), f { n with left := l } = f n ∧
      f { n with parent := p } = f n)
    {nodes nodes' : List (Parabola K)} {this : Nat} {p : Option Nat}
    (h : setLeft nodes this p = .ok nodes') (j : Nat) : sameAt f nodes nodes' j := by
  simp only [setLeft, bind_eq_ok, deref_eq_ok] at h
  obtain ⟨m, hm, c, -, h⟩ := h
  exact sameAt_trans (store_sameAt f hm (fun a => (hf a _ none).1) j)
    (store_sameAt f h (fun a => (hf a none _).2) j)

theorem setRight_sameAt {β : Type} (f : Parabola K → β)
    (hf : ∀ (n : Parabola K) (l p : Option Nat), f { n with right := l } = f n ∧
      f { n with parent := p } = f n)
    {nodes nodes' : List (Parabola K)} {this : Nat} {p : Option Nat}
    (h : setRight nodes this p = .ok nodes') (j : Nat) : sameAt f nodes nodes' j := by
  simp only [setRight, bind_eq_ok, deref_eq_ok] at h
  obtain ⟨m, hm, c, -, h⟩ := h
  exact sameAt_trans (store_sameAt f hm (fun a => (hf a _ none).1) j)
    (store_sameAt f h (fun a => (hf a none _).2) j)

theorem excise_sameAt {β : Type} (f : Parabola K → β)
    (hf : ∀ (n : Parabola K) (l p : Option Nat), f { n with right := l } = f n ∧
      f { n with left := l } = f n ∧ f { n with parent := p } = f n)
    {nodes nodes' : List (Parabola K)} {p1 : Nat}
    (h : excise nodes p1 = .ok nodes') (j : Nat) : sameAt f nodes nodes' j := by
  simp only [excise, bind_eq_ok] at h
  obtain ⟨p1N, -, parent, -, parentN, -, h⟩ := h
  split_ifs at h
  all_goals
    simp only [bind_eq_ok] at h
    obtain ⟨g, -, gN, -, h⟩ := h
    split_ifs at h
    · exact setLeft_sameAt f (fun n l p => ⟨(hf n l p).2.1, (hf n l p).2.2⟩) h j
    · exact setRight_sameAt f (fun n l p => ⟨(hf n l p).1, (hf n l p).2.2⟩) h j

theorem excise_Repr {nodes nodes' : List (Parabola K)} {f1 f2 : Frame} {fs : List Frame}
    {p1 : Nat}
    (hrep : Repr nodes none (plug (f1 :: f2 :: fs) (.leaf p1)))
    (hnd : (plug (f1 :: f2 :: fs) (.leaf p1)).ids.Nodup)
    (h : excise nodes p1 = .ok nodes') :
    Repr nodes' none (plug (f2 :: fs) f1.sibling) := by
  have hN := nodup_plug2 hnd
  simp only [List.nodup_cons, List.mem_cons, List.mem_append, not_or, List.nodup_append] at hN
  obtain ⟨⟨-, hp1s, -, -, -⟩, ⟨-, hf1f2, hf1sib2, -⟩, -, -, hdisj⟩ := hN
  have hsid : f1.sibling.id ≠ f2.id := fun he =>
    hdisj (Tree.id_mem_ids f1.sibling) (he ▸ List.mem_cons_self _ _)
  have hrep' := hrep
  rw [Repr_plug] at hrep'
  obtain ⟨⟨⟨n1, hn1, -, hp1par, hm1, hsrep⟩, ⟨gN, hg, -, -, hm2, -⟩, -⟩, ⟨pN, hpN, -, hppar⟩⟩ := hrep'
  obtain ⟨cn, hcn, -⟩ := Repr_root hsrep
  simp only [ctxParent] at hp1par hppar
  simp only [excise, bind_eq_ok, load_some, deref_eq_ok] at h
  obtain ⟨p1N, hp1N, parent, hparent, parentN, hparentN, h⟩ := h
  rw [hpN] at hp1N; cases hp1N
  rw [hppar] at hparent; cases hparent
  rw [hn1] at hparentN; cases hparentN
  rw [hp1par] at h
  replace hm1 : f1.childLinks n1.left n1.right p1 := hm1
  have key : ∀ (sib : Option Nat), sib = some f1.sibling.id →
      ∀ r, (if gN.left = some f1.id then setLeft nodes f2.id sib
        else setRight nodes f2.id sib) = .ok r →
      Repr r none (plug (f2 :: fs) f1.sibling) := by
    intro sib hsib r hr
    subst hsib
    split_ifs at hr with hgl
    · obtain ⟨c, n, cn', hc, hn, hcn', -, H⟩ := setLeft_eq_ok hr
      cases hc
      rw [hg] at hn; cases hn
      rw [if_neg hsid, hcn] at hcn'; cases hcn'
      refine relink_Repr { gN with left := some f1.sibling.id } hrep hnd hg hcn rfl rfl ?_ H
      cases f2 with
      | onLeft k sb => exact ⟨rfl, hm2.2⟩
      | onRight k sb =>
        simp only [Frame.childLinks] at hm2
        rw [hm2.1] at hgl
        exact absurd (Option.some.inj hgl ▸ Tree.id_mem_ids sb) hf1sib2
    · obtain ⟨c, n, cn', hc, hn, hcn', -, H⟩ := setRight_eq_ok hr
      cases hc
      rw [hg] at hn; cases hn
      rw [if_neg hsid, hcn] at hcn'; cases hcn'
      refine relink_Repr { gN with right := some f1.sibling.id } hrep hnd hg hcn rfl rfl ?_ H
      cases f2 with
      | onLeft k sb =>
        simp only [Frame.childLinks] at hm2
        exact absurd hm2.1 hgl
      | onRight k sb => exact ⟨hm2.1, rfl⟩
  cases f1 with
  | onLeft i s =>
    simp only [Frame.childLinks] at hm1
    simp only [hm1.1, if_true, bind_eq_ok, deref_eq_ok, load_some] at h
    obtain ⟨g, hg', gN', hgN', h⟩ := h
    cases hg'
    rw [hg] at hgN'; cases hgN'
    exact key _ hm1.2 _ h
  | onRight i s =>
    simp only [Frame.childLinks] at hm1
    have hne : ¬ (n1.left = some p1) := by
      rw [hm1.1]
      intro he
      exact hp1s (Option.some.inj he ▸ Tree.id_mem_ids s)
    simp only [hne, if_false, bind_eq_ok, deref_eq_ok, load_some] at h
    obtain ⟨g, hg', gN', hgN', h⟩ := h
    cases hg'
    rw [hg] at hgN'; cases hgN'
    exact key _ hm1.1 _ h

end SurgeryFacts

end Voronoi

namespace Voronoi

/-! ## Finalization -/

section FinFacts

variable {K : Type} [Arith K]

omit [Arith K] in
theorem EndsGrow_refl (eo : List (Edge K)) : EndsGrow eo eo :=
  ⟨le_refl _, fun _ E h => ⟨E, h, rfl, rfl, id⟩⟩

omit [Arith K] in
theorem EndsGrow_trans {e1 e2 e3 : List (Edge K)} (h12 : EndsGrow e1 e2)
    (h23 : EndsGrow e2 e3) : EndsGrow e1 e3 := by
  refine ⟨le_trans h12.1 h23.1, fun j E h => ?_⟩
  obtain ⟨E2, h2, hs2, hn2, he2⟩ := h12.2 j E h
  obtain ⟨E3, h3, hs3, hn3, he3⟩ := h23.2 j E2 h2
  exact ⟨E3, h3, hs3.trans hs2, hn3.trans hn2, fun hne => he3 (he2 hne)⟩

omit [Arith K] in
theorem store_endp {eo eo' : List (Edge K)} {i : Nat} {p : Edge K → Pt K}
    (h : store eo i (fun e => { e with endp := some (p e) }) = .ok eo') :
    EndsGrow eo eo' ∧ ∃ E', eo'[i]? = some E' ∧ E'.endp ≠ none := by
  obtain ⟨a, ha, hl, hall⟩ := store_eq_ok _ _ _ _ h
  refine ⟨⟨hl.ge, fun j E hj => ?_⟩,
    ⟨{ a with endp := some (p a) }, by rw [hall i, if_pos rfl], by simp⟩⟩
  rw [hall j]
  by_cases hji : j = i
  · subst hji
    rw [ha] at hj; cases hj
    exact ⟨{ a with endp := some (p a) }, by rw [if_pos rfl], rfl, rfl, fun _ => by simp⟩
  · exact ⟨E, by rw [if_neg hji]; exact hj, rfl, rfl, id⟩

omit [Arith K] in
theorem alloc_EndsGrow (eo : List (Edge K)) (e : Edge K) : EndsGrow eo (alloc eo e).1 := by
  refine ⟨by rw [length_alloc]; omega, fun j E hj => ⟨E, ?_, rfl, rfl, id⟩⟩
  rw [alloc_old eo e (lt_of_getElem? hj)]; exact hj

theorem finishEdge_EndsGrow {nodes : List (Parabola K)} {width : K} {fuel : Nat}
    {eo eo' : List (Edge K)} {n : Option Nat}
    (h : finishEdge nodes width fuel eo n = .ok eo') : EndsGrow eo eo' := by
  induction fuel generalizing eo eo' n with
  | zero => simp [finishEdge] at h
  | succ fuel ih =>
    simp only [finishEdge, bind_eq_ok] at h
    obtain ⟨node, -, eid, -, e, -, s, -, eo1, h1, l, -, eo2, h2, r, -, h3⟩ := h
    have g1 := (store_endp h1).1
    have g2 : EndsGrow eo1 eo2 := by
      split_ifs at h2
      · simp only [pure, Except.pure, Except.ok.injEq] at h2
        subst h2; exact EndsGrow_refl _
      · exact ih h2
    have g3 : EndsGrow eo2 eo' := by
      split_ifs at h3
      · simp only [pure, Except.pure, Except.ok.injEq] at h3
        subst h3; exact EndsGrow_refl _
      · exact ih h3
    exact EndsGrow_trans g1 (EndsGrow_trans g2 g3)

omit [Arith K] in
theorem resolved_mono {eo eo' : List (Edge K)} (hg : EndsGrow eo eo') {e : Nat}
    (h : ∃ E, eo[e]? = some E ∧ E.endp ≠ none) : ∃ E, eo'[e]? = some E ∧ E.endp ≠ none := by
  obtain ⟨E, hE, hne⟩ := h
  obtain ⟨E', hE', -, -, he⟩ := hg.2 e E hE
  exact ⟨E', hE', he hne⟩

theorem finishEdge_covers {nodes : List (Parabola K)} {width : K} {par : Option Nat} {u : Tree}
    (hrep : Repr nodes par u) {fuel : Nat} {eo eo' : List (Edge K)}
    (h : finishEdge nodes width fuel eo (some u.id) = .ok eo') :
    ∀ i ∈ u.inner, ∃ n e, nodes[i]? = some n ∧ n.edge = some e ∧
      ∃ E, eo'[e]? = some E ∧ E.endp ≠ none := by
  induction u generalizing par fuel eo eo' with
  | leaf i => intro j hj; simp [Tree.inner] at hj
  | node i l r ihl ihr =>
    cases fuel with
    | zero => simp [finishEdge] at h
    | succ fuel =>
      obtain ⟨n, hn, -, -, hlf, hrt, hl, hr⟩ := hrep
      simp only [finishEdge, Tree.id, bind_eq_ok, load_some, deref_eq_ok] at h
      obtain ⟨node, hnode, eid, heid, e, -, s, -, eo1, h1, ln, hln, eo2, h2, rn, hrn, h3⟩ := h
      rw [hn] at hnode; cases hnode
      rw [hlf, load_some] at hln
      rw [hrt, load_some] at hrn
      have g2 : EndsGrow eo1 eo2 := by
        split_ifs at h2
        · simp only [pure, Except.pure, Except.ok.injEq] at h2
          subst h2; exact EndsGrow_refl _
        · exact finishEdge_EndsGrow h2
      have g3 : EndsGrow eo2 eo' := by
        split_ifs at h3
        · simp only [pure, Except.pure, Except.ok.injEq] at h3
          subst h3; exact EndsGrow_refl _
        · exact finishEdge_EndsGrow h3
      intro j hj
      simp only [Tree.inner, List.mem_cons, List.mem_append] at hj
      rcases hj with rfl | hj | hj
      · exact ⟨n, eid, hn, heid, resolved_mono (EndsGrow_trans g2 g3) (store_endp h1).2⟩
      · have hleaf := Repr_leaf_node hl hln
        split_ifs at h2 with hlleaf
        · rw [hleaf.1 hlleaf] at hj; simp [Tree.inner] at hj
        · rw [hlf] at h2
          obtain ⟨m, e', hm, he', hres⟩ := ihl hl h2 j hj
          exact ⟨m, e', hm, he', resolved_mono g3 hres⟩
      · have hleaf := Repr_leaf_node hr hrn
        split_ifs at h3 with hrleaf
        · rw [hleaf.1 hrleaf] at hj; simp [Tree.inner] at hj
        · rw [hrt] at h3
          exact ihr hr h3 j hj

omit [Arith K] in
theorem linkNeighbours_spec {edges : List Nat} {eo eo' : List (Edge K)}
    (h : linkNeighbours edges eo = .ok eo') :
    ∀ (j : Nat) (E : Edge K), eo[j]? = some E → ∃ E' : Edge K, eo'[j]? = some E' ∧
      E'.endp = E.endp ∧ E'.neighbour = E.neighbour ∧
      (E'.start = E.start ∨
        ∃ nb En, E.neighbour = some nb ∧ eo[nb]? = some En ∧ E'.start = En.endp) := by
  induction edges generalizing eo eo' with
  | nil =>
    simp only [linkNeighbours, pure, Except.pure, Except.ok.injEq] at h
    subst h
    exact fun j E hj => ⟨E, hj, rfl, rfl, Or.inl rfl⟩
  | cons i rest ih =>
    simp only [linkNeighbours, bind_eq_ok, load_some] at h
    obtain ⟨e, he, h⟩ := h
    cases hnb : e.neighbour with
    | none =>
      rw [hnb] at h
      exact ih h
    | some nb =>
      rw [hnb] at h
      simp only [bind_eq_ok, load_some] at h
      obtain ⟨ne, hne, eo1, h1, h⟩ := h
      obtain ⟨a, ha, -, hall⟩ := store_eq_ok _ _ _ _ h1
      rw [he] at ha; cases ha
      have step : ∀ (j : Nat) (E : Edge K), eo[j]? = some E → ∃ E1 : Edge K, eo1[j]? = some E1 ∧
          E1.endp = E.endp ∧ E1.neighbour = E.neighbour ∧
          (E1.start = E.start ∨
            ∃ nb En, E.neighbour = some nb ∧ eo[nb]? = some En ∧ E1.start = En.endp) := by
        intro j E hj
        rw [hall j]
        by_cases hji : j = i
        · subst hji
          rw [he] at hj; cases hj
          exact ⟨{ e with start := ne.endp }, by rw [if_pos rfl], rfl, rfl,
            Or.inr ⟨nb, ne, hnb, hne, rfl⟩⟩
        · exact ⟨E, by rw [if_neg hji]; exact hj, rfl, rfl, Or.inl rfl⟩
      intro j E hj
      obtain ⟨E1, hE1, hend1, hnb1, hst1⟩ := step j E hj
      obtain ⟨E', hE', hend', hnb', hst'⟩ := ih h j E1 hE1
      refine ⟨E', hE', hend'.trans hend1, hnb'.trans hnb1, ?_⟩
      rcases hst' with hs | ⟨nb', En1, h1', h2', h3'⟩
      · rcases hst1 with hs1 | hs1
        · exact Or.inl (hs.trans hs1)
        · obtain ⟨nb0, En, ha, hb, hc⟩ := hs1
          exact Or.inr ⟨nb0, En, ha, hb, hs.trans hc⟩
      · right
        have hlt : nb' < eo.length := by
          have := lt_of_getElem? h2'
          rw [store_length h1] at this
          exact this
        obtain ⟨En, hEn⟩ : ∃ En, eo[nb']? = some En :=
          ⟨eo[nb'], List.getElem?_eq_getElem hlt⟩
        obtain ⟨En1', hEn1', hend1', -, -⟩ := step nb' En hEn
        rw [h2'] at hEn1'; cases hEn1'
        exact ⟨nb', En, hnb1 ▸ h1', hEn, h3'.trans hend1'⟩

omit [Arith K] in
theorem collectEdges_spec {eo : List (Edge K)} {edges : List Nat} {out : List (Edge K)}
    (h : collectEdges eo edges = .ok out) : ∀ E ∈ out, ∃ e ∈ edges, eo[e]? = some E := by
  induction edges generalizing out with
  | nil =>
    simp only [collectEdges, pure, Except.pure, Except.ok.injEq] at h
    subst h
    intro E hE; cases hE
  | cons i rest ih =>
    simp only [collectEdges, bind_eq_ok, load_some, pure, Except.pure, Except.ok.injEq] at h
    obtain ⟨e, he, es, hes, rfl⟩ := h
    intro E hE
    rcases List.mem_cons.mp hE with rfl | hE
    · exact ⟨i, List.mem_cons_self _ _, he⟩
    · obtain ⟨e', he', hE'⟩ := ih hes E hE
      exact ⟨e', List.mem_cons_of_mem _ he', hE'⟩

end FinFacts

end Voronoi

namespace Voronoi

/-! ## Cells -/

section PolygonFacts

variable {K : Type}

theorem Polygon.calls_append (c : Polygon K) (cs ds : List (PolygonCall K)) :
    c.calls (cs ++ ds) = (c.calls cs).calls ds := by
  induction cs generalizing c with
  | nil => rfl
  | cons x cs ih => cases x <;> simp [Polygon.calls, ih]

theorem Polygon.calls_cached (cs : List (PolygonCall K)) :
    let c := (Polygon.new : Polygon K).calls cs
    c.size = c.vertices.length ∧ c.first = c.vertices.head? ∧ c.last = c.vertices.getLast? := by
  induction cs using List.reverseRecOn with
  | nil => simp [Polygon.calls, Polygon.new]
  | append_singleton cs x ih =>
    rw [Polygon.calls_append]
    obtain ⟨h1, h2, h3⟩ := ih
    generalize (Polygon.new : Polygon K).calls cs = c at h1 h2 h3
    cases x with
    | addLeft p =>
      simp only [Polygon.calls, Polygon.addLeft]
      refine ⟨by simp [h1], by simp, ?_⟩
      by_cases hv : c.vertices = []
      · simp [h1, hv]
      · have : c.vertices.length ≠ 0 := by simpa using hv
        simp [h1, this, h3, List.getLast?_cons, hv]
        cases hg : c.vertices.getLast? with
        | none => simp [List.getLast?_eq_none_iff] at hg; exact absurd hg hv
        | some a => simp
    | addRight p =>
      simp only [Polygon.calls, Polygon.addRight]
      refine ⟨by simp [h1], ?_, by simp⟩
      by_cases hv : c.vertices = []
      · simp [h1, hv]
      · have : c.vertices.length ≠ 0 := by simpa using hv
        simp [h1, this, h2, List.head?_append_of_ne_nil _ hv]

/-- C12: for every sequence of addLeft/addRight calls on a fresh Polygon, the resulting
Polygon has `size` equal to the length of `vertices`, `first` is `vertices[0]` and `last`
is `vertices[size - 1]`; one more `addRight(p)` appends `p` to `vertices` and one more
`addLeft(p)` prepends `p`, the other vertices keeping their order. -/
theorem Polygon_calls_spec (cs : List (PolygonCall K)) (p : Vertex K) :
    ((Polygon.new : Polygon K).calls cs).size = ((Polygon.new : Polygon K).calls cs).vertices.length ∧
    ((Polygon.new : Polygon K).calls cs).first = ((Polygon.new : Polygon K).calls cs).vertices[0]? ∧
    ((Polygon.new : Polygon K).calls cs).last =
      ((Polygon.new : Polygon K).calls cs).vertices[((Polygon.new : Polygon K).calls cs).size - 1]? ∧
    ((Polygon.new : Polygon K).calls (cs ++ [.addRight p])).vertices =
      ((Polygon.new : Polygon K).calls cs).vertices ++ [p] ∧
    ((Polygon.new : Polygon K).calls (cs ++ [.addLeft p])).vertices =
      p :: ((Polygon.new : Polygon K).calls cs).vertices := by
  obtain ⟨h1, h2, h3⟩ := Polygon.calls_cached cs
  refine ⟨h1, ?_, ?_, ?_, ?_⟩
  · rw [h2]; cases ((Polygon.new : Polygon K).calls cs).vertices <;> simp
  · rw [h3, h1, List.getLast?_eq_getElem?]
  · rw [Polygon.calls_append]; rfl
  · rw [Polygon.calls_append]; rfl

end PolygonFacts

end Voronoi

namespace Voronoi

/-! ## Intersection of two edges -/

section RayFacts

variable {K : Type} [LinearOrderedField K]

theorem ray_test (s d i : Pt K) (t : K) (hi : i = (s.1 + t * d.1, s.2 + t * d.2))
    (hd : d ≠ (0, 0)) :
    ((i.1 - s.1) * d.1 < 0 ∨ (i.2 - s.2) * d.2 < 0) ↔ t < 0 := by
  subst hi
  have e1 : (s.1 + t * d.1 - s.1) * d.1 = t * (d.1 * d.1) := by ring
  have e2 : (s.2 + t * d.2 - s.2) * d.2 = t * (d.2 * d.2) := by ring
  simp only [e1, e2]
  have h1 : 0 ≤ d.1 * d.1 := mul_self_nonneg _
  have h2 : 0 ≤ d.2 * d.2 := mul_self_nonneg _
  constructor
  · rintro (h | h)
    · by_contra hc
      exact absurd h (not_lt.mpr (mul_nonneg (not_lt.mp hc) h1))
    · by_contra hc
      exact absurd h (not_lt.mpr (mul_nonneg (not_lt.mp hc) h2))
  · intro ht
    by_cases hz : d.1 = 0
    · have hz2 : d.2 ≠ 0 := fun h => hd (Prod.ext hz h)
      exact Or.inr (mul_neg_of_neg_of_pos ht (mul_self_pos.mpr hz2))
    · exact Or.inl (mul_neg_of_neg_of_pos ht (mul_self_pos.mpr hz))

theorem onRay_iff (s d i : Pt K) (t : K) (hi : i = (s.1 + t * d.1, s.2 + t * d.2))
    (hd : d ≠ (0, 0)) : onRay s d i ↔ 0 ≤ t := by
  constructor
  · rintro ⟨u, hu, h⟩
    rw [hi] at h
    have h1 : t * d.1 = u * d.1 := by have := congrArg Prod.fst h; simpa using this
    have h2 : t * d.2 = u * d.2 := by have := congrArg Prod.snd h; simpa using this
    by_cases hz : d.1 = 0
    · have hz2 : d.2 ≠ 0 := fun h => hd (Prod.ext hz h)
      rw [mul_right_cancel₀ hz2 h2]; exact hu
    · rw [mul_right_cancel₀ hz h1]; exact hu
  · intro ht
    exact ⟨t, ht, hi⟩

theorem getLineIntersection_rays (sa da sb db : Pt K)
    (hdet : da.1 * db.2 - da.2 * db.1 ≠ 0) :
    ∃ i t u, getLineIntersection sa (sa.1 + da.1, sa.2 + da.2) sb (sb.1 + db.1, sb.2 + db.2)
        = some i ∧
      i = (sa.1 + t * da.1, sa.2 + t * da.2) ∧ i = (sb.1 + u * db.1, sb.2 + u * db.2) := by
  have hdet' : (sa.1 - (sa.1 + da.1)) * (sb.2 - (sb.2 + db.2))
      - (sa.2 - (sa.2 + da.2)) * (sb.1 - (sb.1 + db.1)) ≠ 0 := by
    intro h; apply hdet; linear_combination h
  refine ⟨_, ((sb.1 - sa.1) * db.2 - (sb.2 - sa.2) * db.1) / (da.1 * db.2 - da.2 * db.1),
    ((sb.1 - sa.1) * da.2 - (sb.2 - sa.2) * da.1) / (da.1 * db.2 - da.2 * db.1),
    if_neg (fun h => hdet' (by rwa [eq_exact] at h)), ?_, ?_⟩
  · ext
    · simp only; field_simp; ring
    · simp only; field_simp; ring
  · ext
    · simp only; field_simp; ring
    · simp only; field_simp; ring

/-- C20: for two edges with non-zero direction vectors, each with `B = start + direction`
(the constructor's form), whose lines are not parallel, getEdgeIntersection returns the
intersection `i` of the two lines exactly when `i` lies on both rays (`i = start + t *
direction` with `t ≥ 0` for each edge), and returns `null` otherwise. -/
theorem getEdgeIntersection_rays (a b : Edge K) (sa sb : Pt K)
    (hsa : a.start = some sa) (hsb : b.start = some sb)
    (hBa : a.B = (sa.1 + a.direction.1, sa.2 + a.direction.2))
    (hBb : b.B = (sb.1 + b.direction.1, sb.2 + b.direction.2))
    (hda : a.direction ≠ (0, 0)) (hdb : b.direction ≠ (0, 0))
    (hdet : lineDet sa a.B sb b.B ≠ 0) :
    ∃ i, getLineIntersection sa a.B sb b.B = some i ∧
      (getEdgeIntersection a b = .ok (some i) ↔
        onRay sa a.direction i ∧ onRay sb b.direction i) ∧
      (¬ (onRay sa a.direction i ∧ onRay sb b.direction i) →
        getEdgeIntersection a b = .ok none) := by
  have hd : a.direction.1 * b.direction.2 - a.direction.2 * b.direction.1 ≠ 0 := by
    intro h; apply hdet; rw [hBa, hBb]; simp only [lineDet]; linear_combination h
  obtain ⟨i, t, u, hi, hit, hiu⟩ := getLineIntersection_rays sa a.direction sb b.direction hd
  rw [← hBa, ← hBb] at hi
  have ra := onRay_iff sa a.direction i t hit hda
  have rb := onRay_iff sb b.direction i u hiu hdb
  have ta := ray_test sa a.direction i t hit hda
  have tb := ray_test sb b.direction i u hiu hdb
  have hval : getEdgeIntersection a b = if (t < 0 ∨ u < 0) then .ok none else .ok (some i) := by
    simp only [getEdgeIntersection, hsa, hsb, hi, deref, bind, Except.bind, pure, Except.pure,
      Bool.or_eq_true, decide_eq_true_eq, Bool.decide_or, or_assoc]
    have hc : ((i.1 - sa.1) * a.direction.1 < 0 ∨ (i.2 - sa.2) * a.direction.2 < 0 ∨
        (i.1 - sb.1) * b.direction.1 < 0 ∨ (i.2 - sb.2) * b.direction.2 < 0) ↔
        (t < 0 ∨ u < 0) := by rw [← ta, ← tb, or_assoc]
    simp only [hc]
  refine ⟨i, hi, ?_, ?_⟩
  · rw [hval, ra, rb]
    by_cases h : t < 0 ∨ u < 0
    · rw [if_pos h]
      constructor
      · intro hc; cases hc
      · rintro ⟨h1, h2⟩
        rcases h with h | h
        · exact absurd h1 (not_le.mpr h)
        · exact absurd h2 (not_le.mpr h)
    · rw [if_neg h]
      push_neg at h
      exact ⟨fun _ => h, fun _ => rfl⟩
  · rw [hval, ra, rb]
    intro h
    rw [if_pos]
    by_contra hc
    push_neg at hc
    exact h hc

/-- The edges `Edge((0, 0), (0, 0), (2, 1))` and `Edge((4, 0), (4, 1), (6, 0))`: their lines
meet at `(2, -4)`, which lies on both rays. -/
theorem getEdgeIntersection_rays_witness :
    ∃ i, getLineIntersection ((0, 0) : Pt ℚ) rayEdgeA.B (4, 0) rayEdgeB.B = some i ∧
      (getEdgeIntersection rayEdgeA rayEdgeB = .ok (some i) ↔
        onRay (0, 0) rayEdgeA.direction i ∧ onRay (4, 0) rayEdgeB.direction i) ∧
      (¬ (onRay (0, 0) rayEdgeA.direction i ∧ onRay (4, 0) rayEdgeB.direction i) →
        getEdgeIntersection rayEdgeA rayEdgeB = .ok none) :=
  getEdgeIntersection_rays rayEdgeA rayEdgeB (0, 0) (4, 0) rfl rfl
    (by simp [rayEdgeA]) (by simp [rayEdgeB]; norm_num)
    (by simp [rayEdgeA]) (by simp [rayEdgeB]) (by simp [lineDet, rayEdgeA, rayEdgeB]; norm_num)

end RayFacts

end Voronoi

namespace Voronoi

/-! ## The degenerate first pair -/

section DegenerateRuns

/-- C11 (fails): on the sites `(10, 1/200), (0, 0)` the second site takes the degenerate
branch of line 63 and has the smaller `x`; after it the left leaf of the root holds the
first site `(10, 1/200)` (the larger `x`) and the right leaf holds `(0, 0)`, while the
edge of the root has `(0, 0)` as its left site and `(10, 1/200)` as its right site. -/
theorem insertParabola_degenerate_leaves :
    (do
      let o ← sweepSteps sqrtQ fifo 2 (initialOptions [(10, 1 / 200), (0, 0)] 20)
      let rootN ← load o.parabolas o.root
      let l ← load o.parabolas rootN.left
      let r ← load o.parabolas rootN.right
      let e ← load o.edgeObjs rootN.edge
      pure (l.isLeaf && r.isLeaf, l.site, r.site, e.left, e.right)) =
    (.ok (true, some ⟨0, (10, 1 / 200)⟩, some ⟨1, (0, 0)⟩, ⟨1, (0, 0)⟩,
      ⟨0, (10, 1 / 200)⟩) :
      Except Fault (Bool × Option (Site ℚ) × Option (Site ℚ) × Site ℚ × Site ℚ)) := by
  decide!

end DegenerateRuns

end Voronoi

namespace Voronoi

/-! ## Scheduling of circle events -/

section CircleCases

variable {K : Type} [Arith K]

theorem computeCircleEvents_cases {sqrt : K → K} {nodes nodes' : List (Parabola K)}
    {edgeObjs : List (Edge K)} {b : Nat} {y : K} {heap heap' : FibonacciHeap K}
    (h : computeCircleEvents sqrt nodes edgeObjs b y heap = .ok (nodes', heap')) :
    (nodes' = nodes ∧ heap' = heap) ∨
    ∃ lp rp a c an asite, ∃ (s : Pt K) (d : K), getLeftParent nodes b = .ok lp ∧ getRightParent nodes b = .ok rp ∧
      getLeftChild nodes lp = .ok (some a) ∧ getRightChild nodes rp = .ok (some c) ∧
      nodes[a]? = some an ∧ an.site = some asite ∧
      squareRoot sqrt .computeCircleEvents
        ((s.1 - asite.pt.1) * (s.1 - asite.pt.1) + (s.2 - asite.pt.2) * (s.2 - asite.pt.2))
        = .ok d ∧
      ¬ (s.2 - d ≥ y) ∧
      heap' = (heap.insert (-s.2 + d) (.circle (s.1, s.2 - d) b)).1 ∧
      store nodes b (fun n => { n with circleEventHeapNode := some heap.count }) = .ok nodes' := by
  simp only [computeCircleEvents, bind_eq_ok] at h
  obtain ⟨lp, hlp, rp, hrp, a, ha, c, hc, h⟩ := h
  cases a with
  | none =>
    simp only [pure, Except.pure, Except.ok.injEq, Prod.mk.injEq] at h
    exact Or.inl ⟨h.1.symm, h.2.symm⟩
  | some a =>
    cases c with
    | none =>
      simp only [pure, Except.pure, Except.ok.injEq, Prod.mk.injEq] at h
      exact Or.inl ⟨h.1.symm, h.2.symm⟩
    | some c =>
      simp only [bind_eq_ok] at h
      obtain ⟨an, han, cn, -, h⟩ := h
      split_ifs at h
      · simp only [pure, Except.pure, Except.ok.injEq, Prod.mk.injEq] at h
        exact Or.inl ⟨h.1.symm, h.2.symm⟩
      · simp only [bind_eq_ok] at h
        obtain ⟨ln, -, rn, -, le, -, re, -, s, -, h⟩ := h
        cases s with
        | none =>
          simp only [pure, Except.pure, Except.ok.injEq, Prod.mk.injEq] at h
          exact Or.inl ⟨h.1.symm, h.2.symm⟩
        | some s =>
          simp only [bind_eq_ok] at h
          obtain ⟨asite, has, d, hd, h⟩ := h
          split_ifs at h with hge
          · simp only [pure, Except.pure, Except.ok.injEq, Prod.mk.injEq] at h
            exact Or.inl ⟨h.1.symm, h.2.symm⟩
          · simp only [bind_eq_ok, pure, Except.pure, Except.ok.injEq, Prod.mk.injEq] at h
            obtain ⟨m, hm, rfl, rfl⟩ := h
            exact Or.inr ⟨lp, rp, a, c, an, asite, s, d, hlp, hrp, ha, hc,
              (load_some _ _ _).mp han, (deref_eq_ok _ _).mp has, hd, hge, rfl, hm⟩

end CircleCases

section CircleFacts

variable {K : Type} [LinearOrderedField K]

theorem computeCircleEvents_detail {sqrt : K → K} {nodes nodes' : List (Parabola K)}
    {edgeObjs : List (Edge K)} {b : Nat} {y : K} {heap heap' : FibonacciHeap K}
    (h : computeCircleEvents sqrt nodes edgeObjs b y heap = .ok (nodes', heap')) :
    (nodes' = nodes ∧ heap' = heap) ∨
    ∃ lp rp a c an asite, ∃ (s : Pt K) (d : K), getLeftParent nodes b = .ok lp ∧ getRightParent nodes b = .ok rp ∧
      getLeftChild nodes lp = .ok (some a) ∧ getRightChild nodes rp = .ok (some c) ∧
      nodes[a]? = some an ∧ an.site = some asite ∧
      squareRoot sqrt .computeCircleEvents
        ((s.1 - asite.pt.1) * (s.1 - asite.pt.1) + (s.2 - asite.pt.2) * (s.2 - asite.pt.2))
        = .ok d ∧
      s.2 - d < y ∧
      heap' = (heap.insert (-s.2 + d) (.circle (s.1, s.2 - d) b)).1 ∧
      store nodes b (fun n => { n with circleEventHeapNode := some heap.count }) = .ok nodes' := by
  rcases computeCircleEvents_cases h with hs | ⟨lp, rp, a, c, an, asite, s, d, h1, h2, h3, h4, h5,
    h6, h7, h8, h9, h10⟩
  · exact Or.inl hs
  · exact Or.inr ⟨lp, rp, a, c, an, asite, s, d, h1, h2, h3, h4, h5, h6, h7, not_le.mp h8, h9, h10⟩

theorem getY_circle (b s : Pt K) (d : K) (hlow : s.2 - d < b.2)
    (hdist : dist2 s b = d ^ 2) : getY b s.1 (s.2 - d) = .ok s.2 := by
  have hne : b.2 ≠ s.2 - d := ne_of_gt hlow
  have hD : b.2 - (s.2 - d) ≠ 0 := sub_ne_zero.mpr hne
  rw [getY_ok b s.1 (s.2 - d) hne]
  congr 1
  simp only [dist2] at hdist
  field_simp
  linear_combination 8 * (b.2 - (s.2 - d)) * hdist

/-- C15: when computeCircleEvents schedules a circle event for the arc `b` (the queue
changes), the event holds the point `(s.x, s.y - d)` under the key `-(s.y - d)`, where `s`
is the intersection found and `d` the root taken of its squared distance to the site of the
arc `a` on the left of `b`; if `d` is positive and is the distance from `s` to the site of
`b`, then at the sweep height of the event the vertex recorded by removeParabola,
`(point.x, getY(b.site, point.x, point.y))`, is `s`. The site of `b` is not below the
sweep height at which the event is scheduled. -/
theorem computeCircleEvents_vertex {sqrt : K → K} {nodes nodes' : List (Parabola K)}
    {edgeObjs : List (Edge K)} {b : Nat} {y : K} {heap heap' : FibonacciHeap K}
    (h : computeCircleEvents sqrt nodes edgeObjs b y heap = .ok (nodes', heap'))
    (hne : heap' ≠ heap) (bn : Parabola K) (bs : Site K) (hb : nodes[b]? = some bn)
    (hbs : bn.site = some bs) (hy : y ≤ bs.pt.2) :
    ∃ (s point : Pt K) (d : K) (a : Nat) (asite : Site K),
      (∃ lp, getLeftParent nodes b = .ok lp ∧ getLeftChild nodes lp = .ok (some a)) ∧
      (nodes[a]?.bind (·.site)) = some asite ∧
      squareRoot sqrt .computeCircleEvents (dist2 s asite.pt) = .ok d ∧
      point = (s.1, s.2 - d) ∧
      heap'.nodes = heap.nodes ++
        [{ key := -point.2, id := heap.count, value := .circle point b }] ∧
      (nodes[b]?.bind (·.site)) = some bs ∧
      (0 < d → dist2 s bs.pt = d ^ 2 →
        getY bs.pt point.1 point.2 = .ok s.2 ∧ (point.1, s.2) = s) := by
  rcases computeCircleEvents_detail h with ⟨-, rfl⟩ | ⟨lp, rp, a, c, an, asite, s, d, hlp, -, ha,
    -, han, has, hd, hlt, rfl, -⟩
  · exact absurd rfl hne
  · refine ⟨s, (s.1, s.2 - d), d, a, asite, ⟨lp, hlp, ha⟩, by simp [han, has], ?_, rfl, ?_,
      by simp [hb, hbs], fun _ hdist => ⟨?_, rfl⟩⟩
    · rw [← hd, dist2, sq, sq]
    · simp only [FibonacciHeap.insert, neg_sub]
      congr 3
      ring
    · exact getY_circle bs.pt s d (lt_of_lt_of_le hlt hy) hdist

/-- After the three sites `(0, 5), (-3, 4), (4, 3)` the arc `5` of the site `(0, 5)` lies
between arcs of `(-3, 4)` and `(4, 3)`: the bounding edges meet at `(0, 0)`, at distance
`5` from the three sites, and the event is placed at `(0, -5)`. -/
theorem computeCircleEvents_vertex_witness :
    computeCircleEvents sqrtQ threeSitesState.parabolas threeSitesState.edgeObjs 5
      threeSitesState.sweeplineY threeSitesState.heap = .ok threeSitesScheduled ∧
    threeSitesScheduled.2 ≠ threeSitesState.heap ∧
    threeSitesState.parabolas[5]? =
      some { circleEventHeapNode := some 3, parent := some 8, left := none, right := none,
             site := some ⟨0, (0, 5)⟩, isLeaf := true, edge := none } ∧
    threeSitesState.sweeplineY ≤ 5 ∧
    ((0 : ℚ) < 5 ∧ dist2 ((0 : ℚ), (0 : ℚ)) (0, 5) = 5 ^ 2 ∧
      getY ((0 : ℚ), (5 : ℚ)) 0 (-5) = .ok 0) ∧
    ∃ (s point : Pt ℚ) (d : ℚ) (a : Nat) (asite : Site ℚ),
      (∃ lp, getLeftParent threeSitesState.parabolas 5 = .ok lp ∧
        getLeftChild threeSitesState.parabolas lp = .ok (some a)) ∧
      (threeSitesState.parabolas[a]?.bind (·.site)) = some asite ∧
      squareRoot sqrtQ .computeCircleEvents (dist2 s asite.pt) = .ok d ∧
      point = (s.1, s.2 - d) ∧
      threeSitesScheduled.2.nodes = threeSitesState.heap.nodes ++
        [{ key := -point.2, id := threeSitesState.heap.count, value := .circle point 5 }] ∧
      (threeSitesState.parabolas[5]?.bind (·.site)) = some ⟨0, (0, 5)⟩ ∧
      (0 < d → dist2 s ((0 : ℚ), (5 : ℚ)) = d ^ 2 →
        getY ((0 : ℚ), (5 : ℚ)) point.1 point.2 = .ok s.2 ∧ (point.1, s.2) = s) :=
  have h1 : computeCircleEvents sqrtQ threeSitesState.parabolas threeSitesState.edgeObjs 5
      threeSitesState.sweeplineY threeSitesState.heap = .ok threeSitesScheduled := by decide!
  have h2 : threeSitesScheduled.2 ≠ threeSitesState.heap := by decide!
  have h3 : threeSitesState.parabolas[5]? =
      some { circleEventHeapNode := some 3, parent := some 8, left := none, right := none,
             site := some ⟨0, (0, 5)⟩, isLeaf := true, edge := none } := by decide!
  have h4 : threeSitesState.sweeplineY ≤ 5 := by decide!
  ⟨h1, h2, h3, h4, ⟨by norm_num, by norm_num [dist2], by decide!⟩,
    computeCircleEvents_vertex h1 h2 _ ⟨0, (0, 5)⟩ h3 rfl h4⟩

end CircleFacts

end Voronoi

namespace Voronoi

/-! ## Order of the events -/

section QueueFacts

variable {K : Type} [Arith K]

theorem extractMinimum_mem (tie : List (HeapNode K) → Nat) (h h' : FibonacciHeap K)
    (n : HeapNode K) (hx : h.extractMinimum tie = some (n, h')) :
    n ∈ h.nodes ∧ h' = h.delete n.id := by
  simp only [FibonacciHeap.extractMinimum] at hx
  cases hm : minKey h.nodes with
  | none => simp [hm] at hx
  | some m =>
    simp only [hm] at hx
    cases hl : (h.nodes.filter (fun n => decide (n.key = m)))[tie h.nodes %
        (h.nodes.filter (fun n => decide (n.key = m))).length]? with
    | none => simp [hl] at hx
    | some x =>
      simp only [hl, Option.some.injEq, Prod.mk.injEq] at hx
      obtain ⟨rfl, rfl⟩ := hx
      have hmem := List.mem_iff_getElem?.mpr ⟨_, hl⟩
      simp only [List.mem_filter, decide_eq_true_eq] at hmem
      exact ⟨hmem.1, rfl⟩

end QueueFacts

section KeyFacts

variable {K : Type} [LinearOrderedField K]

theorem QueueGrows_refl (y : K) (heap : FibonacciHeap K) : QueueGrows y heap heap :=
  fun _ hn => Or.inl hn

theorem QueueGrows_trans {y : K} {h1 h2 h3 : FibonacciHeap K} (h12 : QueueGrows y h1 h2)
    (h23 : QueueGrows y h2 h3) : QueueGrows y h1 h3 := by
  intro n hn
  rcases h23 n hn with h | h
  · exact h12 n h
  · exact Or.inr h

theorem dropCircleEvent_grows {nodes nodes' : List (Parabola K)} {heap heap' : FibonacciHeap K}
    {q : Nat} (y : K) (h : dropCircleEvent nodes heap q = .ok (nodes', heap')) :
    QueueGrows y heap heap' := by
  obtain ⟨-, -, -, -, n, n', -, -, -, hheap⟩ := dropCircleEvent_spec h
  intro m hm
  cases hh : n.circleEventHeapNode with
  | none => rw [hh] at hheap; subst hheap; exact Or.inl hm
  | some hd =>
    rw [hh] at hheap; subst hheap
    simp only [FibonacciHeap.delete, List.mem_filter] at hm
    exact Or.inl hm.1

theorem computeCircleEvents_grows {sqrt : K → K} {nodes nodes' : List (Parabola K)}
    {edgeObjs : List (Edge K)} {b : Nat} {y : K} {heap heap' : FibonacciHeap K}
    (h : computeCircleEvents sqrt nodes edgeObjs b y heap = .ok (nodes', heap')) :
    QueueGrows y heap heap' := by
  rcases computeCircleEvents_detail h with ⟨-, rfl⟩ | ⟨lp, rp, a, c, an, asite, s, d, -, -, -, -,
    -, -, -, hlt, rfl, -⟩
  · exact QueueGrows_refl _ _
  · intro m hm
    simp only [FibonacciHeap.insert, List.mem_append, List.mem_singleton] at hm
    rcases hm with hm | rfl
    · exact Or.inl hm
    · refine Or.inr ⟨?_, hlt⟩
      simp only [Event.y]; ring

theorem insertParabola_grows {sqrt : K → K} {p : Site K} {o o' : Options K}
    (h : insertParabola sqrt p o = .ok o') :
    o'.sweeplineY = o.sweeplineY ∧ QueueGrows o.sweeplineY o.heap o'.heap := by
  unfold insertParabola at h
  cases hr : o.root with
  | none =>
    rw [hr] at h
    simp only [pure, Except.pure, Except.ok.injEq] at h
    subst h
    exact ⟨rfl, QueueGrows_refl _ _⟩
  | some root =>
    rw [hr] at h
    simp only [bind_eq_ok] at h
    obtain ⟨rootN, -, dg, -, h⟩ := h
    cases dg with
    | true =>
      simp only [if_true, insertDegenerate, bind_eq_ok] at h
      obtain ⟨n1, -, n2, -, n3, -, first, -, e, -, n4, -, h⟩ := h
      cases h
      exact ⟨rfl, QueueGrows_refl _ _⟩
    | false =>
      simp only [Bool.false_eq_true, if_false, insertGeneral, bind_eq_ok] at h
      obtain ⟨par, -, d, hd, parN, -, parSite, -, y, -, el, -, er, -, eo, -, sp, -, c1, hc1,
        c2, hc2, h⟩ := h
      cases h
      exact ⟨rfl, QueueGrows_trans (QueueGrows_trans (dropCircleEvent_grows _ hd)
        (computeCircleEvents_grows hc1)) (computeCircleEvents_grows hc2)⟩

theorem removeParabola_grows {sqrt : K → K} {point : Pt K} {arch : Nat} {o o' : Options K}
    (h : removeParabola sqrt point arch o = .ok o') :
    o'.sweeplineY = o.sweeplineY ∧ QueueGrows o.sweeplineY o.heap o'.heap := by
  simp only [removeParabola, bind_eq_ok] at h
  obtain ⟨xl, -, xr, -, p0, -, p2, -, p0', -, d1, hd1, p2', -, d2, hd2, p1N, -, p1Site, -, y, -,
    p0N, -, p0Site, -, p2N, -, p2Site, -, cells, -, xlN, -, xlEdge, -, eo1, -, xrN, -,
    xrEdge, -, eo2, -, higher, -, e, -, hi, -, n1, -, n2, -, c1, hc1, c2, hc2, h⟩ := h
  cases h
  exact ⟨rfl, QueueGrows_trans (QueueGrows_trans (QueueGrows_trans
    (dropCircleEvent_grows _ hd1) (dropCircleEvent_grows _ hd2))
    (computeCircleEvents_grows hc1)) (computeCircleEvents_grows hc2)⟩

theorem minKey_spec (l : List (HeapNode K)) (m : K) (h : minKey l = some m) :
    (∀ n ∈ l, m ≤ n.key) ∧ ∃ n ∈ l, n.key = m := by
  induction l generalizing m with
  | nil => simp [minKey] at h
  | cons a l ih =>
    simp only [minKey] at h
    cases hr : minKey l with
    | none =>
      rw [hr] at h
      simp only [Option.some.injEq] at h
      subst h
      cases l with
      | nil => simp
      | cons b l => simp only [minKey] at hr; cases hm : minKey l <;> simp [hm] at hr
    | some m' =>
      rw [hr] at h
      simp only [Option.some.injEq] at h
      subst h
      obtain ⟨h1, n, hn, hnm⟩ := ih m' hr
      refine ⟨fun x hx => ?_, ?_⟩
      · rcases List.mem_cons.mp hx with rfl | hx
        · exact min_le_left _ _
        · exact le_trans (min_le_right _ _) (h1 x hx)
      · rcases le_total a.key m' with hle | hle
        · exact ⟨a, List.mem_cons_self _ _, (min_eq_left hle).symm⟩
        · exact ⟨n, List.mem_cons_of_mem _ hn, by rw [hnm, min_eq_right hle]⟩

theorem extractMinimum_spec (tie : List (HeapNode K) → Nat) (h h' : FibonacciHeap K)
    (n : HeapNode K) (hx : h.extractMinimum tie = some (n, h')) :
    n ∈ h.nodes ∧ (∀ m ∈ h.nodes, n.key ≤ m.key) ∧ h' = h.delete n.id := by
  simp only [FibonacciHeap.extractMinimum] at hx
  cases hm : minKey h.nodes with
  | none => simp [hm] at hx
  | some m =>
    simp only [hm] at hx
    cases hl : (h.nodes.filter (fun n => decide (n.key = m)))[tie h.nodes %
        (h.nodes.filter (fun n => decide (n.key = m))).length]? with
    | none => simp [hl] at hx
    | some x =>
      simp only [hl, Option.some.injEq, Prod.mk.injEq] at hx
      obtain ⟨rfl, rfl⟩ := hx
      have hmem := List.mem_iff_getElem?.mpr ⟨_, hl⟩
      simp only [List.mem_filter, decide_eq_true_eq] at hmem
      refine ⟨hmem.1, fun y hy => ?_, rfl⟩
      rw [hmem.2]
      exact (minKey_spec _ _ hm).1 y hy

theorem insertSites_keyed (pts : List (Pt K)) (i : Nat) (heap : FibonacciHeap K)
    (hk : Keyed heap) : Keyed (insertSites pts i heap) := by
  induction pts generalizing i heap with
  | nil => exact hk
  | cons pt rest ih =>
    simp only [insertSites]
    apply ih
    intro n hn
    simp only [FibonacciHeap.insert, List.mem_append, List.mem_singleton] at hn
    rcases hn with hn | rfl
    · exact hk n hn
    · rfl

theorem sweepStep_keys {sqrt : K → K} {tie : List (HeapNode K) → Nat} {o o' : Options K}
    (hk : Keyed o.heap) (h : sweepStep sqrt tie o = .ok o') :
    Keyed o'.heap ∧ QueueBelow o' ∧ (QueueBelow o → o'.sweeplineY ≤ o.sweeplineY) := by
  unfold sweepStep at h
  cases hx : o.heap.extractMinimum tie with
  | none => rw [hx] at h; cases h
  | some r =>
    obtain ⟨n, heap⟩ := r
    rw [hx] at h
    dsimp only at h
    obtain ⟨hn, hmin, rfl⟩ := extractMinimum_spec tie _ _ _ hx
    have hsub : ∀ m ∈ (o.heap.delete n.id).nodes, m ∈ o.heap.nodes := by
      intro m hm
      simp only [FibonacciHeap.delete, List.mem_filter] at hm
      exact hm.1
    have hgrow : o'.sweeplineY = n.value.y ∧
        QueueGrows n.value.y (o.heap.delete n.id) o'.heap := by
      cases hv : n.value with
      | site p =>
        rw [hv] at h
        simp only at h
        exact insertParabola_grows h
      | circle point arch =>
        rw [hv] at h
        simp only at h
        exact removeParabola_grows h
    obtain ⟨hy, hg⟩ := hgrow
    refine ⟨fun m hm => ?_, fun m hm => ?_, fun hb => ?_⟩
    · rcases hg m hm with h1 | h1
      · exact hk m (hsub m h1)
      · exact h1.1
    · rw [hy]
      rcases hg m hm with h1 | h1
      · have := hmin m (hsub m h1)
        rw [hk n hn, hk m (hsub m h1)] at this
        exact neg_le_neg_iff.mp this
      · exact le_of_lt h1.2
    · rw [hy]; exact hb n hn

theorem sweepSteps_keyed (sqrt : K → K) (tie : List (HeapNode K) → Nat) (points : List (Pt K))
    (height : K) (k : Nat) (o : Options K)
    (h : sweepSteps sqrt tie k (initialOptions points height) = .ok o) :
    Keyed o.heap ∧ (0 < k → QueueBelow o) := by
  induction k generalizing o with
  | zero =>
    simp only [sweepSteps, pure, Except.pure, Except.ok.injEq] at h
    subst h
    refine ⟨insertSites_keyed _ _ _ (fun n hn => ?_), fun h => absurd h (lt_irrefl _)⟩
    simp [FibonacciHeap.new] at hn
  | succ k ih =>
    simp only [sweepSteps, bind_eq_ok] at h
    obtain ⟨o1, h1, h2⟩ := h
    obtain ⟨hk, hb, -⟩ := sweepStep_keys (ih o1 h1).1 h2
    exact ⟨hk, fun _ => hb⟩

/-- In exact arithmetic, where a run stops at a division by zero: the initial queue holds
every site under the key `-y`; in every state reached after at least one event of the
sweep, every entry of the queue is keyed by minus the height of its event and no event of
the queue lies above the sweep height; and the next event handled does not raise the
sweep height, after which the same holds again. -/
theorem sweepStep_height (sqrt : K → K) (tie : List (HeapNode K) → Nat) (points : List (Pt K))
    (height : K) (k : Nat) (o1 o2 : Options K)
    (h1 : sweepSteps sqrt tie (k + 1) (initialOptions points height) = .ok o1)
    (h2 : sweepStep sqrt tie o1 = .ok o2) :
    Keyed (initialOptions points height).heap ∧
    Keyed o1.heap ∧ QueueBelow o1 ∧
    o2.sweeplineY ≤ o1.sweeplineY ∧
    Keyed o2.heap ∧ QueueBelow o2 := by
  obtain ⟨hk1, hb1⟩ := sweepSteps_keyed sqrt tie points height (k + 1) o1 h1
  obtain ⟨hk2, hb2, hle⟩ := sweepStep_keys hk1 h2
  exact ⟨(sweepSteps_keyed sqrt tie points height 0 _ rfl).1, hk1, hb1 (Nat.succ_pos k),
    hle (hb1 (Nat.succ_pos k)), hk2, hb2⟩

/-- The sweep of `[(0, 5), (-3, 4), (4, 3)]`: after the three sites (sweep height `3`) the
circle event at height `-5` is handled. -/
theorem sweepStep_height_witness :
    sweepSteps sqrtQ fifo (2 + 1) (initialOptions [(0, 5), (-3, 4), (4, 3)] 20)
      = .ok threeSitesState ∧
    sweepStep sqrtQ fifo threeSitesState = .ok afterCircleState ∧
    Keyed (initialOptions [((0 : ℚ), (5 : ℚ)), (-3, 4), (4, 3)] 20).heap ∧
    Keyed threeSitesState.heap ∧ QueueBelow threeSitesState ∧
    afterCircleState.sweeplineY ≤ threeSitesState.sweeplineY ∧
    Keyed afterCircleState.heap ∧ QueueBelow afterCircleState :=
  have h1 : sweepSteps sqrtQ fifo (2 + 1) (initialOptions [(0, 5), (-3, 4), (4, 3)] 20)
      = .ok threeSitesState := by decide!
  have h2 : sweepStep sqrtQ fifo threeSitesState = .ok afterCircleState := by decide!
  ⟨h1, h2, sweepStep_height sqrtQ fifo _ 20 2 _ _ h1 h2⟩

end KeyFacts

end Voronoi

namespace Voronoi

/-! ## Neighbours of an arc -/

section NeighbourFacts

variable {K : Type}

theorem Repr_of_check {nodes : List (Parabola K)} {par : Option Nat} {t : Tree}
    (h : reprCheck nodes par t = true) : Repr nodes par t := by
  induction t generalizing par with
  | leaf i =>
    simp only [reprCheck] at h
    cases hn : nodes[i]? with
    | none => simp [hn] at h
    | some n =>
      simp only [hn, Bool.and_eq_true, decide_eq_true_eq] at h
      exact ⟨n, hn, h.1, h.2⟩
  | node i l r ihl ihr =>
    simp only [reprCheck] at h
    cases hn : nodes[i]? with
    | none => simp [hn] at h
    | some n =>
      simp only [hn, Bool.and_eq_true, decide_eq_true_eq, Bool.not_eq_true'] at h
      obtain ⟨⟨⟨⟨⟨h1, h2⟩, h3⟩, h4⟩, h5⟩, h6⟩ := h
      exact ⟨n, hn, h1, h2, h3, h4, ihl h5, ihr h6⟩

theorem length_le_of_nodup_lt (l : List Nat) (n : Nat) (hnd : l.Nodup) (hlt : ∀ i ∈ l, i < n) :
    l.length ≤ n := by
  have hsub : l.toFinset ⊆ Finset.range n := by
    intro i hi
    rw [List.mem_toFinset] at hi
    exact Finset.mem_range.mpr (hlt i hi)
  have := Finset.card_le_card hsub
  rwa [List.toFinset_card_of_nodup hnd, Finset.card_range] at this

theorem Tree.ids_length_pos (t : Tree) : 0 < t.ids.length := by
  cases t <;> simp [Tree.ids]

theorem descendRight_total {nodes : List (Parabola K)} {par : Option Nat} {u : Tree}
    (h : Repr nodes par u) {fuel : Nat} (hf : u.ids.length ≤ fuel) :
    descendRight nodes fuel (some u.id) = .ok u.last := by
  induction u generalizing par fuel with
  | leaf i =>
    cases fuel with
    | zero => simp [Tree.ids] at hf
    | succ fuel =>
      obtain ⟨n, hn, hl, -⟩ := h
      simp [descendRight, Tree.id, Tree.last, deref, load, bind, Except.bind, hn, hl, pure,
        Except.pure]
  | node i l rt _ ihr =>
    cases fuel with
    | zero => simp [Tree.ids] at hf
    | succ fuel =>
      obtain ⟨n, hn, hl, -, -, hrt, -, h2⟩ := h
      simp only [Tree.ids, List.length_cons, List.length_append] at hf
      have := ihr h2 (show rt.ids.length ≤ fuel by omega)
      show descendRight nodes (fuel + 1) (some i) = .ok rt.last
      simp only [descendRight, deref, load, bind, Except.bind, hn, hl, hrt]
      exact this

theorem descendLeft_total {nodes : List (Parabola K)} {par : Option Nat} {u : Tree}
    (h : Repr nodes par u) {fuel : Nat} (hf : u.ids.length ≤ fuel) :
    descendLeft nodes fuel (some u.id) = .ok u.first := by
  induction u generalizing par fuel with
  | leaf i =>
    cases fuel with
    | zero => simp [Tree.ids] at hf
    | succ fuel =>
      obtain ⟨n, hn, hl, -⟩ := h
      simp [descendLeft, Tree.id, Tree.first, deref, load, bind, Except.bind, hn, hl, pure,
        Except.pure]
  | node i l rt ihl _ =>
    cases fuel with
    | zero => simp [Tree.ids] at hf
    | succ fuel =>
      obtain ⟨n, hn, hl, -, hlf, -, h1, -⟩ := h
      simp only [Tree.ids, List.length_cons, List.length_append] at hf
      have := ihl h1 (show l.ids.length ≤ fuel by omega)
      show descendLeft nodes (fuel + 1) (some i) = .ok l.first
      simp only [descendLeft, deref, load, bind, Except.bind, hn, hl, hlf]
      exact this

theorem getLeftChild_total {nodes : List (Parabola K)} {x : Nat} {n : Parabola K} {s : Tree}
    (hn : nodes[x]? = some n) (hl : n.left = some s.id) (hs : Repr nodes (some x) s)
    (hlen : s.ids.length ≤ nodes.length + 1) :
    getLeftChild nodes (some x) = .ok (some s.last) := by
  simp [getLeftChild, load, deref, bind, Except.bind, hn, hl, descendRight_total hs hlen, pure,
    Except.pure]

theorem getRightChild_total {nodes : List (Parabola K)} {x : Nat} {n : Parabola K} {s : Tree}
    (hn : nodes[x]? = some n) (hl : n.right = some s.id) (hs : Repr nodes (some x) s)
    (hlen : s.ids.length ≤ nodes.length + 1) :
    getRightChild nodes (some x) = .ok (some s.first) := by
  simp [getRightChild, load, deref, bind, Except.bind, hn, hl, descendLeft_total hs hlen, pure,
    Except.pure]

theorem getLeftParentLoop_total {nodes : List (Parabola K)} {fs : List Frame} {h : Nat}
    (hc : ReprCtx nodes none fs h) (hnd : (ctxIds fs).Nodup) (hh : h ∉ ctxIds fs)
    (hne : fs ≠ []) {fuel : Nat} (hf : fs.length ≤ fuel) :
    getLeftParentLoop nodes fuel (ctxParent none fs) h = .ok (leftParentOf fs) := by
  induction fs generalizing h fuel with
  | nil => exact absurd rfl hne
  | cons f fs ih =>
    cases fuel with
    | zero => simp at hf
    | succ fuel =>
      obtain ⟨⟨n, hn, -, hp, hm, hsib⟩, hrest⟩ := hc
      simp only [ctxIds, List.nodup_cons, List.mem_append, not_or, List.nodup_append,
        List.mem_cons] at hnd hh
      simp only [List.length_cons, Nat.add_le_add_iff_right] at hf
      cases f with
      | onLeft i s =>
        simp only [Frame.childLinks] at hm
        simp only [Frame.id] at hn hp
        simp only [getLeftParentLoop, ctxParent, Frame.id, deref, load, bind, Except.bind, hn,
          hm.1, if_true, leftParentOf]
        cases hg : ctxParent none fs with
        | none =>
          rw [hp, hg]
          rw [ctxParent_eq_none hg]; rfl
        | some g =>
          rw [hp, hg]
          simp only
          rw [← hg]
          refine ih hrest hnd.2.2.1 hnd.1.2 ?_ hf
          rintro rfl
          simp [ctxParent] at hg
      | onRight i s =>
        simp only [Frame.childLinks] at hm
        simp only [Frame.id] at hn
        have hne' : s.id ≠ h := by
          rintro rfl
          exact hh.2.1 (Tree.id_mem_ids s)
        simp [getLeftParentLoop, ctxParent, Frame.id, deref, load, bind, Except.bind, hn,
          hm.1, hne', leftParentOf, pure, Except.pure]

theorem getRightParentLoop_total {nodes : List (Parabola K)} {fs : List Frame} {h : Nat}
    (hc : ReprCtx nodes none fs h) (hnd : (ctxIds fs).Nodup) (hh : h ∉ ctxIds fs)
    (hne : fs ≠ []) {fuel : Nat} (hf : fs.length ≤ fuel) :
    getRightParentLoop nodes fuel (ctxParent none fs) h = .ok (rightParentOf fs) := by
  induction fs generalizing h fuel with
  | nil => exact absurd rfl hne
  | cons f fs ih =>
    cases fuel with
    | zero => simp at hf
    | succ fuel =>
      obtain ⟨⟨n, hn, -, hp, hm, hsib⟩, hrest⟩ := hc
      simp only [ctxIds, List.nodup_cons, List.mem_append, not_or, List.nodup_append,
        List.mem_cons] at hnd hh
      simp only [List.length_cons, Nat.add_le_add_iff_right] at hf
      cases f with
      | onRight i s =>
        simp only [Frame.childLinks] at hm
        simp only [Frame.id] at hn hp
        simp only [getRightParentLoop, ctxParent, Frame.id, deref, load, bind, Except.bind, hn,
          hm.2, if_true, rightParentOf]
        cases hg : ctxParent none fs with
        | none =>
          rw [hp, hg]
          rw [ctxParent_eq_none hg]; rfl
        | some g =>
          rw [hp, hg]
          simp only
          rw [← hg]
          refine ih hrest hnd.2.2.1 hnd.1.2 ?_ hf
          rintro rfl
          simp [ctxParent] at hg
      | onLeft i s =>
        simp only [Frame.childLinks] at hm
        simp only [Frame.id] at hn
        have hne' : s.id ≠ h := by
          rintro rfl
          exact hh.2.1 (Tree.id_mem_ids s)
        simp [getRightParentLoop, ctxParent, Frame.id, deref, load, bind, Except.bind, hn,
          hm.2, hne', rightParentOf, pure, Except.pure]

omit K in
theorem leaves_plug (fs : List Frame) (t : Tree) :
    (plug fs t).leaves = leavesBefore fs ++ t.leaves ++ leavesAfter fs := by
  induction fs generalizing t with
  | nil => simp [plug, leavesBefore, leavesAfter]
  | cons f fs ih =>
    cases f with
    | onLeft i s =>
      simp only [plug, ih, Frame.fill, Tree.leaves, leavesBefore, leavesAfter,
        List.append_assoc]
    | onRight i s =>
      simp only [plug, ih, Frame.fill, Tree.leaves, leavesBefore, leavesAfter,
        List.append_assoc]

omit K in
theorem Tree.leaves_getLast? (t : Tree) : t.leaves.getLast? = some t.last := by
  induction t with
  | leaf i => rfl
  | node i l r _ ihr =>
    simp only [Tree.leaves, Tree.last]
    have hne : r.leaves ≠ [] := List.ne_nil_of_mem (Tree.last_mem_leaves r)
    rw [List.getLast?_append_of_ne_nil _ hne, ihr]

omit K in
theorem Tree.leaves_head? (t : Tree) : t.leaves.head? = some t.first := by
  induction t with
  | leaf i => rfl
  | node i l r ihl _ =>
    simp only [Tree.leaves, Tree.first]
    have hne : l.leaves ≠ [] := List.ne_nil_of_mem (Tree.first_mem_leaves l)
    rw [List.head?_append_of_ne_nil _ hne, ihl]

omit K in
theorem prevLeafOf_eq (fs : List Frame) : prevLeafOf fs = (leavesBefore fs).getLast? := by
  induction fs with
  | nil => rfl
  | cons f fs ih =>
    cases f with
    | onLeft i s => simpa [prevLeafOf, leavesBefore] using ih
    | onRight i s =>
      simp only [prevLeafOf, leavesBefore]
      have hne : s.leaves ≠ [] := List.ne_nil_of_mem (Tree.last_mem_leaves s)
      rw [List.getLast?_append_of_ne_nil _ hne, Tree.leaves_getLast?]

omit K in
theorem nextLeafOf_eq (fs : List Frame) : nextLeafOf fs = (leavesAfter fs).head? := by
  induction fs with
  | nil => rfl
  | cons f fs ih =>
    cases f with
    | onRight i s => simpa [nextLeafOf, leavesAfter] using ih
    | onLeft i s =>
      simp only [nextLeafOf, leavesAfter]
      have hne : s.leaves ≠ [] := List.ne_nil_of_mem (Tree.first_mem_leaves s)
      rw [List.head?_append_of_ne_nil _ hne, Tree.leaves_head?]

omit K in
theorem leftParentOf_eq_none (fs : List Frame) :
    leftParentOf fs = none ↔ leavesBefore fs = [] := by
  induction fs with
  | nil => simp [leftParentOf, leavesBefore]
  | cons f fs ih =>
    cases f with
    | onLeft i s => simpa [leftParentOf, leavesBefore] using ih
    | onRight i s =>
      simp only [leftParentOf, leavesBefore, List.append_eq_nil]
      constructor
      · intro h; cases h
      · intro h; exact absurd h.2 (List.ne_nil_of_mem (Tree.last_mem_leaves s))

omit K in
theorem rightParentOf_eq_none (fs : List Frame) :
    rightParentOf fs = none ↔ leavesAfter fs = [] := by
  induction fs with
  | nil => simp [rightParentOf, leavesAfter]
  | cons f fs ih =>
    cases f with
    | onRight i s => simpa [rightParentOf, leavesAfter] using ih
    | onLeft i s =>
      simp only [rightParentOf, leavesAfter, List.append_eq_nil]
      constructor
      · intro h; cases h
      · intro h; exact absurd h.1 (List.ne_nil_of_mem (Tree.first_mem_leaves s))

omit K in
theorem ctxIds_nodup_of_plug {fs : List Frame} {t : Tree} (h : (plug fs t).ids.Nodup) :
    (ctxIds fs).Nodup ∧ t.ids.Nodup ∧ ∀ i ∈ t.ids, i ∉ ctxIds fs := by
  have hp := (plug_ids_perm fs t).nodup_iff.mp h
  rw [List.nodup_append] at hp
  exact ⟨hp.2.1, hp.1, fun i hi hc => hp.2.2 hi hc⟩

omit K in
theorem ctxIds_length (fs : List Frame) : fs.length ≤ (ctxIds fs).length := by
  induction fs with
  | nil => simp
  | cons f fs ih => simp only [ctxIds, List.length_cons, List.length_append]; omega

theorem getLeftParent_total {nodes : List (Parabola K)} {fs : List Frame} {n : Nat}
    (hrepr : Repr nodes none (plug fs (.leaf n))) (hnd : (plug fs (.leaf n)).ids.Nodup)
    (hne : fs ≠ []) :
    getLeftParent nodes n = .ok (leftParentOf fs) ∧
    getRightParent nodes n = .ok (rightParentOf fs) := by
  obtain ⟨hctx, m, hm, -, hp⟩ := Repr_plug.mp hrepr
  obtain ⟨h1, -, h3⟩ := ctxIds_nodup_of_plug hnd
  have hlt : ∀ i ∈ ctxIds fs, i < nodes.length := fun i hi =>
    Repr_lt hrepr i ((plug_ids_perm fs (.leaf n)).mem_iff.mpr (List.mem_append_right _ hi))
  have hlen : fs.length ≤ nodes.length + 1 :=
    le_trans (ctxIds_length fs) (le_trans (length_le_of_nodup_lt _ _ h1 hlt) (Nat.le_succ _))
  have hn : n ∉ ctxIds fs := h3 n (by simp [Tree.ids])
  constructor
  · simp only [getLeftParent, load, deref, bind, Except.bind, hm, hp]
    exact getLeftParentLoop_total hctx h1 hn hne hlen
  · simp only [getRightParent, load, deref, bind, Except.bind, hm, hp]
    exact getRightParentLoop_total hctx h1 hn hne hlen

theorem neighbours_total {nodes : List (Parabola K)} {fs : List Frame} {n : Nat}
    (hrepr : Repr nodes none (plug fs (.leaf n))) (hnd : (plug fs (.leaf n)).ids.Nodup) :
    getLeftChild nodes (leftParentOf fs) = .ok (prevLeafOf fs) ∧
    getRightChild nodes (rightParentOf fs) = .ok (nextLeafOf fs) := by
  obtain ⟨hctx, -⟩ := Repr_plug.mp hrepr
  have hsub : ∀ {f : Frame}, f ∈ fs → f.sibling.ids.length ≤ nodes.length + 1 := by
    intro f hf
    have hnd' : f.sibling.ids.Nodup := by
      have h1 := (ctxIds_nodup_of_plug hnd).1
      clear hctx hrepr hnd
      induction fs with
      | nil => cases hf
      | cons g gs ih =>
        simp only [ctxIds, List.nodup_cons, List.nodup_append] at h1
        rcases List.mem_cons.mp hf with rfl | hf
        · exact h1.2.1
        · exact ih hf h1.2.2.1
    refine le_trans (length_le_of_nodup_lt _ _ hnd' (fun i hi => ?_)) (Nat.le_succ _)
    exact Repr_lt hrepr i ((plug_ids_perm fs (.leaf n)).mem_iff.mpr
      (List.mem_append_right _ (sibling_ids_mem_ctxIds hf hi)))
  constructor
  · cases hx : leftParentOf fs with
    | none =>
      have : prevLeafOf fs = none := by
        rw [prevLeafOf_eq, (leftParentOf_eq_none fs).mp hx]; rfl
      rw [this]; rfl
    | some x =>
      obtain ⟨s, m, hmem, hm, hl, hs, hprev⟩ := leftParentOf_frame hctx hx
      rw [hprev]
      exact getLeftChild_total hm hl hs (hsub hmem)
  · cases hx : rightParentOf fs with
    | none =>
      have : nextLeafOf fs = none := by
        rw [nextLeafOf_eq, (rightParentOf_eq_none fs).mp hx]; rfl
      rw [this]; rfl
    | some x =>
      obtain ⟨s, m, hmem, hm, hl, hs, hnext⟩ := rightParentOf_frame hctx hx
      rw [hnext]
      exact getRightChild_total hm hl hs (hsub hmem)

/-- C19: in a well-formed beachline tree with at least two leaves, every leaf `n` is the
foot of a path `fs` to the root, and the leaves of the tree are those before `n`, then `n`,
then those after `n`; getLeftParent(n) returns the nearest breakpoint of the path that has
`n` in its right subtree (`null` exactly when no leaf is before `n`), getLeftChild of it
returns the leaf just before `n` (`null` when there is none); symmetrically getRightParent(n)
returns the nearest breakpoint with `n` in its left subtree and getRightChild of it the leaf
just after `n`. -/
theorem getLeftParent_getLeftChild_spec (nodes : List (Parabola K)) (t : Tree)
    (hrepr : Repr nodes none t) (hnd : t.ids.Nodup) (h2 : 2 ≤ t.leaves.length)
    (n : Nat) (hn : n ∈ t.leaves) :
    ∃ fs, t = plug fs (.leaf n) ∧
      t.leaves = leavesBefore fs ++ n :: leavesAfter fs ∧
      getLeftParent nodes n = .ok (leftParentOf fs) ∧
      getLeftChild nodes (leftParentOf fs) = .ok (leavesBefore fs).getLast? ∧
      getRightParent nodes n = .ok (rightParentOf fs) ∧
      getRightChild nodes (rightParentOf fs) = .ok (leavesAfter fs).head? ∧
      (leftParentOf fs = none ↔ leavesBefore fs = []) ∧
      (rightParentOf fs = none ↔ leavesAfter fs = []) := by
  obtain ⟨fs, rfl⟩ := exists_plug_of_mem_leaves t hn
  have hne : fs ≠ [] := by
    rintro rfl
    simp [plug, Tree.leaves] at h2
  obtain ⟨h3, h4⟩ := getLeftParent_total hrepr hnd hne
  obtain ⟨h5, h6⟩ := neighbours_total hrepr hnd
  refine ⟨fs, rfl, ?_, h3, ?_, h4, ?_, leftParentOf_eq_none fs, rightParentOf_eq_none fs⟩
  · rw [leaves_plug]; simp [Tree.leaves]
  · rw [← prevLeafOf_eq]; exact h5
  · rw [← nextLeafOf_eq]; exact h6

/-- The beachline after the three sites `(0, 5), (-3, 4), (4, 3)` and its arc `5`. -/
theorem getLeftParent_getLeftChild_spec_witness :
    Repr threeSitesState.parabolas none threeSitesTree ∧ threeSitesTree.ids.Nodup ∧
    2 ≤ threeSitesTree.leaves.length ∧ 5 ∈ threeSitesTree.leaves ∧
    ∃ fs, threeSitesTree = plug fs (.leaf 5) ∧
      threeSitesTree.leaves = leavesBefore fs ++ 5 :: leavesAfter fs ∧
      getLeftParent threeSitesState.parabolas 5 = .ok (leftParentOf fs) ∧
      getLeftChild threeSitesState.parabolas (leftParentOf fs) = .ok (leavesBefore fs).getLast? ∧
      getRightParent threeSitesState.parabolas 5 = .ok (rightParentOf fs) ∧
      getRightChild threeSitesState.parabolas (rightParentOf fs) = .ok (leavesAfter fs).head? ∧
      (leftParentOf fs = none ↔ leavesBefore fs = []) ∧
      (rightParentOf fs = none ↔ leavesAfter fs = []) :=
  have h1 : Repr threeSitesState.parabolas none threeSitesTree := Repr_of_check (by decide!)
  have h2 : threeSitesTree.ids.Nodup := by decide
  have h3 : 2 ≤ threeSitesTree.leaves.length := by decide
  have h4 : 5 ∈ threeSitesTree.leaves := by decide
  ⟨h1, h2, h3, h4, getLeftParent_getLeftChild_spec _ _ h1 h2 h3 5 h4⟩

end NeighbourFacts

end Voronoi

namespace Voronoi

/-! ## The beachline after a site event -/

section ShapeFacts

variable {K : Type} [Arith K]

omit [Arith K] in
theorem Repr_leaf_plug {nodes : List (Parabola K)} {fs : List Frame} {i : Nat}
    (hrep : Repr nodes none (plug fs (.leaf i))) (hnd : (plug fs (.leaf i)).ids.Nodup) :
    ∃ n, nodes[i]? = some n ∧ n.isLeaf = true ∧ n.parent = ctxParent none fs ∧
      ReprCtx nodes none fs i ∧ (ctxIds fs).Nodup ∧ i ∉ ctxIds fs ∧
      ∀ j ∈ ctxIds fs, j < nodes.length := by
  obtain ⟨hctx, n, hn, hl, hp⟩ := Repr_plug.mp hrep
  obtain ⟨h1, -, h3⟩ := ctxIds_nodup_of_plug hnd
  exact ⟨n, hn, hl, hp, hctx, h1, h3 i (by simp [Tree.ids]), fun j hj =>
    Repr_lt hrep j ((plug_ids_perm fs (.leaf i)).mem_iff.mpr (List.mem_append_right _ hj))⟩

omit [Arith K] in
theorem splitArc_Repr {nodes nodes' : List (Parabola K)} {fs : List Frame} {par p0 p2 : Nat}
    {parSite p : Site K} {el er : Nat}
    (hrep : Repr nodes none (plug fs (.leaf par))) (hnd : (plug fs (.leaf par)).ids.Nodup)
    (h : splitArc nodes par parSite p el er = .ok (nodes', p0, p2)) :
    Repr nodes' none (plug fs (.node par (.node (nodes.length + 3) (.leaf nodes.length)
      (.leaf (nodes.length + 1))) (.leaf (nodes.length + 2)))) ∧
    (plug fs (.node par (.node (nodes.length + 3) (.leaf nodes.length)
      (.leaf (nodes.length + 1))) (.leaf (nodes.length + 2)))).ids.Nodup := by
  obtain ⟨n, hn, hl, hp, hctx, hcnd, hpar, hlt⟩ := Repr_leaf_plug hrep hnd
  obtain ⟨-, -, -, H⟩ := splitArc_spec hn h
  have hparlt : par < nodes.length := lt_of_getElem? hn
  constructor
  · rw [Repr_plug]
    constructor
    · refine ReprCtx_congr (fun i hi => sameAt_of_eq _ ?_) hctx
      have h1 := hlt i hi
      have h2 : i ≠ par := fun he => hpar (he ▸ hi)
      rw [H i]
      simp (disch := omega) only [if_pos, if_neg, if_true, if_false, h2]
    · have Hpar := H par
      have Hq := H (nodes.length + 3)
      have H0 := H nodes.length
      have H1 := H (nodes.length + 1)
      have H2 := H (nodes.length + 2)
      simp (disch := omega) only [if_pos, if_neg, if_true, if_false] at Hpar Hq H0 H1 H2
      exact ⟨_, Hpar, rfl, hp, rfl, rfl, ⟨_, Hq, rfl, rfl, rfl, rfl, ⟨_, H0, rfl, rfl⟩,
        ⟨_, H1, rfl, rfl⟩⟩, ⟨_, H2, rfl, rfl⟩⟩
  · rw [(plug_ids_perm fs _).nodup_iff, List.nodup_append]
    refine ⟨?_, hcnd, ?_⟩
    · simp only [Tree.ids, List.cons_append, List.nil_append, List.nodup_cons, List.mem_cons,
        List.mem_singleton, List.not_mem_nil, or_false, not_or, List.nodup_nil, and_true]
      exact ⟨by omega, by omega, by omega, by omega, not_false⟩
    · intro i hi hc
      have := hlt i hc
      simp only [Tree.ids, List.cons_append, List.nil_append, List.mem_cons,
        List.mem_singleton, List.not_mem_nil, or_false] at hi
      rcases hi with rfl | rfl | rfl | rfl | rfl
      · exact hpar hc
      all_goals omega

theorem insertDegenerate_spec {p : Site K} {root : Nat} {o o' : Options K} {n : Parabola K}
    (hn : o.parabolas[root]? = some n) (h : insertDegenerate p root o = .ok o') :
    o'.parabolas.length = o.parabolas.length + 2 ∧
    (∀ j, o'.parabolas[j]? =
      if j = root then some { n with left := some o.parabolas.length,
                                     right := some (o.parabolas.length + 1),
                                     edge := some o.edgeObjs.length, isLeaf := false }
      else if j = o.parabolas.length then
        some { Parabola.new o.firstPoint with parent := some root }
      else if j = o.parabolas.length + 1 then
        some { Parabola.new (some p) with parent := some root }
      else o.parabolas[j]?) ∧
    (∃ e : Edge K, e.start ≠ none ∧ e.neighbour = none ∧ o'.edgeObjs = (alloc o.edgeObjs e).1) ∧
    o'.edges = o.edges ++ [o.edgeObjs.length] ∧ o'.heap = o.heap ∧ o'.root = o.root ∧
    o'.sweeplineY = o.sweeplineY ∧ o'.cells = o.cells ∧ ∃ first, o.firstPoint = some first := by
  have hlt : root < o.parabolas.length := lt_of_getElem? hn
  simp only [insertDegenerate, bind_eq_ok, pure, Except.pure, Except.ok.injEq] at h
  obtain ⟨n1, h1, n3, h3, n5, h5, first, hfirst, e, he, n6, h6, rfl⟩ := h
  obtain ⟨a1, ha1, l1, H1⟩ := store_eq_ok _ _ _ _ h1
  rw [hn] at ha1; cases ha1
  simp only [alloc_snd, length_alloc, l1] at h3 h5 h6
  obtain ⟨c3, m3, cn3, hc3, hm3, hcn3, l3, H3⟩ := setLeft_eq_ok h3
  cases hc3
  simp (disch := omega) only [getElem?_alloc, length_alloc, l1, H1, if_pos, if_neg, if_true,
    if_false, Option.some.injEq] at hm3 hcn3 H3 l3
  subst hm3 hcn3
  simp only [l3] at h5 h6
  obtain ⟨c5, m5, cn5, hc5, hm5, hcn5, l5, H5⟩ := setRight_eq_ok h5
  cases hc5
  simp (disch := omega) only [getElem?_alloc, length_alloc, l3, H3, if_pos, if_neg, if_true,
    if_false, Option.some.injEq] at hm5 hcn5 H5 l5
  subst hm5 hcn5
  obtain ⟨a6, ha6, l6, H6⟩ := store_eq_ok _ _ _ _ h6
  simp (disch := omega) only [H5, if_pos, if_neg, if_true, if_false, Option.some.injEq] at ha6
  subst ha6
  have hstart : e.start ≠ none ∧ e.neighbour = none := by
    split_ifs at he
    · obtain ⟨-, -, hs, -, hn⟩ := Edge_new_fields _ _ _ _ he
      exact ⟨by rw [hs]; simp, hn⟩
    · obtain ⟨-, -, hs, -, hn⟩ := Edge_new_fields _ _ _ _ he
      exact ⟨by rw [hs]; simp, hn⟩
  refine ⟨by rw [l6, l5], fun j => ?_, ⟨e, hstart.1, hstart.2, rfl⟩, rfl, rfl, rfl, rfl, rfl,
    first, (deref_eq_ok _ _).mp hfirst⟩
  rw [H6, H5]
  by_cases hj : j = root
  · subst hj
    simp (disch := omega) only [if_pos, if_neg, if_true, if_false]
  · by_cases h0 : j = o.parabolas.length
    · subst h0
      simp (disch := omega) only [if_pos, if_neg, if_true, if_false]
    · by_cases h1 : j = o.parabolas.length + 1
      · subst h1
        simp (disch := omega) only [if_pos, if_neg, if_true, if_false]
      · simp (disch := omega) only [if_pos, if_neg, if_true, if_false]

omit [Arith K] in
theorem dropCircleEvent_sameAt {β : Type} (f : Parabola K → β)
    (hf : ∀ (n : Parabola K) (hd : Option Nat), f { n with circleEventHeapNode := hd } = f n)
    {nodes nodes' : List (Parabola K)} {heap heap' : FibonacciHeap K} {q : Nat}
    (h : dropCircleEvent nodes heap q = .ok (nodes', heap')) (j : Nat) :
    sameAt f nodes nodes' j := by
  simp only [dropCircleEvent, bind_eq_ok, load_some] at h
  obtain ⟨n, hn, h⟩ := h
  cases hh : n.circleEventHeapNode with
  | none =>
    rw [hh] at h
    simp only [pure, Except.pure, Except.ok.injEq, Prod.mk.injEq] at h
    obtain ⟨rfl, rfl⟩ := h
    rfl
  | some hd =>
    rw [hh] at h
    simp only [bind_eq_ok, pure, Except.pure, Except.ok.injEq, Prod.mk.injEq] at h
    obtain ⟨m, hm, rfl, rfl⟩ := h
    exact store_sameAt f hm (fun a => hf a none) j

theorem computeCircleEvents_sameAt {β : Type} (f : Parabola K → β)
    (hf : ∀ (n : Parabola K) (hd : Option Nat), f { n with circleEventHeapNode := hd } = f n)
    {sqrt : K → K} {nodes nodes' : List (Parabola K)}
    {edgeObjs : List (Edge K)} {b : Nat} {y : K} {heap heap' : FibonacciHeap K}
    (h : computeCircleEvents sqrt nodes edgeObjs b y heap = .ok (nodes', heap')) (j : Nat) :
    sameAt f nodes nodes' j := by
  rcases computeCircleEvents_spec h with ⟨rfl, -⟩ | ⟨k, pt, -, hm⟩
  · rfl
  · exact store_sameAt f hm (fun a => hf a _) j

omit [Arith K] in
theorem sameAt_site {nodes nodes' : List (Parabola K)} {j : Nat}
    (h : sameAt Parabola.site nodes nodes' j) :
    nodes'[j]?.bind (·.site) = nodes[j]?.bind (·.site) := by
  unfold sameAt at h
  cases h1 : nodes'[j]? <;> cases h2 : nodes[j]? <;> simp_all

omit [Arith K] in
theorem sitesOf_congr {nodes nodes' : List (Parabola K)} (l : List Nat)
    (h : ∀ j ∈ l, nodes'[j]?.bind (·.site) = nodes[j]?.bind (·.site)) :
    sitesOf nodes' l = sitesOf nodes l := by
  simp only [sitesOf]
  exact List.map_congr_left h

end ShapeFacts

end Voronoi

namespace Voronoi

/-! ## The general site event -/

section InsertFacts

variable {K : Type} [Arith K]

theorem insertGeneral_steps {sqrt : K → K} {p : Site K} {o o' : Options K}
    (h : insertGeneral sqrt p o = .ok o') :
    ∃ (par : Nat) (parN : Parabola K) (parSite : Site K) (start : Pt K) (el er : Edge K)
      (nodes1 nodes2 nodes3 : List (Parabola K)) (heap1 heap3 : FibonacciHeap K),
      getParabolaByX sqrt o.parabolas p.pt.1 o.sweeplineY (o.parabolas.length + 1) o.root
        = .ok par ∧
      dropCircleEvent o.parabolas o.heap par = .ok (nodes1, heap1) ∧
      nodes1[par]? = some parN ∧ parN.site = some parSite ∧
      start.1 = p.pt.1 ∧ getY parSite.pt p.pt.1 o.sweeplineY = .ok start.2 ∧
      Edge.new start parSite p = .ok el ∧ Edge.new start p parSite = .ok er ∧
      splitArc nodes1 par parSite p o.edgeObjs.length (o.edgeObjs.length + 1)
        = .ok (nodes2, o.parabolas.length, o.parabolas.length + 2) ∧
      nodes1.length = o.parabolas.length ∧
      computeCircleEvents sqrt nodes2 o'.edgeObjs o.parabolas.length o.sweeplineY heap1
        = .ok (nodes3, heap3) ∧
      computeCircleEvents sqrt nodes3 o'.edgeObjs (o.parabolas.length + 2) o.sweeplineY heap3
        = .ok (o'.parabolas, o'.heap) ∧
      o'.edgeObjs.length = o.edgeObjs.length + 2 ∧
      (∀ j, o'.edgeObjs[j]? =
        if j = o.edgeObjs.length then some { el with neighbour := some (o.edgeObjs.length + 1) }
        else if j = o.edgeObjs.length + 1 then some er else o.edgeObjs[j]?) ∧
      o'.edges = o.edges ++ [o.edgeObjs.length] ∧ o'.root = o.root ∧
      o'.sweeplineY = o.sweeplineY ∧ o'.cells = o.cells := by
  simp only [insertGeneral, bind_eq_ok] at h
  obtain ⟨par, hpar, ⟨nodes1, heap1⟩, hd, parN, hparN, parSite, hsite, y, hy, el, hel, er, her,
    eo, heo, ⟨nodes2, p0, p2⟩, hsp, ⟨nodes3, heap3⟩, hc1, ⟨nodes4, heap4⟩, hc2, h⟩ := h
  cases h
  have hparN' := (load_some _ _ _).mp hparN
  have hlen : nodes1.length = o.parabolas.length := (dropCircleEvent_spec hd).1
  obtain ⟨hp0, hp2, -⟩ := splitArc_spec hparN' hsp
  rw [hlen] at hp0 hp2
  subst hp0 hp2
  obtain ⟨a, ha, hl, heoall⟩ := store_eq_ok _ _ _ _ heo
  simp only [getElem?_alloc, alloc_snd, length_alloc] at ha heoall hl
  simp (disch := omega) only [if_pos, if_neg, if_true, if_false, Option.some.injEq] at ha
  subst ha
  simp only [alloc_snd, length_alloc] at hsp hc1 hc2 ⊢
  refine ⟨par, parN, parSite, (p.pt.1, y), el, er, nodes1, nodes2, nodes3, heap1, heap3, hpar, hd,
    hparN', (deref_eq_ok _ _).mp hsite, rfl, hy, hel, her, hsp, hlen, hc1, hc2, hl, fun j => ?_,
    trivial, trivial, trivial, trivial⟩
  rw [heoall j]
  by_cases h1 : j = o.edgeObjs.length
  · simp (disch := omega) only [h1, if_pos, if_neg, if_true, if_false]
  · by_cases h2 : j = o.edgeObjs.length + 1
    · simp (disch := omega) only [h2, if_pos, if_neg, if_true, if_false]
    · simp (disch := omega) only [h1, h2, if_pos, if_neg, if_true, if_false]

omit [Arith K] in
theorem leavesBefore_subset (fs : List Frame) : ∀ i ∈ leavesBefore fs, i ∈ ctxIds fs := by
  induction fs with
  | nil => intro i hi; cases hi
  | cons f fs ih =>
    intro i hi
    cases f with
    | onLeft j s =>
      simp only [leavesBefore] at hi
      simp only [ctxIds, List.mem_cons, List.mem_append]
      exact Or.inr (Or.inr (ih i hi))
    | onRight j s =>
      simp only [leavesBefore, List.mem_append] at hi
      simp only [ctxIds, List.mem_cons, List.mem_append, Frame.sibling]
      rcases hi with hi | hi
      · exact Or.inr (Or.inr (ih i hi))
      · exact Or.inr (Or.inl (Tree.leaves_subset_ids s hi))

omit [Arith K] in
theorem leavesAfter_subset (fs : List Frame) : ∀ i ∈ leavesAfter fs, i ∈ ctxIds fs := by
  induction fs with
  | nil => intro i hi; cases hi
  | cons f fs ih =>
    intro i hi
    cases f with
    | onRight j s =>
      simp only [leavesAfter] at hi
      simp only [ctxIds, List.mem_cons, List.mem_append]
      exact Or.inr (Or.inr (ih i hi))
    | onLeft j s =>
      simp only [leavesAfter, List.mem_append] at hi
      simp only [ctxIds, List.mem_cons, List.mem_append, Frame.sibling]
      rcases hi with hi | hi
      · exact Or.inr (Or.inl (Tree.leaves_subset_ids s hi))
      · exact Or.inr (Or.inr (ih i hi))

theorem insertGeneral_tree {sqrt : K → K} {p : Site K} {o o' : Options K} {t : Tree}
    (hrep : Repr o.parabolas none t) (hnd : t.ids.Nodup) (hroot : o.root = some t.id)
    (h : insertGeneral sqrt p o = .ok o') :
    ∃ (fs : List Frame) (par : Nat), t = plug fs (.leaf par) ∧
      getParabolaByX sqrt o.parabolas p.pt.1 o.sweeplineY (o.parabolas.length + 1) o.root
        = .ok par ∧
      Repr o'.parabolas none (splitTree fs par o.parabolas.length) ∧
      (splitTree fs par o.parabolas.length).ids.Nodup ∧
      o'.root = some (splitTree fs par o.parabolas.length).id := by
  obtain ⟨par, parN, parSite, start, el, er, nodes1, nodes2, nodes3, heap1, heap3, hpar, hd, hparN,
    hsite, -, -, hel, her, hsp, hlen, hc1, hc2, -, -, -, hr, -, -⟩ := insertGeneral_steps h
  have hmem : par ∈ t.leaves := by
    have := hpar
    rw [hroot] at this
    exact getParabolaByX_mem sqrt hrep _ _ this
  obtain ⟨fs, rfl⟩ := exists_plug_of_mem_leaves t hmem
  have hrep1 : Repr nodes1 none (plug fs (.leaf par)) :=
    Repr_congr (fun i _ => (dropCircleEvent_spec hd).2.1 i) hrep
  obtain ⟨hrep2, hnd2⟩ := splitArc_Repr hrep1 hnd hsp
  rw [hlen] at hrep2 hnd2
  have hrep3 := Repr_congr (fun i _ => (computeCircleEvents_same hc1).2.1 i) hrep2
  have hrep4 := Repr_congr (fun i _ => (computeCircleEvents_same hc2).2.1 i) hrep3
  refine ⟨fs, par, rfl, hpar, hrep4, hnd2, ?_⟩
  rw [hr, hroot]
  exact congrArg some (plug_id_congr fs rfl)

/-- C16: in every arithmetic (JavaScript numbers included, where a division by zero gives
`Infinity` or `NaN` and the call goes on), after the general path of insertParabola for a
site `p` that lands on the arc `par` of a well-formed beachline tree, the tree is again well
formed (parent and child links agree) and is the old tree with the leaf `par` replaced by
the breakpoint `par` over a new breakpoint with the new arcs `len`, `len + 1`, and the new
arc `len + 2`; its leaves are the old leaves with `par` replaced by these three arcs, whose
sites are `(par.site, p, par.site)`; the sites of all other leaves are unchanged; the new
breakpoint between the first two new arcs owns `el = Edge(start, par.site, p)` and the
breakpoint `par` between the last two owns `er = Edge(start, p, par.site)`. On such a tree
the embedding of the call never runs out of fuel (`Fuelled_insertGeneral`), so the call
returns in the embedding whenever it returns in JavaScript. -/
theorem insertGeneral_beachline (sqrt : K → K) (p : Site K) (o o' : Options K) (t : Tree)
    (hrep : Repr o.parabolas none t) (hnd : t.ids.Nodup) (hroot : o.root = some t.id)
    (h : insertGeneral sqrt p o = .ok o') :
    ∃ (fs : List Frame) (par : Nat) (parSite : Site K) (start : Pt K) (el er : Edge K),
      t = plug fs (.leaf par) ∧
      t.leaves = leavesBefore fs ++ par :: leavesAfter fs ∧
      sitesOf o.parabolas [par] = [some parSite] ∧
      o'.root = some (splitTree fs par o.parabolas.length).id ∧
      Repr o'.parabolas none (splitTree fs par o.parabolas.length) ∧
      (splitTree fs par o.parabolas.length).ids.Nodup ∧
      (splitTree fs par o.parabolas.length).leaves =
        leavesBefore fs ++ o.parabolas.length :: (o.parabolas.length + 1) ::
          (o.parabolas.length + 2) :: leavesAfter fs ∧
      sitesOf o'.parabolas [o.parabolas.length, o.parabolas.length + 1, o.parabolas.length + 2]
        = [some parSite, some p, some parSite] ∧
      sitesOf o'.parabolas (leavesBefore fs) = sitesOf o.parabolas (leavesBefore fs) ∧
      sitesOf o'.parabolas (leavesAfter fs) = sitesOf o.parabolas (leavesAfter fs) ∧
      Edge.new start parSite p = .ok el ∧ Edge.new start p parSite = .ok er ∧
      (o'.parabolas[o.parabolas.length + 3]?.bind (·.edge)) = some o.edgeObjs.length ∧
      o'.edgeObjs[o.edgeObjs.length]? =
        some { el with neighbour := some (o.edgeObjs.length + 1) } ∧
      (o'.parabolas[par]?.bind (·.edge)) = some (o.edgeObjs.length + 1) ∧
      o'.edgeObjs[o.edgeObjs.length + 1]? = some er := by
  obtain ⟨fs, par, rfl, hpar0, hrep', hnd', hroot'⟩ := insertGeneral_tree hrep hnd hroot h
  obtain ⟨par', parN, parSite, start, el, er, nodes1, nodes2, nodes3, heap1, heap3, hpar, hd, hparN,
    hsite, -, -, hel, her, hsp, hlen, hc1, hc2, -, heo, -, -, -, -⟩ := insertGeneral_steps h
  rw [hpar0] at hpar
  cases hpar
  obtain ⟨-, -, -, H⟩ := splitArc_spec hparN hsp
  rw [hlen] at H
  obtain ⟨n, hn, -, -, -, -, hparctx, hlt⟩ := Repr_leaf_plug hrep hnd
  have hparlt : par < o.parabolas.length := lt_of_getElem? hn
  have hsite' : ∀ j : Nat, o'.parabolas[j]?.bind (·.site) = nodes2[j]?.bind (·.site) := fun j =>
    (sameAt_site (computeCircleEvents_sameAt Parabola.site (fun _ _ => rfl) hc2 j)).trans
      (sameAt_site (computeCircleEvents_sameAt Parabola.site (fun _ _ => rfl) hc1 j))
  have hedge' : ∀ j : Nat, o'.parabolas[j]?.map Parabola.edge = nodes2[j]?.map Parabola.edge :=
    fun j => ((computeCircleEvents_same hc2).2.2 j).trans ((computeCircleEvents_same hc1).2.2 j)
  have hold : ∀ j ∈ ctxIds fs, o'.parabolas[j]?.bind (·.site) = o.parabolas[j]?.bind (·.site) := by
    intro j hj
    have h1 := hlt j hj
    have h2 : j ≠ par := fun he => hparctx (he ▸ hj)
    rw [hsite' j, H j]
    simp (disch := omega) only [if_pos, if_neg, if_true, if_false, h2]
    exact sameAt_site (dropCircleEvent_sameAt Parabola.site (fun _ _ => rfl) hd j)
  refine ⟨fs, par, parSite, start, el, er, rfl, ?_, ?_, hroot', hrep', hnd', ?_, ?_,
    sitesOf_congr _ (fun j hj => hold j (leavesBefore_subset fs j hj)),
    sitesOf_congr _ (fun j hj => hold j (leavesAfter_subset fs j hj)), hel, her, ?_, ?_, ?_, ?_⟩
  · rw [leaves_plug]; simp [Tree.leaves]
  · have := sameAt_site (dropCircleEvent_sameAt Parabola.site (fun _ _ => rfl) hd par)
    simp only [sitesOf, List.map_cons, List.map_nil]
    rw [← this, hparN]
    simp [hsite]
  · rw [splitTree, leaves_plug]; simp [Tree.leaves]
  · simp only [sitesOf, List.map_cons, List.map_nil, hsite', H]
    simp (disch := omega) only [if_pos, if_neg, if_true, if_false]
    simp [Parabola.new]
  · have := hedge' (o.parabolas.length + 3)
    rw [H] at this
    simp (disch := omega) only [if_pos, if_neg, if_true, if_false] at this
    cases hx : o'.parabolas[o.parabolas.length + 3]? with
    | none => simp [hx] at this
    | some x => simp [hx] at this; simp [this]
  · rw [heo, if_pos rfl]
  · have := hedge' par
    rw [H] at this
    simp (disch := omega) only [if_pos, if_neg, if_true, if_false] at this
    cases hx : o'.parabolas[par]? with
    | none => simp [hx] at this
    | some x => simp [hx] at this; simp [this]
  · rw [heo]
    simp (disch := omega) only [if_pos, if_neg, if_true, if_false]

/-- The third site `(10, 0)` of the sweep of the triangle `[(0, 0), (10, 0), (5, 10)]`, in
JavaScript numbers: the sweep height is the height of the site `(0, 0)` of the beachline,
`getXOfEdge` returns `NaN` at the root, the descent goes right and the site lands on the
arc `3` of the site `(5, 10)`. -/
theorem insertGeneral_beachline_witness :
    Repr triangleThirdSite.parabolas none thirdSiteTree ∧ thirdSiteTree.ids.Nodup ∧
    triangleThirdSite.root = some thirdSiteTree.id ∧
    insertGeneral jsSqrt ⟨1, (10, 0)⟩ triangleThirdSite = .ok triangleSites ∧
    ∃ (fs : List Frame) (par : Nat) (parSite : Site (Num ℚ)) (start : Pt (Num ℚ)) (el er : Edge (Num ℚ)),
      thirdSiteTree = plug fs (.leaf par) ∧
      thirdSiteTree.leaves = leavesBefore fs ++ par :: leavesAfter fs ∧
      sitesOf triangleThirdSite.parabolas [par] = [some parSite] ∧
      triangleSites.root = some (splitTree fs par triangleThirdSite.parabolas.length).id ∧
      Repr triangleSites.parabolas none (splitTree fs par triangleThirdSite.parabolas.length) ∧
      (splitTree fs par triangleThirdSite.parabolas.length).ids.Nodup ∧
      (splitTree fs par triangleThirdSite.parabolas.length).leaves =
        leavesBefore fs ++ triangleThirdSite.parabolas.length ::
          (triangleThirdSite.parabolas.length + 1) ::
          (triangleThirdSite.parabolas.length + 2) :: leavesAfter fs ∧
      sitesOf triangleSites.parabolas [triangleThirdSite.parabolas.length,
          triangleThirdSite.parabolas.length + 1, triangleThirdSite.parabolas.length + 2]
        = [some parSite, some ⟨1, (10, 0)⟩, some parSite] ∧
      sitesOf triangleSites.parabolas (leavesBefore fs)
        = sitesOf triangleThirdSite.parabolas (leavesBefore fs) ∧
      sitesOf triangleSites.parabolas (leavesAfter fs)
        = sitesOf triangleThirdSite.parabolas (leavesAfter fs) ∧
      Edge.new start parSite ⟨1, (10, 0)⟩ = .ok el ∧ Edge.new start ⟨1, (10, 0)⟩ parSite = .ok er ∧
      (triangleSites.parabolas[triangleThirdSite.parabolas.length + 3]?.bind (·.edge))
        = some triangleThirdSite.edgeObjs.length ∧
      triangleSites.edgeObjs[triangleThirdSite.edgeObjs.length]? =
        some { el with neighbour := some (triangleThirdSite.edgeObjs.length + 1) } ∧
      (triangleSites.parabolas[par]?.bind (·.edge))
        = some (triangleThirdSite.edgeObjs.length + 1) ∧
      triangleSites.edgeObjs[triangleThirdSite.edgeObjs.length + 1]? = some er :=
  have h1 : Repr triangleThirdSite.parabolas none thirdSiteTree := Repr_of_check (by decide!)
  have h2 : thirdSiteTree.ids.Nodup := by decide
  have h3 : triangleThirdSite.root = some thirdSiteTree.id := by decide!
  have h4 : insertGeneral jsSqrt ⟨1, (10, 0)⟩ triangleThirdSite = .ok triangleSites := by decide!
  ⟨h1, h2, h3, h4, insertGeneral_beachline jsSqrt _ _ _ _ h1 h2 h3 h4⟩

end InsertFacts

end Voronoi

namespace Voronoi

/-! ## The circle event -/

section RemoveFacts

variable {K : Type} [Arith K]

theorem removeParabola_steps {sqrt : K → K} {point : Pt K} {p1 : Nat} {o o' : Options K}
    (h : removeParabola sqrt point p1 o = .ok o') :
    ∃ (xl xr : Option Nat) (p0 p2 : Nat) (nodes1 nodes2 : List (Parabola K))
      (heap1 heap2 : FibonacciHeap K) (p1N p0N p2N xlN xrN : Parabola K)
      (p1Site p0Site p2Site : Site K) (y : K) (xlEdge xrEdge hi : Nat) (eo1 eo2 : List (Edge K))
      (e : Edge K) (n1 n2 nodes3 : List (Parabola K)) (heap3 : FibonacciHeap K),
      getLeftParent o.parabolas p1 = .ok xl ∧ getRightParent o.parabolas p1 = .ok xr ∧
      getLeftChild o.parabolas xl = .ok (some p0) ∧
      getRightChild o.parabolas xr = .ok (some p2) ∧
      dropCircleEvent o.parabolas o.heap p0 = .ok (nodes1, heap1) ∧
      dropCircleEvent nodes1 heap1 p2 = .ok (nodes2, heap2) ∧
      nodes2[p1]? = some p1N ∧ p1N.site = some p1Site ∧
      getY p1Site.pt point.1 o.sweeplineY = .ok y ∧
      nodes2[p0]? = some p0N ∧ p0N.site = some p0Site ∧
      nodes2[p2]? = some p2N ∧ p2N.site = some p2Site ∧
      recordVertex o.cells p0Site p1Site p2Site { id := o.vertexCount, pt := (point.1, y) }
        = .ok o'.cells ∧
      load nodes2 xl = .ok xlN ∧ xlN.edge = some xlEdge ∧
      store o.edgeObjs xlEdge (fun e => { e with endp := some (point.1, y) }) = .ok eo1 ∧
      load nodes2 xr = .ok xrN ∧ xrN.edge = some xrEdge ∧
      store eo1 xrEdge (fun e => { e with endp := some (point.1, y) }) = .ok eo2 ∧
      higherLoop nodes2 o.root xl xr (nodes2.length + 1) (some p1) none = .ok (some hi) ∧
      Edge.new (point.1, y) p0Site p2Site = .ok e ∧
      o'.edgeObjs = (alloc eo2 e).1 ∧
      store nodes2 hi (fun n => { n with edge := some eo2.length }) = .ok n1 ∧
      excise n1 p1 = .ok n2 ∧
      computeCircleEvents sqrt n2 o'.edgeObjs p0 o.sweeplineY heap2 = .ok (nodes3, heap3) ∧
      computeCircleEvents sqrt nodes3 o'.edgeObjs p2 o.sweeplineY heap3
        = .ok (o'.parabolas, o'.heap) ∧
      o'.edges = o.edges ++ [eo2.length] ∧ o'.root = o.root ∧
      o'.sweeplineY = o.sweeplineY := by
  simp only [removeParabola, bind_eq_ok] at h
  obtain ⟨xl, hxl, xr, hxr, p0', hp0', p2', hp2', p0, hp0, ⟨nodes1, heap1⟩, hd1, p2, hp2,
    ⟨nodes2, heap2⟩, hd2, p1N, hp1N, p1Site, hp1S, y, hy, p0N, hp0N, p0Site, hp0S, p2N, hp2N,
    p2Site, hp2S, cells, hcells, xlN, hxlN, xlEdge, hxlE, eo1, heo1, xrN, hxrN, xrEdge, hxrE,
    eo2, heo2, higher, hhi, e, he, hi, hhi', n1, hn1, n2, hn2, ⟨nodes3, heap3⟩, hc1,
    ⟨nodes4, heap4⟩, hc2, h⟩ := h
  cases h
  rw [deref_eq_ok] at hp0 hp2 hhi' hp1S hp0S hp2S hxlE hxrE
  subst hp0 hp2 hhi'
  simp only [alloc_snd] at hn1 hc1 hc2 ⊢
  exact ⟨xl, xr, p0, p2, nodes1, nodes2, heap1, heap2, p1N, p0N, p2N, xlN, xrN, p1Site, p0Site,
    p2Site, y, xlEdge, xrEdge, hi, eo1, eo2, e, n1, n2, nodes3, heap3, hxl, hxr, hp0', hp2', hd1,
    hd2, (load_some _ _ _).mp hp1N, hp1S, hy, (load_some _ _ _).mp hp0N, hp0S,
    (load_some _ _ _).mp hp2N, hp2S, hcells, hxlN, hxlE, heo1, hxrN, hxrE, heo2, hhi, he,
    rfl, hn1, hn2, hc1, hc2, rfl, trivial, trivial⟩

omit [Arith K] in
theorem two_frames {fs : List Frame} (hl : leftParentOf fs ≠ none)
    (hr : rightParentOf fs ≠ none) : ∃ f1 f2 fs', fs = f1 :: f2 :: fs' := by
  cases fs with
  | nil => exact absurd rfl hl
  | cons f1 fs =>
    cases fs with
    | nil =>
      cases f1 with
      | onLeft i s => exact absurd rfl hl
      | onRight i s => exact absurd rfl hr
    | cons f2 fs' => exact ⟨f1, f2, fs', rfl⟩

omit [Arith K] in
theorem leftParentOf_mem {fs : List Frame} {x : Nat} (hx : leftParentOf fs = some x) :
    ∃ f ∈ fs, f.id = x := by
  induction fs with
  | nil => simp [leftParentOf] at hx
  | cons f fs ih =>
    cases f with
    | onLeft i s =>
      obtain ⟨g, hg, hgx⟩ := ih (by simpa [leftParentOf] using hx)
      exact ⟨g, List.mem_cons_of_mem _ hg, hgx⟩
    | onRight i s =>
      simp only [leftParentOf, Option.some.injEq] at hx
      exact ⟨_, List.mem_cons_self _ _, hx⟩

omit [Arith K] in
theorem rightParentOf_mem {fs : List Frame} {x : Nat} (hx : rightParentOf fs = some x) :
    ∃ f ∈ fs, f.id = x := by
  induction fs with
  | nil => simp [rightParentOf] at hx
  | cons f fs ih =>
    cases f with
    | onRight i s =>
      obtain ⟨g, hg, hgx⟩ := ih (by simpa [rightParentOf] using hx)
      exact ⟨g, List.mem_cons_of_mem _ hg, hgx⟩
    | onLeft i s =>
      simp only [rightParentOf, Option.some.injEq] at hx
      exact ⟨_, List.mem_cons_self _ _, hx⟩

omit [Arith K] in
/-- The value of `higher` after the climb from an arc whose two flanking breakpoints
exist: it is the flanking breakpoint that is not the parent of the arc, and it lies on the
path above the parent. -/
theorem higherOf_flanks {f1 : Frame} {fs : List Frame} {x y : Nat}
    (hnd : (ctxIds (f1 :: fs)).Nodup) (hx : leftParentOf (f1 :: fs) = some x)
    (hy : rightParentOf (f1 :: fs) = some y) :
    ∃ hi, higherOf (some x) (some y) (f1 :: fs) none = some hi ∧ hi ≠ f1.id ∧
      (f1.id = x ∨ f1.id = y) ∧ (hi = x ∨ hi = y) ∧ (f1.id = x → hi = y) ∧
      (f1.id = y → hi = x) ∧ ∃ f ∈ fs, f.id = hi := by
  have hnd' := hnd
  simp only [ctxIds, List.nodup_cons, List.mem_append, not_or, List.nodup_append] at hnd'
  have hnotin : ∀ f ∈ fs, f.id ≠ f1.id := fun f hf he =>
    hnd'.1.2 (he ▸ frame_id_mem_ctxIds hf)
  cases f1 with
  | onLeft a s =>
    simp only [rightParentOf, Option.some.injEq] at hy
    subst hy
    simp only [leftParentOf] at hx
    obtain ⟨f, hf, hfx⟩ := leftParentOf_mem hx
    have hxa : x ≠ a := fun he => hnotin f hf (hfx.trans he)
    refine ⟨x, ?_, hxa, Or.inr rfl, Or.inl rfl, fun h => absurd h.symm hxa, fun _ => rfl,
      f, hf, hfx⟩
    simp only [higherOf, Frame.id, if_true]
    exact (higherOf_found x a fs _ hnd'.2.2.1 ⟨f, hf, hfx⟩ hnotin).1
  | onRight a s =>
    simp only [leftParentOf, Option.some.injEq] at hx
    subst hx
    simp only [rightParentOf] at hy
    obtain ⟨f, hf, hfy⟩ := rightParentOf_mem hy
    have hya : y ≠ a := fun he => hnotin f hf (hfy.trans he)
    refine ⟨y, ?_, hya, Or.inl rfl, Or.inr rfl, fun _ => rfl, fun h => absurd h.symm hya,
      f, hf, hfy⟩
    simp only [higherOf, Frame.id, Option.some.injEq, Ne.symm hya, if_false, if_true]
    exact (higherOf_found y a fs _ hnd'.2.2.1 ⟨f, hf, hfy⟩ hnotin).2

theorem removeParabola_tree {sqrt : K → K} {point : Pt K} {p1 : Nat} {o o' : Options K}
    {fs : List Frame} (hrep : Repr o.parabolas none (plug fs (.leaf p1)))
    (hnd : (plug fs (.leaf p1)).ids.Nodup) (hroot : o.root = some (plug fs (.leaf p1)).id)
    (h : removeParabola sqrt point p1 o = .ok o') :
    ∃ (f1 f2 : Frame) (fs' : List Frame) (x y p0 p2 hi : Nat),
      fs = f1 :: f2 :: fs' ∧ leftParentOf fs = some x ∧ rightParentOf fs = some y ∧
      prevLeafOf fs = some p0 ∧ nextLeafOf fs = some p2 ∧
      getLeftParent o.parabolas p1 = .ok (some x) ∧ getRightParent o.parabolas p1 = .ok (some y) ∧
      getLeftChild o.parabolas (some x) = .ok (some p0) ∧
      getRightChild o.parabolas (some y) = .ok (some p2) ∧
      higherOf (some x) (some y) fs none = some hi ∧ hi ≠ f1.id ∧
      (f1.id = x ∨ f1.id = y) ∧ (hi = x ∨ hi = y) ∧ (f1.id = x → hi = y) ∧ (f1.id = y → hi = x) ∧
      (∃ f ∈ f2 :: fs', f.id = hi) ∧
      Repr o'.parabolas none (plug (f2 :: fs') f1.sibling) ∧
      (plug (f2 :: fs') f1.sibling).ids.Nodup ∧
      o'.root = some (plug (f2 :: fs') f1.sibling).id := by
  obtain ⟨xl, xr, p0, p2, nodes1, nodes2, heap1, heap2, p1N, p0N, p2N, xlN, xrN, p1Site, p0Site,
    p2Site, y, xlEdge, xrEdge, hi, eo1, eo2, e, n1, n2, nodes3, heap3, hxl, hxr, hp0, hp2, hd1,
    hd2, hp1N, -, -, -, -, -, -, -, -, -, -, -, -, -, hhi, -, -, hn1, hn2, hc1, hc2, -, hr, -⟩ :=
    removeParabola_steps h
  obtain ⟨n, hn, hleaf, hpar, hctx, hcnd, hp1ctx, hlt⟩ := Repr_leaf_plug hrep hnd
  have hne : fs ≠ [] := by
    rintro rfl
    simp only [getLeftParent, load, deref, bind, Except.bind, hn, hpar, ctxParent,
      getLeftParentLoop] at hxl
    cases hxl
  obtain ⟨hL, hR⟩ := getLeftParent_total hrep hnd hne
  obtain ⟨hLc, hRc⟩ := neighbours_total hrep hnd
  rw [hL] at hxl; cases hxl
  rw [hR] at hxr; cases hxr
  rw [hLc] at hp0
  rw [hRc] at hp2
  simp only [Except.ok.injEq] at hp0 hp2
  have hlne : leftParentOf fs ≠ none := by
    intro he
    rw [prevLeafOf_eq, (leftParentOf_eq_none fs).mp he] at hp0
    cases hp0
  have hrne : rightParentOf fs ≠ none := by
    intro he
    rw [nextLeafOf_eq, (rightParentOf_eq_none fs).mp he] at hp2
    cases hp2
  obtain ⟨f1, f2, fs', rfl⟩ := two_frames hlne hrne
  obtain ⟨x, hx⟩ := Option.ne_none_iff_exists'.mp hlne
  obtain ⟨y', hy'⟩ := Option.ne_none_iff_exists'.mp hrne
  obtain ⟨hi', hhi1, hhi2, hhi3, hhi4, hhi5, hhi6, hhi7⟩ := higherOf_flanks hcnd hx hy'
  -- the tree after the two deletions of circle events
  have hlinks2 : ∀ i, sameAt Parabola.links o.parabolas nodes2 i := fun i =>
    sameAt_trans ((dropCircleEvent_spec hd1).2.1 i) ((dropCircleEvent_spec hd2).2.1 i)
  have hrep2 : Repr nodes2 none (plug (f1 :: f2 :: fs') (.leaf p1)) :=
    Repr_congr (fun i _ => hlinks2 i) hrep
  have hrep3 : Repr n1 none (plug (f1 :: f2 :: fs') (.leaf p1)) :=
    Repr_congr (fun i _ => store_sameAt Parabola.links hn1 (fun _ => rfl) i) hrep2
  have hrep4 := excise_Repr hrep3 hnd hn2
  have hrep5 := Repr_congr (fun i _ => (computeCircleEvents_same hc1).2.1 i) hrep4
  have hrep6 := Repr_congr (fun i _ => (computeCircleEvents_same hc2).2.1 i) hrep5
  have hN := nodup_plug2 hnd
  refine ⟨f1, f2, fs', x, y', p0, p2, hi', rfl, hx, hy', hp0, hp2, by rw [hL, hx],
    by rw [hR, hy'], by rw [← hx, hLc, hp0], by rw [← hy', hRc, hp2], hhi1, hhi2, hhi3, hhi4,
    hhi5, hhi6, hhi7, hrep6, ?_, ?_⟩
  · rw [(plug_ids_perm _ _).nodup_iff]
    simp only [ctxIds, List.nodup_cons, List.mem_cons, List.mem_append, not_or,
      List.nodup_append] at hN ⊢
    tauto
  · rw [hr, hroot, plug_id, plug_id]
    simp only [rootOf, Tree.id]

omit [Arith K] in
theorem excise_length {nodes nodes' : List (Parabola K)} {p1 : Nat}
    (h : excise nodes p1 = .ok nodes') : nodes'.length = nodes.length := by
  simp only [excise, bind_eq_ok] at h
  obtain ⟨p1N, -, parent, -, parentN, -, h⟩ := h
  split_ifs at h
  all_goals
    simp only [bind_eq_ok] at h
    obtain ⟨g, -, gN, -, h⟩ := h
    split_ifs at h
    · obtain ⟨_, _, _, -, -, -, hl, -⟩ := setLeft_eq_ok h; exact hl
    · obtain ⟨_, _, _, -, -, -, hl, -⟩ := setRight_eq_ok h; exact hl

theorem removeParabola_edges {sqrt : K → K} {point : Pt K} {p1 : Nat} {o o' : Options K}
    {fs : List Frame} (hrep : Repr o.parabolas none (plug fs (.leaf p1)))
    (hnd : (plug fs (.leaf p1)).ids.Nodup) (hroot : o.root = some (plug fs (.leaf p1)).id)
    (h : removeParabola sqrt point p1 o = .ok o') :
    ∃ (x y p0 p2 hi xlEdge xrEdge : Nat) (p0Site p1Site p2Site : Site K) (v : Pt K) (e : Edge K),
      leftParentOf fs = some x ∧ rightParentOf fs = some y ∧
      prevLeafOf fs = some p0 ∧ nextLeafOf fs = some p2 ∧
      higherOf (some x) (some y) fs none = some hi ∧
      (∀ j : Nat, o'.parabolas[j]?.bind (·.site) = o.parabolas[j]?.bind (·.site)) ∧
      (o.parabolas[p0]?.bind (·.site)) = some p0Site ∧
      (o.parabolas[p1]?.bind (·.site)) = some p1Site ∧
      (o.parabolas[p2]?.bind (·.site)) = some p2Site ∧
      v.1 = point.1 ∧ getY p1Site.pt point.1 o.sweeplineY = .ok v.2 ∧
      Edge.new v p0Site p2Site = .ok e ∧
      o'.edgeObjs.length = o.edgeObjs.length + 1 ∧
      o'.edgeObjs[o.edgeObjs.length]? = some e ∧
      EndsGrow o.edgeObjs o'.edgeObjs ∧
      o'.edges = o.edges ++ [o.edgeObjs.length] ∧
      (o.parabolas[x]?.bind (·.edge)) = some xlEdge ∧
      (o.parabolas[y]?.bind (·.edge)) = some xrEdge ∧
      (∃ E, o'.edgeObjs[xlEdge]? = some E ∧ E.endp = some v) ∧
      (∃ E, o'.edgeObjs[xrEdge]? = some E ∧ E.endp = some v) ∧
      (o'.parabolas[hi]?.bind (·.edge)) = some o.edgeObjs.length ∧
      (∀ j : Nat, j ≠ hi → o'.parabolas[j]?.map Parabola.edge = o.parabolas[j]?.map Parabola.edge) ∧
      o'.parabolas.length = o.parabolas.length := by
  obtain ⟨xl, xr, p0, p2, nodes1, nodes2, heap1, heap2, p1N, p0N, p2N, xlN, xrN, p1Site, p0Site,
    p2Site, y, xlEdge, xrEdge, hi, eo1, eo2, e, n1, n2, nodes3, heap3, hxl, hxr, hp0, hp2, hd1,
    hd2, hp1N, hp1S, hy, hp0N, hp0S, hp2N, hp2S, -, hxlN, hxlE, heo1, hxrN, hxrE, heo2, hhi, he,
    heo, hn1, hn2, hc1, hc2, hedges, hr, -⟩ := removeParabola_steps h
  obtain ⟨n, hn, hleaf, hpar, hctx, hcnd, hp1ctx, hlt⟩ := Repr_leaf_plug hrep hnd
  have hne : fs ≠ [] := by
    rintro rfl
    simp only [getLeftParent, load, deref, bind, Except.bind, hn, hpar, ctxParent,
      getLeftParentLoop] at hxl
    cases hxl
  obtain ⟨hL, hR⟩ := getLeftParent_total hrep hnd hne
  obtain ⟨hLc, hRc⟩ := neighbours_total hrep hnd
  rw [hL] at hxl; cases hxl
  rw [hR] at hxr; cases hxr
  rw [hLc] at hp0
  rw [hRc] at hp2
  simp only [Except.ok.injEq] at hp0 hp2
  have hlne : leftParentOf fs ≠ none := by
    intro he
    rw [prevLeafOf_eq, (leftParentOf_eq_none fs).mp he] at hp0
    cases hp0
  have hrne : rightParentOf fs ≠ none := by
    intro he
    rw [nextLeafOf_eq, (rightParentOf_eq_none fs).mp he] at hp2
    cases hp2
  obtain ⟨x, hx⟩ := Option.ne_none_iff_exists'.mp hlne
  obtain ⟨y', hy'⟩ := Option.ne_none_iff_exists'.mp hrne
  rw [hx, hy'] at hhi
  rw [hx, load_some] at hxlN
  rw [hy', load_some] at hxrN
  -- the stores after the two deletions of circle events
  have hlinks2 : ∀ i, sameAt Parabola.links o.parabolas nodes2 i := fun i =>
    sameAt_trans ((dropCircleEvent_spec hd1).2.1 i) ((dropCircleEvent_spec hd2).2.1 i)
  have hedge2 : ∀ i, sameAt Parabola.edge o.parabolas nodes2 i := fun i =>
    sameAt_trans ((dropCircleEvent_spec hd1).2.2.1 i) ((dropCircleEvent_spec hd2).2.2.1 i)
  have hsite2 : ∀ i, sameAt Parabola.site o.parabolas nodes2 i := fun i =>
    sameAt_trans (dropCircleEvent_sameAt Parabola.site (fun _ _ => rfl) hd1 i)
      (dropCircleEvent_sameAt Parabola.site (fun _ _ => rfl) hd2 i)
  have hlen2 : nodes2.length = o.parabolas.length := by
    rw [(dropCircleEvent_spec hd2).1, (dropCircleEvent_spec hd1).1]
  have hrep2 : Repr nodes2 none (plug fs (.leaf p1)) := Repr_congr (fun i _ => hlinks2 i) hrep
  obtain ⟨n2', hn2', -, hpar2, hctx2, -, -, -⟩ := Repr_leaf_plug hrep2 hnd
  have hroot' : o.root = some (rootOf fs p1) := by rw [hroot, plug_id]; rfl
  rw [hroot'] at hhi
  have hhi' := higherLoop_spec (some x) (some y') hctx2 ⟨n2', hn2', hpar2⟩ hcnd hp1ctx hhi
  -- the later stores
  have hsiteL : ∀ i, sameAt Parabola.site nodes2 o'.parabolas i := fun i =>
    sameAt_trans (sameAt_trans (sameAt_trans (store_sameAt Parabola.site hn1 (fun _ => rfl) i)
      (excise_sameAt Parabola.site (fun _ _ _ => ⟨rfl, rfl, rfl⟩) hn2 i))
      (computeCircleEvents_sameAt Parabola.site (fun _ _ => rfl) hc1 i))
      (computeCircleEvents_sameAt Parabola.site (fun _ _ => rfl) hc2 i)
  have hedgeL : ∀ i, sameAt Parabola.edge n1 o'.parabolas i := fun i =>
    sameAt_trans (sameAt_trans (excise_sameAt Parabola.edge (fun _ _ _ => ⟨rfl, rfl, rfl⟩) hn2 i)
      ((computeCircleEvents_same hc1).2.2 i)) ((computeCircleEvents_same hc2).2.2 i)
  have hsiteO : ∀ j : Nat, o'.parabolas[j]?.bind (·.site) = o.parabolas[j]?.bind (·.site) :=
    fun j => (sameAt_site (hsiteL j)).trans (sameAt_site (hsite2 j))
  have hs : ∀ (j : Nat) (m : Parabola K) (s : Site K), nodes2[j]? = some m → m.site = some s →
      (o.parabolas[j]?.bind (·.site)) = some s := by
    intro j m s hm hs
    rw [← sameAt_site (hsite2 j), hm]
    exact hs
  have he2 : ∀ (j : Nat) (m : Parabola K) (s : Nat), nodes2[j]? = some m → m.edge = some s →
      (o.parabolas[j]?.bind (·.edge)) = some s := by
    intro j m s hm hs
    have := hedge2 j
    unfold sameAt at this
    rw [hm] at this
    cases ho : o.parabolas[j]? with
    | none => simp [ho] at this
    | some a => simp [ho] at this; simp [← this, hs]
  obtain ⟨a1, ha1, l1, H1⟩ := store_eq_ok _ _ _ _ heo1
  obtain ⟨a2, ha2, l2, H2⟩ := store_eq_ok _ _ _ _ heo2
  have hg : EndsGrow o.edgeObjs o'.edgeObjs := by
    rw [heo]
    exact EndsGrow_trans (EndsGrow_trans (store_endp heo1).1 (store_endp heo2).1)
      (alloc_EndsGrow _ _)
  have hlenE : eo2.length = o.edgeObjs.length := by rw [l2, l1]
  obtain ⟨m1, hm1, hl1, HN1⟩ := store_eq_ok _ _ _ _ hn1
  have hres : ∀ (j : Nat) (E : Edge K), eo2[j]? = some E → o'.edgeObjs[j]? = some E := by
    intro j E hj
    rw [heo, alloc_old _ _ (lt_of_getElem? hj)]
    exact hj
  refine ⟨x, y', p0, p2, hi, xlEdge, xrEdge, p0Site, p1Site, p2Site, (point.1, y), e, hx, hy',
    hp0, hp2, hhi'.symm, hsiteO, hs _ _ _ hp0N hp0S, hs _ _ _ hp1N hp1S, hs _ _ _ hp2N hp2S,
    rfl, hy, he, ?_, ?_, hg, by rw [hedges, hlenE], he2 _ _ _ hxlN hxlE, he2 _ _ _ hxrN hxrE,
    ?_, ?_, ?_, ?_, ?_⟩
  · rw [heo, length_alloc, hlenE]
  · rw [heo, ← hlenE]; exact alloc_new _ _
  · by_cases hxe : xlEdge = xrEdge
    · subst hxe
      exact ⟨{ a2 with endp := some (point.1, y) },
        hres _ _ (by rw [H2, if_pos rfl]), rfl⟩
    · exact ⟨{ a1 with endp := some (point.1, y) },
        hres _ _ (by rw [H2, if_neg hxe, H1, if_pos rfl]), rfl⟩
  · exact ⟨{ a2 with endp := some (point.1, y) }, hres _ _ (by rw [H2, if_pos rfl]), rfl⟩
  · have := hedgeL hi
    unfold sameAt at this
    rw [HN1 hi, if_pos rfl] at this
    cases ho : o'.parabolas[hi]? with
    | none => simp [ho] at this
    | some a => simp [ho] at this; simp [this, hlenE]
  · intro j hj
    have h1 := hedgeL j
    have h2 := hedge2 j
    unfold sameAt at h1 h2
    rw [h1, HN1 j, if_neg hj, h2]
  · rw [(computeCircleEvents_same hc2).1, (computeCircleEvents_same hc1).1]
    rw [excise_length hn2, hl1, hlen2]

omit [Arith K] in
theorem leaves_excised (f1 : Frame) (fs : List Frame) :
    leavesBefore fs ++ f1.sibling.leaves ++ leavesAfter fs =
      leavesBefore (f1 :: fs) ++ leavesAfter (f1 :: fs) := by
  cases f1 <;> simp [leavesBefore, leavesAfter, Frame.sibling]

omit [Arith K] in
theorem split_leftParent {fs : List Frame} {x : Nat} (hx : leftParentOf fs = some x) :
    ∃ ls S rest, fs = ls ++ Frame.onRight x S :: rest ∧ (∀ u, (plug ls u).first = u.first) ∧
      prevLeafOf fs = some S.last := by
  induction fs with
  | nil => simp [leftParentOf] at hx
  | cons f fs ih =>
    cases f with
    | onLeft i s =>
      obtain ⟨ls, S, rest, h1, h2, h3⟩ := ih (by simpa [leftParentOf] using hx)
      refine ⟨Frame.onLeft i s :: ls, S, rest, by rw [h1]; rfl, fun u => ?_, by
        simpa [prevLeafOf] using h3⟩
      simp only [plug, h2, Frame.fill, Tree.first]
    | onRight i s =>
      simp only [leftParentOf, Option.some.injEq] at hx
      subst hx
      exact ⟨[], s, fs, rfl, fun u => rfl, rfl⟩

omit [Arith K] in
theorem split_rightParent {fs : List Frame} {y : Nat} (hy : rightParentOf fs = some y) :
    ∃ ls S rest, fs = ls ++ Frame.onLeft y S :: rest ∧ (∀ u, (plug ls u).last = u.last) ∧
      nextLeafOf fs = some S.first := by
  induction fs with
  | nil => simp [rightParentOf] at hy
  | cons f fs ih =>
    cases f with
    | onRight i s =>
      obtain ⟨ls, S, rest, h1, h2, h3⟩ := ih (by simpa [rightParentOf] using hy)
      refine ⟨Frame.onRight i s :: ls, S, rest, by rw [h1]; rfl, fun u => ?_, by
        simpa [nextLeafOf] using h3⟩
      simp only [plug, h2, Frame.fill, Tree.last]
    | onLeft i s =>
      simp only [rightParentOf, Option.some.injEq] at hy
      subst hy
      exact ⟨[], s, fs, rfl, fun u => rfl, rfl⟩

omit [Arith K] in
theorem excised_separator (f1 : Frame) (fs2 : List Frame) {x y p0 p2 hi : Nat}
    (hx : leftParentOf (f1 :: fs2) = some x) (hy : rightParentOf (f1 :: fs2) = some y)
    (hp0 : prevLeafOf (f1 :: fs2) = some p0) (hp2 : nextLeafOf (f1 :: fs2) = some p2)
    (h1 : f1.id = y → hi = x) (h2 : f1.id = x → hi = y) :
    ∃ gs L R, plug fs2 f1.sibling = plug gs (.node hi L R) ∧ L.last = p0 ∧ R.first = p2 := by
  cases f1 with
  | onLeft a s =>
    simp only [rightParentOf, Option.some.injEq] at hy
    simp only [leftParentOf] at hx
    simp only [prevLeafOf] at hp0
    simp only [nextLeafOf, Option.some.injEq] at hp2
    have hhi := h1 hy
    subst hhi
    obtain ⟨ls, S, rest, hfs, hfirst, hprev⟩ := split_leftParent hx
    refine ⟨rest, S, plug ls s, ?_, ?_, ?_⟩
    · rw [hfs, plug_append]; rfl
    · rw [hp0] at hprev; exact (Option.some.inj hprev).symm
    · rw [hfirst]; exact hp2
  | onRight a s =>
    simp only [leftParentOf, Option.some.injEq] at hx
    simp only [rightParentOf] at hy
    simp only [nextLeafOf] at hp2
    simp only [prevLeafOf, Option.some.injEq] at hp0
    have hhi := h2 hx
    subst hhi
    obtain ⟨ls, S, rest, hfs, hlast, hnext⟩ := split_rightParent hy
    refine ⟨rest, plug ls s, S, ?_, ?_, ?_⟩
    · rw [hfs, plug_append]; rfl
    · rw [hlast]; exact hp0
    · rw [hp2] at hnext; exact (Option.some.inj hnext).symm

end RemoveFacts

end Voronoi

namespace Voronoi

/-! ## Claims on the circle event -/

section RemoveClaims

variable {K : Type} [Arith K]

/-- C17: in every arithmetic (JavaScript numbers included, where `new Edge` between sites of
the same height has the slope `Infinity` and the call goes on), when removeParabola returns
for an arc `p1` of a well-formed beachline tree, `p1` has a parent `f1` and a grandparent
`f2`, a left neighbour arc `p0` and a right neighbour arc `p2`; afterwards the tree is again
well formed (parent and child links agree) and is the old tree with the sibling of `p1` put
in the place of the parent of `p1`: its leaves are the old leaves with exactly `p1` removed,
in the same order and with the same sites; the parent of `p1` and `p1` are no longer in the
tree; and the breakpoint `hi` whose left subtree ends with `p0` and whose right subtree
starts with `p2` owns the new edge `Edge(v, p0.site, p2.site)`. On such a tree the embedding
of the call never runs out of fuel (`Fuelled_removeParabola`), so the call returns in the
embedding whenever it returns in JavaScript. -/
theorem removeParabola_beachline (sqrt : K → K) (point : Pt K) (p1 : Nat) (o o' : Options K)
    (fs : List Frame) (hrep : Repr o.parabolas none (plug fs (.leaf p1)))
    (hnd : (plug fs (.leaf p1)).ids.Nodup) (hroot : o.root = some (plug fs (.leaf p1)).id)
    (h : removeParabola sqrt point p1 o = .ok o') :
    ∃ (f1 f2 : Frame) (fs' : List Frame) (p0 p2 hi : Nat) (gs : List Frame) (L R : Tree)
      (p0Site p2Site : Site K) (v : Pt K) (e : Edge K),
      fs = f1 :: f2 :: fs' ∧
      (plug fs (.leaf p1)).leaves = leavesBefore fs ++ p1 :: leavesAfter fs ∧
      (leavesBefore fs).getLast? = some p0 ∧ (leavesAfter fs).head? = some p2 ∧
      o'.root = some (plug (f2 :: fs') f1.sibling).id ∧
      Repr o'.parabolas none (plug (f2 :: fs') f1.sibling) ∧
      (plug (f2 :: fs') f1.sibling).ids.Nodup ∧
      (plug (f2 :: fs') f1.sibling).leaves = leavesBefore fs ++ leavesAfter fs ∧
      (o.parabolas[p1]?.bind (·.parent)) = some f1.id ∧
      f1.id ∉ (plug (f2 :: fs') f1.sibling).ids ∧ p1 ∉ (plug (f2 :: fs') f1.sibling).ids ∧
      sitesOf o'.parabolas (leavesBefore fs ++ leavesAfter fs)
        = sitesOf o.parabolas (leavesBefore fs ++ leavesAfter fs) ∧
      plug (f2 :: fs') f1.sibling = plug gs (.node hi L R) ∧ L.last = p0 ∧ R.first = p2 ∧
      sitesOf o.parabolas [p0, p2] = [some p0Site, some p2Site] ∧
      v.1 = point.1 ∧ Edge.new v p0Site p2Site = .ok e ∧
      (o'.parabolas[hi]?.bind (·.edge)) = some o.edgeObjs.length ∧
      o'.edgeObjs[o.edgeObjs.length]? = some e := by
  obtain ⟨f1, f2, fs', x, y, p0, p2, hi, rfl, hx, hy, hp0, hp2, -, -, -, -, hhi, hne, hor, -,
    h1, h2, -, hrep', hnd', hroot'⟩ := removeParabola_tree hrep hnd hroot h
  obtain ⟨x', y', p0', p2', hi', xlEdge, xrEdge, p0Site, p1Site, p2Site, v, e, hx', hy', hp0',
    hp2', hhi', hsite, hs0, -, hs2, hv, -, he, -, hnew, -, -, -, -, -, -, hown, -, -⟩ :=
    removeParabola_edges hrep hnd hroot h
  rw [hx] at hx'; cases hx'
  rw [hy] at hy'; cases hy'
  rw [hp0] at hp0'; cases hp0'
  rw [hp2] at hp2'; cases hp2'
  rw [hhi] at hhi'; cases hhi'
  obtain ⟨gs, L, R, hsep, hL, hR⟩ := excised_separator f1 (f2 :: fs') hx hy hp0 hp2 h2 h1
  obtain ⟨n, hn, -, hpar, -, -, -, -⟩ := Repr_leaf_plug hrep hnd
  have hN := nodup_plug2 hnd
  have hmem : ∀ i, i ∈ (plug (f2 :: fs') f1.sibling).ids ↔
      i ∈ f1.sibling.ids ++ ctxIds (f2 :: fs') := fun i => (plug_ids_perm _ _).mem_iff
  refine ⟨f1, f2, fs', p0, p2, hi, gs, L, R, p0Site, p2Site, v, e, rfl, ?_, ?_, ?_, hroot', hrep',
    hnd', ?_, ?_, ?_, ?_, sitesOf_congr _ (fun j _ => hsite j), hsep, hL, hR, ?_, hv, he, hown,
    hnew⟩
  · rw [leaves_plug]; simp [Tree.leaves]
  · rw [← prevLeafOf_eq]; exact hp0
  · rw [← nextLeafOf_eq]; exact hp2
  · rw [leaves_plug, leaves_excised]
  · rw [hn]; simpa [ctxParent] using hpar
  · rw [hmem]
    simp only [ctxIds, List.nodup_cons, List.mem_cons, List.mem_append, not_or,
      List.nodup_append] at hN ⊢
    tauto
  · rw [hmem]
    simp only [ctxIds, List.nodup_cons, List.mem_cons, List.mem_append, not_or,
      List.nodup_append] at hN ⊢
    tauto
  · simp only [sitesOf, List.map_cons, List.map_nil, hs0, hs2]

/-- The circle event of the sweep of the triangle `[(0, 0), (10, 0), (5, 10)]`, in
JavaScript numbers: the arc `5` of `(5, 10)` vanishes between the arcs `2` and `6` of the
sites `(0, 0)` and `(10, 0)`, which have the same height, so that the new edge has the
slope `Infinity`. -/
theorem removeParabola_beachline_witness :
    Repr triangleCircle.parabolas none (plug arcPath (.leaf 5)) ∧
    (plug arcPath (.leaf 5)).ids.Nodup ∧
    triangleCircle.root = some (plug arcPath (.leaf 5)).id ∧
    removeParabola jsSqrt (5, .fin (-5 / 2)) 5 triangleCircle = .ok triangleDrained ∧
    ∃ (f1 f2 : Frame) (fs' : List Frame) (p0 p2 hi : Nat) (gs : List Frame) (L R : Tree)
      (p0Site p2Site : Site (Num ℚ)) (v : Pt (Num ℚ)) (e : Edge (Num ℚ)),
      arcPath = f1 :: f2 :: fs' ∧
      (plug arcPath (.leaf 5)).leaves = leavesBefore arcPath ++ 5 :: leavesAfter arcPath ∧
      (leavesBefore arcPath).getLast? = some p0 ∧ (leavesAfter arcPath).head? = some p2 ∧
      triangleDrained.root = some (plug (f2 :: fs') f1.sibling).id ∧
      Repr triangleDrained.parabolas none (plug (f2 :: fs') f1.sibling) ∧
      (plug (f2 :: fs') f1.sibling).ids.Nodup ∧
      (plug (f2 :: fs') f1.sibling).leaves = leavesBefore arcPath ++ leavesAfter arcPath ∧
      (triangleCircle.parabolas[5]?.bind (·.parent)) = some f1.id ∧
      f1.id ∉ (plug (f2 :: fs') f1.sibling).ids ∧ 5 ∉ (plug (f2 :: fs') f1.sibling).ids ∧
      sitesOf triangleDrained.parabolas (leavesBefore arcPath ++ leavesAfter arcPath)
        = sitesOf triangleCircle.parabolas (leavesBefore arcPath ++ leavesAfter arcPath) ∧
      plug (f2 :: fs') f1.sibling = plug gs (.node hi L R) ∧ L.last = p0 ∧ R.first = p2 ∧
      sitesOf triangleCircle.parabolas [p0, p2] = [some p0Site, some p2Site] ∧
      v.1 = ((5, .fin (-5 / 2)) : Pt (Num ℚ)).1 ∧ Edge.new v p0Site p2Site = .ok e ∧
      (triangleDrained.parabolas[hi]?.bind (·.edge)) = some triangleCircle.edgeObjs.length ∧
      triangleDrained.edgeObjs[triangleCircle.edgeObjs.length]? = some e :=
  have h1 : Repr triangleCircle.parabolas none (plug arcPath (.leaf 5)) :=
    Repr_of_check (by decide!)
  have h2 : (plug arcPath (.leaf 5)).ids.Nodup := by decide
  have h3 : triangleCircle.root = some (plug arcPath (.leaf 5)).id := by decide!
  have h4 : removeParabola jsSqrt (5, .fin (-5 / 2)) 5 triangleCircle = .ok triangleDrained := by
    decide!
  ⟨h1, h2, h3, h4, removeParabola_beachline jsSqrt _ 5 _ _ arcPath h1 h2 h3 h4⟩

/-- C18 (as amended): in every arithmetic (JavaScript numbers included), when removeParabola
returns for an arc `p1` of a well-formed beachline tree, the parent `f1` of `p1` is one of
`xl`, `xr`; the breakpoint `hi` that receives the new edge `Edge(v, p0.site, p2.site)` is
the other one of `xl`, `xr`, a breakpoint of the path above the parent of `p1` (the farther
ancestor, met last when walking up); the parent of `p1` keeps its edge and is no longer in
the tree. On such a tree the embedding of the call never runs out of fuel
(`Fuelled_removeParabola`). -/
theorem removeParabola_higher (sqrt : K → K) (point : Pt K) (p1 : Nat) (o o' : Options K)
    (fs : List Frame) (hrep : Repr o.parabolas none (plug fs (.leaf p1)))
    (hnd : (plug fs (.leaf p1)).ids.Nodup) (hroot : o.root = some (plug fs (.leaf p1)).id)
    (h : removeParabola sqrt point p1 o = .ok o') :
    ∃ (f1 f2 : Frame) (fs' : List Frame) (x y p0 p2 hi : Nat) (p0Site p2Site : Site K)
      (v : Pt K) (e : Edge K),
      fs = f1 :: f2 :: fs' ∧
      getLeftParent o.parabolas p1 = .ok (some x) ∧
      getRightParent o.parabolas p1 = .ok (some y) ∧
      getLeftChild o.parabolas (some x) = .ok (some p0) ∧
      getRightChild o.parabolas (some y) = .ok (some p2) ∧
      (o.parabolas[p1]?.bind (·.parent)) = some f1.id ∧
      (f1.id = x ∨ f1.id = y) ∧ (hi = x ∨ hi = y) ∧ hi ≠ f1.id ∧
      (∃ f ∈ f2 :: fs', f.id = hi) ∧
      sitesOf o.parabolas [p0, p2] = [some p0Site, some p2Site] ∧
      v.1 = point.1 ∧ Edge.new v p0Site p2Site = .ok e ∧
      o'.edgeObjs[o.edgeObjs.length]? = some e ∧
      (o'.parabolas[hi]?.bind (·.edge)) = some o.edgeObjs.length ∧
      o'.parabolas[f1.id]?.map Parabola.edge = o.parabolas[f1.id]?.map Parabola.edge ∧
      f1.id ∉ (plug (f2 :: fs') f1.sibling).ids ∧
      Repr o'.parabolas none (plug (f2 :: fs') f1.sibling) := by
  obtain ⟨f1, f2, fs', x, y, p0, p2, hi, rfl, hx, hy, hp0, hp2, hgl, hgr, hcl, hcr, hhi, hne, hor,
    hor', -, -, hmem, hrep', -, -⟩ := removeParabola_tree hrep hnd hroot h
  obtain ⟨x', y', p0', p2', hi', xlEdge, xrEdge, p0Site, p1Site, p2Site, v, e, hx', hy', hp0',
    hp2', hhi', -, hs0, -, hs2, hv, -, he, -, hnew, -, -, -, -, -, -, hown, hkeep, -⟩ :=
    removeParabola_edges hrep hnd hroot h
  rw [hx] at hx'; cases hx'
  rw [hy] at hy'; cases hy'
  rw [hp0] at hp0'; cases hp0'
  rw [hp2] at hp2'; cases hp2'
  rw [hhi] at hhi'; cases hhi'
  obtain ⟨n, hn, -, hpar, -, -, -, -⟩ := Repr_leaf_plug hrep hnd
  have hN := nodup_plug2 hnd
  refine ⟨f1, f2, fs', x, y, p0, p2, hi, p0Site, p2Site, v, e, rfl, hgl, hgr, hcl, hcr, ?_, hor,
    hor', hne, hmem, ?_, hv, he, hnew, hown, hkeep _ (Ne.symm hne), ?_, hrep'⟩
  · rw [hn]; simpa [ctxParent] using hpar
  · simp only [sitesOf, List.map_cons, List.map_nil, hs0, hs2]
  · rw [(plug_ids_perm _ _).mem_iff]
    simp only [ctxIds, List.nodup_cons, List.mem_cons, List.mem_append, not_or,
      List.nodup_append] at hN ⊢
    tauto

/-- The circle event of the sweep of the triangle `[(0, 0), (10, 0), (5, 10)]` at the arc
`5`, in JavaScript numbers: the neighbours are the arcs of `(0, 0)` and `(10, 0)`, of the
same height. -/
theorem removeParabola_higher_witness :
    Repr triangleCircle.parabolas none (plug arcPath (.leaf 5)) ∧
    (plug arcPath (.leaf 5)).ids.Nodup ∧
    triangleCircle.root = some (plug arcPath (.leaf 5)).id ∧
    removeParabola jsSqrt (5, .fin (-5 / 2)) 5 triangleCircle = .ok triangleDrained ∧
    ∃ (f1 f2 : Frame) (fs' : List Frame) (x y p0 p2 hi : Nat) (p0Site p2Site : Site (Num ℚ))
      (v : Pt (Num ℚ)) (e : Edge (Num ℚ)),
      arcPath = f1 :: f2 :: fs' ∧
      getLeftParent triangleCircle.parabolas 5 = .ok (some x) ∧
      getRightParent triangleCircle.parabolas 5 = .ok (some y) ∧
      getLeftChild triangleCircle.parabolas (some x) = .ok (some p0) ∧
      getRightChild triangleCircle.parabolas (some y) = .ok (some p2) ∧
      (triangleCircle.parabolas[5]?.bind (·.parent)) = some f1.id ∧
      (f1.id = x ∨ f1.id = y) ∧ (hi = x ∨ hi = y) ∧ hi ≠ f1.id ∧
      (∃ f ∈ f2 :: fs', f.id = hi) ∧
      sitesOf triangleCircle.parabolas [p0, p2] = [some p0Site, some p2Site] ∧
      v.1 = ((5, .fin (-5 / 2)) : Pt (Num ℚ)).1 ∧ Edge.new v p0Site p2Site = .ok e ∧
      triangleDrained.edgeObjs[triangleCircle.edgeObjs.length]? = some e ∧
      (triangleDrained.parabolas[hi]?.bind (·.edge)) = some triangleCircle.edgeObjs.length ∧
      triangleDrained.parabolas[f1.id]?.map Parabola.edge
        = triangleCircle.parabolas[f1.id]?.map Parabola.edge ∧
      f1.id ∉ (plug (f2 :: fs') f1.sibling).ids ∧
      Repr triangleDrained.parabolas none (plug (f2 :: fs') f1.sibling) :=
  have h1 : Repr triangleCircle.parabolas none (plug arcPath (.leaf 5)) :=
    Repr_of_check (by decide!)
  have h2 : (plug arcPath (.leaf 5)).ids.Nodup := by decide
  have h3 : triangleCircle.root = some (plug arcPath (.leaf 5)).id := by decide!
  have h4 : removeParabola jsSqrt (5, .fin (-5 / 2)) 5 triangleCircle = .ok triangleDrained := by
    decide!
  ⟨h1, h2, h3, h4, removeParabola_higher jsSqrt _ 5 _ _ arcPath h1 h2 h3 h4⟩

/-- C18 (as stated, fails): in the sweep of `[(0, 5), (-3, 4), (4, 3)]` the circle event of
the arc `5` finds `xl = 0` (the root) and `xr = 8`, the parent of the arc. The new edge
(index `4`, bisecting `(-3, 4)` and `(4, 3)` from the vertex `(0, 0)`) is given to the
breakpoint `0`, the farther of the two; the parent `8` keeps its edge `2`. -/
theorem removeParabola_higher_not_parent :
    sweepStep sqrtQ fifo threeSitesState = .ok afterCircleState ∧
    threeSitesState.heap.nodes.map (·.value) = [.circle (0, -5) 5] ∧
    removeParabola sqrtQ (0, -5) 5 circleEventState = .ok afterCircleState ∧
    getLeftParent circleEventState.parabolas 5 = .ok (some 0) ∧
    getRightParent circleEventState.parabolas 5 = .ok (some 8) ∧
    (circleEventState.parabolas[5]?.bind (·.parent)) = some 8 ∧
    (circleEventState.parabolas[8]?.bind (·.parent)) = some 3 ∧
    (circleEventState.parabolas[3]?.bind (·.parent)) = some 0 ∧
    circleEventState.edgeObjs.length = 4 ∧ afterCircleState.edgeObjs.length = 5 ∧
    afterCircleState.edgeObjs[4]?.map (fun e => (e.start, e.left.pt, e.right.pt))
      = some (some ((0, 0) : Pt ℚ), ((-3, 4) : Pt ℚ), ((4, 3) : Pt ℚ)) ∧
    (circleEventState.parabolas[0]?.bind (·.edge)) = some 1 ∧
    (afterCircleState.parabolas[0]?.bind (·.edge)) = some 4 ∧
    (circleEventState.parabolas[8]?.bind (·.edge)) = some 2 ∧
    (afterCircleState.parabolas[8]?.bind (·.edge)) = some 2 := by
  refine ⟨by decide!, by decide!, by decide!, by decide!, by decide!, by decide!, by decide!,
    by decide!, by decide!, by decide!, by decide!, by decide!, by decide!, by decide!,
    by decide!⟩

end RemoveClaims

end Voronoi

namespace Voronoi

/-! ## The queue and the arcs -/

section HeapFacts

variable {K : Type} [Arith K]

omit [Arith K] in
theorem HeapOK_root {nodes : List (Parabola K)} {heap : FibonacciHeap K} {L : List Nat}
    {r : Nat} (r' : Nat) (hk : HeapOK nodes heap L r) (h : ∀ i ∈ L, i ≠ r') :
    HeapOK nodes heap L r' := by
  obtain ⟨hnd, hlt, hcirc⟩ := hk
  refine ⟨hnd, hlt, fun m hm pt arch hv => ?_⟩
  obtain ⟨hL, -, hx⟩ := hcirc m hm pt arch hv
  exact ⟨hL, h _ hL, hx⟩

omit [Arith K] in
theorem HeapOK_lt {nodes : List (Parabola K)} {heap : FibonacciHeap K} {L : List Nat}
    {r : Nat} (hk : HeapOK nodes heap L r) :
    HeapOK nodes heap (L.filter (fun i => decide (i < nodes.length))) nodes.length := by
  obtain ⟨hnd, hlt, hcirc⟩ := hk
  refine ⟨hnd, hlt, fun m hm pt arch hv => ?_⟩
  obtain ⟨hL, -, nd, hnd', hx⟩ := hcirc m hm pt arch hv
  have := lt_of_getElem? hnd'
  exact ⟨List.mem_filter.mpr ⟨hL, by simpa using this⟩, Nat.ne_of_lt this, nd, hnd', hx⟩

omit [Arith K] in
theorem nodup_id_inj {l : List (HeapNode K)} (hnd : (l.map (·.id)).Nodup) {a b : HeapNode K}
    (ha : a ∈ l) (hb : b ∈ l) (h : a.id = b.id) : a = b :=
  List.inj_on_of_nodup_map hnd ha hb h

omit [Arith K] in
theorem mem_delete {heap : FibonacciHeap K} {hd : Nat} {m : HeapNode K} :
    m ∈ (heap.delete hd).nodes ↔ m ∈ heap.nodes ∧ m.id ≠ hd := by
  simp [FibonacciHeap.delete, List.mem_filter]

omit [Arith K] in
theorem HeapOK_delete {nodes : List (Parabola K)} {heap : FibonacciHeap K} {L : List Nat}
    {r : Nat} (hd : Nat) (hk : HeapOK nodes heap L r) : HeapOK nodes (heap.delete hd) L r := by
  obtain ⟨hnd, hlt, hcirc⟩ := hk
  refine ⟨?_, fun m hm => hlt m (mem_delete.mp hm).1,
    fun m hm pt arch hv => hcirc m (mem_delete.mp hm).1 pt arch hv⟩
  simp only [FibonacciHeap.delete]
  exact (List.filter_sublist _).map _ |>.nodup hnd

omit [Arith K] in
/-- After the circle event of the arc `arch` has left the queue no entry refers to `arch`. -/
theorem HeapOK_extract {nodes : List (Parabola K)} {heap : FibonacciHeap K} {L : List Nat}
    {r : Nat} (hk : HeapOK nodes heap L r) {n : HeapNode K} (hn : n ∈ heap.nodes)
    {pt : Pt K} {arch : Nat} (hv : n.value = .circle pt arch) :
    HeapOK nodes (heap.delete n.id) (L.filter (fun i => decide (i ≠ arch))) r := by
  have hk' := HeapOK_delete n.id hk
  obtain ⟨hnd, hlt, hcirc⟩ := hk'
  refine ⟨hnd, hlt, fun m hm pt' arch' hv' => ?_⟩
  obtain ⟨hL, hr, nd, hnd', hx⟩ := hcirc m hm pt' arch' hv'
  refine ⟨List.mem_filter.mpr ⟨hL, ?_⟩, hr, nd, hnd', hx⟩
  simp only [decide_eq_true_eq]
  rintro rfl
  obtain ⟨-, -, nd2, hnd2, hx2⟩ := hk.2.2 n hn pt arch' hv
  rw [hnd'] at hnd2; cases hnd2
  rw [hx] at hx2
  exact (mem_delete.mp hm).2 (Option.some.inj hx2)

omit [Arith K] in
theorem Live_delete {nodes : List (Parabola K)} {heap : FibonacciHeap K} {L L' : List Nat}
    (hl : Live nodes heap L) (hnd : (heap.nodes.map (·.id)).Nodup) {n : HeapNode K}
    (hn : n ∈ heap.nodes) (hs : ∀ l ∈ L', l ∈ L ∧ ∀ pt, n.value ≠ .circle pt l) :
    Live nodes (heap.delete n.id) L' := by
  intro l hl' nd hd hnd' hh
  obtain ⟨m, hm, hmid, pt, hmv⟩ := hl l (hs l hl').1 nd hd hnd' hh
  refine ⟨m, mem_delete.mpr ⟨hm, fun he => ?_⟩, hmid, pt, hmv⟩
  have := nodup_id_inj hnd hm hn he
  subst this
  exact (hs l hl').2 pt hmv

omit [Arith K] in
theorem Live_mono {nodes : List (Parabola K)} {heap : FibonacciHeap K} {L L' : List Nat}
    (hl : Live nodes heap L) (hs : ∀ l ∈ L', l ∈ L) : Live nodes heap L' :=
  fun l hl' => hl l (hs l hl')

omit [Arith K] in
theorem Live_nodes {nodes nodes' : List (Parabola K)} {heap : FibonacciHeap K}
    {L L' : List Nat} (hl : Live nodes heap L)
    (hs : ∀ l ∈ L', ∀ (nd : Parabola K) (hd : Nat), nodes'[l]? = some nd →
      nd.circleEventHeapNode = some hd →
      l ∈ L ∧ ∃ nd0, nodes[l]? = some nd0 ∧ nd0.circleEventHeapNode = some hd) :
    Live nodes' heap L' := by
  intro l hl' nd hd hnd' hh
  obtain ⟨hL, nd0, h0, h1⟩ := hs l hl' nd hd hnd' hh
  exact hl l hL nd0 hd h0 h1

omit [Arith K] in
theorem Live_drop {nodes nodes' : List (Parabola K)} {heap heap' : FibonacciHeap K}
    {L : List Nat} {q : Nat} (hl : Live nodes heap L)
    (hnd : (heap.nodes.map (·.id)).Nodup) (hq : q ∈ L)
    (h : dropCircleEvent nodes heap q = .ok (nodes', heap')) : Live nodes' heap' L := by
  obtain ⟨-, -, -, hother, n, n', hn, hn', hnone, hheap⟩ := dropCircleEvent_spec h
  intro l hl' nd hd hnd' hh
  by_cases hlq : l = q
  · subst hlq
    rw [hn'] at hnd'; cases hnd'
    rw [hnone] at hh; cases hh
  · rw [hother l hlq] at hnd'
    obtain ⟨m, hm, hmid, pt, hmv⟩ := hl l hl' nd hd hnd' hh
    refine ⟨m, ?_, hmid, pt, hmv⟩
    cases hq' : n.circleEventHeapNode with
    | none => rw [hq'] at hheap; subst hheap; exact hm
    | some hdq =>
      rw [hq'] at hheap; subst hheap
      refine mem_delete.mpr ⟨hm, fun he => ?_⟩
      obtain ⟨mq, hmq, hmqid, ptq, hmqv⟩ := hl q hq n hdq hn hq'
      have := nodup_id_inj hnd hm hmq (he.trans hmqid.symm)
      subst this
      rw [hmv] at hmqv
      simp only [Event.circle.injEq] at hmqv
      exact hlq hmqv.2

theorem Live_compute {sqrt : K → K} {nodes nodes' : List (Parabola K)}
    {edgeObjs : List (Edge K)} {b : Nat} {y : K} {heap heap' : FibonacciHeap K}
    {L : List Nat} (hl : Live nodes heap L)
    (h : computeCircleEvents sqrt nodes edgeObjs b y heap = .ok (nodes', heap')) :
    Live nodes' heap' L := by
  rcases computeCircleEvents_spec h with ⟨rfl, rfl⟩ | ⟨k, pt, rfl, hm⟩
  · exact hl
  · obtain ⟨a, ha, -, hall⟩ := store_eq_ok _ _ _ _ hm
    intro l hl' nd hd hnd' hh
    rw [hall l] at hnd'
    by_cases hlb : l = b
    · subst hlb
      rw [if_pos rfl] at hnd'
      cases hnd'
      simp only [Option.some.injEq] at hh
      subst hh
      exact ⟨{ key := k, id := heap.count, value := .circle pt l },
        by simp [FibonacciHeap.insert], rfl, pt, rfl⟩
    · rw [if_neg hlb] at hnd'
      obtain ⟨m, hm', hmid, pt', hmv⟩ := hl l hl' nd hd hnd' hh
      exact ⟨m, by simp [FibonacciHeap.insert, hm'], hmid, pt', hmv⟩

theorem HeapOK_compute2 {sqrt : K → K} {nodes nodes' : List (Parabola K)}
    {edgeObjs : List (Edge K)} {b : Nat} {y : K} {heap heap' : FibonacciHeap K}
    {L L' : List Nat} {r : Nat} (hk : HeapOK nodes heap L r) (hb : b ∉ L) (hbr : b ≠ r)
    (h : computeCircleEvents sqrt nodes edgeObjs b y heap = .ok (nodes', heap'))
    (hsub : ∀ i ∈ L, i ∈ L') (hsched : heap' ≠ heap → b ∈ L') : HeapOK nodes' heap' L' r := by
  have h1 := HeapOK_compute hk hb hbr h
  obtain ⟨hnd, hlt, hcirc⟩ := h1
  refine ⟨hnd, hlt, fun m hm pt arch hv => ?_⟩
  obtain ⟨hL, hr, hx⟩ := hcirc m hm pt arch hv
  refine ⟨?_, hr, hx⟩
  rcases List.mem_cons.mp hL with rfl | hL
  · refine hsched (fun he => ?_)
    subst he
    obtain ⟨hL0, -, -⟩ := hk.2.2 m hm pt arch hv
    exact hb hL0
  · exact hsub _ hL

end HeapFacts

end Voronoi

namespace Voronoi

/-! ## Arcs with a neighbour on each side -/

section InteriorFacts

variable {K : Type} [Arith K]

omit K [Arith K] in
theorem mem_interior {t : Tree} {i : Nat} :
    i ∈ t.interior ↔ i ∈ t.leaves ∧ i ≠ t.first ∧ i ≠ t.last := by
  simp [Tree.interior, List.mem_filter]

omit K [Arith K] in
theorem first_plug_nil {fs : List Frame} (h : leavesBefore fs = []) (u : Tree) :
    (plug fs u).first = u.first := by
  induction fs generalizing u with
  | nil => rfl
  | cons f fs ih =>
    cases f with
    | onLeft i s =>
      simp only [leavesBefore] at h
      simp only [plug, Frame.fill]
      rw [ih h]; rfl
    | onRight i s =>
      simp only [leavesBefore, List.append_eq_nil] at h
      exact absurd h.2 (List.ne_nil_of_mem (Tree.first_mem_leaves s))

omit K [Arith K] in
theorem last_plug_nil {fs : List Frame} (h : leavesAfter fs = []) (u : Tree) :
    (plug fs u).last = u.last := by
  induction fs generalizing u with
  | nil => rfl
  | cons f fs ih =>
    cases f with
    | onRight i s =>
      simp only [leavesAfter] at h
      simp only [plug, Frame.fill]
      rw [ih h]; rfl
    | onLeft i s =>
      simp only [leavesAfter, List.append_eq_nil] at h
      exact absurd h.1 (List.ne_nil_of_mem (Tree.first_mem_leaves s))

omit K [Arith K] in
theorem first_plug_congr {fs : List Frame} (h : leavesBefore fs ≠ []) (u v : Tree) :
    (plug fs u).first = (plug fs v).first := by
  induction fs generalizing u v with
  | nil => exact absurd rfl h
  | cons f fs ih =>
    cases f with
    | onLeft i s =>
      simp only [leavesBefore] at h
      simp only [plug, Frame.fill]
      exact ih h _ _
    | onRight i s =>
      simp only [plug, Frame.fill]
      by_cases hb : leavesBefore fs = []
      · rw [first_plug_nil hb, first_plug_nil hb]; rfl
      · exact ih hb _ _

omit K [Arith K] in
theorem last_plug_congr {fs : List Frame} (h : leavesAfter fs ≠ []) (u v : Tree) :
    (plug fs u).last = (plug fs v).last := by
  induction fs generalizing u v with
  | nil => exact absurd rfl h
  | cons f fs ih =>
    cases f with
    | onRight i s =>
      simp only [leavesAfter] at h
      simp only [plug, Frame.fill]
      exact ih h _ _
    | onLeft i s =>
      simp only [plug, Frame.fill]
      by_cases hb : leavesAfter fs = []
      · rw [last_plug_nil hb, last_plug_nil hb]; rfl
      · exact ih hb _ _

omit K [Arith K] in
theorem Tree.leaves_nodup {t : Tree} (h : t.ids.Nodup) : t.leaves.Nodup := by
  have := (Tree.ids_perm t).nodup_iff.mp h
  exact (List.nodup_append.mp this).2.1

omit K [Arith K] in
/-- An arc at the foot of the path `fs` has an arc on each side exactly when the path has
a breakpoint on each side. -/
theorem foot_interior {fs : List Frame} {b : Nat} (hnd : (plug fs (.leaf b)).ids.Nodup) :
    b ∈ (plug fs (.leaf b)).interior ↔ leavesBefore fs ≠ [] ∧ leavesAfter fs ≠ [] := by
  have hl := Tree.leaves_nodup hnd
  have hleaves : (plug fs (.leaf b)).leaves = leavesBefore fs ++ b :: leavesAfter fs := by
    rw [leaves_plug]; simp [Tree.leaves]
  rw [hleaves] at hl
  have hb1 : b ∉ leavesBefore fs := fun h =>
    (List.nodup_append.mp hl).2.2 h (List.mem_cons_self _ _)
  have hb2 : b ∉ leavesAfter fs := fun h =>
    (List.nodup_cons.mp (List.nodup_append.mp hl).2.1).1 h
  rw [mem_interior, hleaves]
  constructor
  · rintro ⟨-, h1, h2⟩
    constructor
    · intro he; exact h1 (by rw [first_plug_nil he]; rfl)
    · intro he; exact h2 (by rw [last_plug_nil he]; rfl)
  · rintro ⟨h1, h2⟩
    refine ⟨by simp, fun he => hb1 ?_, fun he => hb2 ?_⟩
    · have := Tree.leaves_head? (plug fs (.leaf b))
      rw [hleaves, List.head?_append_of_ne_nil _ h1, ← he] at this
      exact List.mem_of_mem_head? this
    · have := Tree.leaves_getLast? (plug fs (.leaf b))
      obtain ⟨c, cs, hcs⟩ := List.exists_cons_of_ne_nil h2
      rw [hleaves, List.getLast?_append_of_ne_nil _ (List.cons_ne_nil _ _), hcs,
        List.getLast?_cons_cons, ← hcs, ← he] at this
      exact List.mem_of_mem_getLast? this

omit K [Arith K] in
theorem interior_split {fs : List Frame} {par l : Nat} (U : Tree)
    (h : l ∈ (plug fs (.leaf par)).interior) (hne : l ≠ par) (hU : l ∉ U.leaves) :
    l ∈ (plug fs U).interior := by
  rw [mem_interior] at h ⊢
  obtain ⟨h1, h2, h3⟩ := h
  rw [leaves_plug] at h1 ⊢
  simp only [Tree.leaves, List.mem_append, List.mem_singleton] at h1 ⊢
  refine ⟨by tauto, fun he => ?_, fun he => ?_⟩
  · by_cases hb : leavesBefore fs = []
    · rw [first_plug_nil hb] at he
      exact hU (he ▸ Tree.first_mem_leaves U)
    · rw [first_plug_congr hb U (.leaf par)] at he
      exact h2 he
  · by_cases hb : leavesAfter fs = []
    · rw [last_plug_nil hb] at he
      exact hU (he ▸ Tree.last_mem_leaves U)
    · rw [last_plug_congr hb U (.leaf par)] at he
      exact h3 he

omit K [Arith K] in
theorem first_last_excise (f1 : Frame) (fs2 : List Frame) (p1 : Nat)
    (hb : leavesBefore (f1 :: fs2) ≠ []) (ha : leavesAfter (f1 :: fs2) ≠ []) :
    (plug fs2 f1.sibling).first = (plug (f1 :: fs2) (.leaf p1)).first ∧
    (plug fs2 f1.sibling).last = (plug (f1 :: fs2) (.leaf p1)).last := by
  cases f1 with
  | onLeft a s =>
    simp only [leavesBefore] at hb
    simp only [plug, Frame.fill, Frame.sibling]
    refine ⟨first_plug_congr hb _ _, ?_⟩
    by_cases h : leavesAfter fs2 = []
    · rw [last_plug_nil h, last_plug_nil h]; rfl
    · exact last_plug_congr h _ _
  | onRight a s =>
    simp only [leavesAfter] at ha
    simp only [plug, Frame.fill, Frame.sibling]
    refine ⟨?_, last_plug_congr ha _ _⟩
    by_cases h : leavesBefore fs2 = []
    · rw [first_plug_nil h, first_plug_nil h]; rfl
    · exact first_plug_congr h _ _

omit K [Arith K] in
theorem interior_excise {f1 : Frame} {fs2 : List Frame} {p1 l : Nat}
    (hb : leavesBefore (f1 :: fs2) ≠ []) (ha : leavesAfter (f1 :: fs2) ≠ [])
    (h : l ∈ (plug (f1 :: fs2) (.leaf p1)).interior) (hne : l ≠ p1) :
    l ∈ (plug fs2 f1.sibling).interior := by
  rw [mem_interior] at h ⊢
  obtain ⟨h1, h2, h3⟩ := h
  obtain ⟨e1, e2⟩ := first_last_excise f1 fs2 p1 hb ha
  rw [e1, e2]
  refine ⟨?_, h2, h3⟩
  rw [leaves_plug, leaves_excised]
  rw [leaves_plug] at h1
  simp only [Tree.leaves, List.mem_append, List.mem_singleton] at h1 ⊢
  tauto

theorem scheduled_interior {sqrt : K → K} {nodes nodes' : List (Parabola K)}
    {edgeObjs : List (Edge K)} {b : Nat} {y : K} {heap heap' : FibonacciHeap K} {t : Tree}
    (hrep : Repr nodes none t) (hnd : t.ids.Nodup) (hb : b ∈ t.leaves)
    (h : computeCircleEvents sqrt nodes edgeObjs b y heap = .ok (nodes', heap'))
    (hne : heap' ≠ heap) : b ∈ t.interior := by
  obtain ⟨fs, rfl⟩ := exists_plug_of_mem_leaves t hb
  rcases computeCircleEvents_cases h with ⟨-, rfl⟩ | ⟨lp, rp, a, c, an, asite, s, d, hlp, hrp, ha,
    hc, -, -, -, -, -, -⟩
  · exact absurd rfl hne
  · obtain ⟨n, hn, -, hpar, -, -, -, -⟩ := Repr_leaf_plug hrep hnd
    have hfs : fs ≠ [] := by
      rintro rfl
      simp only [getLeftParent, load, deref, bind, Except.bind, hn, hpar, ctxParent,
        getLeftParentLoop] at hlp
      cases hlp
    obtain ⟨hL, hR⟩ := getLeftParent_total hrep hnd hfs
    obtain ⟨hLc, hRc⟩ := neighbours_total hrep hnd
    rw [hL] at hlp; cases hlp
    rw [hR] at hrp; cases hrp
    rw [hLc] at ha
    rw [hRc] at hc
    simp only [Except.ok.injEq] at ha hc
    rw [foot_interior hnd]
    constructor
    · intro he
      rw [prevLeafOf_eq, he] at ha
      cases ha
    · intro he
      rw [nextLeafOf_eq, he] at hc
      cases hc

end InteriorFacts

end Voronoi

namespace Voronoi

/-! ## The invariant of the sweep: site events -/

section PreserveFacts

variable {K : Type} [Arith K]

omit [Arith K] in
theorem HeapOK_nil {nodes nodes' : List (Parabola K)} {heap : FibonacciHeap K} {r : Nat}
    (L' : List Nat) (r' : Nat) (hk : HeapOK nodes heap [] r) : HeapOK nodes' heap L' r' := by
  obtain ⟨hnd, hlt, hcirc⟩ := hk
  refine ⟨hnd, hlt, fun m hm pt arch hv => ?_⟩
  obtain ⟨hL, -⟩ := hcirc m hm pt arch hv
  cases hL

omit [Arith K] in
theorem Covered_step {nodes nodes' : List (Parabola K)} {eo eo' : List (Edge K)}
    {inner inner' : List Nat} {e : Nat} (hg : EndsGrow eo eo')
    (hown : ∀ (i : Nat) (n : Parabola K), i ∈ inner → nodes[i]? = some n → n.edge = some e →
      (i ∈ inner' ∧ ∃ n', nodes'[i]? = some n' ∧ n'.edge = some e) ∨
      (∃ E', eo'[e]? = some E' ∧ E'.endp ≠ none))
    (h : Covered nodes eo inner e) : Covered nodes' eo' inner' e := by
  rcases h with h | ⟨i, n, hi, hn, he⟩
  · exact Or.inl (resolved_mono hg h)
  · rcases hown i n hi hn he with ⟨hi', n', hn', he'⟩ | h
    · exact Or.inr ⟨i, n', hi', hn', he'⟩
    · exact Or.inl h

omit [Arith K] in
theorem edge_of_map {nodes : List (Parabola K)} {i : Nat} {v : Option Nat}
    (h : nodes[i]?.map Parabola.edge = some v) : ∃ n, nodes[i]? = some n ∧ n.edge = v :=
  Option.map_eq_some'.mp h

omit [Arith K] in
theorem insertFirst_inv (p : Site K) {o : Options K} (hinv : SweepInv o none) :
    SweepInv (insertFirst p o) (some (.leaf o.parabolas.length)) := by
  have hnew : (insertFirst p o).parabolas[o.parabolas.length]? = some (Parabola.new (some p)) :=
    alloc_new _ _
  refine ⟨rfl, ?_, HeapOK_nil _ _ hinv.heap, ?_, hinv.starts, hinv.listed, ?_⟩
  · intro t ht
    cases ht
    exact ⟨⟨_, hnew, rfl, rfl⟩, by simp [Tree.ids]⟩
  · intro l hl nd hd hnd hh
    simp only [Option.map_some', Option.getD_some, Tree.leaves, List.mem_singleton] at hl
    subst hl
    rw [hnew] at hnd
    cases hnd
    cases hh
  · intro e he
    obtain ⟨h1, h2⟩ := hinv.covered e he
    exact ⟨Covered_step (EndsGrow_refl _) (fun i n hi => by cases hi) h1,
      fun E nb hE hnb => Covered_step (EndsGrow_refl _) (fun i n hi => by cases hi)
        (h2 E nb hE hnb)⟩

theorem insertDegenerate_inv {p : Site K} {root : Nat} {o o' : Options K} {t : Tree}
    {rootN : Parabola K} (hinv : SweepInv o (some t)) (hroot : o.root = some root)
    (hrn : o.parabolas[root]? = some rootN) (hleaf : rootN.isLeaf = true)
    (h : insertDegenerate p root o = .ok o') :
    SweepInv o' (some (.node root (.leaf o.parabolas.length) (.leaf (o.parabolas.length + 1)))) := by
  obtain ⟨hrep, hnd⟩ := hinv.repr t rfl
  have hid : t.id = root := by
    have := hinv.root
    rw [hroot] at this
    exact (Option.some.inj this).symm
  subst hid
  have ht : t = .leaf t.id := (Repr_leaf_node hrep hrn).1 hleaf
  obtain ⟨hlen, H, ⟨e, hes, hen, heo⟩, hedges, hheap, hr, -, -, first, hfirst⟩ :=
    insertDegenerate_spec hrn h
  have hlt := lt_of_getElem? hrn
  have hpar : rootN.parent = none := by
    obtain ⟨n, hn, hp⟩ := Repr_root hrep
    rw [hrn] at hn; cases hn; exact hp
  have hint : t.interior = [] := by rw [ht]; simp [Tree.interior, Tree.leaves, Tree.first]
  have hinner : t.inner = [] := by rw [ht]; rfl
  have H0 := H t.id
  have H1 := H o.parabolas.length
  have H2 := H (o.parabolas.length + 1)
  simp (disch := omega) only [if_pos, if_neg, if_true, if_false] at H0 H1 H2
  rw [hfirst] at H1
  have hk : HeapOK o.parabolas o.heap [] o.parabolas.length := by
    have := hinv.heap
    simp only [Option.map_some', Option.getD_some, hint] at this
    exact this
  have hg : EndsGrow o.edgeObjs o'.edgeObjs := by rw [heo]; exact alloc_EndsGrow _ _
  have hcov : ∀ e', Covered o.parabolas o.edgeObjs ((Option.map Tree.inner (some t)).getD []) e' →
      Covered o'.parabolas o'.edgeObjs
        ((Option.map Tree.inner (some (Tree.node t.id (.leaf o.parabolas.length)
          (.leaf (o.parabolas.length + 1))))).getD []) e' := by
    intro e' hc
    refine Covered_step hg (fun i n hi => ?_) hc
    simp only [Option.map_some', Option.getD_some, hinner] at hi
    cases hi
  refine ⟨?_, ?_, ?_, ?_, ?_, ?_, ?_⟩
  · rw [hr, hroot]; rfl
  · intro t' ht'
    cases ht'
    refine ⟨⟨_, H0, rfl, hpar, rfl, rfl, ⟨_, H1, rfl, rfl⟩, ⟨_, H2, rfl, rfl⟩⟩, ?_⟩
    simp only [Tree.ids, List.cons_append, List.nil_append, List.nodup_cons, List.mem_cons,
      List.mem_singleton, List.not_mem_nil, or_false, not_or, List.nodup_nil, and_true]
    exact ⟨⟨by omega, by omega⟩, by omega, not_false⟩
  · rw [hheap]
    exact HeapOK_nil _ _ hk
  · intro l hl nd hd hnd' hh
    simp only [Option.map_some', Option.getD_some, Tree.leaves, List.mem_append,
      List.mem_singleton] at hl
    rcases hl with rfl | rfl
    · rw [H1] at hnd'; cases hnd'; cases hh
    · rw [H2] at hnd'; cases hnd'; cases hh
  · intro E hE
    rw [heo] at hE
    simp only [alloc, List.mem_append, List.mem_singleton] at hE
    rcases hE with hE | rfl
    · exact hinv.starts E hE
    · exact hes
  · intro e' he'
    rw [hedges] at he'
    rw [heo, length_alloc]
    rcases List.mem_append.mp he' with he' | he'
    · have := hinv.listed e' he'; omega
    · simp only [List.mem_singleton] at he'; omega
  · intro e' he'
    rw [hedges] at he'
    rcases List.mem_append.mp he' with he' | he'
    · obtain ⟨h1, h2⟩ := hinv.covered e' he'
      refine ⟨hcov e' h1, fun E nb hE hnb => hcov nb (h2 E nb ?_ hnb)⟩
      rw [heo, alloc_old _ _ (hinv.listed e' he')] at hE
      exact hE
    · simp only [List.mem_singleton] at he'
      subst he'
      refine ⟨Or.inr ⟨t.id, _, by simp [Tree.inner], H0, rfl⟩, fun E nb hE hnb => ?_⟩
      rw [heo, alloc_new] at hE
      cases hE
      rw [hen] at hnb
      cases hnb

theorem insertGeneral_inv {sqrt : K → K} {p : Site K} {o o' : Options K} {t : Tree}
    (hinv : SweepInv o (some t)) (h : insertGeneral sqrt p o = .ok o') :
    ∃ t', SweepInv o' (some t') := by
  obtain ⟨hrep, hnd⟩ := hinv.repr t rfl
  have hroot : o.root = some t.id := hinv.root
  obtain ⟨fs, par, rfl, hpar0, hrep', hnd', hroot'⟩ := insertGeneral_tree hrep hnd hroot h
  obtain ⟨par', parN, parSite, start, el, er, nodes1, nodes2, nodes3, heap1, heap3, hpar, hd, hparN,
    hsite, -, -, hel, her, hsp, hlen, hc1, hc2, hlenE, heo, hedges, -, -, -⟩ :=
    insertGeneral_steps h
  rw [hpar0] at hpar
  cases hpar
  obtain ⟨-, -, hlen2, H⟩ := splitArc_spec hparN hsp
  rw [hlen] at H hlen2
  obtain ⟨n, hn, -, -, -, -, hparctx, hlt⟩ := Repr_leaf_plug hrep hnd
  have hparlt : par < o.parabolas.length := lt_of_getElem? hn
  have hidlt : ∀ i ∈ (plug fs (.leaf par)).ids, i < o.parabolas.length := Repr_lt hrep
  have hleaves : (plug fs (.leaf par)).leaves = leavesBefore fs ++ par :: leavesAfter fs := by
    rw [leaves_plug]; simp [Tree.leaves]
  have hleaves' : (splitTree fs par o.parabolas.length).leaves =
      leavesBefore fs ++ o.parabolas.length :: (o.parabolas.length + 1) ::
        (o.parabolas.length + 2) :: leavesAfter fs := by
    rw [splitTree, leaves_plug]; simp [Tree.leaves]
  have hparmem : par ∈ (plug fs (.leaf par)).leaves := by rw [hleaves]; simp
  -- the shape in the intermediate stores
  have hrep1 : Repr nodes1 none (plug fs (.leaf par)) :=
    Repr_congr (fun i _ => (dropCircleEvent_spec hd).2.1 i) hrep
  obtain ⟨hrep2, -⟩ := splitArc_Repr hrep1 hnd hsp
  rw [hlen] at hrep2
  have hrep3 := Repr_congr (fun i _ => (computeCircleEvents_same hc1).2.1 i) hrep2
  have hl3 : nodes3.length = o.parabolas.length + 4 := by
    rw [(computeCircleEvents_same hc1).1, hlen2]
  have hl4 : o'.parabolas.length = o.parabolas.length + 4 := by
    rw [(computeCircleEvents_same hc2).1, hl3]
  have hold : ∀ i, i < o.parabolas.length → i ≠ par → nodes2[i]? = nodes1[i]? := by
    intro i h1 h2
    rw [H i]
    simp (disch := omega) only [if_pos, if_neg, if_true, if_false, h2]
  have hedge2 : ∀ j : Nat, o'.parabolas[j]?.map Parabola.edge = nodes2[j]?.map Parabola.edge :=
    fun j => ((computeCircleEvents_same hc2).2.2 j).trans ((computeCircleEvents_same hc1).2.2 j)
  have hp0mem : o.parabolas.length ∈ (splitTree fs par o.parabolas.length).leaves := by
    rw [hleaves']; simp
  have hp2mem : o.parabolas.length + 2 ∈ (splitTree fs par o.parabolas.length).leaves := by
    rw [hleaves']; simp
  refine ⟨splitTree fs par o.parabolas.length, hroot', fun t' ht' => ?_, ?_, ?_, ?_, ?_, ?_⟩
  · cases ht'; exact ⟨hrep', hnd'⟩
  · -- the queue
    have hk0 : HeapOK o.parabolas o.heap (plug fs (.leaf par)).interior o.parabolas.length :=
      hinv.heap
    have hk1 := HeapOK_drop hk0 hd
    have hL : ∀ i ∈ (plug fs (.leaf par)).interior.filter (fun i => i ≠ par),
        i ∈ (plug fs (.leaf par)).interior ∧ i ≠ par ∧ i < o.parabolas.length := by
      intro i hi
      obtain ⟨h1, h2⟩ := List.mem_filter.mp hi
      exact ⟨h1, by simpa using h2, hidlt i (Tree.leaves_subset_ids _ (mem_interior.mp h1).1)⟩
    have hk2 := HeapOK_nodes hk1 (fun i hi => sameAt_of_eq Parabola.circleEventHeapNode
      (hold i (hL i hi).2.2 (hL i hi).2.1))
    have hk2' := HeapOK_root (o.parabolas.length + 4) hk2 (fun i hi => by
      have := (hL i hi).2.2; omega)
    have hk3 : HeapOK nodes3 heap3 ((splitTree fs par o.parabolas.length).interior.filter
        (fun i => decide (i ≠ o.parabolas.length + 2))) (o.parabolas.length + 4) := by
      refine HeapOK_compute2 hk2' (fun hi => ?_) (by omega) hc1 (fun i hi => ?_) (fun hne => ?_)
      · have := (hL _ hi).2.2; omega
      · obtain ⟨h1, h2, h3⟩ := hL i hi
        refine List.mem_filter.mpr ⟨interior_split _ h1 h2 ?_, by simp; omega⟩
        simp only [Tree.leaves, List.mem_append, List.mem_singleton]
        omega
      · exact List.mem_filter.mpr ⟨scheduled_interior hrep2 hnd' hp0mem hc1 hne, by simp⟩
    have hk4 : HeapOK o'.parabolas o'.heap (splitTree fs par o.parabolas.length).interior
        (o.parabolas.length + 4) :=
      HeapOK_compute2 hk3 (fun hi => by simpa using (List.mem_filter.mp hi).2) (by omega) hc2
        (fun i hi => (List.mem_filter.mp hi).1)
        (fun hne => scheduled_interior hrep3 hnd' hp2mem hc2 hne)
    rw [hl4]
    exact hk4
  · -- the handles of the arcs
    have hv0 : Live o.parabolas o.heap (plug fs (.leaf par)).leaves := hinv.live
    have hv1 := Live_drop hv0 hinv.heap.1 hparmem hd
    have hv2 : Live nodes2 heap1 (splitTree fs par o.parabolas.length).leaves := by
      refine Live_nodes hv1 (fun l hl nd hd' hnd' hh => ?_)
      rw [hleaves'] at hl
      simp only [List.mem_append, List.mem_cons] at hl
      have hctx : l ∈ ctxIds fs → l ∈ (plug fs (.leaf par)).leaves →
          l ∈ (plug fs (.leaf par)).leaves ∧
            ∃ nd0, nodes1[l]? = some nd0 ∧ nd0.circleEventHeapNode = some hd' := by
        intro hc hm
        have h1 := hlt l hc
        have h2 : l ≠ par := fun he => hparctx (he ▸ hc)
        rw [hold l h1 h2] at hnd'
        exact ⟨hm, nd, hnd', hh⟩
      rcases hl with hl | rfl | rfl | rfl | hl
      · exact hctx (leavesBefore_subset fs l hl) (by rw [hleaves]; simp [hl])
      · rw [H] at hnd'
        simp (disch := omega) only [if_pos, if_neg, if_true, if_false, Option.some.injEq] at hnd'
        subst hnd'; cases hh
      · rw [H] at hnd'
        simp (disch := omega) only [if_pos, if_neg, if_true, if_false, Option.some.injEq] at hnd'
        subst hnd'; cases hh
      · rw [H] at hnd'
        simp (disch := omega) only [if_pos, if_neg, if_true, if_false, Option.some.injEq] at hnd'
        subst hnd'; cases hh
      · exact hctx (leavesAfter_subset fs l hl) (by rw [hleaves]; simp [hl])
    exact Live_compute (Live_compute hv2 hc1) hc2
  · intro E hE
    obtain ⟨j, hj⟩ := List.mem_iff_getElem?.mp hE
    rw [heo j] at hj
    split_ifs at hj with h1 h2
    · cases hj
      obtain ⟨-, -, hs, -, -⟩ := Edge_new_fields _ _ _ _ hel
      simp [hs]
    · cases hj
      obtain ⟨-, -, hs, -, -⟩ := Edge_new_fields _ _ _ _ her
      simp [hs]
    · exact hinv.starts E (List.mem_iff_getElem?.mpr ⟨j, hj⟩)
  · intro e he
    rw [hedges] at he
    rw [hlenE]
    rcases List.mem_append.mp he with he | he
    · have := hinv.listed e he; omega
    · simp only [List.mem_singleton] at he; omega
  · -- the edges
    have hg : EndsGrow o.edgeObjs o'.edgeObjs := by
      refine ⟨by omega, fun j E hj => ⟨E, ?_, rfl, rfl, id⟩⟩
      have := lt_of_getElem? hj
      rw [heo j]
      simp (disch := omega) only [if_pos, if_neg, if_true, if_false]
      exact hj
    have hstep : ∀ e, Covered o.parabolas o.edgeObjs (plug fs (.leaf par)).inner e →
        Covered o'.parabolas o'.edgeObjs (splitTree fs par o.parabolas.length).inner e := by
      intro e hc
      refine Covered_step hg (fun i m hi hm he => Or.inl ⟨?_, ?_⟩) hc
      · rw [splitTree, mem_inner_plug]
        rw [mem_inner_plug] at hi
        rcases hi with hi | hi
        · simp [Tree.inner] at hi
        · exact Or.inr hi
      · have h1 := hidlt i (Tree.inner_subset_ids _ hi)
        have h2 : i ≠ par := fun he' =>
          Tree.not_leaf_of_inner _ hnd hi (he' ▸ hparmem)
        apply edge_of_map
        rw [hedge2 i, hold i h1 h2, (dropCircleEvent_spec hd).2.2.1 i, hm]
        simp only [Option.map_some', he]
    have hq := hedge2 (o.parabolas.length + 3)
    have hp := hedge2 par
    rw [H] at hq hp
    simp (disch := omega) only [if_pos, if_neg, if_true, if_false] at hq hp
    obtain ⟨nq, hnq, hqe⟩ := edge_of_map hq
    obtain ⟨np, hnp, hpe⟩ := edge_of_map hp
    intro e he
    rw [hedges] at he
    rcases List.mem_append.mp he with he | he
    · obtain ⟨h1, h2⟩ := hinv.covered e he
      refine ⟨hstep e h1, fun E nb hE hnb => hstep nb (h2 E nb ?_ hnb)⟩
      have := hinv.listed e he
      rw [heo e] at hE
      simp (disch := omega) only [if_pos, if_neg, if_true, if_false] at hE
      exact hE
    · simp only [List.mem_singleton] at he
      subst he
      refine ⟨Or.inr ⟨o.parabolas.length + 3, nq, ?_, hnq, hqe⟩, fun E nb hE hnb => ?_⟩
      · show _ ∈ (splitTree fs par o.parabolas.length).inner
        rw [splitTree, mem_inner_plug]; simp [Tree.inner]
      · rw [heo, if_pos rfl] at hE
        cases hE
        simp only [Option.some.injEq] at hnb
        subst hnb
        refine Or.inr ⟨par, np, ?_, hnp, hpe⟩
        show _ ∈ (splitTree fs par o.parabolas.length).inner
        rw [splitTree, mem_inner_plug]; simp [Tree.inner]

end PreserveFacts

end Voronoi

namespace Voronoi

/-! ## The invariant of the sweep: circle events -/

section PreserveFacts2

variable {K : Type} [Arith K]

omit [Arith K] in
theorem mem_of_getLast? {l : List Nat} {a : Nat} (h : l.getLast? = some a) : a ∈ l :=
  List.mem_of_mem_getLast? h

theorem removeParabola_inv {sqrt : K → K} {point : Pt K} {p1 : Nat} {o o' : Options K}
    {t : Tree} (hroot : o.root = some t.id) (hrep : Repr o.parabolas none t)
    (hnd : t.ids.Nodup) (harch : p1 ∈ t.leaves)
    (hheap : HeapOK o.parabolas o.heap (t.interior.filter (fun i => decide (i ≠ p1)))
      o.parabolas.length)
    (hlive : Live o.parabolas o.heap (t.leaves.filter (fun i => decide (i ≠ p1))))
    (hstarts : ∀ E ∈ o.edgeObjs, E.start ≠ none)
    (hlisted : ∀ e ∈ o.edges, e < o.edgeObjs.length)
    (hcov : ∀ e ∈ o.edges, Covered o.parabolas o.edgeObjs t.inner e ∧
      ∀ (E : Edge K) (nb : Nat), o.edgeObjs[e]? = some E → E.neighbour = some nb →
        Covered o.parabolas o.edgeObjs t.inner nb)
    (h : removeParabola sqrt point p1 o = .ok o') : ∃ t', SweepInv o' (some t') := by
  obtain ⟨fs, rfl⟩ := exists_plug_of_mem_leaves t harch
  obtain ⟨f1, f2, fs', x, y, p0, p2, hi, rfl, hx, hy, hp0, hp2, hgl, hgr, hcl, hcr, hhi, hne, hor,
    hor', -, -, hmem, hrep', hnd', hroot'⟩ := removeParabola_tree hrep hnd hroot h
  obtain ⟨x', y', p0', p2', hi', xlEdge, xrEdge, p0Site, p1Site, p2Site, v, e, hx', hy', hp0',
    hp2', hhi', -, -, -, -, -, -, he, hlenE, hnew, hg, hedges, hxe, hye, hxres, hyres, hown,
    hkeep, hlenN⟩ := removeParabola_edges hrep hnd hroot h
  rw [hx] at hx'; cases hx'
  rw [hy] at hy'; cases hy'
  rw [hp0] at hp0'; cases hp0'
  rw [hp2] at hp2'; cases hp2'
  rw [hhi] at hhi'; cases hhi'
  obtain ⟨xl, xr, p0s, p2s, nodes1, nodes2, heap1, heap2, p1N, p0N, p2N, xlN, xrN, p1Site', p0Site',
    p2Site', y', xlEdge', xrEdge', his, eo1, eo2, e', n1, n2, nodes3, heap3, hxl, hxr, hp0s, hp2s,
    hd1, hd2, -, -, -, -, -, -, -, -, -, -, -, -, -, -, -, -, -, hn1, hn2, hc1, hc2, -, -, -⟩ :=
    removeParabola_steps h
  rw [hgl] at hxl; cases hxl
  rw [hgr] at hxr; cases hxr
  rw [hcl] at hp0s; cases hp0s
  rw [hcr] at hp2s; cases hp2s
  -- the arcs around `p1`
  have hb : leavesBefore (f1 :: f2 :: fs') ≠ [] := fun he' => by
    rw [← leftParentOf_eq_none, hx] at he'; cases he'
  have ha : leavesAfter (f1 :: f2 :: fs') ≠ [] := fun he' => by
    rw [← rightParentOf_eq_none, hy] at he'; cases he'
  have hleaves : (plug (f1 :: f2 :: fs') (.leaf p1)).leaves =
      leavesBefore (f1 :: f2 :: fs') ++ p1 :: leavesAfter (f1 :: f2 :: fs') := by
    rw [leaves_plug]; simp [Tree.leaves]
  have hleaves' : (plug (f2 :: fs') f1.sibling).leaves =
      leavesBefore (f1 :: f2 :: fs') ++ leavesAfter (f1 :: f2 :: fs') := by
    rw [leaves_plug, leaves_excised]
  have hlnd := Tree.leaves_nodup hnd
  rw [hleaves] at hlnd
  have hp0b : p0 ∈ leavesBefore (f1 :: f2 :: fs') := by
    rw [prevLeafOf_eq] at hp0; exact List.mem_of_mem_getLast? hp0
  have hp2a : p2 ∈ leavesAfter (f1 :: f2 :: fs') := by
    rw [nextLeafOf_eq] at hp2; exact List.mem_of_mem_head? hp2
  have hnd1 := List.nodup_append.mp hlnd
  have hp01 : p0 ≠ p1 := fun he' => hnd1.2.2 hp0b (he' ▸ List.mem_cons_self _ _)
  have hp21 : p2 ≠ p1 := fun he' =>
    (List.nodup_cons.mp hnd1.2.1).1 (he' ▸ hp2a)
  have hp02 : p0 ≠ p2 := fun he' => hnd1.2.2 hp0b (List.mem_cons_of_mem _ (he' ▸ hp2a))
  have hp0t : p0 ∈ (plug (f1 :: f2 :: fs') (.leaf p1)).leaves := by rw [hleaves]; simp [hp0b]
  have hp2t : p2 ∈ (plug (f1 :: f2 :: fs') (.leaf p1)).leaves := by rw [hleaves]; simp [hp2a]
  have hp0t' : p0 ∈ (plug (f2 :: fs') f1.sibling).leaves := by rw [hleaves']; simp [hp0b]
  have hp2t' : p2 ∈ (plug (f2 :: fs') f1.sibling).leaves := by rw [hleaves']; simp [hp2a]
  have hidlt : ∀ i ∈ (plug (f1 :: f2 :: fs') (.leaf p1)).ids, i < o.parabolas.length :=
    Repr_lt hrep
  -- the shape in the intermediate stores
  have hrep3 : Repr nodes3 none (plug (f2 :: fs') f1.sibling) :=
    Repr_congr (fun i _ => ((computeCircleEvents_same hc2).2.1 i).symm) hrep'
  have hrep2 : Repr n2 none (plug (f2 :: fs') f1.sibling) :=
    Repr_congr (fun i _ => ((computeCircleEvents_same hc1).2.1 i).symm) hrep3
  have hhandle : ∀ i, sameAt Parabola.circleEventHeapNode nodes2 n2 i := fun i =>
    sameAt_trans (store_sameAt Parabola.circleEventHeapNode hn1 (fun _ => rfl) i)
      (excise_sameAt Parabola.circleEventHeapNode (fun _ _ _ => ⟨rfl, rfl, rfl⟩) hn2 i)
  refine ⟨plug (f2 :: fs') f1.sibling, hroot', fun t' ht' => ?_, ?_, ?_, ?_, ?_, ?_⟩
  · cases ht'; exact ⟨hrep', hnd'⟩
  · -- the queue
    have hk1 := HeapOK_drop hheap hd1
    have hk2 := HeapOK_drop hk1 hd2
    have hk3 := HeapOK_nodes hk2 (fun i _ => hhandle i)
    have hL : ∀ i ∈ (((plug (f1 :: f2 :: fs') (.leaf p1)).interior.filter
        (fun i => decide (i ≠ p1))).filter (fun i => i ≠ p0)).filter (fun i => i ≠ p2),
        i ∈ (plug (f2 :: fs') f1.sibling).interior ∧ i ≠ p0 ∧ i ≠ p2 := by
      intro i hi
      simp only [List.mem_filter, decide_eq_true_eq] at hi
      exact ⟨interior_excise hb ha hi.1.1.1 hi.1.1.2, hi.1.2, hi.2⟩
    have hk4 : HeapOK nodes3 heap3 ((plug (f2 :: fs') f1.sibling).interior.filter
        (fun i => decide (i ≠ p2))) o.parabolas.length := by
      refine HeapOK_compute2 hk3 (fun hi => (hL _ hi).2.1 rfl)
        (Nat.ne_of_lt (hidlt p0 (Tree.leaves_subset_ids _ hp0t))) hc1 (fun i hi => ?_)
        (fun hne' => ?_)
      · exact List.mem_filter.mpr ⟨(hL i hi).1, by simpa using (hL i hi).2.2⟩
      · exact List.mem_filter.mpr ⟨scheduled_interior hrep2 hnd' hp0t' hc1 hne', by simpa using hp02⟩
    have hk5 : HeapOK o'.parabolas o'.heap (plug (f2 :: fs') f1.sibling).interior
        o.parabolas.length :=
      HeapOK_compute2 hk4 (fun hi => by simpa using (List.mem_filter.mp hi).2)
        (Nat.ne_of_lt (hidlt p2 (Tree.leaves_subset_ids _ hp2t))) hc2
        (fun i hi => (List.mem_filter.mp hi).1)
        (fun hne' => scheduled_interior hrep3 hnd' hp2t' hc2 hne')
    rw [hlenN]
    exact hk5
  · -- the handles of the arcs
    have hv1 := Live_drop hlive hheap.1 (List.mem_filter.mpr ⟨hp0t, by simpa using hp01⟩) hd1
    have hv2 := Live_drop hv1 (HeapOK_drop hheap hd1).1
      (List.mem_filter.mpr ⟨hp2t, by simpa using hp21⟩) hd2
    have hv3 : Live n2 heap2 (plug (f2 :: fs') f1.sibling).leaves := by
      refine Live_nodes hv2 (fun l hl nd hd' hnd' hh => ⟨?_, ?_⟩)
      · rw [hleaves'] at hl
        refine List.mem_filter.mpr ⟨by rw [hleaves]; simp only [List.mem_append, List.mem_cons] at hl ⊢; tauto, ?_⟩
        simp only [decide_eq_true_eq]
        rintro rfl
        rcases List.mem_append.mp hl with hl | hl
        · exact hnd1.2.2 hl (List.mem_cons_self _ _)
        · exact (List.nodup_cons.mp hnd1.2.1).1 hl
      · obtain ⟨nd0, h0, h1⟩ := sameAt_get' (hhandle l) hnd'
        exact ⟨nd0, h0, h1.symm.trans hh⟩
    exact Live_compute (Live_compute hv3 hc1) hc2
  · intro E hE
    obtain ⟨j, hj⟩ := List.mem_iff_getElem?.mp hE
    have hjlt := lt_of_getElem? hj
    rw [hlenE] at hjlt
    by_cases hjE : j = o.edgeObjs.length
    · subst hjE
      rw [hnew] at hj
      cases hj
      obtain ⟨-, -, hs, -, hn⟩ := Edge_new_fields _ _ _ _ he
      simp [hs, hn]
    · have hjlt' : j < o.edgeObjs.length := by omega
      obtain ⟨E0, hE0⟩ : ∃ E0, o.edgeObjs[j]? = some E0 :=
        ⟨o.edgeObjs[j], List.getElem?_eq_getElem hjlt'⟩
      obtain ⟨E', hE', hs', -, -⟩ := hg.2 j E0 hE0
      rw [hj] at hE'
      cases hE'
      rw [hs']
      exact hstarts E0 (List.mem_iff_getElem?.mpr ⟨j, hE0⟩)
  · intro e'' he''
    rw [hedges] at he''
    rw [hlenE]
    rcases List.mem_append.mp he'' with he'' | he''
    · have := hlisted e'' he''; omega
    · simp only [List.mem_singleton] at he''; omega
  · -- the edges
    have hxres' : ∃ E, o'.edgeObjs[xlEdge]? = some E ∧ E.endp ≠ none := by
      obtain ⟨E, h1, h2⟩ := hxres
      exact ⟨E, h1, by rw [h2]; simp⟩
    have hyres' : ∃ E, o'.edgeObjs[xrEdge]? = some E ∧ E.endp ≠ none := by
      obtain ⟨E, h1, h2⟩ := hyres
      exact ⟨E, h1, by rw [h2]; simp⟩
    have hflank : ∀ (i : Nat) (m : Parabola K) (c : Nat), (i = x ∨ i = y) →
        o.parabolas[i]? = some m → m.edge = some c →
        ∃ E, o'.edgeObjs[c]? = some E ∧ E.endp ≠ none := by
      intro i m c hi hm hc
      rcases hi with rfl | rfl
      · rw [hm] at hxe
        simp only [Option.some_bind, hc, Option.some.injEq] at hxe
        subst hxe; exact hxres'
      · rw [hm] at hye
        simp only [Option.some_bind, hc, Option.some.injEq] at hye
        subst hye; exact hyres'
    have hstep : ∀ c, Covered o.parabolas o.edgeObjs (plug (f1 :: f2 :: fs') (.leaf p1)).inner c →
        Covered o'.parabolas o'.edgeObjs (plug (f2 :: fs') f1.sibling).inner c := by
      intro c hc
      refine Covered_step hg (fun i m hi' hm hmc => ?_) hc
      by_cases hihi : i = hi
      · exact Or.inr (hflank i m c (hihi ▸ hor') hm hmc)
      · by_cases hif : i = f1.id
        · exact Or.inr (hflank i m c (hif ▸ hor) hm hmc)
        · refine Or.inl ⟨?_, ?_⟩
          · rw [mem_inner_plug] at hi' ⊢
            rcases hi' with hi' | ⟨f, hf, hi'⟩
            · simp [Tree.inner] at hi'
            · rcases List.mem_cons.mp hf with rfl | hf
              · rcases hi' with hi' | hi'
                · exact absurd hi' hif
                · exact Or.inl hi'
              · exact Or.inr ⟨f, hf, hi'⟩
          · apply edge_of_map
            rw [hkeep i hihi, hm]
            simp only [Option.map_some', hmc]
    obtain ⟨nh, hnh, hnhe⟩ : ∃ nh, o'.parabolas[hi]? = some nh ∧ nh.edge = some o.edgeObjs.length := by
      cases hq : o'.parabolas[hi]? with
      | none => rw [hq] at hown; cases hown
      | some a => rw [hq] at hown; exact ⟨a, rfl, hown⟩
    intro c hc
    rw [hedges] at hc
    rcases List.mem_append.mp hc with hc | hc
    · obtain ⟨h1, h2⟩ := hcov c hc
      refine ⟨hstep c h1, fun E nb hE hnb => ?_⟩
      have hclt := hlisted c hc
      obtain ⟨E0, hE0⟩ : ∃ E0, o.edgeObjs[c]? = some E0 :=
        ⟨o.edgeObjs[c], List.getElem?_eq_getElem hclt⟩
      obtain ⟨E', hE', -, hnb', -⟩ := hg.2 c E0 hE0
      rw [hE] at hE'
      cases hE'
      exact hstep nb (h2 E0 nb hE0 (hnb'.symm.trans hnb))
    · simp only [List.mem_singleton] at hc
      subst hc
      refine ⟨Or.inr ⟨hi, nh, ?_, hnh, hnhe⟩, fun E nb hE hnb => ?_⟩
      · show hi ∈ (plug (f2 :: fs') f1.sibling).inner
        rw [mem_inner_plug]
        obtain ⟨f, hf, hfi⟩ := hmem
        exact Or.inr ⟨f, hf, Or.inl hfi.symm⟩
      · rw [hnew] at hE
        cases hE
        obtain ⟨-, -, -, -, hn⟩ := Edge_new_fields _ _ _ _ he
        rw [hn] at hnb
        cases hnb

end PreserveFacts2

end Voronoi

namespace Voronoi

/-! ## The invariant of the sweep -/

section SweepFacts

variable {K : Type} [Arith K]

theorem insertParabola_inv {sqrt : K → K} {p : Site K} {o o' : Options K} {ot : Option Tree}
    (hinv : SweepInv o ot) (h : insertParabola sqrt p o = .ok o') :
    ∃ t', SweepInv o' (some t') := by
  unfold insertParabola at h
  cases ot with
  | none =>
    have hr : o.root = none := hinv.root
    rw [hr] at h
    simp only [pure, Except.pure, Except.ok.injEq] at h
    subst h
    exact ⟨_, insertFirst_inv p hinv⟩
  | some t =>
    have hr : o.root = some t.id := hinv.root
    rw [hr] at h
    simp only [bind_eq_ok, load_some] at h
    obtain ⟨rootN, hrn, dg, hdg, h⟩ := h
    cases dg with
    | true =>
      simp only [if_true] at h
      have hleaf : rootN.isLeaf = true := by
        unfold degenerateTest at hdg
        by_contra hc
        simp only [hc, Bool.false_eq_true, if_false, pure, Except.pure, Except.ok.injEq] at hdg
      exact ⟨_, insertDegenerate_inv hinv hr hrn hleaf h⟩
    | false =>
      simp only [Bool.false_eq_true, if_false] at h
      exact insertGeneral_inv hinv h

theorem processEvent_inv {sqrt : K → K} {n : HeapNode K} {o o' : Options K}
    {ot : Option Tree} (hinv : SweepInv o ot) (hn : n ∈ o.heap.nodes)
    (h : processEvent sqrt n o = .ok o') : ∃ t', SweepInv o' (some t') := by
  unfold processEvent at h
  cases hv : n.value with
  | site p =>
    rw [hv] at h
    dsimp only at h
    have hinv1 : SweepInv { o with heap := o.heap.delete n.id, sweeplineY := p.pt.2 } ot :=
      ⟨hinv.root, hinv.repr, HeapOK_delete _ hinv.heap,
        Live_delete hinv.live hinv.heap.1 hn (fun l hl => ⟨hl, fun pt hc => by
          rw [hv] at hc; cases hc⟩), hinv.starts, hinv.listed, hinv.covered⟩
    exact insertParabola_inv hinv1 h
  | circle point arch =>
    rw [hv] at h
    dsimp only at h
    obtain ⟨harch, -, -⟩ := hinv.heap.2.2 n hn point arch hv
    cases ot with
    | none => cases harch
    | some t =>
      obtain ⟨hrep, hnd⟩ := hinv.repr t rfl
      have hk : HeapOK o.parabolas o.heap t.interior o.parabolas.length := hinv.heap
      have hlv : Live o.parabolas o.heap t.leaves := hinv.live
      have hroot : ({ o with heap := o.heap.delete n.id, sweeplineY := point.2 } :
          Options K).root = some t.id := hinv.root
      have hcov : ∀ e ∈ o.edges, Covered o.parabolas o.edgeObjs t.inner e ∧
          ∀ (E : Edge K) (nb : Nat), o.edgeObjs[e]? = some E → E.neighbour = some nb →
            Covered o.parabolas o.edgeObjs t.inner nb := hinv.covered
      have harch' : arch ∈ t.interior := harch
      have hlv' : Live o.parabolas (o.heap.delete n.id)
          (t.leaves.filter (fun i => decide (i ≠ arch))) := by
        refine Live_delete hlv hinv.heap.1 hn (fun l hl => ?_)
        obtain ⟨h1, h2⟩ := List.mem_filter.mp hl
        refine ⟨h1, fun pt hc => ?_⟩
        rw [hv] at hc
        simp only [Event.circle.injEq] at hc
        simp only [decide_eq_true_eq] at h2
        exact h2 hc.2.symm
      exact removeParabola_inv hroot hrep hnd (mem_interior.mp harch').1
        (HeapOK_extract hk hn hv) hlv' hinv.starts hinv.listed hcov h

theorem sweepStep_processEvent {sqrt : K → K} {tie : List (HeapNode K) → Nat} {o o' : Options K}
    (h : sweepStep sqrt tie o = .ok o') :
    ∃ n ∈ o.heap.nodes, processEvent sqrt n o = .ok o' := by
  unfold sweepStep at h
  cases hx : o.heap.extractMinimum tie with
  | none => rw [hx] at h; cases h
  | some r =>
    obtain ⟨n, heap⟩ := r
    rw [hx] at h
    dsimp only at h
    obtain ⟨hn, rfl⟩ := extractMinimum_mem tie _ _ _ hx
    exact ⟨n, hn, h⟩

theorem sweepStep_inv {sqrt : K → K} {tie : List (HeapNode K) → Nat} {o o' : Options K}
    {ot : Option Tree} (hinv : SweepInv o ot) (h : sweepStep sqrt tie o = .ok o') :
    ∃ t', SweepInv o' (some t') := by
  obtain ⟨n, hn, h'⟩ := sweepStep_processEvent h
  exact processEvent_inv hinv hn h'

theorem insertSites_spec (pts : List (Pt K)) (i : Nat) (heap : FibonacciHeap K)
    (hnd : (heap.nodes.map (·.id)).Nodup) (hlt : ∀ n ∈ heap.nodes, n.id < heap.count)
    (hc : heap.count = i) (hs : ∀ n ∈ heap.nodes, ∀ pt arch, n.value ≠ .circle pt arch) :
    ((insertSites pts i heap).nodes.map (·.id)).Nodup ∧
    (∀ n ∈ (insertSites pts i heap).nodes, n.id < (insertSites pts i heap).count) ∧
    ∀ n ∈ (insertSites pts i heap).nodes, ∀ pt arch, n.value ≠ .circle pt arch := by
  induction pts generalizing i heap with
  | nil => exact ⟨hnd, hlt, hs⟩
  | cons pt rest ih =>
    simp only [insertSites]
    apply ih
    · simp only [FibonacciHeap.insert, List.map_append, List.map_cons, List.map_nil]
      rw [List.nodup_append]
      refine ⟨hnd, List.nodup_singleton _, fun a ha hb => ?_⟩
      simp only [List.mem_singleton] at hb
      subst hb
      obtain ⟨m, hm, hmid⟩ := List.mem_map.mp ha
      have := hlt m hm
      omega
    · intro n hn
      simp only [FibonacciHeap.insert, List.mem_append, List.mem_singleton] at hn ⊢
      rcases hn with hn | rfl
      · have := hlt n hn; omega
      · simp
    · simp [FibonacciHeap.insert, hc]
    · intro n hn
      simp only [FibonacciHeap.insert, List.mem_append, List.mem_singleton] at hn
      rcases hn with hn | rfl
      · exact hs n hn
      · intro pt' arch hc'; cases hc'

theorem initial_inv (points : List (Pt K)) (height : K) :
    SweepInv (initialOptions points height) none := by
  obtain ⟨h1, h2, h3⟩ := insertSites_spec points 0 (FibonacciHeap.new : FibonacciHeap K)
    (by simp [FibonacciHeap.new]) (by simp [FibonacciHeap.new]) rfl (by simp [FibonacciHeap.new])
  exact ⟨rfl, fun t ht => (by cases ht),
    ⟨h1, h2, fun n hn pt arch hv => absurd hv (h3 n hn pt arch)⟩,
    fun l hl => (by cases hl), fun E hE => (by cases hE), fun e he => (by cases he),
    fun e he => (by cases he)⟩

theorem sweepSteps_inv (sqrt : K → K) (tie : List (HeapNode K) → Nat) (points : List (Pt K))
    (height : K) (k : Nat) (o : Options K)
    (h : sweepSteps sqrt tie k (initialOptions points height) = .ok o) :
    ∃ ot, SweepInv o ot := by
  induction k generalizing o with
  | zero =>
    simp only [sweepSteps, pure, Except.pure, Except.ok.injEq] at h
    subst h
    exact ⟨none, initial_inv points height⟩
  | succ k ih =>
    simp only [sweepSteps, bind_eq_ok] at h
    obtain ⟨o1, h1, h2⟩ := h
    obtain ⟨ot, hinv⟩ := ih o1 h1
    obtain ⟨t', hinv'⟩ := sweepStep_inv hinv h2
    exact ⟨some t', hinv'⟩

theorem sweep_succ (sqrt : K → K) (tie : List (HeapNode K) → Nat) (fuel : Nat) (o : Options K) :
    sweep sqrt tie (fuel + 1) o =
      if o.heap.isEmpty then pure o else sweepStep sqrt tie o >>= sweep sqrt tie fuel := by
  simp only [sweep, sweepStep]
  split_ifs
  · rfl
  · cases o.heap.extractMinimum tie with
    | none => rfl
    | some r =>
      obtain ⟨n, heap⟩ := r
      dsimp only
      cases n.value <;> rfl

theorem sweep_inv (sqrt : K → K) (tie : List (HeapNode K) → Nat) (fuel : Nat) (o o' : Options K)
    (ot : Option Tree) (hinv : SweepInv o ot) (h : sweep sqrt tie fuel o = .ok o') :
    ∃ ot', SweepInv o' ot' := by
  induction fuel generalizing o ot with
  | zero => simp [sweep] at h
  | succ fuel ih =>
    rw [sweep_succ] at h
    split_ifs at h
    · simp only [pure, Except.pure, Except.ok.injEq] at h
      subst h
      exact ⟨ot, hinv⟩
    · rw [bind_eq_ok] at h
      obtain ⟨o1, h1, h2⟩ := h
      obtain ⟨t', hinv'⟩ := sweepStep_inv hinv h1
      exact ih o1 (some t') hinv' h2

theorem Reachable_inv {sqrt : K → K} {points : List (Pt K)} {height : K} {o : Options K}
    (h : Reachable sqrt points height o) : ∃ ot, SweepInv o ot := by
  induction h with
  | init => exact ⟨none, initial_inv points height⟩
  | step n _ hn hstep ih =>
    obtain ⟨ot, hinv⟩ := ih
    obtain ⟨t', hinv'⟩ := processEvent_inv hinv hn hstep
    exact ⟨some t', hinv'⟩

theorem sweepSteps_reachable {sqrt : K → K} {tie : List (HeapNode K) → Nat}
    {points : List (Pt K)} {height : K} (k : Nat) {o : Options K}
    (h : sweepSteps sqrt tie k (initialOptions points height) = .ok o) :
    Reachable sqrt points height o := by
  induction k generalizing o with
  | zero =>
    simp only [sweepSteps, pure, Except.pure, Except.ok.injEq] at h
    subst h
    exact .init
  | succ k ih =>
    simp only [sweepSteps, bind_eq_ok] at h
    obtain ⟨o1, h1, h2⟩ := h
    obtain ⟨n, hn, h3⟩ := sweepStep_processEvent h2
    exact .step n (ih h1) hn h3

theorem sweep_reachable {sqrt : K → K} {tie : List (HeapNode K) → Nat}
    {points : List (Pt K)} {height : K} (fuel : Nat) {o o' : Options K}
    (hr : Reachable sqrt points height o) (h : sweep sqrt tie fuel o = .ok o') :
    Reachable sqrt points height o' ∧ o'.heap.nodes = [] := by
  induction fuel generalizing o with
  | zero => simp [sweep] at h
  | succ fuel ih =>
    rw [sweep_succ] at h
    split_ifs at h with he
    · simp only [pure, Except.pure, Except.ok.injEq] at h
      subst h
      exact ⟨hr, by simpa [FibonacciHeap.isEmpty] using he⟩
    · rw [bind_eq_ok] at h
      obtain ⟨o1, h1, h2⟩ := h
      obtain ⟨n, hn, h3⟩ := sweepStep_processEvent h1
      exact ih (.step n hr hn h3) h2

theorem compute_reachable {sqrt : K → K} {tie : List (HeapNode K) → Nat}
    {points : List (Pt K)} {width height : K} {out : Output K}
    (h : compute sqrt tie points width height = .ok out) :
    (points.length < 2 ∧ out = .emptyList) ∨
    (2 ≤ points.length ∧ ∃ o, Reachable sqrt points height o ∧ o.heap.nodes = [] ∧
      finalise width o = .ok out) := by
  unfold compute at h
  split_ifs at h with hlen
  · simp only [pure, Except.pure, Except.ok.injEq] at h
    exact Or.inl ⟨hlen, h.symm⟩
  · rw [bind_eq_ok] at h
    obtain ⟨o, hs, hf⟩ := h
    obtain ⟨hr, he⟩ := sweep_reachable _ .init hs
    exact Or.inr ⟨by omega, o, hr, he, hf⟩

end SweepFacts

end Voronoi

namespace Voronoi

/-! ## The fuel of the loops suffices -/

section FuelFacts

variable {K : Type} [Arith K]

theorem Fuelled_ok {α : Type} (a : α) : Fuelled (.ok a : Except Fault α) := by
  intro h; cases h

theorem Fuelled_pure {α : Type} (a : α) : Fuelled (pure a : Except Fault α) := Fuelled_ok a

theorem Fuelled_typeError {α : Type} : Fuelled (.error .typeError : Except Fault α) := by
  intro h; cases h

theorem Fuelled_of_eq_ok {α : Type} {x : Except Fault α} {a : α} (h : x = .ok a) :
    Fuelled x := h ▸ Fuelled_ok a

theorem Fuelled_bind_iff {α β : Type} (x : Except Fault α) (f : α → Except Fault β) :
    Fuelled (x >>= f) ↔ Fuelled x ∧ ∀ a, x = .ok a → Fuelled (f a) := by
  cases x with
  | error e => simp [Fuelled, bind, Except.bind]
  | ok a => simp [Fuelled, bind, Except.bind]

theorem Fuelled_bind {α β : Type} {x : Except Fault α} {f : α → Except Fault β}
    (hx : Fuelled x) (hf : ∀ a, x = .ok a → Fuelled (f a)) : Fuelled (x >>= f) :=
  (Fuelled_bind_iff x f).mpr ⟨hx, hf⟩

theorem Fuelled_ite {α : Type} (c : Prop) [Decidable c] (x y : Except Fault α) :
    Fuelled (if c then x else y) ↔ (c → Fuelled x) ∧ (¬ c → Fuelled y) := by
  split_ifs with h <;> simp [h]

theorem Fuelled_deref {α : Type} (r : Option α) : Fuelled (deref r) := by
  cases r
  · exact Fuelled_typeError
  · exact Fuelled_ok _

theorem Fuelled_load {α : Type} (s : List α) (r : Option Nat) : Fuelled (load s r) := by
  simp only [load, Fuelled_bind_iff, Fuelled_deref, implies_true, and_self]

theorem Fuelled_store {α : Type} (s : List α) (i : Nat) (f : α → α) : Fuelled (store s i f) := by
  simp only [store, Fuelled_bind_iff, Fuelled_deref, Fuelled_pure, implies_true, and_self]

omit [Arith K] in
theorem Fuelled_setLeft (nodes : List (Parabola K)) (this : Nat) (p : Option Nat) :
    Fuelled (setLeft nodes this p) := by
  simp only [setLeft, Fuelled_bind_iff, Fuelled_deref, Fuelled_store, implies_true, and_self]

omit [Arith K] in
theorem Fuelled_setRight (nodes : List (Parabola K)) (this : Nat) (p : Option Nat) :
    Fuelled (setRight nodes this p) := by
  simp only [setRight, Fuelled_bind_iff, Fuelled_deref, Fuelled_store, implies_true, and_self]

theorem Fuelled_divide (fn : Fn) (a b : K) : Fuelled (divide fn a b) := by
  unfold divide
  split_ifs
  · exact Fuelled_ok _
  · intro h; cases h

theorem Fuelled_squareRoot (sqrt : K → K) (fn : Fn) (a : K) :
    Fuelled (squareRoot sqrt fn a) := by
  unfold squareRoot
  split_ifs
  · exact Fuelled_ok _
  · intro h; cases h

theorem Fuelled_Edge_new (s : Pt K) (a b : Site K) : Fuelled (Edge.new s a b) := by
  simp only [Edge.new, Fuelled_bind_iff, Fuelled_divide, Fuelled_pure, implies_true, and_self]

theorem Fuelled_getY (p : Pt K) (x y : K) : Fuelled (getY p x y) := by
  simp only [getY, Fuelled_bind_iff, Fuelled_divide, Fuelled_pure, implies_true, and_self]

theorem Fuelled_getXOfEdgeSites (sqrt : K → K) (p r : Pt K) (y : K) :
    Fuelled (getXOfEdgeSites sqrt p r y) := by
  simp only [getXOfEdgeSites, Fuelled_bind_iff, Fuelled_divide, Fuelled_squareRoot, Fuelled_ite,
    Fuelled_pure, implies_true, and_self]

theorem Fuelled_getEdgeIntersection (a b : Edge K) : Fuelled (getEdgeIntersection a b) := by
  simp only [getEdgeIntersection, Fuelled_bind_iff, Fuelled_deref, Fuelled_ite, Fuelled_pure,
    implies_true, and_self]

omit [Arith K] in
theorem Fuelled_dropCircleEvent (nodes : List (Parabola K)) (heap : FibonacciHeap K) (q : Nat) :
    Fuelled (dropCircleEvent nodes heap q) := by
  simp only [dropCircleEvent, Fuelled_bind_iff, Fuelled_load, true_and]
  intro n _
  cases n.circleEventHeapNode with
  | none => exact Fuelled_pure _
  | some h =>
    simp only [Fuelled_bind_iff, Fuelled_store, Fuelled_pure, implies_true, and_self]

omit [Arith K] in
theorem Fuelled_recordVertex (cells : List (Polygon K)) (a b c : Site K) (p : Vertex K) :
    Fuelled (recordVertex cells a b c p) := by
  simp only [recordVertex, Fuelled_bind_iff, Fuelled_load, Fuelled_store, Fuelled_ite,
    implies_true, and_self]

omit [Arith K] in
theorem Fuelled_excise (nodes : List (Parabola K)) (p1 : Nat) : Fuelled (excise nodes p1) := by
  simp only [excise, Fuelled_bind_iff, Fuelled_load, Fuelled_deref, Fuelled_ite, Fuelled_setLeft,
    Fuelled_setRight, implies_true, and_self]

omit [Arith K] in
theorem Fuelled_splitArc (nodes : List (Parabola K)) (par : Nat) (parSite p : Site K)
    (el er : Nat) : Fuelled (splitArc nodes par parSite p el er) := by
  simp only [splitArc, Fuelled_bind_iff, Fuelled_store, Fuelled_setLeft, Fuelled_setRight,
    Fuelled_pure, implies_true, and_self]

theorem Fuelled_insertDegenerate (p : Site K) (root : Nat) (o : Options K) :
    Fuelled (insertDegenerate p root o) := by
  simp only [insertDegenerate, Fuelled_bind_iff, Fuelled_store, Fuelled_setLeft,
    Fuelled_setRight, Fuelled_deref, Fuelled_ite, Fuelled_Edge_new, Fuelled_pure, implies_true,
    and_self]

theorem Fuelled_degenerateTest (rootN : Parabola K) (p : Site K) :
    Fuelled (degenerateTest rootN p) := by
  simp only [degenerateTest, Fuelled_bind_iff, Fuelled_deref, Fuelled_ite, Fuelled_pure,
    implies_true, and_self]

omit [Arith K] in
theorem Fuelled_linkNeighbours (l : List Nat) (eo : List (Edge K)) :
    Fuelled (linkNeighbours l eo) := by
  induction l generalizing eo with
  | nil => exact Fuelled_pure _
  | cons i rest ih =>
    simp only [linkNeighbours, Fuelled_bind_iff, Fuelled_load, true_and]
    intro e _
    cases e.neighbour with
    | none => exact ih _
    | some nb =>
      simp only [Fuelled_bind_iff, Fuelled_load, Fuelled_store, true_and]
      exact fun _ _ _ _ => ih _

omit [Arith K] in
theorem Fuelled_collectEdges (eo : List (Edge K)) (l : List Nat) :
    Fuelled (collectEdges eo l) := by
  induction l with
  | nil => exact Fuelled_pure _
  | cons i rest ih =>
    simp only [collectEdges, Fuelled_bind_iff, Fuelled_load, Fuelled_pure, ih, implies_true,
      and_self]

omit [Arith K] in
theorem subtree_length {nodes : List (Parabola K)} {par : Option Nat} {u : Tree}
    (hrep : Repr nodes par u) (hnd : u.ids.Nodup) : u.ids.length ≤ nodes.length + 1 :=
  Nat.le_succ_of_le (length_le_of_nodup_lt _ _ hnd (Repr_lt hrep))

theorem Fuelled_getXOfEdge (sqrt : K → K) {nodes : List (Parabola K)} {par : Option Nat}
    {i : Nat} {l r : Tree} (hrep : Repr nodes par (.node i l r))
    (hnd : (Tree.node i l r).ids.Nodup) (y : K) :
    Fuelled (getXOfEdge sqrt nodes (some i) y) := by
  obtain ⟨n, hn, -, -, hl, hr, h1, h2⟩ := hrep
  simp only [Tree.ids, List.nodup_cons, List.nodup_append] at hnd
  have e1 := getLeftChild_total hn hl h1 (subtree_length h1 hnd.2.1)
  have e2 := getRightChild_total hn hr h2 (subtree_length h2 hnd.2.2.1)
  simp only [getXOfEdge, e1, e2, Fuelled_bind_iff, Fuelled_ok, Fuelled_load, Fuelled_deref,
    Fuelled_getXOfEdgeSites, implies_true, and_self]

theorem Fuelled_getParabolaByX (sqrt : K → K) {nodes : List (Parabola K)} {par : Option Nat}
    {u : Tree} (hrep : Repr nodes par u) (hnd : u.ids.Nodup) (xx y : K) {fuel : Nat}
    (hf : u.ids.length ≤ fuel) : Fuelled (getParabolaByX sqrt nodes xx y fuel (some u.id)) := by
  induction u generalizing par fuel with
  | leaf i =>
    cases fuel with
    | zero => simp [Tree.ids] at hf
    | succ fuel =>
      obtain ⟨n, hn, hl, -⟩ := hrep
      simp only [getParabolaByX, Tree.id, load, deref, bind, Except.bind, hn, hl, if_true]
      exact Fuelled_pure _
  | node i l r ihl ihr =>
    cases fuel with
    | zero => simp [Tree.ids] at hf
    | succ fuel =>
      have hx := Fuelled_getXOfEdge sqrt hrep hnd y
      obtain ⟨n, hn, hl, -, hlf, hrt, h1, h2⟩ := hrep
      simp only [Tree.ids, List.nodup_cons, List.nodup_append, List.length_cons,
        List.length_append] at hnd hf
      simp only [getParabolaByX, Tree.id, load, deref, bind, Except.bind, hn, hl,
        Bool.false_eq_true, if_false]
      cases hx' : getXOfEdge sqrt nodes (some i) y with
      | error e =>
        intro he
        simp only [Except.error.injEq] at he
        subst he
        exact hx hx'
      | ok x =>
        simp only []
        split_ifs
        · rw [hlf]; exact ihl h1 hnd.2.1 (by omega)
        · rw [hrt]; exact ihr h2 hnd.2.2.1 (by omega)

theorem Fuelled_computeCircleEvents (sqrt : K → K) {nodes : List (Parabola K)} {t : Tree}
    (hrep : Repr nodes none t) (hnd : t.ids.Nodup) {b : Nat} (hb : b ∈ t.leaves)
    (edgeObjs : List (Edge K)) (y : K) (heap : FibonacciHeap K) :
    Fuelled (computeCircleEvents sqrt nodes edgeObjs b y heap) := by
  obtain ⟨fs, rfl⟩ := exists_plug_of_mem_leaves t hb
  by_cases hne : fs = []
  · subst hne
    obtain ⟨n, hn, -, hpar, -, -, -, -⟩ := Repr_leaf_plug hrep hnd
    have e : getLeftParent nodes b = .error .typeError := by
      simp only [getLeftParent, load, deref, bind, Except.bind, hn, hpar, ctxParent,
        getLeftParentLoop]
    simp only [computeCircleEvents, e, bind, Except.bind]
    exact Fuelled_typeError
  · obtain ⟨hL, hR⟩ := getLeftParent_total hrep hnd hne
    obtain ⟨hLc, hRc⟩ := neighbours_total hrep hnd
    simp only [computeCircleEvents, hL, hR, hLc, hRc, Fuelled_bind_iff, Fuelled_ok,
      Except.ok.injEq, forall_eq', true_and]
    cases prevLeafOf fs with
    | none => exact Fuelled_pure _
    | some a =>
      cases nextLeafOf fs with
      | none => exact Fuelled_pure _
      | some c =>
        simp only [Fuelled_bind_iff, Fuelled_load, Fuelled_ite, Fuelled_pure,
          Fuelled_getEdgeIntersection, true_and, implies_true]
        intro an _ cn _ _ ln _ rn _ le _ re _ s _
        cases s with
        | none => exact Fuelled_pure _
        | some s =>
          simp only [Fuelled_bind_iff, Fuelled_deref, Fuelled_squareRoot, Fuelled_ite,
            Fuelled_store, Fuelled_pure, true_and, implies_true]

omit [Arith K] in
theorem higherLoop_total {nodes : List (Parabola K)} {fs : List Frame} {h : Nat}
    (xl xr : Option Nat)
    (hc : ReprCtx nodes none fs h) (hn : ∃ n, nodes[h]? = some n ∧ n.parent = ctxParent none fs)
    (hnd : (ctxIds fs).Nodup) (hh : h ∉ ctxIds fs)
    {fuel : Nat} (hf : fs.length < fuel) (hi : Option Nat) :
    higherLoop nodes (some (rootOf fs h)) xl xr fuel (some h) hi
      = .ok (higherOf xl xr fs hi) := by
  induction fs generalizing h fuel hi with
  | nil =>
    cases fuel with
    | zero => simp at hf
    | succ fuel =>
      simp only [higherLoop, rootOf, if_true, pure, Except.pure, higherOf]
  | cons f fs ih =>
    cases fuel with
    | zero => simp at hf
    | succ fuel =>
      have hne : ¬ (some h = some (rootOf (f :: fs) h)) := by
        intro he
        exact rootOf_cons_ne hh (Option.some.inj he).symm
      obtain ⟨n, hn, hp⟩ := hn
      obtain ⟨⟨nf, hnf, -, hpf, -, -⟩, hrest⟩ := hc
      simp only [ctxIds, List.nodup_cons, List.mem_append, not_or, List.nodup_append,
        List.mem_cons] at hnd hh
      simp only [List.length_cons] at hf
      have hne' : ¬ (some h = some (rootOf fs f.id)) := hne
      simp only [higherLoop, rootOf, if_neg hne', load, deref, bind, Except.bind, hn, hp,
        ctxParent]
      rw [ih hrest ⟨nf, hnf, hpf⟩ hnd.2.2.1 hnd.1.2 (by omega)]
      simp only [higherOf]

omit [Arith K] in
theorem Repr_isLeaf {nodes : List (Parabola K)} {par : Option Nat} {u : Tree}
    (h : Repr nodes par u) :
    ∃ n, nodes[u.id]? = some n ∧ (n.isLeaf = true ↔ ∃ j, u = .leaf j) := by
  cases u with
  | leaf i => obtain ⟨n, hn, hl, -⟩ := h; exact ⟨n, hn, by simp [hl]⟩
  | node i l r => obtain ⟨n, hn, hl, -⟩ := h; exact ⟨n, hn, by simp [hl]⟩

theorem Fuelled_finishEdge {nodes : List (Parabola K)} (width : K) {par : Option Nat}
    {u : Tree} (hrep : Repr nodes par u) (hu : ∀ j, u ≠ .leaf j) {fuel : Nat}
    (hf : u.ids.length ≤ fuel) (eo : List (Edge K)) :
    Fuelled (finishEdge nodes width fuel eo (some u.id)) := by
  induction u generalizing par fuel eo with
  | leaf i => exact absurd rfl (hu i)
  | node i l r ihl ihr =>
    cases fuel with
    | zero => simp [Tree.ids] at hf
    | succ fuel =>
      obtain ⟨n, hn, -, -, hlf, hrt, h1, h2⟩ := hrep
      obtain ⟨ln, hln, hlleaf⟩ := Repr_isLeaf h1
      obtain ⟨rn, hrn, hrleaf⟩ := Repr_isLeaf h2
      simp only [Tree.ids, List.length_cons, List.length_append] at hf
      have e0 : load nodes (some i) = .ok n := by
        simp only [load, deref, bind, Except.bind, hn]
      have e1 : load nodes (some l.id) = .ok ln := by
        simp only [load, deref, bind, Except.bind, hln]
      have e2 : load nodes (some r.id) = .ok rn := by
        simp only [load, deref, bind, Except.bind, hrn]
      have hid : (Tree.node i l r).id = i := rfl
      rw [hid]
      simp only [finishEdge, e0, hlf, hrt, e1, e2, Fuelled_bind_iff, Fuelled_ok,
        Fuelled_deref, Fuelled_load, Fuelled_store, Except.ok.injEq, forall_eq', true_and]
      intro _ _ _ _ _ _ eo1 _
      refine ⟨?_, fun eo2 _ => ?_⟩
      · split_ifs with hl
        · exact Fuelled_pure _
        · exact ihl h1 (fun j hj => hl (hlleaf.mpr ⟨j, hj⟩)) (by omega) _
      · split_ifs with hr
        · exact Fuelled_pure _
        · exact ihr h2 (fun j hj => hr (hrleaf.mpr ⟨j, hj⟩)) (by omega) _

theorem Fuelled_insertGeneral (sqrt : K → K) (p : Site K) {o : Options K} {t : Tree}
    (hrep : Repr o.parabolas none t) (hnd : t.ids.Nodup) (hroot : o.root = some t.id) :
    Fuelled (insertGeneral sqrt p o) := by
  simp only [insertGeneral, hroot, Fuelled_bind_iff, Fuelled_dropCircleEvent, Fuelled_load,
    Fuelled_deref, Fuelled_getY, Fuelled_Edge_new, Fuelled_store, Fuelled_splitArc, Fuelled_pure,
    true_and, implies_true, and_true]
  refine ⟨Fuelled_getParabolaByX sqrt hrep hnd _ _ (subtree_length hrep hnd), ?_⟩
  intro par hpar r hd parN hparN parSite hsite y hy el hel er her eo heo sp hsp
  obtain ⟨nodes1, heap1⟩ := r
  obtain ⟨nodes2, p0, p2⟩ := sp
  have hmem := getParabolaByX_mem sqrt hrep _ _ hpar
  obtain ⟨fs, rfl⟩ := exists_plug_of_mem_leaves t hmem
  have hrep1 : Repr nodes1 none (plug fs (.leaf par)) :=
    Repr_congr (fun i _ => (dropCircleEvent_spec hd).2.1 i) hrep
  obtain ⟨hrep2, hnd2⟩ := splitArc_Repr hrep1 hnd hsp
  obtain ⟨hp0, hp2, -⟩ := splitArc_spec ((load_some _ _ _).mp hparN) hsp
  subst hp0 hp2
  refine ⟨Fuelled_computeCircleEvents sqrt hrep2 hnd2 ?_ _ _ _, fun r2 hc1 => ?_⟩
  · rw [leaves_plug]; simp [Tree.leaves]
  · obtain ⟨nodes3, heap3⟩ := r2
    have hrep3 := Repr_congr (fun i _ => (computeCircleEvents_same hc1).2.1 i) hrep2
    refine Fuelled_computeCircleEvents sqrt hrep3 hnd2 ?_ _ _ _
    rw [leaves_plug]; simp [Tree.leaves]

theorem Fuelled_insertParabola (sqrt : K → K) (p : Site K) {o : Options K} {ot : Option Tree}
    (hroot : o.root = ot.map Tree.id)
    (hrepr : ∀ t, ot = some t → Repr o.parabolas none t ∧ t.ids.Nodup) :
    Fuelled (insertParabola sqrt p o) := by
  unfold insertParabola
  cases hr : o.root with
  | none => exact Fuelled_pure _
  | some root =>
    simp only [Fuelled_bind_iff, Fuelled_load, Fuelled_degenerateTest, Fuelled_ite,
      Fuelled_insertDegenerate, true_and, implies_true]
    intro rootN _ dg _ _
    cases ot with
    | none =>
      rw [hr] at hroot
      cases hroot
    | some t =>
      obtain ⟨hrep, hnd⟩ := hrepr t rfl
      exact Fuelled_insertGeneral sqrt p hrep hnd hroot

theorem Fuelled_removeParabola (sqrt : K → K) (point : Pt K) {p1 : Nat} {o : Options K}
    {fs : List Frame} (hrep : Repr o.parabolas none (plug fs (.leaf p1)))
    (hnd : (plug fs (.leaf p1)).ids.Nodup) (hroot : o.root = some (plug fs (.leaf p1)).id) :
    Fuelled (removeParabola sqrt point p1 o) := by
  by_cases hne : fs = []
  · subst hne
    obtain ⟨n, hn, -, hpar, -, -, -, -⟩ := Repr_leaf_plug hrep hnd
    have e : getLeftParent o.parabolas p1 = .error .typeError := by
      simp only [getLeftParent, load, deref, bind, Except.bind, hn, hpar, ctxParent,
        getLeftParentLoop]
    simp only [removeParabola, e, bind, Except.bind]
    exact Fuelled_typeError
  obtain ⟨hL, hR⟩ := getLeftParent_total hrep hnd hne
  obtain ⟨hLc, hRc⟩ := neighbours_total hrep hnd
  simp only [removeParabola, hL, hR, hLc, hRc, Fuelled_bind_iff, Fuelled_ok, Except.ok.injEq,
    forall_eq', Fuelled_dropCircleEvent, Fuelled_load, Fuelled_deref, Fuelled_getY,
    Fuelled_Edge_new, Fuelled_store, Fuelled_recordVertex, Fuelled_excise, Fuelled_pure,
    true_and, implies_true, and_true]
  intro p0 hp0 r1 hd1 p2 hp2 r2 hd2 p1N _ p1Site _ y _ p0N _ p0Site _ p2N _ p2Site _ cells _
    xlN _ xlEdge _ eo1 _ xrN _ xrEdge _ eo2 _
  obtain ⟨nodes1, heap1⟩ := r1
  obtain ⟨nodes2, heap2⟩ := r2
  rw [deref_eq_ok] at hp0 hp2
  have hlinks2 : ∀ i, sameAt Parabola.links o.parabolas nodes2 i := fun i =>
    sameAt_trans ((dropCircleEvent_spec hd1).2.1 i) ((dropCircleEvent_spec hd2).2.1 i)
  have hrep2 : Repr nodes2 none (plug fs (.leaf p1)) := Repr_congr (fun i _ => hlinks2 i) hrep
  obtain ⟨n, hn, -, hpar, hctx, hcnd, hp1ctx, hlt⟩ := Repr_leaf_plug hrep2 hnd
  have hfuel : fs.length < nodes2.length + 1 :=
    Nat.lt_succ_of_le (le_trans (ctxIds_length fs) (length_le_of_nodup_lt _ _ hcnd hlt))
  have hhi := higherLoop_total (leftParentOf fs) (rightParentOf fs) hctx ⟨n, hn, hpar⟩ hcnd
    hp1ctx hfuel none
  have hroot' : o.root = some (rootOf fs p1) := by rw [hroot, plug_id]; rfl
  rw [hroot', hhi]
  refine ⟨Fuelled_ok _, ?_⟩
  simp only [Except.ok.injEq, forall_eq']
  intro e _ hi _ n1 hn1 n2 hn2
  have hlne : leftParentOf fs ≠ none := by
    intro he
    rw [prevLeafOf_eq, (leftParentOf_eq_none fs).mp he] at hp0
    cases hp0
  have hrne : rightParentOf fs ≠ none := by
    intro he
    rw [nextLeafOf_eq, (rightParentOf_eq_none fs).mp he] at hp2
    cases hp2
  obtain ⟨f1, f2, fs', rfl⟩ := two_frames hlne hrne
  have hrep3 : Repr n1 none (plug (f1 :: f2 :: fs') (.leaf p1)) :=
    Repr_congr (fun i _ => store_sameAt Parabola.links hn1 (fun _ => rfl) i) hrep2
  have hrep4 := excise_Repr hrep3 hnd hn2
  have hnd4 : (plug (f2 :: fs') f1.sibling).ids.Nodup := by
    have hN := nodup_plug2 hnd
    rw [(plug_ids_perm _ _).nodup_iff]
    simp only [ctxIds, List.nodup_cons, List.mem_cons, List.mem_append, not_or,
      List.nodup_append] at hN ⊢
    tauto
  have hleaves : (plug (f2 :: fs') f1.sibling).leaves
      = leavesBefore (f1 :: f2 :: fs') ++ leavesAfter (f1 :: f2 :: fs') := by
    rw [leaves_plug, leaves_excised]
  have hp0mem : p0 ∈ (plug (f2 :: fs') f1.sibling).leaves := by
    rw [hleaves]
    rw [prevLeafOf_eq] at hp0
    exact List.mem_append_left _ (List.mem_of_mem_getLast? hp0)
  have hp2mem : p2 ∈ (plug (f2 :: fs') f1.sibling).leaves := by
    rw [hleaves]
    rw [nextLeafOf_eq] at hp2
    exact List.mem_append_right _ (List.mem_of_mem_head? hp2)
  refine ⟨Fuelled_computeCircleEvents sqrt hrep4 hnd4 hp0mem _ _ _, fun r3 hc1 => ?_⟩
  obtain ⟨nodes3, heap3⟩ := r3
  have hrep5 := Repr_congr (fun i _ => (computeCircleEvents_same hc1).2.1 i) hrep4
  exact Fuelled_computeCircleEvents sqrt hrep5 hnd4 hp2mem _ _ _

/-- On a state of the loop of `compute`, the embedding of an iteration never runs out of
fuel: its outcome is the outcome of the JavaScript iteration. -/
theorem Fuelled_processEvent (sqrt : K → K) {n : HeapNode K} {o : Options K}
    {ot : Option Tree} (hinv : SweepInv o ot) (hn : n ∈ o.heap.nodes) :
    Fuelled (processEvent sqrt n o) := by
  unfold processEvent
  cases hv : n.value with
  | site p => exact Fuelled_insertParabola sqrt p hinv.root hinv.repr
  | circle point arch =>
    obtain ⟨harch, -, -⟩ := hinv.heap.2.2 n hn point arch hv
    cases ot with
    | none => cases harch
    | some t =>
      obtain ⟨hrep, hnd⟩ := hinv.repr t rfl
      have harch' : arch ∈ t.interior := harch
      obtain ⟨fs, rfl⟩ := exists_plug_of_mem_leaves t (mem_interior.mp harch').1
      exact Fuelled_removeParabola sqrt point hrep hnd hinv.root

/-- On a state of the loop of `compute` whose root is a breakpoint, the embedding of lines
42-51 never runs out of fuel. (At a root that is an arc, `n.edge` is undefined and line 188
raises a `TypeError`.) -/
theorem Fuelled_finalise (width : K) {o : Options K} {i : Nat} {l r : Tree}
    (hinv : SweepInv o (some (.node i l r))) : Fuelled (finalise width o) := by
  obtain ⟨hrep, hnd⟩ := hinv.repr _ rfl
  have hroot : o.root = some (Tree.node i l r).id := hinv.root
  simp only [finalise, hroot, Fuelled_bind_iff, Fuelled_linkNeighbours, Fuelled_collectEdges,
    Fuelled_pure, true_and, implies_true, and_true]
  exact Fuelled_finishEdge width hrep (fun j hj => by cases hj) (subtree_length hrep hnd) _

end FuelFacts

section JsTotal

variable {K : Type} [LinearOrderedField K]

/-- In JavaScript numbers every division has a value. -/
theorem divide_js (fn : Fn) (a b : Num K) : divide fn a b = .ok (a / b) := rfl

/-- In JavaScript numbers every square root has a value. -/
theorem squareRoot_js (sqrt : Num K → Num K) (fn : Fn) (a : Num K) :
    squareRoot sqrt fn a = .ok (sqrt a) := rfl

end JsTotal

end Voronoi

namespace Voronoi

/-! ## Claims on the whole sweep -/

section SweepClaims

variable {K : Type} [Arith K]

omit [Arith K] in
theorem interior_nav {nodes : List (Parabola K)} {t : Tree} {arch : Nat}
    (hrep : Repr nodes none t) (hnd : t.ids.Nodup) (harch : arch ∈ t.interior) :
    ∃ (fs' : List Frame) (f1 f2 : Frame) (xl xr p0 p2 : Nat),
      t = plug (f1 :: f2 :: fs') (.leaf arch) ∧
      getLeftParent nodes arch = .ok (some xl) ∧ getRightParent nodes arch = .ok (some xr) ∧
      getLeftChild nodes (some xl) = .ok (some p0) ∧
      getRightChild nodes (some xr) = .ok (some p2) ∧
      p0 ∈ t.leaves ∧ p2 ∈ t.leaves ∧
      (nodes[arch]?.bind (·.parent)) = some f1.id ∧
      (nodes[f1.id]?.bind (·.parent)) = some f2.id := by
  obtain ⟨fs, rfl⟩ := exists_plug_of_mem_leaves t (mem_interior.mp harch).1
  obtain ⟨hb, ha⟩ := (foot_interior hnd).mp harch
  have hl : leftParentOf fs ≠ none := fun he => hb ((leftParentOf_eq_none fs).mp he)
  have hr : rightParentOf fs ≠ none := fun he => ha ((rightParentOf_eq_none fs).mp he)
  obtain ⟨f1, f2, fs', rfl⟩ := two_frames hl hr
  obtain ⟨xl, hxl⟩ := Option.ne_none_iff_exists'.mp hl
  obtain ⟨xr, hxr⟩ := Option.ne_none_iff_exists'.mp hr
  obtain ⟨hL, hR⟩ := getLeftParent_total hrep hnd (List.cons_ne_nil _ _)
  obtain ⟨hLc, hRc⟩ := neighbours_total hrep hnd
  obtain ⟨p0, hp0⟩ : ∃ p0, prevLeafOf (f1 :: f2 :: fs') = some p0 := by
    rw [prevLeafOf_eq]
    exact Option.ne_none_iff_exists'.mp (fun he => hb (List.getLast?_eq_none_iff.mp he))
  obtain ⟨p2, hp2⟩ : ∃ p2, nextLeafOf (f1 :: f2 :: fs') = some p2 := by
    rw [nextLeafOf_eq]
    exact Option.ne_none_iff_exists'.mp (fun he => ha (List.head?_eq_none_iff.mp he))
  obtain ⟨n, hn, -, hpar, hctx, -, -, -⟩ := Repr_leaf_plug hrep hnd
  obtain ⟨⟨n1, hn1, -, hp1, -, -⟩, -⟩ := hctx
  have hleaves : (plug (f1 :: f2 :: fs') (.leaf arch)).leaves =
      leavesBefore (f1 :: f2 :: fs') ++ arch :: leavesAfter (f1 :: f2 :: fs') := by
    rw [leaves_plug]; simp [Tree.leaves]
  refine ⟨fs', f1, f2, xl, xr, p0, p2, rfl, by rw [hL, hxl], by rw [hR, hxr],
    by rw [← hxl, hLc, hp0], by rw [← hxr, hRc, hp2], ?_, ?_, ?_, ?_⟩
  · rw [prevLeafOf_eq] at hp0
    rw [hleaves]
    exact List.mem_append_left _ (List.mem_of_mem_getLast? hp0)
  · rw [nextLeafOf_eq] at hp2
    rw [hleaves]
    exact List.mem_append_right _ (List.mem_cons_of_mem _ (List.mem_of_mem_head? hp2))
  · rw [hn]; simpa [ctxParent] using hpar
  · rw [hn1]; simpa [ctxParent] using hp1

/-- C13: in every state of the loop of `compute`, whatever entry of the queue each
`extractMinimum()` has returned and whatever the arithmetic has produced (`Infinity` and
`NaN` included), the handles of the queue are distinct and the store holds a well-formed
beachline tree; every circle event of the queue refers to an arc of the tree that records
the handle of that event and has a parent, a grandparent and an arc on each side, so that
getLeftParent, getRightParent, getLeftChild and getRightChild return `xl`, `xr`, `p0`, `p2`;
two circle events of the queue never refer to the same arc; and every arc of the tree that
records a handle has a circle event of its own under that handle in the queue. In these
states the embedding of an iteration never runs out of fuel (`Fuelled_processEvent`): an
iteration returns in the embedding whenever it returns in JavaScript. -/
theorem sweep_circle_events (sqrt : K → K) (points : List (Pt K)) (height : K) (o : Options K)
    (h : Reachable sqrt points height o) :
    (o.heap.nodes.map (·.id)).Nodup ∧
    ∃ ot : Option Tree, o.root = ot.map Tree.id ∧
      (∀ t, ot = some t → Repr o.parabolas none t ∧ t.ids.Nodup) ∧
      (∀ n ∈ o.heap.nodes, ∀ (pt : Pt K) (arch : Nat), n.value = .circle pt arch →
        (o.parabolas[arch]?.bind (·.circleEventHeapNode)) = some n.id ∧
        ∃ (fs' : List Frame) (f1 f2 : Frame) (xl xr p0 p2 : Nat),
          ot = some (plug (f1 :: f2 :: fs') (.leaf arch)) ∧
          getLeftParent o.parabolas arch = .ok (some xl) ∧
          getRightParent o.parabolas arch = .ok (some xr) ∧
          getLeftChild o.parabolas (some xl) = .ok (some p0) ∧
          getRightChild o.parabolas (some xr) = .ok (some p2) ∧
          p0 ∈ (plug (f1 :: f2 :: fs') (.leaf arch)).leaves ∧
          p2 ∈ (plug (f1 :: f2 :: fs') (.leaf arch)).leaves ∧
          (o.parabolas[arch]?.bind (·.parent)) = some f1.id ∧
          (o.parabolas[f1.id]?.bind (·.parent)) = some f2.id) ∧
      (∀ n ∈ o.heap.nodes, ∀ m ∈ o.heap.nodes, ∀ (pt pt' : Pt K) (arch : Nat),
        n.value = .circle pt arch → m.value = .circle pt' arch → n = m) ∧
      (∀ t, ot = some t → ∀ l ∈ t.leaves, ∀ hd : Nat,
        (o.parabolas[l]?.bind (·.circleEventHeapNode)) = some hd →
        ∃ n ∈ o.heap.nodes, n.id = hd ∧ ∃ pt, n.value = .circle pt l) := by
  obtain ⟨ot, hinv⟩ := Reachable_inv h
  refine ⟨hinv.heap.1, ot, hinv.root, hinv.repr, ?_, ?_, ?_⟩
  · intro n hn pt arch hv
    obtain ⟨harch, -, nd, hnd', hh⟩ := hinv.heap.2.2 n hn pt arch hv
    cases ot with
    | none => cases harch
    | some t =>
      obtain ⟨hrep, hnd⟩ := hinv.repr t rfl
      have harch' : arch ∈ t.interior := harch
      obtain ⟨fs', f1, f2, xl, xr, p0, p2, rfl, h1, h2, h3, h4, h5, h6, h7, h8⟩ :=
        interior_nav hrep hnd harch'
      exact ⟨by rw [hnd']; exact hh, fs', f1, f2, xl, xr, p0, p2, rfl, h1, h2, h3, h4, h5, h6,
        h7, h8⟩
  · intro n hn m hm pt pt' arch hv hv'
    obtain ⟨-, -, nd, hnd', hh⟩ := hinv.heap.2.2 n hn pt arch hv
    obtain ⟨-, -, nd2, hnd2, hh2⟩ := hinv.heap.2.2 m hm pt' arch hv'
    rw [hnd'] at hnd2
    cases hnd2
    rw [hh] at hh2
    exact nodup_id_inj hinv.heap.1 hn hm (Option.some.inj hh2)
  · intro t ht l hl hd hh
    subst ht
    cases hq : o.parabolas[l]? with
    | none => rw [hq] at hh; cases hh
    | some nd =>
      rw [hq] at hh
      exact hinv.live l hl nd hd hq hh

/-- The sweep of the triangle `[(0, 0), (10, 0), (5, 10)]` after its three sites, in
JavaScript numbers: the third site was located with a `NaN` breakpoint, and the queue
holds the circle event of the arc `5`. -/
theorem sweep_circle_events_witness :
    sweepSteps jsSqrt jsFifo 3 (initialOptions triangle 20) = .ok triangleSites ∧
    Reachable jsSqrt triangle 20 triangleSites ∧
    (triangleSites.heap.nodes.map (·.id)).Nodup ∧
    ∃ ot : Option Tree, triangleSites.root = ot.map Tree.id ∧
      (∀ t, ot = some t → Repr triangleSites.parabolas none t ∧ t.ids.Nodup) ∧
      (∀ n ∈ triangleSites.heap.nodes, ∀ (pt : Pt (Num ℚ)) (arch : Nat),
        n.value = .circle pt arch →
        (triangleSites.parabolas[arch]?.bind (·.circleEventHeapNode)) = some n.id ∧
        ∃ (fs' : List Frame) (f1 f2 : Frame) (xl xr p0 p2 : Nat),
          ot = some (plug (f1 :: f2 :: fs') (.leaf arch)) ∧
          getLeftParent triangleSites.parabolas arch = .ok (some xl) ∧
          getRightParent triangleSites.parabolas arch = .ok (some xr) ∧
          getLeftChild triangleSites.parabolas (some xl) = .ok (some p0) ∧
          getRightChild triangleSites.parabolas (some xr) = .ok (some p2) ∧
          p0 ∈ (plug (f1 :: f2 :: fs') (.leaf arch)).leaves ∧
          p2 ∈ (plug (f1 :: f2 :: fs') (.leaf arch)).leaves ∧
          (triangleSites.parabolas[arch]?.bind (·.parent)) = some f1.id ∧
          (triangleSites.parabolas[f1.id]?.bind (·.parent)) = some f2.id) ∧
      (∀ n ∈ triangleSites.heap.nodes, ∀ m ∈ triangleSites.heap.nodes,
        ∀ (pt pt' : Pt (Num ℚ)) (arch : Nat),
        n.value = .circle pt arch → m.value = .circle pt' arch → n = m) ∧
      (∀ t, ot = some t → ∀ l ∈ t.leaves, ∀ hd : Nat,
        (triangleSites.parabolas[l]?.bind (·.circleEventHeapNode)) = some hd →
        ∃ n ∈ triangleSites.heap.nodes, n.id = hd ∧ ∃ pt, n.value = .circle pt l) :=
  have h : sweepSteps jsSqrt jsFifo 3 (initialOptions triangle 20) = .ok triangleSites := by
    decide!
  have hr : Reachable jsSqrt triangle 20 triangleSites := sweepSteps_reachable 3 h
  ⟨h, hr, sweep_circle_events jsSqrt triangle 20 triangleSites hr⟩

/-- C1: whenever lines 42-51 of `compute` return the record `{edges, cells}` from a state of
the loop (`compute` runs them on the state in which the queue has drained), whatever entry
of the queue each `extractMinimum()` has returned and whatever the arithmetic has produced
(`Infinity` and `NaN` included): the store holds a well-formed beachline tree; every listed
edge, and the neighbour of every listed edge, has its end set or is the current edge of a
breakpoint of that tree (whose end finishEdge sets); and every edge of the returned list has
a start and an end. The embedding of an iteration and, at a root that is a breakpoint, of
lines 42-51 never runs out of fuel (`Fuelled_processEvent`, `Fuelled_finalise`); every run
of `compute` is covered (`compute_reachable`). -/
theorem compute_edges_resolved (sqrt : K → K) (points : List (Pt K)) (width height : K)
    (o : Options K) (edges : List (Edge K)) (cells : List (Polygon K))
    (hr : Reachable sqrt points height o)
    (hf : finalise width o = .ok (.diagram edges cells)) :
    (∃ t : Tree, o.root = some t.id ∧ Repr o.parabolas none t ∧
      ∀ e ∈ o.edges, Covered o.parabolas o.edgeObjs t.inner e ∧
        ∀ (E : Edge K) (nb : Nat), o.edgeObjs[e]? = some E → E.neighbour = some nb →
          Covered o.parabolas o.edgeObjs t.inner nb) ∧
    ∀ e ∈ edges, e.start ≠ none ∧ e.endp ≠ none := by
  unfold finalise at hf
  simp only [bind_eq_ok, pure, Except.pure, Except.ok.injEq, Output.diagram.injEq] at hf
  obtain ⟨eo1, hfin, eo2, hlink, es, hcol, rfl, rfl⟩ := hf
  obtain ⟨ot, hinv⟩ := Reachable_inv hr
  cases ot with
  | none =>
    have hr0 : o.root = none := hinv.root
    rw [hr0] at hfin
    simp [finishEdge, load, deref, bind, Except.bind] at hfin
  | some t =>
    have hr : o.root = some t.id := hinv.root
    obtain ⟨hrep, hnd⟩ := hinv.repr t rfl
    have hcov : ∀ e ∈ o.edges, Covered o.parabolas o.edgeObjs t.inner e ∧
        ∀ (E : Edge K) (nb : Nat), o.edgeObjs[e]? = some E → E.neighbour = some nb →
          Covered o.parabolas o.edgeObjs t.inner nb := hinv.covered
    refine ⟨⟨t, hr, hrep, hcov⟩, fun E hE => ?_⟩
    rw [hr] at hfin
    have hown := finishEdge_covers hrep hfin
    have hgf := finishEdge_EndsGrow hfin
    have hres : ∀ c, Covered o.parabolas o.edgeObjs t.inner c →
        ∃ E1, eo1[c]? = some E1 ∧ E1.endp ≠ none := by
      intro c hc
      rcases hc with hc | ⟨i, n, hi, hn, hne⟩
      · exact resolved_mono hgf hc
      · obtain ⟨n', e', hn', he', hr'⟩ := hown i hi
        rw [hn] at hn'
        cases hn'
        rw [hne] at he'
        cases he'
        exact hr'
    obtain ⟨e, he, hEe⟩ := collectEdges_spec hcol E hE
    obtain ⟨E0, hE0⟩ : ∃ E0, o.edgeObjs[e]? = some E0 := by
      have hl : e < o.edgeObjs.length := hinv.listed e he
      exact ⟨o.edgeObjs[e], List.getElem?_eq_getElem hl⟩
    obtain ⟨E1, hE1, hs1, hn1, -⟩ := hgf.2 e E0 hE0
    obtain ⟨E1', hE1', hend1⟩ := hres e (hcov e he).1
    rw [hE1] at hE1'
    cases hE1'
    obtain ⟨E2, hE2, hend2, -, hstart2⟩ := linkNeighbours_spec hlink e E1 hE1
    rw [hEe] at hE2
    cases hE2
    refine ⟨?_, by rw [hend2]; exact hend1⟩
    rcases hstart2 with hst | ⟨nb, En, hnb, hEn, hst⟩
    · rw [hst, hs1]
      exact hinv.starts E0 (List.mem_iff_getElem?.mpr ⟨e, hE0⟩)
    · obtain ⟨En', hEn', hendn⟩ := hres nb ((hcov e he).2 E0 nb hE0 (hn1.symm.trans hnb))
      rw [hEn] at hEn'
      cases hEn'
      rw [hst]
      exact hendn

/-- The diagram of the triangle `[(0, 0), (10, 0), (5, 10)]` in a box of side `20`, in
JavaScript numbers: `compute` returns three edges, one of them of slope `Infinity`. -/
theorem compute_edges_resolved_witness :
    compute jsSqrt jsFifo triangle 20 20 = .ok (.diagram triangleEdges triangleCells) ∧
    triangleEdges.length = 3 ∧
    Reachable jsSqrt triangle 20 triangleDrained ∧ triangleDrained.heap.nodes = [] ∧
    finalise 20 triangleDrained = .ok (.diagram triangleEdges triangleCells) ∧
    (∃ t : Tree, triangleDrained.root = some t.id ∧ Repr triangleDrained.parabolas none t ∧
      ∀ e ∈ triangleDrained.edges,
        Covered triangleDrained.parabolas triangleDrained.edgeObjs t.inner e ∧
        ∀ (E : Edge (Num ℚ)) (nb : Nat), triangleDrained.edgeObjs[e]? = some E →
          E.neighbour = some nb →
          Covered triangleDrained.parabolas triangleDrained.edgeObjs t.inner nb) ∧
    ∀ e ∈ triangleEdges, e.start ≠ none ∧ e.endp ≠ none :=
  have hs : sweepSteps jsSqrt jsFifo 4 (initialOptions triangle 20) = .ok triangleDrained := by
    decide!
  have hr : Reachable jsSqrt triangle 20 triangleDrained := sweepSteps_reachable 4 hs
  have hf : finalise 20 triangleDrained = .ok (.diagram triangleEdges triangleCells) := by
    decide!
  ⟨by decide!, by decide!, hr, by decide!, hf,
    compute_edges_resolved jsSqrt triangle 20 20 triangleDrained _ _ hr hf⟩

end SweepClaims

end Voronoi

namespace Voronoi

/-! ## Sites of the same height -/

section LevelRuns

/-- C14 (fails): the sweep of the three sites `[(0, 10), (10, 10), (20, 10)]` of the same
height, in JavaScript numbers. At the third site the sweep height `10` is the height of
the arcs: getY divides by `dp = 0` and the new edges start at `(20, NaN)`. The
intersection computed by computeCircleEvents for the arc `3` is `(NaN, NaN)`, the test
`s[1] - d >= sweeplineY` of line 290 is false, and the circle event `(NaN, NaN)` is queued
under the key `NaN`, although its height is not below the sweep height. It is the fourth
event: the sweep height becomes `NaN`, and `NaN <= 10` is false. The run goes on and
`compute` returns a record. -/
theorem sweep_height_nan :
    getY ((10, 10) : Pt (Num ℚ)) 20 10 = .ok .nan ∧
    sweepSteps jsSqrt jsFifo 3 (initialOptions levelSites 20) = .ok levelScheduled ∧
    levelScheduled.sweeplineY = 10 ∧
    levelScheduled.heap.nodes = [{ key := .nan, id := 3, value := .circle (.nan, .nan) 3 }] ∧
    Num.lt .nan levelScheduled.sweeplineY = false ∧
    Num.le .nan levelScheduled.sweeplineY = false ∧
    sweepStep jsSqrt jsFifo levelScheduled = .ok levelFired ∧
    levelFired.sweeplineY = .nan ∧
    Num.le levelFired.sweeplineY levelScheduled.sweeplineY = false ∧
    (compute jsSqrt jsFifo levelSites 20 20).toBool = true := by
  refine ⟨by decide!, by decide!, by decide!, by decide!, by decide!, by decide!, by decide!,
    by decide!, by decide!, by decide!⟩

/-- Two sites of the same height, `[(0, 10), (10, 10)]`, in JavaScript numbers: `compute`
returns one edge, the vertical bisector, of slope `f = Infinity`. -/
theorem compute_level_pair :
    (compute jsSqrt jsFifo [(0, 10), (10, 10)] 20 20).map
      (fun out => match out with
        | .diagram edges _ => edges.map (fun e => (e.f, e.left.pt, e.right.pt))
        | .emptyList => [])
      = .ok [(.posInf, (0, 10), (10, 10))] := by
  decide!

end LevelRuns

end Voronoi
